import Mathlib

/-!
# Word expansion of yash (`expand.c`): a shallow embedding

Wide strings (`wchar_t *`) are lists of characters: the list holds the characters before
the terminating null, so reading `*s` at the end of the list reads the terminator.
Splittability strings (`char *`, one byte per wide character) are lists of naturals.
-/

namespace Yash

/-- A wide string without its terminating null character. -/
abbrev WStr := List Char

/-- The backslash `L'\\'`. -/
def BSL : Char := Char.ofNat 92
/-- The opening brace. -/
def LBRACE : Char := Char.ofNat 123
/-- The closing brace. -/
def RBRACE : Char := Char.ofNat 125
/-- The comma. -/
def COMMA : Char := Char.ofNat 44
/-- The single quote. -/
def SQUOTE : Char := Char.ofNat 39
/-- The double quote. -/
def DQUOTE : Char := Char.ofNat 34

/-- The macro `ESCAPED_CHARS`, `L"\\{,}"`: characters that have special meanings in brace
expansion and glob. -/
def ESCAPED_CHARS : WStr := [BSL, LBRACE, COMMA, RBRACE]

/-- The function `escape(s, t)`: backslashes the characters of `s` that are contained in `t`;
`t = none` is the null pointer, in which case all the characters are backslashed. -/
def escape : WStr → Option WStr → WStr
  | [], _ => []
  | c :: s, t =>
    match t with
    | none => BSL :: c :: escape s t
    | some t1 => if c ∈ t1 then BSL :: c :: escape s t else c :: escape s t

/-- The function `unescape(s)`: removes backslash escapes; a backslash that is the last
character is dropped. -/
def unescape : WStr → WStr
  | [] => []
  | c :: s =>
    if c = BSL then
      match s with
      | [] => []
      | d :: s1 => d :: unescape s1
    else c :: unescape s

/-- The libc function `iswspace` in the POSIX locale: space, tab, newline, vertical tab,
form feed and carriage return. -/
def iswspace (c : Char) : Bool :=
  c = Char.ofNat 32 || c = Char.ofNat 9 || c = Char.ofNat 10 || c = Char.ofNat 11 ||
    c = Char.ofNat 12 || c = Char.ofNat 13

/-- The function `escapefree(s, t)`: same as `escape`, except that `s` is returned itself
when `t` is not null and no character of `s` is contained in `t` (`wcspbrk`). -/
def escapefree (s : WStr) (t : Option WStr) : WStr :=
  match t with
  | some t1 => if s.all (fun c => !(t1.contains c)) then s else escape s t
  | none => escape s t

/-- The function `unescapefree(s)`: same as `unescape`, except that `s` is returned itself
when it contains no backslash (`wcschr`). -/
def unescapefree (s : WStr) : WStr :=
  if !(s.contains BSL) then s else unescape s

/-- The function `escaped_wcspbrk(s, accept)`: like `wcspbrk`, but ignores backslashed
characters in `s`. The result is the offset from `s` of the character found, `none` for the
null pointer. -/
def escaped_wcspbrk : WStr → WStr → Option Nat
  | [], _ => none
  | [c], accept => if c = BSL then none else if c ∈ accept then some 0 else none
  | c :: d :: s, accept =>
    if c = BSL then (escaped_wcspbrk s accept).map (fun k => k + 2)
    else if c ∈ accept then some 0
    else (escaped_wcspbrk (d :: s) accept).map (fun k => k + 1)

/-- The call `xwcsndup(s + start, n)`: a copy of at most `n` characters from offset `start`. -/
def xwcsndup (s : WStr) (start n : Nat) : WStr := (s.drop start).take n

/-- The `do ... while` loop of `fieldsplit`, entered with `s[index]` a separator. The result
is the index at which the loop is left and the destination list; when the loop is left by
`break` the index is the length of `s`. The first argument bounds the number of iterations;
every iteration increments `index`. -/
def fieldsplit_run (s : WStr) (split : List Nat) (ifs : WStr) (startindex : Nat) :
    Nat → Nat → Bool → Bool → List WStr → Nat × List WStr
  | 0, index, _, _, dest => (index, dest)
  | fuel + 1, index, splitonnonspace, nonspace, dest =>
    match s[index]? with
    | none => (index, dest)
    | some c =>
      let dest1 := if !iswspace c && splitonnonspace then dest ++ [[]] else dest
      let splitonnonspace1 := if !iswspace c then true else splitonnonspace
      let nonspace1 := if !iswspace c then true else nonspace
      match s[index + 1]? with
      | none =>
        (index + 1, if nonspace1 && decide (startindex < index + 1) then dest1 ++ [[]] else dest1)
      | some d =>
        if split.getD (index + 1) 0 ≠ 0 ∧ d ∈ ifs then
          fieldsplit_run s split ifs startindex fuel (index + 1) splitonnonspace1 nonspace1 dest1
        else (index + 1, dest1)

/-- The outer `while (s[index])` loop of `fieldsplit`; the result is the final
`(index, startindex, dest)`. The first argument bounds the number of iterations; every
iteration increments `index`. -/
def fieldsplit_loop (s : WStr) (split : List Nat) (ifs : WStr) :
    Nat → Nat → Nat → List WStr → Nat × Nat × List WStr
  | 0, index, startindex, dest => (index, startindex, dest)
  | fuel + 1, index, startindex, dest =>
    match s[index]? with
    | none => (index, startindex, dest)
    | some c =>
      if c = BSL then
        match s[index + 1]? with
        | none => (index + 1, startindex, dest)
        | some _ => fieldsplit_loop s split ifs fuel (index + 2) startindex dest
      else if split.getD index 0 ≠ 0 ∧ c ∈ ifs then
        let dest1 :=
          if startindex < index then dest ++ [xwcsndup s startindex (index - startindex)]
          else dest
        let r := fieldsplit_run s split ifs startindex s.length index
          (!decide (startindex < index)) false dest1
        fieldsplit_loop s split ifs fuel r.1 r.1 r.2
      else fieldsplit_loop s split ifs fuel (index + 1) startindex dest

/-- The end of `fieldsplit`, after the loop, from the final `(index, startindex, dest)`: when
nothing was added to `dest` the original string is added, and the result is `none` when
`assert(startindex == 0)` fails; otherwise the last field is added when it is not empty. -/
def fieldsplit_end (s : WStr) (dest : List WStr) (r : Nat × Nat × List WStr) :
    Option (List WStr) :=
  if dest.length = r.2.2.length then
    if r.2.1 = 0 then some (r.2.2 ++ [s]) else none
  else if r.2.1 < r.1 then some (r.2.2 ++ [xwcsndup s r.2.1 (r.1 - r.2.1)])
  else some r.2.2

/-- The function `fieldsplit(s, split, ifs, dest)`: the word `s` is split at non-backslashed
characters that are contained in `ifs` and whose byte in the splittability string `split` is
non-zero; the fields are added to `dest`. The result is `none` when
`assert(startindex == 0)` fails. -/
def fieldsplit (s : WStr) (split : List Nat) (ifs : WStr) (dest : List WStr) :
    Option (List WStr) :=
  fieldsplit_end s dest (fieldsplit_loop s split ifs (s.length + 1) 0 0 dest)

/-- The largest value of type `long` (64 bits). -/
def LONG_MAX : Int := 9223372036854775807

/-- The smallest value of type `long` (64 bits). -/
def LONG_MIN : Int := -9223372036854775808

/-- The value of a character as a digit of `wcstol`: decimal digits and letters of either
case; `none` for any other character. -/
def wdigit (c : Char) : Option Nat :=
  if 48 ≤ c.toNat ∧ c.toNat ≤ 57 then some (c.toNat - 48)
  else if 97 ≤ c.toNat ∧ c.toNat ≤ 122 then some (c.toNat - 87)
  else if 65 ≤ c.toNat ∧ c.toNat ≤ 90 then some (c.toNat - 55)
  else none

/-- The digit loop of `wcstol`: reads the digits of `base` at the head of the string, and
gives the accumulated magnitude and the number of characters read. -/
def wcstol_digits (base : Nat) : WStr → Nat → Nat → Nat × Nat
  | [], acc, n => (acc, n)
  | c :: s, acc, n =>
    match wdigit c with
    | none => (acc, n)
    | some d => if d < base then wcstol_digits base s (acc * base + d) (n + 1) else (acc, n)

/-- The number of leading characters for which `iswspace` holds. -/
def skip_wspace : WStr → Nat
  | [] => 0
  | c :: s => if iswspace c then skip_wspace s + 1 else 0

/-- The length of the optional sign read by `wcstol`. -/
def wcstol_sign (s0 : WStr) : Nat :=
  if s0.head? = some (Char.ofNat 43) ∨ s0.head? = some (Char.ofNat 45) then 1 else 0

/-- Whether `wcstol` with base 0 reads a hexadecimal number: a prefix `0x` or `0X` followed
by a hexadecimal digit. -/
def wcstol_hex (s1 : WStr) : Bool :=
  decide (s1.head? = some (Char.ofNat 48)) &&
    (decide ((s1.drop 1).head? = some (Char.ofNat 120)) ||
      decide ((s1.drop 1).head? = some (Char.ofNat 88))) &&
    (match (s1.drop 2).head? with
     | none => false
     | some c => match wdigit c with
       | none => false
       | some d => decide (d < 16))

/-- The result of `wcstol` from the sign, the number `n` of characters read before the
digits and the result `r` of the digit loop: without a digit nothing is read; a value outside
the range of `long` is clamped and `errno` is set. -/
def wcstol_finish (neg : Bool) (n : Nat) (r : Nat × Nat) : Int × Nat × Bool :=
  if r.2 = 0 then (0, 0, false)
  else
    let v : Int := if neg then -(r.1 : Int) else (r.1 : Int)
    if v > LONG_MAX then (LONG_MAX, n + r.2, true)
    else if v < LONG_MIN then (LONG_MIN, n + r.2, true)
    else (v, n + r.2, false)

/-- The libc function `wcstol(s, &end, 0)`: the result is the value, the offset of `end` from
`s`, and whether `errno` is set (`ERANGE`). Leading white space is skipped, an optional sign
is read, then a prefix `0x` or `0X` followed by a hexadecimal digit selects base 16, a leading
`0` base 8, anything else base 10. When no digit is read the offset is 0. -/
def wcstol (s : WStr) : Int × Nat × Bool :=
  let n0 := skip_wspace s
  let s0 := s.drop n0
  let neg : Bool := decide (s0.head? = some (Char.ofNat 45))
  let n1 := wcstol_sign s0
  let s1 := s0.drop n1
  let base := if wcstol_hex s1 then 16 else if s1.head? = some (Char.ofNat 48) then 8 else 10
  let n2 := if wcstol_hex s1 then 2 else 0
  wcstol_finish neg (n0 + n1 + n2) (wcstol_digits base (s1.drop n2) 0 0)

/-- The function `has_leading_zero(s, &sign)`: checks if the numeral starts with a `0`,
ignoring leading spaces and a sign. The second component is the new value of `*sign`, which
is set when the numeral has a plus sign and left as it is otherwise. -/
def has_leading_zero (s : WStr) (sign : Bool) : Bool × Bool :=
  let s0 := s.drop (skip_wspace s)
  if s0.head? = some (Char.ofNat 43) then
    (decide ((s0.drop 1).head? = some (Char.ofNat 48)), true)
  else if s0.head? = some (Char.ofNat 45) then
    (decide ((s0.drop 1).head? = some (Char.ofNat 48)), sign)
  else (decide (s0.head? = some (Char.ofNat 48)), sign)

/-- The output of `wb_wprintf` with the format `%0+*ld` (when `sign`) or `%0*ld`: the value
in decimal, preceded by its sign, zero-padded after the sign to the field width `len`. -/
def wprintf_ld (sign : Bool) (len : Nat) (value : Int) : WStr :=
  let digits := Nat.toDigits 10 value.natAbs
  let sg : WStr :=
    if value < 0 then [Char.ofNat 45] else if sign then [Char.ofNat 43] else []
  sg ++ List.replicate (len - (sg.length + digits.length)) (Char.ofNat 48) ++ digits

/-- The libc function `wcschr(s, c)` for a non-null `c`: the offset of the first occurrence
of `c` in `s`, `none` for the null pointer. -/
def wcschr : WStr → Char → Option Nat
  | [], _ => none
  | a :: s, c => if a = c then some 0 else (wcschr s c).map (fun k => k + 1)

/-- The full stop. -/
def DOT : Char := Char.ofNat 46

/-- The `for (;;)` loop of `tryexpand_brace_sequence`: for each value from `start` to `e`
the brace span is replaced by the printed value and the result is expanded recursively with
`rec` (`expand_brace`). `startc` and `braceexpect` are offsets in `word`. The first argument
bounds the number of iterations. The result is `none` when an assertion fails or `rec`
gives `none`. -/
def brace_sequence_loop
    (rec : WStr → List Nat → List WStr → List (List Nat) → Option (List WStr × List (List Nat)))
    (word : WStr) (split : List Nat) (startc braceexpect : Nat) (sign : Bool) (len : Nat)
    (start e : Int) :
    Nat → Int → List WStr → List (List Nat) → Option (List WStr × List (List Nat))
  | 0, _, _, _ => none
  | k + 1, value, valuelist, splitlist =>
    let printed := wprintf_ld sign len value
    let buf := word.take (startc - 1) ++ printed ++ word.drop (braceexpect + 1)
    let sbuf := split.take (startc - 1) ++ List.replicate printed.length 0 ++
      (split.drop (braceexpect + 1)).take (word.length - (braceexpect + 1))
    if buf.length ≠ sbuf.length then none
    else
      match rec buf sbuf valuelist splitlist with
      | none => none
      | some r =>
        if value = e then some r
        else brace_sequence_loop rec word split startc braceexpect sign len start e k
          (if start < e then value + 1 else value - 1) r.1 r.2

/-- The function `tryexpand_brace_sequence(word, split, startc, valuelist, splitlist)`:
tries numeric brace expansion like `{01..05}`; `startc` is the offset in `word` of the
character right after the opening brace. The result is `some none` when the function returns
false, `some (some r)` when it returns true with the lists `r`, and `none` when an assertion
fails or `rec` gives `none`. -/
def tryexpand_brace_sequence
    (rec : WStr → List Nat → List WStr → List (List Nat) → Option (List WStr × List (List Nat)))
    (word : WStr) (split : List Nat) (startc : Nat)
    (valuelist : List WStr) (splitlist : List (List Nat)) :
    Option (Option (List WStr × List (List Nat))) :=
  if word[startc - 1]? ≠ some LBRACE then none
  else
    match wcschr (word.drop startc) DOT with
    | none => some none
    | some dotoff =>
      if dotoff = 0 then some none
      else
        let z1 := has_leading_zero (word.drop startc) false
        let startlen := if z1.1 then dotoff else 0
        let r1 := wcstol (word.drop startc)
        if r1.2.2 ∨ r1.2.1 ≠ dotoff ∨ word[startc + dotoff + 1]? ≠ some DOT then
          some none
        else
          let c := startc + dotoff + 2
          match wcschr (word.drop c) RBRACE with
          | none => some none
          | some braceoff =>
            if braceoff = 0 then some none
            else
              let z2 := has_leading_zero (word.drop c) z1.2
              let endlen := if z2.1 then braceoff else 0
              let r2 := wcstol (word.drop c)
              if r2.2.2 ∨ r2.2.1 ≠ braceoff then some none
              else
                let len := if startlen > endlen then startlen else endlen
                (brace_sequence_loop rec word split startc (c + braceoff) z2.2 len r1.1 r2.1
                  ((r2.1 - r1.1).natAbs + 1) r1.1 valuelist splitlist).map some

/-- The loop `while ((c = escaped_wcspbrk(c, L"{,}")))` of `expand_brace`, which adds the
start of each element to `elemlist`; `c` and the elements are offsets in `word`. The result
is `none` when the loop is left to `restart` (no comma or closing brace corresponds to the
opening brace) and the element list when it is left to `done`. The first argument bounds
the number of iterations; every iteration increments `c`. -/
def brace_scan (word : WStr) : Nat → Nat → Nat → List Nat → Option (List Nat)
  | 0, _, _, _ => none
  | fuel + 1, c, nest, elemlist =>
    match escaped_wcspbrk (word.drop c) [LBRACE, COMMA, RBRACE] with
    | none => none
    | some off =>
      let c1 := c + off
      if word[c1]? = some LBRACE then brace_scan word fuel (c1 + 1) (nest + 1) elemlist
      else if word[c1]? = some COMMA then
        brace_scan word fuel (c1 + 1) nest (if nest = 0 then elemlist ++ [c1 + 1] else elemlist)
      else if nest > 0 then brace_scan word fuel (c1 + 1) (nest - 1) elemlist
      else if elemlist.length = 1 then none
      else some (elemlist ++ [c1 + 1])

/-- The loop `for (i = 0; i < lastelemindex; i++)` of `expand_brace`: for each element the
concatenation of the head, the element and the tail is expanded recursively with `rec`
(`expand_brace`). The first argument is the number of iterations left. The result is `none`
when `assert(buf.length == sbuf.length)` fails or `rec` gives `none`. -/
def brace_elems_loop
    (rec : WStr → List Nat → List WStr → List (List Nat) → Option (List WStr × List (List Nat)))
    (word : WStr) (split : List Nat) (elemlist : List Nat) :
    Nat → Nat → List WStr → List (List Nat) → Option (List WStr × List (List Nat))
  | 0, _, valuelist, splitlist => some (valuelist, splitlist)
  | k + 1, i, valuelist, splitlist =>
    let lastelemindex := elemlist.length - 1
    let headlength := elemlist.getD 0 0 - 1
    let last := elemlist.getD lastelemindex 0
    let lastlen := word.length - last
    let elemlen := elemlist.getD (i + 1) 0 - elemlist.getD i 0 - 1
    let buf := word.take headlength ++ (word.drop (elemlist.getD i 0)).take elemlen ++
      (word.drop last).take lastlen
    let sbuf := split.take headlength ++ (split.drop (elemlist.getD i 0)).take elemlen ++
      (split.drop last).take lastlen
    if buf.length ≠ sbuf.length then none
    else
      match rec buf sbuf valuelist splitlist with
      | none => none
      | some r => brace_elems_loop rec word split elemlist k (i + 1) r.1 r.2

/-- The function `expand_brace(word, split, valuelist, splitlist)` from the label `start`,
with the scan for the next opening brace resuming at offset `c` of `word`. The first argument
bounds the depth of the recursion and the number of jumps to `start`; the result is `none`
when it is exhausted or an assertion fails. -/
def expand_brace_from :
    Nat → WStr → List Nat → Nat → List WStr → List (List Nat) →
      Option (List WStr × List (List Nat))
  | 0, _, _, _, _, _ => none
  | fuel + 1, word, split, c, valuelist, splitlist =>
    match escaped_wcspbrk (word.drop c) [LBRACE] with
    | none => some (valuelist ++ [word], splitlist ++ [split])
    | some off =>
      let c1 := c + off + 1
      match word[c1]? with
      | none => some (valuelist ++ [word], splitlist ++ [split])
      | some _ =>
        match tryexpand_brace_sequence (fun w s v l => expand_brace_from fuel w s 0 v l)
            word split c1 valuelist splitlist with
        | none => none
        | some (some r) => some r
        | some none =>
          match brace_scan word (word.length + 1) c1 0 [c1] with
          | none => expand_brace_from fuel word split c1 valuelist splitlist
          | some elemlist =>
            brace_elems_loop (fun w s v l => expand_brace_from fuel w s 0 v l)
              word split elemlist (elemlist.length - 1) 0 valuelist splitlist

/-- The function `expand_brace(word, split, valuelist, splitlist)`: brace expansion in a
single word; the results are added to `valuelist` and `splitlist`. -/
def expand_brace (fuel : Nat) (word : WStr) (split : List Nat)
    (valuelist : List WStr) (splitlist : List (List Nat)) :
    Option (List WStr × List (List Nat)) :=
  expand_brace_from fuel word split 0 valuelist splitlist

/-- The loop of `expand_brace_each(values, splits, valuelist, splitlist)`: brace expansion in
each element of the arrays; the loop ends at the first null element of `values`. -/
def expand_brace_each (fuel : Nat) :
    List WStr → List (List Nat) → List WStr → List (List Nat) →
      Option (List WStr × List (List Nat))
  | [], _, valuelist, splitlist => some (valuelist, splitlist)
  | _ :: _, [], _, _ => none
  | v :: values, s :: splits, valuelist, splitlist =>
    match expand_brace fuel v s valuelist splitlist with
    | none => none
    | some r => expand_brace_each fuel values splits r.1 r.2

/-- The function `reescape(s)`: backslashes all the characters of the string; characters
that are already backslashed are not backslashed again. -/
def reescape : WStr → WStr
  | [] => []
  | [c] => if c = BSL then [BSL] else [BSL, c]
  | c :: d :: s =>
    if c = BSL then BSL :: d :: reescape s else BSL :: c :: reescape (d :: s)

/-- The function `reescape_full_array(wcsarray)`: applies `reescape` to each element. -/
def reescape_full_array (wcsarray : List WStr) : List WStr := wcsarray.map reescape

/-- The loop of `add_sq(ss, buf, escape)` after `(*ss)++`: the result is the text added to
the buffer and the new value of `*ss`, which points to the closing quote. The result is
`none` when the end of the string is reached (`assert(false)`). -/
def add_sq_loop : WStr → Bool → Option (WStr × WStr)
  | [], _ => none
  | c :: s, esc =>
    if c = SQUOTE then some ([], c :: s)
    else
      match add_sq_loop s esc with
      | none => none
      | some r => some ((if esc then [BSL, c] else [c]) ++ r.1, r.2)

/-- The function `add_sq(ss, buf, escape)`: `ss` points to the opening quote. -/
def add_sq (ss : WStr) (esc : Bool) : Option (WStr × WStr) := add_sq_loop (ss.drop 1) esc

/-- The macro `ESCAPABLE_CHARS`: characters that can be escaped with a backslash inside
doublequotes: dollar, backquote, doublequote and backslash. -/
def ESCAPABLE_CHARS : WStr := [Char.ofNat 36, Char.ofNat 96, DQUOTE, BSL]

/-- The call `wcschr(t, c)` as a truth value, where `c = none` is the terminating null
character, which `wcschr` finds at the end of `t`. -/
def wcschr_found (t : WStr) (c : Option Char) : Bool :=
  match c with
  | none => true
  | some c1 => t.contains c1

/-- The type `tildetype_T`: the type of tilde expansion that occurs. -/
inductive tildetype_T
  | tt_none
  | tt_single
  | tt_multi
deriving DecidableEq, Repr

/-- The value of `pe_type & PT_MASK`. -/
inductive paramop_T
  | PT_NONE
  | PT_MINUS
  | PT_PLUS
  | PT_ASSIGN
  | PT_ERROR
  | PT_MATCH
  | PT_SUBST
deriving DecidableEq, Repr

/-- The type `paramexptype_T`: the operator `pe_type & PT_MASK` and the flag bits. -/
structure paramexptype_T where
  mask : paramop_T
  PT_COLON : Bool
  PT_NEST : Bool
  PT_NUMBER : Bool
  PT_MATCHHEAD : Bool
  PT_MATCHTAIL : Bool
  PT_MATCHLONGEST : Bool
  PT_SUBSTALL : Bool
deriving DecidableEq, Repr

/-- Modelled from the spec: the command tree of a command substitution, which is only
handed to the command-substitution runner. -/
abbrev embedcmd_T := WStr

mutual
/-- The type `wordunit_T`: a word is a linked sequence of word units, ended by the null
pointer. -/
inductive wordunit_T
  | NULL
  | WT_STRING (wu_string : WStr) (next : wordunit_T)
  | WT_PARAM (wu_param : paramexp_T) (next : wordunit_T)
  | WT_CMDSUB (wu_cmdsub : embedcmd_T) (next : wordunit_T)
  | WT_ARITH (wu_arith : WStr) (next : wordunit_T)
/-- The type `paramexp_T`: a parameter expansion; `pe_name` is used unless `PT_NEST` is set
in `pe_type`, in which case `pe_nest` is used. -/
inductive paramexp_T
  | mk (pe_type : paramexptype_T) (pe_name : String)
      (pe_nest : wordunit_T) (pe_match : wordunit_T) (pe_subst : wordunit_T)
end

/-- Whether a word pointer is not null. -/
def wordunit_T.nonnull : wordunit_T → Bool
  | .NULL => false
  | _ => true

/-- The type `enum wfnmtype`. -/
inductive wfnmtype
  | WFNM_WHOLE
  | WFNM_LONGEST
  | WFNM_SHORTEST
deriving DecidableEq, Repr

/-- The largest value of `size_t` plus one (64 bits). -/
def SIZE_MOD : Nat := 18446744073709551616

/-- The macro `WFNM_NOMATCH`, `(size_t) -1`. -/
def WFNM_NOMATCH : Nat := SIZE_MOD - 1

/-- The macro `WFNM_ERROR`, `(size_t) -2`. -/
def WFNM_ERROR : Nat := SIZE_MOD - 2

/-- The flag `WFNM_CASEFOLD`. -/
def WFNM_CASEFOLD : Nat := 8

/-- The flags of `wglob` made by `get_wglbflags`. -/
structure wglbflags where
  WGLB_CASEFOLD : Bool
  WGLB_PERIOD : Bool
  WGLB_MARK : Bool
  WGLB_RECDIR : Bool
deriving DecidableEq, Repr

/-- The collaborators of the expander that are not in `expand.c`, over a shell state `σ`
(the variables, the file system, the diagnostics written so far), and the shell options. -/
structure Shell (σ : Type) where
  /-- The function `getvar(name)`: the value of a scalar variable, `none` for null. -/
  getvar : σ → String → Option WStr
  /-- The function `get_variable(name, &concat)`: the values of a parameter (`none` for
  null) and the flag assigned to `concat`. -/
  get_variable : σ → String → Option (List WStr) × Bool
  /-- The function `set_variable(name, value, false, false)`. -/
  set_variable : σ → String → WStr → σ × Bool
  /-- The function `get_home_directory(username, false)`. -/
  get_home_directory : σ → WStr → Option WStr
  /-- The function `exec_command_substitution(cmd)`; `none` is the null pointer. -/
  exec_command_substitution : σ → embedcmd_T → σ × Option WStr
  /-- The function `xerror(0, message)`: writes a diagnostic. -/
  xerror : σ → String → σ
  /-- The function `is_name(s)`. -/
  is_name : String → Bool
  /-- The function `wfnmatchl(pat, s, flags, type, minlen)`. -/
  wfnmatchl : WStr → WStr → Nat → wfnmtype → Nat → Nat
  /-- The function `shortest_match_length(pat, flags)`. -/
  shortest_match_length : WStr → Nat → Nat
  /-- The function `pattern_has_special_char(pat)`. -/
  pattern_has_special_char : WStr → Bool
  /-- The function `wglob(pattern, flags, list)`: the paths added to `list`. -/
  wglob : σ → WStr → wglbflags → List WStr
  /-- The exit status `EXIT_EXPERROR`. -/
  EXIT_EXPERROR : Nat
  shopt_nounset : Bool
  shopt_noglob : Bool
  shopt_nullglob : Bool
  shopt_nocaseglob : Bool
  shopt_dotglob : Bool
  shopt_markdirs : Bool
  shopt_extendedglob : Bool
  shopt_braceexpand : Bool
  posixly_correct : Bool
  is_interactive : Bool

/-- The outcome of a call: it returns a value in a new shell state, or the shell exits
(`exit_shell_with_status`), or the call does not return a result (an assertion fails, a
string is read outside its bounds, or an iteration bound of the embedding is exhausted). -/
inductive Res (σ : Type) (α : Type)
  | ret (st : σ) (a : α)
  | exit (st : σ) (status : Nat)
  | fault
deriving DecidableEq, Repr

/-- Sequencing of calls: the second call is made when the first returns. -/
def Res.bind {σ α β : Type} (r : Res σ α) (f : σ → α → Res σ β) : Res σ β :=
  match r with
  | .ret st a => f st a
  | .exit st n => .exit st n
  | .fault => .fault

/-- The function `joinwcsarray(array, padding)`: the strings joined with `padding` between
them. -/
def joinwcsarray (array : List WStr) (padding : WStr) : WStr := padding.intercalate array

/-- The array `padding` made of `ifs ? ifs[0] : L' '` and a null character: the first
character of `IFS`, a space when `IFS` is not set, nothing when `IFS` is empty. -/
def ifs_padding {σ : Type} (sh : Shell σ) (st : σ) : WStr :=
  match sh.getvar st "IFS" with
  | none => [Char.ofNat 32]
  | some ifs => ifs.take 1

/-- The flags given to the matcher: `shopt_nocaseglob ? WFNM_CASEFOLD : 0`. -/
def wfnm_flags {σ : Type} (sh : Shell σ) : Nat := if sh.shopt_nocaseglob then WFNM_CASEFOLD else 0

/-- The function `match_head_each(slist, pattern, longest)`; the loop is left at the first
element for which the matcher gives `WFNM_ERROR`. -/
def match_head_each {σ : Type} (sh : Shell σ) (pattern : WStr) (longest : Bool) :
    List WStr → List WStr
  | [] => []
  | s :: slist =>
    let m := sh.wfnmatchl pattern s (wfnm_flags sh)
      (if longest then wfnmtype.WFNM_LONGEST else wfnmtype.WFNM_SHORTEST)
      (sh.shortest_match_length pattern (wfnm_flags sh))
    if m = WFNM_ERROR then s :: slist
    else (if m ≠ WFNM_NOMATCH ∧ m > 0 then s.drop m else s) ::
      match_head_each sh pattern longest slist

/-- The result of a scan of one string for a tail match: the matcher gave `WFNM_ERROR`, or
it matched at an offset, or no offset matched. -/
inductive tailscan
  | error
  | found (index : Nat)
  | nomatch
deriving DecidableEq, Repr

/-- The loop `while (minlen + index <= len)` of `match_tail_longest_each` and of
`subst_tail_each` on one string; the first argument is the number of iterations left. -/
def tail_longest_scan {σ : Type} (sh : Shell σ) (pattern s : WStr) : Nat → Nat → tailscan
  | 0, _ => tailscan.nomatch
  | k + 1, index =>
    let m := sh.wfnmatchl pattern (s.drop index) (wfnm_flags sh) wfnmtype.WFNM_WHOLE
      (sh.shortest_match_length pattern (wfnm_flags sh))
    if m = WFNM_ERROR then tailscan.error
    else if m ≠ WFNM_NOMATCH then tailscan.found index
    else tail_longest_scan sh pattern s k (index + 1)

/-- The function `match_tail_longest_each(slist, pattern)`; the function returns at the first
`WFNM_ERROR`. -/
def match_tail_longest_each {σ : Type} (sh : Shell σ) (pattern : WStr) : List WStr → List WStr
  | [] => []
  | s :: slist =>
    match tail_longest_scan sh pattern s
        (s.length + 1 - sh.shortest_match_length pattern (wfnm_flags sh)) 0 with
    | tailscan.error => s :: slist
    | tailscan.found index => s.take index :: match_tail_longest_each sh pattern slist
    | _ => s :: match_tail_longest_each sh pattern slist

/-- The loop `do ... while (index--)` of `match_tail_shortest_each` on one string, from
`index` down to 0. -/
def tail_shortest_scan {σ : Type} (sh : Shell σ) (pattern s : WStr) : Nat → tailscan
  | 0 =>
    let m := sh.wfnmatchl pattern s (wfnm_flags sh) wfnmtype.WFNM_WHOLE
      (sh.shortest_match_length pattern (wfnm_flags sh))
    if m = WFNM_ERROR then tailscan.error
    else if m ≠ WFNM_NOMATCH then tailscan.found 0
    else tailscan.nomatch
  | index + 1 =>
    let m := sh.wfnmatchl pattern (s.drop (index + 1)) (wfnm_flags sh) wfnmtype.WFNM_WHOLE
      (sh.shortest_match_length pattern (wfnm_flags sh))
    if m = WFNM_ERROR then tailscan.error
    else if m ≠ WFNM_NOMATCH then tailscan.found (index + 1)
    else tail_shortest_scan sh pattern s index

/-- The function `match_tail_shortest_each(slist, pattern)`. The start `len - minlen` is
computed in `size_t`; the result is `none` when it lies outside the string. -/
def match_tail_shortest_each {σ : Type} (sh : Shell σ) (pattern : WStr) :
    List WStr → Option (List WStr)
  | [] => some []
  | s :: slist =>
    let minlen := sh.shortest_match_length pattern (wfnm_flags sh)
    let index := (s.length + SIZE_MOD - minlen % SIZE_MOD) % SIZE_MOD
    if index > s.length then none
    else
      match tail_shortest_scan sh pattern s index with
      | tailscan.error => some (s :: slist)
      | tailscan.found i => (match_tail_shortest_each sh pattern slist).map (fun l => s.take i :: l)
      | _ => (match_tail_shortest_each sh pattern slist).map (fun l => s :: l)

/-- The function `match_each(slist, pattern, type)`; the result is `none` when
`assert(type & PT_MATCHTAIL)` fails or a string is read outside its bounds. -/
def match_each {σ : Type} (sh : Shell σ) (slist : List WStr) (pattern : WStr)
    (type : paramexptype_T) : Option (List WStr) :=
  if type.PT_MATCHHEAD then some (match_head_each sh pattern type.PT_MATCHLONGEST slist)
  else if !type.PT_MATCHTAIL then none
  else if type.PT_MATCHLONGEST then some (match_tail_longest_each sh pattern slist)
  else match_tail_shortest_each sh pattern slist

/-- The function `subst_whole_each(slist, pattern, subst)`. -/
def subst_whole_each {σ : Type} (sh : Shell σ) (pattern subst : WStr) : List WStr → List WStr
  | [] => []
  | s :: slist =>
    let m := sh.wfnmatchl pattern s (wfnm_flags sh) wfnmtype.WFNM_WHOLE
      (sh.shortest_match_length pattern (wfnm_flags sh))
    if m = WFNM_ERROR then s :: slist
    else (if m ≠ WFNM_NOMATCH then subst else s) :: subst_whole_each sh pattern subst slist

/-- The function `subst_head_each(slist, pattern, subst)`. -/
def subst_head_each {σ : Type} (sh : Shell σ) (pattern subst : WStr) : List WStr → List WStr
  | [] => []
  | s :: slist =>
    let m := sh.wfnmatchl pattern s (wfnm_flags sh) wfnmtype.WFNM_LONGEST
      (sh.shortest_match_length pattern (wfnm_flags sh))
    if m = WFNM_ERROR then s :: slist
    else (if m ≠ WFNM_NOMATCH then subst ++ s.drop m else s) ::
      subst_head_each sh pattern subst slist

/-- The function `subst_tail_each(slist, pattern, subst)`. -/
def subst_tail_each {σ : Type} (sh : Shell σ) (pattern subst : WStr) : List WStr → List WStr
  | [] => []
  | s :: slist =>
    match tail_longest_scan sh pattern s
        (s.length + 1 - sh.shortest_match_length pattern (wfnm_flags sh)) 0 with
    | tailscan.error => s :: slist
    | tailscan.found index => (s.take index ++ subst) :: subst_tail_each sh pattern subst slist
    | _ => s :: subst_tail_each sh pattern subst slist

/-- The loop `while (s[index])` of `subst_generic_each` on one string: the result is the
buffer, `none` when the matcher gives `WFNM_ERROR`. The first argument bounds the number of
iterations. -/
def subst_generic_loop {σ : Type} (sh : Shell σ) (pattern subst : WStr) (substall : Bool)
    (s : WStr) : Nat → Nat → WStr → Option WStr
  | 0, _, buf => some buf
  | fuel + 1, index, buf =>
    match s[index]? with
    | none => some buf
    | some c =>
      let m := sh.wfnmatchl pattern (s.drop index) (wfnm_flags sh) wfnmtype.WFNM_LONGEST
        (sh.shortest_match_length pattern (wfnm_flags sh))
      if m = WFNM_ERROR then none
      else if m ≠ WFNM_NOMATCH ∧ m > 0 then
        if !substall then some (buf ++ subst ++ s.drop (index + m))
        else subst_generic_loop sh pattern subst substall s fuel (index + m) (buf ++ subst)
      else subst_generic_loop sh pattern subst substall s fuel (index + 1) (buf ++ [c])

/-- The function `subst_generic_each(slist, pattern, subst, substall)`; the function returns
at the first `WFNM_ERROR`. -/
def subst_generic_each {σ : Type} (sh : Shell σ) (pattern subst : WStr) (substall : Bool) :
    List WStr → List WStr
  | [] => []
  | s :: slist =>
    match subst_generic_loop sh pattern subst substall s (s.length + 1) 0 [] with
    | none => s :: slist
    | some buf => buf :: subst_generic_each sh pattern subst substall slist

/-- The function `subst_each(slist, pattern, subst, type)`. -/
def subst_each {σ : Type} (sh : Shell σ) (slist : List WStr) (pattern subst : WStr)
    (type : paramexptype_T) : List WStr :=
  if type.PT_MATCHHEAD then
    if type.PT_MATCHTAIL then subst_whole_each sh pattern subst slist
    else subst_head_each sh pattern subst slist
  else if type.PT_MATCHTAIL then subst_tail_each sh pattern subst slist
  else subst_generic_each sh pattern subst type.PT_SUBSTALL slist

/-- The function `subst_length_each(slist)`: each string is replaced by the number of its
characters (`%zu`). -/
def subst_length_each (slist : List WStr) : List WStr :=
  slist.map (fun s => Nat.toDigits 10 s.length)

/-- The home directory that `expand_tilde` finds for `username`: `$HOME` for the empty name;
null (`none`) when the name holds a quotation character; `$PWD` and `$OLDPWD` for the names
`+` and `-` unless `posixly_correct`; otherwise the home directory of the user. -/
def tilde_home {σ : Type} (sh : Shell σ) (st : σ) (username : WStr) : Option WStr :=
  if username = [] then sh.getvar st "HOME"
  else if username.any (fun x => [DQUOTE, SQUOTE, BSL].contains x) then none
  else if !sh.posixly_correct && username = [Char.ofNat 43] then sh.getvar st "PWD"
  else if !sh.posixly_correct && username = [Char.ofNat 45] then sh.getvar st "OLDPWD"
  else sh.get_home_directory st username

/-- The characters that end the user name in `expand_tilde`: the slash, and the colon unless
the type is `tt_single`. -/
def tilde_accept (tt : tildetype_T) : WStr :=
  if tt = tildetype_T.tt_single then [Char.ofNat 47] else [Char.ofNat 47, Char.ofNat 58]

/-- The function `expand_tilde(ss, hasnextwordunit, tt)`: the result is the home directory
and the new value of `*ss`, `none` when the function returns null (`*ss` is unchanged). -/
def expand_tilde {σ : Type} (sh : Shell σ) (st : σ) (ss : WStr) (hasnextwordunit : Bool)
    (tt : tildetype_T) : Option (WStr × WStr) :=
  match ss with
  | [] => none
  | c :: s =>
    if c ≠ Char.ofNat 126 then none
    else if (s.findIdx? (fun x => (tilde_accept tt).contains x)).isNone && hasnextwordunit then
      none
    else
      match tilde_home sh st
          (s.take ((s.findIdx? (fun x => (tilde_accept tt).contains x)).getD s.length)) with
      | some h =>
        some (h, s.drop ((s.findIdx? (fun x => (tilde_accept tt).contains x)).getD s.length))
      | none => none

/-- The local variables of `expand_word` and the two lists it adds to; `splitlist = none` is
the null pointer, in which case `sbuf` is not used. -/
structure xw_T where
  ok : Bool
  indq : Bool
  force : Bool
  suppress : Bool
  buf : WStr
  sbuf : List Nat
  valuelist : List WStr
  splitlist : Option (List (List Nat))
deriving DecidableEq, Repr

/-- The macro `FILL_SBUF(c)`:
`splitlist && sb_ccat_repeat(&sbuf, c, buf.length - sbuf.length)`. -/
def FILL_SBUF (c : Nat) (x : xw_T) : xw_T :=
  if x.splitlist.isSome then
    { x with sbuf := x.sbuf ++ List.replicate (x.buf.length - x.sbuf.length) c }
  else x

/-- The loop `while (*ss)` of `expand_word` over a literal unit, with its quoting state
machine. The first argument bounds the number of iterations; every iteration advances `ss`.
The result is `none` when the assertion of `add_sq` fails. -/
def expand_word_string {σ : Type} (sh : Shell σ) (st : σ) (hasnext : Bool)
    (tilde : tildetype_T) : Nat → WStr → xw_T → Option xw_T
  | 0, _, x => some x
  | _ + 1, [], x => some x
  | fuel + 1, c :: ss1, x =>
    if c = DQUOTE then
      expand_word_string sh st hasnext tilde fuel ss1
        { x with indq := !x.indq, force := true }
    else if c = SQUOTE ∧ x.indq = false then
      match add_sq (c :: ss1) true with
      | none => none
      | some r =>
        expand_word_string sh st hasnext tilde fuel (r.2.drop 1)
          (FILL_SBUF 0 { x with force := true, buf := x.buf ++ r.1 })
    else if c = BSL ∧ ¬ (x.indq = true ∧ wcschr_found ESCAPABLE_CHARS ss1.head? = false) then
      match ss1 with
      | [] =>
        expand_word_string sh st hasnext tilde fuel [] (FILL_SBUF 0 { x with buf := x.buf ++ [BSL] })
      | d :: ss2 =>
        expand_word_string sh st hasnext tilde fuel ss2
          (FILL_SBUF 0 { x with buf := x.buf ++ [BSL, d] })
    else if c = Char.ofNat 58 ∧ x.indq = false ∧ tilde = tildetype_T.tt_multi then
      match expand_tilde sh st ss1 hasnext tilde with
      | some r =>
        expand_word_string sh st hasnext tilde fuel r.2
          (FILL_SBUF 0
            { x with buf := x.buf ++ [Char.ofNat 58] ++ escapefree r.1 (some ESCAPED_CHARS) })
      | none =>
        expand_word_string sh st hasnext tilde fuel ss1
          (FILL_SBUF 0 { x with buf := x.buf ++ [Char.ofNat 58] })
    else
      expand_word_string sh st hasnext tilde fuel ss1
        (FILL_SBUF 0 { x with buf := x.buf ++ (if x.indq then [BSL, c] else [c]) })

/-- The loop `for (void **a = array; ; )` of `expand_word` over the non-empty result of a
parameter expansion: each element is added to the buffer as splittable, and between two
elements the buffers are closed into the lists and started anew. -/
def expand_word_array : List WStr → xw_T → xw_T
  | [], x => x
  | [a], x => FILL_SBUF 1 { x with buf := x.buf ++ a }
  | a :: b :: array, x =>
    let x1 := FILL_SBUF 1 { x with buf := x.buf ++ a }
    expand_word_array (b :: array)
      { x1 with
        valuelist := x1.valuelist ++ [x1.buf]
        buf := []
        splitlist := x1.splitlist.map (fun l => l ++ [x1.sbuf])
        sbuf := if x1.splitlist.isSome then [] else x1.sbuf }

/-- The initial values of the local variables of `expand_word`. -/
def expand_word_open (valuelist : List WStr) (splitlist : Option (List (List Nat))) : xw_T :=
  { ok := true, indq := false, force := false, suppress := false, buf := [], sbuf := [],
    valuelist := valuelist, splitlist := splitlist }

/-- The end of `expand_word`, after the loop over the word units: a non-empty buffer, or a
quoted empty word, is added to the lists. The result is `ok` and the two lists. -/
def expand_word_close (initlen : Nat) (x : xw_T) :
    Bool × List WStr × Option (List (List Nat)) :=
  if x.buf.length > 0 ∨ (initlen = x.valuelist.length ∧ x.force = true ∧ x.suppress = false) then
    (x.ok, x.valuelist ++ [x.buf], x.splitlist.map (fun l => l ++ [x.sbuf]))
  else (x.ok, x.valuelist, x.splitlist)

/-- The end of `expand_single(arg, tilde)`, after its call of `expand_word`: on error the
shell exits unless it is interactive; several words are joined into one. -/
def expand_single_close {σ : Type} (sh : Shell σ)
    (r : Res σ (Bool × List WStr × Option (List (List Nat)))) : Res σ (Option WStr) :=
  r.bind fun st v =>
    if v.1 = false then
      if !sh.is_interactive then Res.exit st sh.EXIT_EXPERROR else Res.ret st none
    else
      match v.2.1 with
      | [w] => Res.ret st (some w)
      | l => Res.ret st (some (joinwcsarray l (ifs_padding sh st)))

/-- The first byte of the wide string as read by `((char *) list[0])[0]`: the low byte of its
first character on a little-endian machine, 0 for the empty string. -/
def first_byte (s : WStr) : Nat :=
  match s with
  | [] => 0
  | c :: _ => c.toNat % 256

/-- The end of `expand_param` from the comment `concatenate list elements` on: joining,
`PT_NUMBER`, backslashing, and the treatment of the empty value. -/
def expand_param_close {σ : Type} (sh : Shell σ) (st : σ) (type : paramexptype_T)
    (indq concat : Bool) (list : List WStr) : List WStr :=
  let list1 := if concat then [joinwcsarray list (ifs_padding sh st)] else list
  let list2 := if type.PT_NUMBER then subst_length_each list1 else list1
  let list3 := list2.map (fun s => escapefree s (if indq then none else some ESCAPED_CHARS))
  if indq = false ∧ list3 = [[]] then [] else list3

/-- The message that `print_subst_as_error` prints when `pe_subst` is null. -/
def param_null_message (type : paramexptype_T) (name : String) : String :=
  if type.PT_NEST then "parameter null"
  else if type.PT_COLON then name ++ ": parameter null or not set"
  else name ++ ": parameter not set"

mutual
/-- The loop `while (w)` of `expand_word` over the word units; `first` tells whether `w` is
the first word unit. -/
def expand_word_units {σ : Type} (sh : Shell σ) (tilde : tildetype_T) :
    wordunit_T → Bool → σ → xw_T → Res σ xw_T
  | .NULL, _, st, x => Res.ret st x
  | .WT_STRING wu_string next, first, st, x =>
    let t : Option (WStr × WStr) :=
      if first = true ∧ tilde ≠ tildetype_T.tt_none then
        expand_tilde sh st wu_string next.nonnull tilde
      else none
    let ss : WStr := match t with
      | some r => r.2
      | none => wu_string
    let x1 : xw_T := match t with
      | some r => FILL_SBUF 0 { x with buf := x.buf ++ escapefree r.1 (some ESCAPED_CHARS) }
      | none => x
    match expand_word_string sh st next.nonnull tilde (ss.length + 1) ss x1 with
    | none => Res.fault
    | some x2 => expand_word_units sh tilde next false st x2
  | .WT_PARAM wu_param next, _, st, x =>
    (expand_param sh wu_param x.indq tilde st).bind fun st1 array =>
      match array with
      | none => expand_word_units sh tilde next false st1 { x with ok := false }
      | some [] => expand_word_units sh tilde next false st1 { x with suppress := true }
      | some (a :: l) =>
        expand_word_units sh tilde next false st1 (expand_word_array (a :: l) { x with force := true })
  | .WT_CMDSUB wu_cmdsub next, _, st, x =>
    match sh.exec_command_substitution st wu_cmdsub with
    | (st1, some s) =>
      expand_word_units sh tilde next false st1
        (FILL_SBUF 1
          { x with buf := x.buf ++ escapefree s (if x.indq then none else some ESCAPED_CHARS) })
    | (st1, none) => expand_word_units sh tilde next false st1 { x with ok := false }
  | .WT_ARITH _ next, _, st, x =>
    expand_word_units sh tilde next false (sh.xerror st "arithmetic expansion not implemented")
      { x with ok := false }
/-- The function `expand_param(p, indq, tilde)`: the result is the array of strings, `none`
for the null pointer returned on error. -/
def expand_param {σ : Type} (sh : Shell σ) :
    paramexp_T → Bool → tildetype_T → σ → Res σ (Option (List WStr))
  | .mk type pe_name pe_nest pe_match pe_subst, indq, tilde, st =>
    /- get the value of parameter or nested expansion: the list (`none` when the function
    returns null here), `concat` and `unset` -/
    let value : Res σ (Option (List WStr × Bool × Bool)) :=
      if type.PT_NEST then
        (expand_word_units sh tilde pe_nest true st (expand_word_open [] none)).bind
          fun st1 x =>
            let r := expand_word_close 0 x
            if r.1 = false then Res.ret st1 none
            else Res.ret st1 (some (r.2.1.map unescapefree, true, false))
      else
        match sh.get_variable st pe_name with
        | (some list, concat) => Res.ret st (some (list, concat, false))
        | (none, concat) =>
          if sh.shopt_nounset then
            Res.ret (sh.xerror st (pe_name ++ ": parameter not set")) none
          else Res.ret st (some ([[]], concat, true))
    value.bind fun st1 v =>
      match v with
      | none => Res.ret st1 none
      | some (list, concat, unset0) =>
        let unset : Bool :=
          if type.PT_COLON = true ∧
              (list = [] ∨ (first_byte (list.headD []) = 0 ∧ list.length = 1)) then true
          else unset0
        let substword : Res σ (Option (List WStr)) :=
          (expand_word_units sh tildetype_T.tt_single pe_subst true st1
              (expand_word_open [] none)).bind
            fun st2 x =>
              let r := expand_word_close 0 x
              if r.1 = true then
                Res.ret st2 (some (if indq then reescape_full_array r.2.1 else r.2.1))
              else Res.ret st2 none
        match type.mask with
        | paramop_T.PT_PLUS =>
          if unset = false then substword
          else Res.ret st1 (some (expand_param_close sh st1 type indq concat list))
        | paramop_T.PT_MINUS =>
          if unset = true then substword
          else Res.ret st1 (some (expand_param_close sh st1 type indq concat list))
        | paramop_T.PT_ASSIGN =>
          if unset = true then
            if type.PT_NEST then
              Res.ret (sh.xerror st1 "invalid assignment in parameter expansion") none
            else if sh.is_name pe_name = false then
              Res.ret
                (sh.xerror st1 ("cannot assign to " ++ pe_name ++ " in parameter expansion")) none
            else
              (expand_single_close sh
                ((expand_word_units sh tildetype_T.tt_single pe_subst true st1
                    (expand_word_open [] none)).bind
                  fun st2 x => Res.ret st2 (expand_word_close 0 x))).bind
                fun st2 subst =>
                  match subst with
                  | none => Res.ret st2 none
                  | some subst1 =>
                    match sh.set_variable st2 pe_name (unescapefree subst1) with
                    | (st3, false) => Res.ret st3 none
                    | (st3, true) =>
                      Res.ret st3
                        (some (expand_param_close sh st3 type indq concat [unescapefree subst1]))
          else Res.ret st1 (some (expand_param_close sh st1 type indq concat list))
        | paramop_T.PT_ERROR =>
          if unset = true then
            if pe_subst.nonnull then
              (expand_single_close sh
                ((expand_word_units sh tildetype_T.tt_single pe_subst true st1
                    (expand_word_open [] none)).bind
                  fun st2 x => Res.ret st2 (expand_word_close 0 x))).bind
                fun st2 subst =>
                  match subst with
                  | none => Res.ret st2 none
                  | some subst1 =>
                    Res.ret
                      (sh.xerror st2
                        (if type.PT_NEST then String.mk (unescapefree subst1)
                         else pe_name ++ ": " ++ String.mk (unescapefree subst1)))
                      none
            else Res.ret (sh.xerror st1 (param_null_message type pe_name)) none
          else Res.ret st1 (some (expand_param_close sh st1 type indq concat list))
        | paramop_T.PT_MATCH =>
          (expand_single_close sh
            ((expand_word_units sh tildetype_T.tt_single pe_match true st1
                (expand_word_open [] none)).bind
              fun st2 x => Res.ret st2 (expand_word_close 0 x))).bind
            fun st2 m =>
              match m with
              | none => Res.ret st2 none
              | some m1 =>
                match match_each sh list m1 type with
                | none => Res.fault
                | some list1 =>
                  Res.ret st2 (some (expand_param_close sh st2 type indq concat list1))
        | paramop_T.PT_SUBST =>
          (expand_single_close sh
            ((expand_word_units sh tildetype_T.tt_single pe_match true st1
                (expand_word_open [] none)).bind
              fun st2 x => Res.ret st2 (expand_word_close 0 x))).bind
            fun st2 m =>
              (expand_single_close sh
                ((expand_word_units sh tildetype_T.tt_single pe_subst true st2
                    (expand_word_open [] none)).bind
                  fun st3 x => Res.ret st3 (expand_word_close 0 x))).bind
                fun st3 su =>
                  match m, su with
                  | some m1, some su1 =>
                    Res.ret st3
                      (some (expand_param_close sh st3 type indq concat
                        (subst_each sh list m1 (unescapefree su1) type)))
                  | _, _ => Res.ret st3 none
        | paramop_T.PT_NONE =>
          Res.ret st1 (some (expand_param_close sh st1 type indq concat list))
end

/-- The function `expand_word(w, tilde, valuelist, splitlist)`: four expansions in a single
word. The result is the return value and the two lists; `splitlist = none` is the null
pointer. -/
def expand_word {σ : Type} (sh : Shell σ) (st : σ) (w : wordunit_T) (tilde : tildetype_T)
    (valuelist : List WStr) (splitlist : Option (List (List Nat))) :
    Res σ (Bool × List WStr × Option (List (List Nat))) :=
  (expand_word_units sh tilde w true st (expand_word_open valuelist splitlist)).bind
    fun st1 x => Res.ret st1 (expand_word_close valuelist.length x)

/-- The function `expand_single(arg, tilde)`: `none` is the null pointer. -/
def expand_single {σ : Type} (sh : Shell σ) (st : σ) (arg : wordunit_T) (tilde : tildetype_T) :
    Res σ (Option WStr) :=
  expand_single_close sh (expand_word sh st arg tilde [] none)

/-- The string `L" \t\n"`, the separators of field splitting when `IFS` is not set: space,
tab and newline. -/
def BLANKS : WStr := [Char.ofNat 32, Char.ofNat 9, Char.ofNat 10]

/-- The loop of `fieldsplit_all` over the two arrays, which ends at the first null element
of `valuelist`. -/
def fieldsplit_each (ifs : WStr) : List WStr → List (List Nat) → List WStr → Option (List WStr)
  | [], _, dest => some dest
  | _ :: _, [], _ => none
  | s :: valuelist, t :: splitlist, dest =>
    match fieldsplit s t ifs dest with
    | none => none
    | some dest1 => fieldsplit_each ifs valuelist splitlist dest1

/-- The function `fieldsplit_all(valuelist, splitlist, dest)`: field splitting of each word
with the value of `IFS`, space, tab and newline when `IFS` is not set. -/
def fieldsplit_all {σ : Type} (sh : Shell σ) (st : σ) (valuelist : List WStr)
    (splitlist : List (List Nat)) (dest : List WStr) : Option (List WStr) :=
  let ifs : WStr := match sh.getvar st "IFS" with
    | some v => v
    | none => BLANKS
  fieldsplit_each ifs valuelist splitlist dest

/-- The function `expand_word_and_split(w, list)`: four expansions, brace expansion and
field splitting in a word. The result is the return value and the list; `fuel` bounds the
recursion of the brace expansion. -/
def expand_word_and_split {σ : Type} (sh : Shell σ) (fuel : Nat) (st : σ) (w : wordunit_T)
    (list : List WStr) : Res σ (Bool × List WStr) :=
  (expand_word sh st w tildetype_T.tt_single [] (some [])).bind fun st1 r =>
    if r.1 = false then Res.ret st1 (false, list)
    else
      let b : Option (List WStr × List (List Nat)) :=
        if sh.shopt_braceexpand then expand_brace_each fuel r.2.1 (r.2.2.getD []) [] []
        else some (r.2.1, r.2.2.getD [])
      match b with
      | none => Res.fault
      | some l2 =>
        match fieldsplit_all sh st1 l2.1 l2.2 list with
        | none => Res.fault
        | some list1 => Res.ret st1 (true, list1)

/-- The function `get_wglbflags()`. -/
def get_wglbflags {σ : Type} (sh : Shell σ) : wglbflags :=
  { WGLB_CASEFOLD := sh.shopt_nocaseglob, WGLB_PERIOD := sh.shopt_dotglob,
    WGLB_MARK := sh.shopt_markdirs, WGLB_RECDIR := sh.shopt_extendedglob }

/-- The function `do_glob_each(patterns, list)`: file name expansion of each pattern. -/
def do_glob_each {σ : Type} (sh : Shell σ) (st : σ) : List WStr → List WStr → List WStr
  | [], list => list
  | pat :: patterns, list =>
    if sh.pattern_has_special_char pat then
      let list1 := list ++ sh.wglob st pat (get_wglbflags sh)
      if sh.shopt_nullglob = false ∧ list.length = list1.length then
        do_glob_each sh st patterns (list1 ++ [unescapefree pat])
      else do_glob_each sh st patterns list1
    else do_glob_each sh st patterns (list ++ [unescapefree pat])

/-- The loop `while (*args)` of `expand_line`: `none` when a word fails and the function
returns false. -/
def expand_line_args {σ : Type} (sh : Shell σ) (fuel : Nat) :
    List wordunit_T → σ → List WStr → Res σ (Option (List WStr))
  | [], st, list1 => Res.ret st (some list1)
  | w :: args, st, list1 =>
    (expand_word_and_split sh fuel st w list1).bind fun st1 r =>
      if r.1 = false then
        if !sh.is_interactive then Res.exit st1 sh.EXIT_EXPERROR else Res.ret st1 none
      else expand_line_args sh fuel args st1 r.2

/-- The function `expand_line(args, argcp, argvp)`: the result is the array assigned to
`*argvp` (whose length is assigned to `*argcp`), `none` when the function returns false. -/
def expand_line {σ : Type} (sh : Shell σ) (fuel : Nat) (st : σ) (args : List wordunit_T) :
    Res σ (Option (List WStr)) :=
  (expand_line_args sh fuel args st []).bind fun st1 r =>
    match r with
    | none => Res.ret st1 none
    | some list1 =>
      if sh.shopt_noglob then Res.ret st1 (some list1)
      else Res.ret st1 (some (do_glob_each sh st1 list1 []))

/-- The characters of a word that stand outside a backslash-escaped pair: each backslash
is dropped together with the character it escapes (a backslash at the very end alone). -/
def unescaped_chars : WStr → WStr
  | [] => []
  | [c] => if c = BSL then [] else [c]
  | c :: d :: s => if c = BSL then unescaped_chars s else c :: unescaped_chars (d :: s)

/-- The characters that `wcstol` may read: white space, a sign, digits and letters. -/
def numchar (c : Char) : Bool :=
  iswspace c || c == Char.ofNat 43 || c == Char.ofNat 45 || (wdigit c).isSome

/-- Whether a character is a comma or a closing brace. -/
def is_sep (c : Char) : Bool := c == COMMA || c == RBRACE

/-- The offsets right after the comma or closing brace that ends each element, for elements
laid out from offset `c`. -/
def elem_ends : Nat → List WStr → List Nat
  | _, [] => []
  | c, e :: es => (c + e.length + 1) :: elem_ends (c + e.length + 1) es

/-- The total length of the elements, each with the comma or closing brace that ends it. -/
def elem_span : List WStr → Nat
  | [] => 0
  | e :: es => e.length + 1 + elem_span es

/-- What the `do ... while` loop of `fieldsplit`, entered at a separator `c` that is followed
by the fields `t :: ts` joined by `c`, and the rest of `fieldsplit` after it, add to the
destination: an empty field when `splitonnonspace` is set, and then the fields. -/
def sep_run_spec (s : WStr) (split : List Nat) (c : Char) (dest0 : List WStr)
    (t : WStr) (ts : List WStr) : Prop :=
  ∀ (i k si : Nat) (sons ns : Bool) (dest : List WStr),
    s.drop i = c :: [c].intercalate (t :: ts) → s.length ≤ i + k → si ≤ i →
    dest0.length ≤ dest.length → (dest0.length < dest.length ∨ sons = true) →
    fieldsplit_end s dest0
      (fieldsplit_loop s split [c] (s.length + 1)
        (fieldsplit_run s split [c] si k i sons ns dest).1
        (fieldsplit_run s split [c] si k i sons ns dest).1
        (fieldsplit_run s split [c] si k i sons ns dest).2) =
      some (dest ++ (if sons then [[]] else []) ++ t :: ts)

/-- The fields `tok` and those of `rest`, each preceded by its run of blanks. -/
def blank_join (tok : WStr) (rest : List (WStr × WStr)) : WStr :=
  tok ++ rest.flatMap (fun p => p.1 ++ p.2)

/-- The type of a parameter expansion without operator and without flags. -/
def PT_PLAIN : paramexptype_T :=
  { mask := paramop_T.PT_NONE, PT_COLON := false, PT_NEST := false, PT_NUMBER := false,
    PT_MATCHHEAD := false, PT_MATCHTAIL := false, PT_MATCHLONGEST := false,
    PT_SUBSTALL := false }

/-- The word made of a double-quoted expansion of the parameter `x` without operator. -/
def dquoted_param (x : String) : wordunit_T :=
  wordunit_T.WT_STRING [DQUOTE]
    (wordunit_T.WT_PARAM
      (paramexp_T.mk PT_PLAIN x wordunit_T.NULL wordunit_T.NULL wordunit_T.NULL)
      (wordunit_T.WT_STRING [DQUOTE] wordunit_T.NULL))

/-- The word made of an unquoted expansion of the parameter `x` without operator. -/
def unquoted_param (x : String) : wordunit_T :=
  wordunit_T.WT_PARAM
    (paramexp_T.mk PT_PLAIN x wordunit_T.NULL wordunit_T.NULL wordunit_T.NULL)
    wordunit_T.NULL

/-- A shell whose state is a list of scalar variables with their values; it has no users, and
its command substitution gives the text of the command back. -/
def var_shell (noglob : Bool) : Shell (List (String × WStr)) where
  getvar := fun st name => st.lookup name
  get_variable := fun st name => ((st.lookup name).map (fun v => [v]), false)
  set_variable := fun st name v => ((name, v) :: st, true)
  get_home_directory := fun _ _ => none
  exec_command_substitution := fun st c => (st, some c)
  xerror := fun st _ => st
  is_name := fun _ => true
  wfnmatchl := fun _ _ _ _ _ => WFNM_NOMATCH
  shortest_match_length := fun _ _ => 0
  pattern_has_special_char := fun _ => false
  wglob := fun _ _ _ => []
  EXIT_EXPERROR := 2
  shopt_nounset := false
  shopt_noglob := noglob
  shopt_nullglob := false
  shopt_nocaseglob := false
  shopt_dotglob := false
  shopt_markdirs := false
  shopt_extendedglob := false
  shopt_braceexpand := true
  posixly_correct := false
  is_interactive := true

/-- The number of word units of a word. -/
def wordunit_T.count : wordunit_T → Nat
  | .NULL => 0
  | .WT_STRING _ next => next.count + 1
  | .WT_PARAM _ next => next.count + 1
  | .WT_CMDSUB _ next => next.count + 1
  | .WT_ARITH _ next => next.count + 1

/-- The invariant of `expand_word` called with the lists `vl` and `sl`: the value list and
the splittability list have grown by entries that are paired and of equal lengths, and the
two buffers have the same length. -/
def xw_inv (vl : List WStr) (sl : List (List Nat)) (x : xw_T) : Prop :=
  (∃ vs ss, x.valuelist = vl ++ vs ∧ x.splitlist = some (sl ++ ss) ∧
    List.Forall₂ (fun (v : WStr) (s : List Nat) => v.length = s.length) vs ss) ∧
  x.sbuf.length = x.buf.length

/-! ## parser.c: the command array and `check_parse_result` -/

section ParserModel

/-- Byte strings of parser.c (`char *`): the characters before the terminating NUL. -/
abbrev CStr := List Char

/-- Connector stored in `c_type`. The enumeration is declared in yash.h, which is not among the
sources; its five values are the ones parser.c and yash.c name. -/
inductive c_type_T
  | CT_END | CT_PIPED | CT_BG | CT_AND | CT_OR
  deriving DecidableEq, Repr

/-- One redirection (`REDIR`); `rd_file` is `none` for the NULL pointer. -/
structure REDIR where
  rd_flags : Nat
  rd_fd : Int
  rd_file : Option CStr
  deriving DecidableEq, Repr

/-- One command (`SCMD`). The pointers `c_argv` and `c_subcmds` are `none` when NULL;
`c_redircnt` is the length of `c_redir`. -/
inductive SCMD
  | mk (c_type : c_type_T) (c_argc : Nat) (c_argv : Option (List CStr))
      (c_subcmds : Option (List SCMD)) (c_redir : List REDIR) (c_name : CStr)

def SCMD.c_type : SCMD → c_type_T
  | .mk t _ _ _ _ _ => t

def SCMD.c_argc : SCMD → Nat
  | .mk _ n _ _ _ _ => n

def SCMD.c_argv : SCMD → Option (List CStr)
  | .mk _ _ a _ _ _ => a

def SCMD.c_subcmds : SCMD → Option (List SCMD)
  | .mk _ _ _ s _ _ => s

def SCMD.c_redir : SCMD → List REDIR
  | .mk _ _ _ _ r _ => r

def SCMD.c_name : SCMD → CStr
  | .mk _ _ _ _ _ c => c

/-- The assignment `scmd.c_type = t`. -/
def SCMD.set_c_type : SCMD → c_type_T → SCMD
  | .mk _ n a s r c, t => .mk t n a s r c

/-- Outcome of `check_parse_result`: `ok` is the return value 0, `error` is -1,
`assert_failed` a failed assertion and `out_of_bounds` a read of `scmds[-1]`,
the element before the first one of the array. -/
inductive check_T
  | ok | error | assert_failed | out_of_bounds
  deriving DecidableEq, Repr

open c_type_T check_T

/-- The value `scmds[i-1].c_type`; `none` when `i = 0`, where the element lies outside the
array. -/
def prev_c_type (scmds : List SCMD) (i : Nat) : Option c_type_T :=
  if i = 0 then none else (scmds[i - 1]?).map SCMD.c_type

/-- The second `switch` of the loop body, on `scmds[i-1].c_type`; `none` means that the loop
goes on. -/
def check_prev_and_or (scmds : List SCMD) (i : Nat) : Option check_T :=
  match prev_c_type scmds i with
  | none => some out_of_bounds
  | some CT_AND => some error
  | some CT_OR => some error
  | some _ => none

/-- The `case CT_BG` of the first `switch`, also reached by falling through from `CT_END`. -/
def check_prev_piped (scmds : List SCMD) (i : Nat) : Option check_T :=
  match prev_c_type scmds i with
  | none => some out_of_bounds
  | some p => if p ≠ CT_PIPED then some error else check_prev_and_or scmds i

/-- One iteration of the `for` loop of `check_parse_result` at index `i`:
`some r` when the function returns (or aborts) with `r`, `none` when the loop goes on. -/
def check_parse_result_body (scmds : List SCMD) (count : Nat) (i : Nat) : Option check_T :=
  match scmds[i]? with
  | none => some out_of_bounds
  | some cmd =>
    if cmd.c_argv.isSome = cmd.c_subcmds.isSome then some assert_failed
    else if cmd.c_argv.isSome ∧ cmd.c_argc = 0 then
      if i = 0 ∧ count ≥ 2 then some error
      else
        match cmd.c_type with
        | CT_PIPED => some error
        | CT_END => if i + 1 = count then check_prev_and_or scmds i else check_prev_piped scmds i
        | CT_BG => check_prev_piped scmds i
        | _ => check_prev_and_or scmds i
    else none

/-- The `for` loop of `check_parse_result`: `k` iterations are left, `i` is the index. -/
def check_parse_result_loop (scmds : List SCMD) (count : Nat) : Nat → Nat → check_T
  | 0, _ => ok
  | k + 1, i =>
    match check_parse_result_body scmds count i with
    | some r => r
    | none => check_parse_result_loop scmds count k (i + 1)

/-- The function `check_parse_result(scmds, count)` with `count` the length of the list. -/
def check_parse_result (scmds : List SCMD) : check_T :=
  if scmds.length = 0 then assert_failed
  else check_parse_result_loop scmds scmds.length scmds.length 0

/-- A simple command with the given connector and words, as `parse_scmd` stores it
(redirections and name left empty). -/
def simple_scmd (t : c_type_T) (argv : List CStr) : SCMD :=
  SCMD.mk t argv.length (some argv) none [] []

/-- The property asserted at the top of the loop: exactly one of `c_argv`, `c_subcmds` is set. -/
def SCMD.one_of (c : SCMD) : Prop :=
  c.c_argv.isSome ≠ c.c_subcmds.isSome

/-- An empty simple command: `c_argv` is set and there is no word. -/
def SCMD.empty (c : SCMD) : Prop :=
  c.c_argv.isSome = true ∧ c.c_argc = 0

end ParserModel

/-! ## Numeric brace sequences: the notions of the claims -/

/-- Whether a character is a decimal digit. -/
def is_decimal_digit (c : Char) : Bool :=
  decide (48 ≤ c.toNat) && decide (c.toNat ≤ 57)

/-- The value of a string of decimal digits read in base ten. -/
def decimal_value (ds : WStr) : Nat :=
  ds.foldl (fun acc c => acc * 10 + (c.toNat - 48)) 0

/-- The digits of an integer literal: what follows the optional sign. -/
def literal_digits (L : WStr) : WStr :=
  L.drop (wcstol_sign L)

/-- Whether a string is an integer literal: an optional `+` or `-` followed by at least one
decimal digit and nothing else. -/
def is_literal (L : WStr) : Bool :=
  !(literal_digits L).isEmpty && (literal_digits L).all is_decimal_digit

/-- The decimal value of an integer literal; `none` for a string that is not one. -/
def literal_value (L : WStr) : Option Int :=
  if is_literal L then
    (if L.head? = some (Char.ofNat 45) then some (-(decimal_value (literal_digits L) : Int))
     else some (decimal_value (literal_digits L) : Int))
  else none

/-- Whether a literal is written with a leading `+`. -/
def written_plus (L : WStr) : Bool :=
  decide (L.head? = some (Char.ofNat 43))

/-- Whether a literal is written with a leading zero: its first digit is `0`. -/
def written_zero (L : WStr) : Bool :=
  decide ((literal_digits L).head? = some (Char.ofNat 48))

/-- Whether a literal is written without leading zeros: its first digit is not `0`, unless
the digits are the single digit `0`. -/
def no_leading_zeros (L : WStr) : Bool :=
  !written_zero L || decide (literal_digits L = [Char.ofNat 48])

/-- The `i`-th value of the sequence from `start` to `e`: `i` steps from `start`, upwards
when `start < e` and downwards otherwise. -/
def seq_value (start e : Int) (i : Nat) : Int :=
  if start < e then start + (i : Int) else start - (i : Int)

/-- The integers from `start` to `e` in the order in which a sequence generates them:
`|e - start| + 1` values, ascending when `start < e`, descending otherwise. -/
def int_seq (start e : Int) : List Int :=
  (List.range ((e - start).natAbs + 1)).map (seq_value start e)

/-- The word `pre{N..M}post`. -/
def brace_seq_word (pre N M post : WStr) : WStr :=
  pre ++ LBRACE :: (N ++ DOT :: DOT :: (M ++ RBRACE :: post))

/-- The field width `len` that `tryexpand_brace_sequence` computes for the endpoint literals
`N` and `M`: the larger of `startlen` and `endlen`, each of which is the width of its literal
when that literal is written with a leading zero, and 0 otherwise. -/
def seq_width (N M : WStr) : Nat :=
  max (if written_zero N then N.length else 0) (if written_zero M then M.length else 0)
/-- The splittability string that `tryexpand_brace_sequence` builds for a printed value of
`plen` characters in the word `pre{N..M}post`: the bytes of `pre`, `plen` zero bytes, and the
bytes of `post`. -/
def seq_split (split : List Nat) (pre N M post : WStr) (plen : Nat) : List Nat :=
  split.take pre.length ++ List.replicate plen 0 ++
    (split.drop (pre.length + 1 + N.length + 2 + M.length + 1)).take post.length

/-! ## Lock-step of the value string and the splittability string -/

/-- The characters that the formats `%0+*ld` and `%0*ld` can print: a sign or a decimal
digit. -/
def printed_char (c : Char) : Bool :=
  c == Char.ofNat 43 || c == Char.ofNat 45 || is_decimal_digit c

/-- The relation between the (character, splittability byte) pairs of an input word and those
of a word made from it: pairs of the input are copied unchanged and in their order (`copy`) or
left out (`drop`), and printed characters are inserted with the byte 0 (`gen`). -/
inductive lockstep : List (Char × Nat) → List (Char × Nat) → Prop
  | done : lockstep [] []
  | copy (p : Char × Nat) (inp out : List (Char × Nat)) :
      lockstep inp out → lockstep (p :: inp) (p :: out)
  | drop (p : Char × Nat) (inp out : List (Char × Nat)) :
      lockstep inp out → lockstep (p :: inp) out
  | gen (c : Char) (inp out : List (Char × Nat)) :
      printed_char c = true → lockstep inp out → lockstep inp ((c, 0) :: out)

/-- What the claims state of a pair (`v`, `s`) added for the input (`word`, `split`): both have
the same length and the pairs of `v` and `s` are in lock-step with those of the input. -/
def lockstep_pair (word : WStr) (split : List Nat) (v : WStr) (s : List Nat) : Prop :=
  v.length = s.length ∧ lockstep (word.zip split) (v.zip s)

/-- The property of a result `r` of expansion from the lists `vl` and `sl`: entries are added
at the end, in pairs, each in lock-step with the input. -/
def lockstep_result (word : WStr) (split : List Nat) (vl : List WStr) (sl : List (List Nat))
    (r : List WStr × List (List Nat)) : Prop :=
  ∃ vs ss, r = (vl ++ vs, sl ++ ss) ∧ List.Forall₂ (lockstep_pair word split) vs ss

/-! ## parser.c: the parser -/

section ParserFunctions

open c_type_T check_T

/-- Outcome of a parsing function: `ok a` is success with the result `a`; `err msgs` is the
failure value (NULL or -1) after the messages `msgs` were reported with `error`;
`assert_failed f` is a failed assertion of the function `f`; `undefined` is a read outside an
object; `timeout` means that the bound on the recursion of the embedding was reached. -/
inductive PRes (α : Type)
  | ok (a : α)
  | err (msgs : List String)
  | assert_failed (f : String)
  | undefined
  | timeout

/-- Sequencing: the second step runs on the result of the first one, and a failure of the
first one (`if (!s) return NULL`) is the failure of the whole. -/
def PRes.bind {α β : Type} (r : PRes α) (f : α → PRes β) : PRes β :=
  match r with
  | PRes.ok a => f a
  | PRes.err m => PRes.err m
  | PRes.assert_failed g => PRes.assert_failed g
  | PRes.undefined => PRes.undefined
  | PRes.timeout => PRes.timeout

/-- What parser.c uses and is not among the sources. `skipwhites s` is the number of
characters that the utility `skipwhites` skips at the head of `s`; `expand_alias` gives the
text that replaces the rest of the line; `wordexp s p flags` is the libc function, with `p` the
words already in `we_wordv`, and gives its return value and, on success, the words of
`we_wordv` (`we_wordc` is their number); `expand_tilde` gives the new file name or `none`. -/
structure ParserEnv where
  skipwhites : CStr → Nat
  expand_alias : CStr → CStr
  wordexp : CStr → List CStr → Nat → Nat × List CStr
  expand_tilde : CStr → Option CStr

/-- The flag `WRDE_APPEND` of wordexp.h. -/
def WRDE_APPEND : Nat := 2

/-- The flag `WRDE_REUSE` of wordexp.h. -/
def WRDE_REUSE : Nat := 8

/-- The message that `try_wordexp` reports for a return value of `wordexp` other than 0
(`WRDE_NOSPACE` 1, `WRDE_BADCHAR` 2, `WRDE_BADVAL` 3, `WRDE_CMDSUB` 4, `WRDE_SYNTAX` 5);
`none` for the `default` branch `assert(0)`. -/
def wordexp_message (code : Nat) : Option String :=
  if code = 2 then some "unsupported syntax"
  else if code = 3 then some "undefined variable"
  else if code = 4 then some "command substitution disabled"
  else if code = 1 then some "memory shortage"
  else if code = 5 then some "syntax error"
  else none

/-- The libc function `strcspn(s, reject)`: the length of the initial part of `s` without
any character of `reject`. -/
def strcspn : CStr → CStr → Nat
  | [], _ => 0
  | c :: s, reject => if c ∈ reject then 0 else strcspn s reject + 1

/-- The libc function `strchr(s, c)` for a non-null `c`: the offset of the first occurrence,
`none` for the null pointer. -/
def strchr : CStr → Char → Option Nat
  | [], _ => none
  | a :: s, c => if a = c then some 0 else (strchr s c).map (fun k => k + 1)

/-- Whether a byte is one of `'0'` ... `'9'`. -/
def is_digit_char (c : Char) : Bool :=
  decide (48 ≤ c.toNat) && decide (c.toNat ≤ 57)

/-- The loop of `find_start_of_number`, on the characters before `t` in reverse order: the
number of characters that the result lies before `t`; `n` characters have been passed. -/
def find_start_of_number_back : CStr → Nat → Nat
  | [], n => n
  | c :: r, n =>
    if c = Char.ofNat 32 then n
    else if !is_digit_char c then 0
    else find_start_of_number_back r (n + 1)

/-- The function `find_start_of_number(s, t)`, with `t` given by the text that remains at
`t`: the text that remains at the result. -/
def find_start_of_number (s t : CStr) : CStr :=
  let before := s.take (s.length - t.length)
  s.drop (before.length - find_start_of_number_back before.reverse 0)

/-- The characters at which the `default` branch of `get_token` ends a token. -/
def TOKEN_END : CStr :=
  [Char.ofNat 32, Char.ofNat 34, Char.ofNat 39, Char.ofNat 92, Char.ofNat 124, Char.ofNat 38,
    Char.ofNat 59, Char.ofNat 60, Char.ofNat 62, Char.ofNat 40, Char.ofNat 41, Char.ofNat 123,
    Char.ofNat 125, Char.ofNat 10, Char.ofNat 35]

/-- The function `get_token(s)`: the token at the head of `s`; the failure value comes with
the message `unclosed string` or with none. -/
def get_token (s : CStr) : PRes CStr :=
  match s with
  | [] => PRes.err []
  | c :: t =>
    if c = Char.ofNat 32 then PRes.assert_failed "get_token"
    else if c = Char.ofNat 34 ∨ c = Char.ofNat 39 then
      match strchr t c with
      | none => PRes.err ["unclosed string"]
      | some k => PRes.ok (s.take (k + 2))
    else
      let len := strcspn s TOKEN_END
      if len = 0 then PRes.err [] else PRes.ok (s.take len)

/-- The flags of fcntl.h that `parse_redir` uses (the values of Linux). -/
def O_RDONLY : Nat := 0

def O_WRONLY : Nat := 1

def O_RDWR : Nat := 2

def O_CREAT : Nat := 64

def O_TRUNC : Nat := 512

def O_APPEND : Nat := 1024

/-- The largest value of type `int` (32 bits). -/
def INT_MAX : Int := 2147483647

/-- The conversion `(int) v` of a `long` value: reduction modulo 2^32 to the range of `int`. -/
def long_to_int (v : Int) : Int :=
  let m := v % 4294967296
  if m > INT_MAX then m - 4294967296 else m

/-- The value of a run of decimal digits. -/
def digits_value (ds : CStr) : Nat :=
  ds.foldl (fun acc c => acc * 10 + (c.toNat - 48)) 0

end ParserFunctions
section ParserFunctions2

open c_type_T check_T

/-- The first part of `parse_redir`: the optional file descriptor read by `strtol` (base 10)
and converted to `int`; the result is `fd` (-1 when there is no digit) and the text after the
digits. `strtol` sets `errno` when the number is larger than `LONG_MAX`. -/
def parse_redir_fd (s : CStr) : PRes (Int × CStr) :=
  match s.head? with
  | none => PRes.ok (-1, s)
  | some c =>
    if is_digit_char c then
      let ds := s.takeWhile is_digit_char
      if (digits_value ds : Int) > LONG_MAX then PRes.err ["invalid file descriptor"]
      else
        let fd := long_to_int (digits_value ds)
        if fd < 0 then PRes.assert_failed "parse_redir" else PRes.ok (fd, s.drop ds.length)
    else PRes.ok (-1, s)

/-- The `switch` of `parse_redir` on the operator: the result is `fd`, the flags, whether the
operator copies a file descriptor, whether it is the operator `><` that closes one, and the
text after the operator. -/
def parse_redir_op (fd : Int) (s : CStr) : PRes (Int × Nat × Bool × Bool × CStr) :=
  match s with
  | [] => PRes.err ["invalid redirection"]
  | c :: s1 =>
    if c = Char.ofNat 60 then
      let fd1 := if fd < 0 then 0 else fd
      let flags := if s1.head? = some (Char.ofNat 62) then O_RDWR ||| O_CREAT else O_RDONLY
      let s2 := if s1.head? = some (Char.ofNat 62) then s1.drop 1 else s1
      if s2.head? = some (Char.ofNat 38) then PRes.ok (fd1, flags, true, false, s2.drop 1)
      else PRes.ok (fd1, flags, false, false, s2)
    else if c = Char.ofNat 62 then
      let fd1 := if fd < 0 then 1 else fd
      let flags := O_WRONLY ||| O_CREAT
      if s1.head? = some (Char.ofNat 62) then
        PRes.ok (fd1, flags ||| O_APPEND, false, false, s1.drop 1)
      else if s1.head? = some (Char.ofNat 60) then PRes.ok (fd1, 0, false, true, s1.drop 1)
      else if s1.head? = some (Char.ofNat 38) then PRes.ok (fd1, flags, true, false, s1.drop 1)
      else PRes.ok (fd1, flags ||| O_TRUNC, false, false, s1)
    else PRes.err ["invalid redirection"]

/-- The text `/dev/fd/`. -/
def DEV_FD : CStr := "/dev/fd/".toList

/-- The part of `parse_redir` for an operator that copies a file descriptor: leading zeros of
the file name are removed, one is kept when nothing else is left, and `/dev/fd/` is put before
it. For an empty name the character before the name is read. -/
def parse_redir_fdcopy (file : CStr) : PRes CStr :=
  let file2 := file.dropWhile (fun c => c = Char.ofNat 48)
  if file2.length = 0 then
    (if file.length = 0 then PRes.undefined else PRes.ok (DEV_FD ++ [Char.ofNat 48]))
  else PRes.ok (DEV_FD ++ file2)

/-- The function `parse_redir(s, redir)`: the result is the redirection and the text that
remains to be parsed. -/
def parse_redir (env : ParserEnv) (s : CStr) : PRes (REDIR × CStr) :=
  (parse_redir_fd s).bind fun (fd, s1) =>
  (parse_redir_op fd s1).bind fun (fd1, flags, isfdcopy, closes, s2) =>
    if closes then PRes.ok ({ rd_flags := 0, rd_fd := fd1, rd_file := none }, s2)
    else
      let s3 := s2.dropWhile (fun c => c = Char.ofNat 32)
      match get_token s3 with
      | PRes.err m => PRes.err (m ++ ["invalid redirection (no file specified)"])
      | PRes.assert_failed g => PRes.assert_failed g
      | PRes.undefined => PRes.undefined
      | PRes.timeout => PRes.timeout
      | PRes.ok file0 =>
        let len := file0.length
        let quoted := file0.head? = some (Char.ofNat 34) ∨ file0.head? = some (Char.ofNat 39)
        if quoted ∧ ¬ (file0.getLast? = some (Char.ofNat 34) ∨
            file0.getLast? = some (Char.ofNat 39)) then PRes.assert_failed "parse_redir"
        else
          let file1 := if quoted then (file0.drop 1).take (len - 2) else file0
          (if isfdcopy then parse_redir_fdcopy file1 else PRes.ok file1).bind fun file2 =>
            let flags1 := if isfdcopy then flags - (flags &&& O_CREAT) else flags
            let file3 :=
              if file2.head? = some (Char.ofNat 126) then
                (match env.expand_tilde file2 with
                 | some f => f
                 | none => file2)
              else file2
            PRes.ok ({ rd_flags := flags1, rd_fd := fd1, rd_file := some file3 }, s3.drop len)

/-- The characters at which `find_end_of_command_body` stops its scan: `$"'\|&;()<>`,
newline and `#`. -/
def BODY_STOP : CStr :=
  [Char.ofNat 36, Char.ofNat 34, Char.ofNat 39, Char.ofNat 92, Char.ofNat 124, Char.ofNat 38,
    Char.ofNat 59, Char.ofNat 40, Char.ofNat 41, Char.ofNat 60, Char.ofNat 62, Char.ofNat 10,
    Char.ofNat 35]

/-- The characters at which `find_end_of_dquote` stops its scan: `$`, backslash and `"`. -/
def DQUOTE_STOP : CStr := [Char.ofNat 36, Char.ofNat 92, Char.ofNat 34]

/-- The characters at which the token loop of `parse_scmd` ends the command: newline, `;`,
`(`, `)`, `{`, `}`, `#`, `|`, `&` (and the end of the text). -/
def SCMD_END : CStr :=
  [Char.ofNat 10, Char.ofNat 59, Char.ofNat 40, Char.ofNat 41, Char.ofNat 123, Char.ofNat 125,
    Char.ofNat 35, Char.ofNat 124, Char.ofNat 38]

/-- The result of `check_parse_result` as an outcome of the parser. -/
def check_to_PRes {α : Type} (r : check_T) (a : α) : PRes α :=
  match r with
  | check_T.ok => PRes.ok a
  | check_T.error => PRes.err ["syntax error"]
  | check_T.assert_failed => PRes.assert_failed "check_parse_result"
  | check_T.out_of_bounds => PRes.undefined

/-- The assignment `scmds[count - 1].c_type = t`. -/
def set_last_c_type (scmds : List SCMD) (t : c_type_T) : List SCMD :=
  match scmds.getLast? with
  | none => scmds
  | some c => scmds.dropLast ++ [c.set_c_type t]

end ParserFunctions2
section ParserFunctions3

open c_type_T check_T

mutual

/-- The function `parse_commands(&s, &result)`: a series of commands separated by `&`, `|`
or `;`. The result is the array of commands and the text that remains at the new value of
`*s`. The first argument bounds the depth of the calls of the embedding. -/
def parse_commands (env : ParserEnv) : Nat → CStr → PRes (List SCMD × CStr)
  | 0, _ => PRes.timeout
  | fuel + 1, s =>
    (parse_scmd env fuel s).bind fun r => parse_commands_loop env fuel [r.1] r.2

/-- The `for (;;)` loop of `parse_commands`, with the commands read so far and the text at
`ss`. -/
def parse_commands_loop (env : ParserEnv) : Nat → List SCMD → CStr → PRes (List SCMD × CStr)
  | 0, _, _ => PRes.timeout
  | fuel + 1, scmds, ss =>
    match ss with
    | [] => check_to_PRes (check_parse_result scmds) (scmds, ss)
    | c :: ss1 =>
      if c = Char.ofNat 35 then check_to_PRes (check_parse_result scmds) (scmds, [])
      else if c = Char.ofNat 41 then check_to_PRes (check_parse_result scmds) (scmds, ss)
      else if c = Char.ofNat 59 ∨ c = Char.ofNat 38 ∨ c = Char.ofNat 124 then
        let double := (c = Char.ofNat 38 ∨ c = Char.ofNat 124) ∧ ss1.head? = some c
        let t : c_type_T :=
          if c = Char.ofNat 59 then CT_END
          else if c = Char.ofNat 38 then (if double then CT_AND else CT_BG)
          else (if double then CT_OR else CT_PIPED)
        let ss2 := if double then ss1.drop 1 else ss1
        (parse_scmd env fuel ss2).bind fun r =>
          parse_commands_loop env fuel (set_last_c_type scmds t ++ [r.1]) r.2
      else PRes.err ["unsupported syntax"]

/-- The function `parse_scmd(s, scmd)`: one command. The result is the command and the text
that remains to be parsed. -/
def parse_scmd (env : ParserEnv) : Nat → CStr → PRes (SCMD × CStr)
  | 0, _ => PRes.timeout
  | fuel + 1, s =>
    let s1 := s.drop (env.skipwhites s)
    if s1.head? = some (Char.ofNat 40) then parse_subexp env fuel s1
    else
      let olds := env.expand_alias s1
      (try_wordexp env fuel olds [] 0).bind fun r => parse_scmd_loop env fuel olds r.1 r.2 []

/-- The `for (;;)` loop of `parse_scmd`, with the text `olds` of the command, the text at
`s`, the words `we` and the redirections read so far. -/
def parse_scmd_loop (env : ParserEnv) :
    Nat → CStr → CStr → List CStr → List REDIR → PRes (SCMD × CStr)
  | 0, _, _, _, _ => PRes.timeout
  | fuel + 1, olds, s, we, redirs =>
    if s = [] ∨ s.head?.any (fun c => decide (c ∈ SCMD_END)) then
      PRes.ok (SCMD.mk CT_END we.length (some we) none redirs
        (olds.take (olds.length - s.length)), s)
    else if s.head?.any (fun c => c = Char.ofNat 60 || c = Char.ofNat 62 || is_digit_char c) then
      (parse_redir env s).bind fun r =>
      (try_wordexp env fuel r.2 we WRDE_APPEND).bind fun r1 =>
        parse_scmd_loop env fuel olds r1.1 r1.2 (redirs ++ [r.1])
    else PRes.assert_failed "parse_scmd"

/-- The function `try_wordexp(s, p, flags)`: `wordexp` on the part of `s` before the result of
`find_end_of_command_body`. The result is the text at that position and the words. -/
def try_wordexp (env : ParserEnv) : Nat → CStr → List CStr → Nat → PRes (CStr × List CStr)
  | 0, _, _, _ => PRes.timeout
  | fuel + 1, s, p, flags =>
    (find_end_of_command_body env fuel s s).bind fun eoc =>
      let p0 := if flags &&& (WRDE_APPEND ||| WRDE_REUSE) = 0 then [] else p
      let r := env.wordexp (s.take (s.length - eoc.length)) p0 flags
      if r.1 = 0 then PRes.ok (eoc, r.2)
      else
        match wordexp_message r.1 with
        | some m => PRes.err [m]
        | none => PRes.assert_failed "try_wordexp"

/-- The loop of `find_end_of_command_body`, with the text `olds` at the start of the command
body and the text at `s`: the text at the position right after the part of the command that is
given to `wordexp`. -/
def find_end_of_command_body (env : ParserEnv) : Nat → CStr → CStr → PRes CStr
  | 0, _, _ => PRes.timeout
  | fuel + 1, olds, s0 =>
    let s := s0.drop (strcspn s0 BODY_STOP)
    match s with
    | [] => PRes.ok s
    | c :: s1 =>
      if c = Char.ofNat 36 then
        (if s1.head? = some (Char.ofNat 40) then
          (parse_commands env fuel (s1.drop 1)).bind fun r =>
            if r.2.head? ≠ some (Char.ofNat 41) then PRes.err ["invalid syntax: missing ')'"]
            else find_end_of_command_body env fuel olds (r.2.drop 1)
        else find_end_of_command_body env fuel olds s1)
      else if c = Char.ofNat 34 then
        (find_end_of_dquote env fuel s1).bind fun s2 =>
          find_end_of_command_body env fuel olds s2
      else if c = Char.ofNat 39 then
        match strchr s1 (Char.ofNat 39) with
        | none => PRes.err ["unclosed string"]
        | some k => find_end_of_command_body env fuel olds (s1.drop (k + 1))
      else if c = Char.ofNat 92 then
        match s1 with
        | [] => PRes.err ["invalid use of '\\'"]
        | _ :: s2 => find_end_of_command_body env fuel olds s2
      else if c = Char.ofNat 10 then PRes.err ["invalid newline in command"]
      else if c = Char.ofNat 60 ∨ c = Char.ofNat 62 then PRes.ok (find_start_of_number olds s)
      else PRes.ok s

/-- The loop of `find_end_of_dquote`, with the text at `s`: the text right after the double
quote that closes the string. -/
def find_end_of_dquote (env : ParserEnv) : Nat → CStr → PRes CStr
  | 0, _ => PRes.timeout
  | fuel + 1, s0 =>
    let s := s0.drop (strcspn s0 DQUOTE_STOP)
    match s with
    | [] => PRes.err ["unclosed string"]
    | c :: s1 =>
      if c = Char.ofNat 36 then
        (if s1.head? = some (Char.ofNat 40) then
          (parse_commands env fuel (s1.drop 1)).bind fun r =>
            if r.2.head? ≠ some (Char.ofNat 41) then PRes.err ["invalid syntax: missing ')'"]
            else find_end_of_dquote env fuel (r.2.drop 1)
        else find_end_of_dquote env fuel s1)
      else if c = Char.ofNat 92 then
        match s1 with
        | [] => PRes.err ["invalid use of '\\'"]
        | _ :: s2 => find_end_of_dquote env fuel s2
      else if c = Char.ofNat 34 then PRes.ok s1
      else PRes.assert_failed "find_end_of_dquote"

/-- The function `parse_subexp(s, scmd)`: commands in parentheses, executed in a subshell, and
the redirections that follow. -/
def parse_subexp (env : ParserEnv) : Nat → CStr → PRes (SCMD × CStr)
  | 0, _ => PRes.timeout
  | fuel + 1, olds =>
    match olds with
    | [] => PRes.assert_failed "parse_subexp"
    | c :: s =>
      if c ≠ Char.ofNat 40 then PRes.assert_failed "parse_subexp"
      else
        (parse_commands env fuel s).bind fun r =>
          if r.2.head? ≠ some (Char.ofNat 41) then PRes.err ["invalid syntax: missing ')'"]
          else parse_subexp_loop env fuel olds (r.2.drop 1) r.1 []

/-- The `for (;;)` loop of `parse_subexp`, with the text at `s`, the inner commands and the
redirections read so far. -/
def parse_subexp_loop (env : ParserEnv) :
    Nat → CStr → CStr → List SCMD → List REDIR → PRes (SCMD × CStr)
  | 0, _, _, _, _ => PRes.timeout
  | fuel + 1, olds, s0, innerscmds, redirs =>
    let s := s0.drop (env.skipwhites s0)
    if s.head?.any (fun c => c = Char.ofNat 60 || c = Char.ofNat 62 || is_digit_char c) then
      (parse_redir env s).bind fun r =>
        parse_subexp_loop env fuel olds r.2 innerscmds (redirs ++ [r.1])
    else
      PRes.ok (SCMD.mk CT_END innerscmds.length none (some innerscmds) redirs
        (olds.take (olds.length - s.length)), s)

end

/-- The function `parse_line(line, &result)`: the commands of `line`; the failure value -1 is
`PRes.err`. -/
def parse_line (env : ParserEnv) (fuel : Nat) (line : CStr) : PRes (List SCMD) :=
  (parse_commands env fuel line).bind fun r =>
    if r.2 ≠ [] then PRes.err ["unsupported syntax"] else PRes.ok r.1

end ParserFunctions3

/-! ## parser.c: properties of the parse result -/

mutual

/-- Exactly one of `c_argv` and `c_subcmds` is set in the command and in every command below
it, at every depth. -/
def SCMD.one_of_deep : SCMD → Prop
  | SCMD.mk _ _ argv subcmds _ _ =>
    argv.isSome ≠ subcmds.isSome ∧
      (match subcmds with
       | none => True
       | some l => SCMD.all_one_of_deep l)

/-- The property `SCMD.one_of_deep` for every command of an array. -/
def SCMD.all_one_of_deep : List SCMD → Prop
  | [] => True
  | c :: l => c.one_of_deep ∧ SCMD.all_one_of_deep l

end

/-- What a parsing function may give when every command that it returns satisfies `Q`: no
assertion of `check_parse_result` has failed. -/
def PRes.sound {α : Type} (Q : α → Prop) (r : PRes α) : Prop :=
  match r with
  | PRes.ok a => Q a
  | PRes.assert_failed f => f ≠ "check_parse_result"
  | _ => True

/-- The soundness statement for all parsing functions with the bound `fuel`. -/
def parser_sound_at (env : ParserEnv) (fuel : Nat) : Prop :=
  (∀ s, PRes.sound (fun r => SCMD.all_one_of_deep r.1 ∧ r.1 ≠ [])
    (parse_commands env fuel s)) ∧
  (∀ scmds ss, SCMD.all_one_of_deep scmds → scmds ≠ [] →
    PRes.sound (fun r => SCMD.all_one_of_deep r.1 ∧ r.1 ≠ [])
      (parse_commands_loop env fuel scmds ss)) ∧
  (∀ s, PRes.sound (fun r => r.1.one_of_deep) (parse_scmd env fuel s)) ∧
  (∀ olds s we redirs, PRes.sound (fun r => r.1.one_of_deep)
    (parse_scmd_loop env fuel olds s we redirs)) ∧
  (∀ s p flags, PRes.sound (fun _ => True) (try_wordexp env fuel s p flags)) ∧
  (∀ olds s, PRes.sound (fun _ => True) (find_end_of_command_body env fuel olds s)) ∧
  (∀ s, PRes.sound (fun _ => True) (find_end_of_dquote env fuel s)) ∧
  (∀ s, PRes.sound (fun r => r.1.one_of_deep) (parse_subexp env fuel s)) ∧
  (∀ olds s inner redirs, SCMD.all_one_of_deep inner →
    PRes.sound (fun r => r.1.one_of_deep) (parse_subexp_loop env fuel olds s inner redirs))

/-- The words of a text separated by spaces, for `plain_env`: `cur` is the word being read
and `acc` the words read so far. -/
def space_words : CStr → CStr → List CStr → List CStr
  | [], cur, acc => if cur = [] then acc else acc ++ [cur]
  | c :: s, cur, acc =>
    if c = Char.ofNat 32 then
      (if cur = [] then space_words s [] acc else space_words s [] (acc ++ [cur]))
    else space_words s (cur ++ [c]) acc

/-- A concrete environment for the examples: `skipwhites` skips spaces, no alias is defined,
`wordexp` always succeeds and gives the words separated by spaces (added to the words already
there), and no tilde expansion takes place. -/
def plain_env : ParserEnv where
  skipwhites := fun s => (s.takeWhile (fun c => c = Char.ofNat 32)).length
  expand_alias := fun s => s
  wordexp := fun s p _ => (0, p ++ space_words s [] [])
  expand_tilde := fun _ => none

/-! ## parser.c: the connector tokens of a line -/

/-- The connector tokens of a line: `;`, `&`, `|`, `&&`, `||`. -/
inductive conn_token
  | semi | amp | pipe | and_and | or_or
  deriving DecidableEq, Repr

/-- The text of a connector token. -/
def conn_token.text : conn_token → CStr
  | conn_token.semi => [Char.ofNat 59]
  | conn_token.amp => [Char.ofNat 38]
  | conn_token.pipe => [Char.ofNat 124]
  | conn_token.and_and => [Char.ofNat 38, Char.ofNat 38]
  | conn_token.or_or => [Char.ofNat 124, Char.ofNat 124]

/-- The connector that the claims give for a token: `;` sequential, `&` background, `|` pipe,
`&&` and, `||` or. -/
def conn_token.c_type : conn_token → c_type_T
  | conn_token.semi => c_type_T.CT_END
  | conn_token.amp => c_type_T.CT_BG
  | conn_token.pipe => c_type_T.CT_PIPED
  | conn_token.and_and => c_type_T.CT_AND
  | conn_token.or_or => c_type_T.CT_OR

/-- The assumptions on what is not among the sources, for the theorems on whole lines:
`skipwhites` skips only spaces and tabs, and no alias is defined (`expand_alias` gives the
text back). -/
def ParserEnv.plain (env : ParserEnv) : Prop :=
  (∀ s : CStr, ∀ c ∈ s.take (env.skipwhites s), c = Char.ofNat 32 ∨ c = Char.ofNat 9) ∧
  (∀ s, env.expand_alias s = s)

/-! ## parser.c: the redirections that `parse_redir` accepts -/

/-- The operators of `parse_redir` that are followed by a target word: `<`, `>`, `>>`, `<>`,
`<&`, `>&`. -/
def REDIR_OPS : List CStr :=
  ["<".toList, ">".toList, ">>".toList, "<>".toList, "<&".toList, ">&".toList]

/-- The operators of the grammar that close a file descriptor: `>&-` and `<&-`. -/
def REDIR_CLOSE_OPS : List CStr := [">&-".toList, "<&-".toList]

/-- The file descriptor that `parse_redir` takes for an operator that has no digits before
it: standard input for `<`, standard output for `>`. -/
def redir_default_fd (op : CStr) : Int :=
  if op.head? = some (Char.ofNat 60) then 0 else 1

/-- A run of decimal digits. -/
def is_digit_run (ds : CStr) : Prop := ∀ c ∈ ds, is_digit_char c = true

/-- A non-empty word free of metacharacters: none of the characters at which `get_token`
ends a token. -/
def target_word (w : CStr) : Prop := w ≠ [] ∧ ∀ c ∈ w, c ∉ TOKEN_END

/-- The file descriptor of a redirection written with the digits `ds` before the operator
`op`. -/
def redir_written_fd (ds op : CStr) : Int :=
  if ds = [] then redir_default_fd op else (digits_value ds : Int)

/-! ## expand.c: the operators of `expand_param` -/

/-- The type of a parameter expansion of a named parameter with the operator `mask`, with or
without the colon flag, and no other flag. -/
def pt_op (mask : paramop_T) (colon : Bool) : paramexptype_T :=
  { mask := mask, PT_COLON := colon, PT_NEST := false, PT_NUMBER := false,
    PT_MATCHHEAD := false, PT_MATCHTAIL := false, PT_MATCHLONGEST := false,
    PT_SUBSTALL := false }

/-- The branch `subst:` of `expand_param`: the word `pe_subst` is expanded by `expand_word`
with the tilde type `tt_single` into a new list, which is returned (after
`reescape_full_array` inside double quotes); null is returned when `expand_word` fails. -/
def expand_param_subst {σ : Type} (sh : Shell σ) (st : σ) (pe_subst : wordunit_T)
    (indq : Bool) : Res σ (Option (List WStr)) :=
  (expand_word sh st pe_subst tildetype_T.tt_single [] none).bind fun st2 r =>
    if r.1 = true then Res.ret st2 (some (if indq then reescape_full_array r.2.1 else r.2.1))
    else Res.ret st2 none

/-- The values of a set parameter as `expand_param` returns them when no operator replaces
them: joined into one string when `concat` is set, backslashed (all characters inside double
quotes, those of `ESCAPED_CHARS` otherwise), and the empty list in place of a single empty
string outside double quotes. -/
def param_values_escaped {σ : Type} (sh : Shell σ) (st : σ) (indq concat : Bool)
    (list : List WStr) : List WStr :=
  let joined := if concat then [joinwcsarray list (ifs_padding sh st)] else list
  let escaped := joined.map (fun s => escape s (if indq then none else some ESCAPED_CHARS))
  if indq = false ∧ escaped = [[]] then [] else escaped

/-- The branch of `expand_param` for the assign-default operator on an unset named
parameter with a valid name: `pe_subst` is expanded by `expand_single` with the tilde type
`tt_single` and unescaped, `set_variable` is called with the name and that string, and the
string is the value that goes on to the end of the function. Null is returned when
`expand_single` or `set_variable` fails. -/
def expand_param_assign {σ : Type} (sh : Shell σ) (st : σ) (pe_name : String)
    (pe_subst : wordunit_T) (indq concat : Bool) : Res σ (Option (List WStr)) :=
  (expand_single sh st pe_subst tildetype_T.tt_single).bind fun st2 subst =>
    match subst with
    | none => Res.ret st2 none
    | some subst1 =>
      match sh.set_variable st2 pe_name (unescapefree subst1) with
      | (st3, false) => Res.ret st3 none
      | (st3, true) =>
        Res.ret st3 (some (param_values_escaped sh st3 indq concat [unescapefree subst1]))

/-- The type of a parameter expansion of a nested expansion with the operator `mask`, with
or without the colon flag, and no other flag. -/
def pt_nest_op (mask : paramop_T) (colon : Bool) : paramexptype_T :=
  { mask := mask, PT_COLON := colon, PT_NEST := true, PT_NUMBER := false,
    PT_MATCHHEAD := false, PT_MATCHTAIL := false, PT_MATCHLONGEST := false,
    PT_SUBSTALL := false }

/-- A shell like `var_shell` in which a name is valid unless it is empty or starts with a
digit. -/
def ident_shell : Shell (List (String × WStr)) :=
  { var_shell false with
    is_name := fun s =>
      match s.data with
      | [] => false
      | c :: _ => !c.isDigit }

/-- A shell like `var_shell` in which every variable is read-only: `set_variable` fails and
leaves the state as it is. -/
def readonly_shell : Shell (List (String × WStr)) :=
  { var_shell false with set_variable := fun st _ _ => (st, false) }

/-- The word made of a double-quoted expansion `p`. -/
def dquoted_unit (p : paramexp_T) : wordunit_T :=
  wordunit_T.WT_STRING [DQUOTE] (wordunit_T.WT_PARAM p (wordunit_T.WT_STRING [DQUOTE] wordunit_T.NULL))

/-- The word made of the quoted empty literal followed by the unquoted expansion of the
parameter `x` without operator. -/
def empty_quote_then_param (x : String) : wordunit_T :=
  wordunit_T.WT_STRING [DQUOTE, DQUOTE] (unquoted_param x)

/-- The word made of the unquoted expansion of the parameter `x` without operator followed
by the quoted empty literal. -/
def param_then_empty_quote (x : String) : wordunit_T :=
  wordunit_T.WT_PARAM
    (paramexp_T.mk PT_PLAIN x wordunit_T.NULL wordunit_T.NULL wordunit_T.NULL)
    (wordunit_T.WT_STRING [DQUOTE, DQUOTE] wordunit_T.NULL)

/-! ## expand.c: a matcher for literal patterns -/

/-- A shell like `var_shell` whose patterns are literal: a pattern matches the text equal to
it. `wfnmatchl` gives the length of the pattern when the pattern is a prefix of the string
(for `WFNM_WHOLE`: when it is the string), `WFNM_NOMATCH` otherwise, and
`shortest_match_length` is the length of the pattern. -/
def literal_shell : Shell (List (String × WStr)) :=
  { var_shell false with
    wfnmatchl := fun pat s _ type _ =>
      match type with
      | wfnmtype.WFNM_WHOLE => if pat = s then pat.length else WFNM_NOMATCH
      | _ => if pat.isPrefixOf s then pat.length else WFNM_NOMATCH
    shortest_match_length := fun pat _ => pat.length }

/-- The string `v` with a backslash put before every character that is contained in `t`. -/
def backslashed (t : WStr) (v : WStr) : WStr :=
  v.flatMap (fun c => if c ∈ t then [BSL, c] else [c])

/-- The type of a pattern-removal expansion of a named parameter that removes the shortest
matching suffix. -/
def PT_SUFFIX_SHORTEST : paramexptype_T :=
  { mask := paramop_T.PT_MATCH, PT_COLON := false, PT_NEST := false, PT_NUMBER := false,
    PT_MATCHHEAD := false, PT_MATCHTAIL := true, PT_MATCHLONGEST := false,
    PT_SUBSTALL := false }

/-- The quote characters of a literal unit: `"`, `'` and the backslash. -/
def QUOTE_CHARS : WStr := [DQUOTE, SQUOTE, BSL]

/-- The single-literal word `~r`. -/
def tilde_word (r : WStr) : wordunit_T :=
  wordunit_T.WT_STRING (Char.ofNat 126 :: r) wordunit_T.NULL

/-- The single-literal word made of a double-quoted backslash followed by the
character `c`. -/
def dquoted_backslash (c : Char) : wordunit_T :=
  wordunit_T.WT_STRING [DQUOTE, BSL, c, DQUOTE] wordunit_T.NULL

/-- The string `s` with every occurrence of the character `c` replaced by `subst`. -/
def replace_char (c : Char) (subst s : WStr) : WStr :=
  s.flatMap (fun x => if x = c then subst else [x])

/-- The type of the substitution `${x//match/subst}` of a named parameter: every match is
replaced. -/
def PT_SUBST_ALL : paramexptype_T :=
  { mask := paramop_T.PT_SUBST, PT_COLON := false, PT_NEST := false, PT_NUMBER := false,
    PT_MATCHHEAD := false, PT_MATCHTAIL := false, PT_MATCHLONGEST := false,
    PT_SUBSTALL := true }

/-! ## expand.c: `unquote` and the quote removal of `expand_word` -/

/-- The loop of `unquote(s)`, with the text at `s`, the flag `indq` and the buffer: quotes
are removed. The first argument bounds the number of iterations; every iteration advances
`s`. The result is `none` when the assertion of `add_sq` fails. -/
def unquote_loop : Nat → WStr → Bool → WStr → Option WStr
  | 0, _, _, buf => some buf
  | _ + 1, [], _, buf => some buf
  | fuel + 1, c :: s1, indq, buf =>
    if c = SQUOTE ∧ indq = false then
      match add_sq (c :: s1) false with
      | none => none
      | some r => unquote_loop fuel (r.2.drop 1) indq (buf ++ r.1)
    else if c = DQUOTE then unquote_loop fuel s1 (!indq) buf
    else
      match s1 with
      | d :: s2 =>
        if c = BSL ∧ (indq = false ∨ d ∈ ESCAPABLE_CHARS) then
          unquote_loop fuel s2 indq (buf ++ [d])
        else unquote_loop fuel s1 indq (buf ++ [c])
      | [] => unquote_loop fuel s1 indq (buf ++ [c])

/-- The function `unquote(s)`: removes the quotes `'`, `"` and backslash. -/
def unquote (s : WStr) : Option WStr := unquote_loop (s.length + 1) s false []

/-- A literal string, read from a position inside (`true`) or outside (`false`) double
quotes, in which every single quote and double quote is closed and which does not end with a
lone backslash. -/
inductive lit_closed : Bool → WStr → Prop
  | nil : lit_closed false []
  | dquote (b : Bool) (s : WStr) : lit_closed (!b) s → lit_closed b (DQUOTE :: s)
  | squote (q s : WStr) : SQUOTE ∉ q → lit_closed false s →
      lit_closed false (SQUOTE :: (q ++ SQUOTE :: s))
  | esc_out (d : Char) (s : WStr) : lit_closed false s → lit_closed false (BSL :: d :: s)
  | esc_in (d : Char) (s : WStr) : d ∈ ESCAPABLE_CHARS → lit_closed true s →
      lit_closed true (BSL :: d :: s)
  | bsl_in (d : Char) (s : WStr) : d ∉ ESCAPABLE_CHARS → lit_closed true (d :: s) →
      lit_closed true (BSL :: d :: s)
  | plain (b : Bool) (c : Char) (s : WStr) : c ≠ DQUOTE → c ≠ BSL →
      (b = true ∨ c ≠ SQUOTE) → lit_closed b s → lit_closed b (c :: s)

/-- A piece of escaped text after which un-escaping starts afresh: it does not end inside a
backslash escape. -/
def esc_balanced (e : WStr) : Prop :=
  ∀ t : WStr, unescape (e ++ t) = unescape e ++ unescape t

/-- The single-literal word `s`. -/
def literal_word (s : WStr) : wordunit_T := wordunit_T.WT_STRING s wordunit_T.NULL

/-! ## parser.c: the characters at which a command body ends -/

section ParserBodyEnd

open c_type_T check_T

/-- The characters other than `<`, `>` and the end of the text at which
`find_end_of_command_body` returns: `|`, `&`, `;`, `(`, `)` and `#`. -/
def BODY_END_CHARS : CStr :=
  [Char.ofNat 124, Char.ofNat 38, Char.ofNat 59, Char.ofNat 40, Char.ofNat 41, Char.ofNat 35]

/-- A position at which a command body may end: the end of the text, one of the characters
`|`, `&`, `;`, `(`, `)`, `#`, or a (possibly empty) run of digits immediately followed by `<`
or `>`. -/
def body_end (r : CStr) : Prop :=
  r = [] ∨ (∃ c t, r = c :: t ∧ c ∈ BODY_END_CHARS) ∨
    (∃ ds c t, r = ds ++ c :: t ∧ is_digit_run ds ∧ (c = Char.ofNat 60 ∨ c = Char.ofNat 62))

/-- What a parsing function may give when every result satisfies `Q`: the assertion of the
`default` branch of `parse_scmd` has not failed. -/
def PRes.reach {α : Type} (Q : α → Prop) (r : PRes α) : Prop :=
  match r with
  | PRes.ok a => Q a
  | PRes.assert_failed f => f ≠ "parse_scmd"
  | _ => True

/-- The statement for all parsing functions with the bound `fuel`: the text that remains is
a suffix of the text given, a command body ends at a position of `body_end`, and the
assertion of the `default` branch of `parse_scmd` does not fail. -/
def parser_reach_at (env : ParserEnv) (fuel : Nat) : Prop :=
  (∀ s, PRes.reach (fun r => r.2 <:+ s) (parse_commands env fuel s)) ∧
  (∀ scmds ss, PRes.reach (fun r => r.2 <:+ ss) (parse_commands_loop env fuel scmds ss)) ∧
  (∀ s, PRes.reach (fun r => r.2 <:+ s) (parse_scmd env fuel s)) ∧
  (∀ olds s we redirs, body_end s →
    PRes.reach (fun r => r.2 <:+ s) (parse_scmd_loop env fuel olds s we redirs)) ∧
  (∀ s p flags, PRes.reach (fun r => r.1 <:+ s ∧ body_end r.1)
    (try_wordexp env fuel s p flags)) ∧
  (∀ olds s, s <:+ olds → PRes.reach (fun r => r <:+ olds ∧ body_end r)
    (find_end_of_command_body env fuel olds s)) ∧
  (∀ s, PRes.reach (fun r => r <:+ s) (find_end_of_dquote env fuel s)) ∧
  (∀ s, PRes.reach (fun r => r.2 <:+ s) (parse_subexp env fuel s)) ∧
  (∀ olds s inner redirs,
    PRes.reach (fun r => r.2 <:+ s) (parse_subexp_loop env fuel olds s inner redirs))

end ParserBodyEnd

/-! ## expand.c: termination of brace expansion -/

/-- A bound on the recursion of `expand_brace` that suffices for a word of length `n`: every
jump to `start` moves the scan to the right in the same word, every recursive call is on a
shorter word. -/
def brace_fuel : Nat → Nat
  | 0 => 1
  | n + 1 => brace_fuel n + n + 2

/-- The values that the loop of `tryexpand_brace_sequence` takes: those between `start` and
`e`, in either order. -/
def in_seq_range (start e value : Int) : Prop :=
  (start ≤ value ∧ value ≤ e) ∨ (e ≤ value ∧ value ≤ start)

/-- The lists `r` are the lists `vl` and `sl` with words and splittability strings added that
satisfy `P` pair by pair. -/
def brace_outputs (P : WStr → List Nat → Prop) (vl : List WStr) (sl : List (List Nat))
    (r : List WStr × List (List Nat)) : Prop :=
  ∃ vs ss, r = (vl ++ vs, sl ++ ss) ∧ List.Forall₂ P vs ss

/-- A word that brace expansion leaves as it is: `expand_brace` adds the word alone, for
every bound on the recursion above the length of the word. -/
def brace_fixed (w : WStr) (s : List Nat) : Prop :=
  ∀ (F : Nat) (v : List WStr) (l : List (List Nat)), w.length < F →
    expand_brace F w s v l = some (v ++ [w], l ++ [s])

/-- The scan of `expand_brace` that starts at the head of the word reaches the offset `c`
after `k` jumps to `start`. -/
def brace_resumes (word : WStr) (split : List Nat) (c k : Nat) : Prop :=
  ∀ (f : Nat) (v : List WStr) (l : List (List Nat)),
    expand_brace_from (f + k) word split 0 v l = expand_brace_from f word split c v l

/-- Whether `wcstol` with base 0 reads a literal with its decimal value: the literal is written
without a leading zero, or its value is below 8, where base 8 and base 10 agree. -/
def read_as_decimal (L : WStr) : Bool :=
  !written_zero L || decide (decimal_value (literal_digits L) < 8)

section ParserTexts

open c_type_T check_T

/-! ## parser.c: the texts of commands (C15, C17) -/

/-- The dollar sign. -/
def DOLLAR : Char := Char.ofNat 36

/-- The opening parenthesis. -/
def LPAREN : Char := Char.ofNat 40

/-- The closing parenthesis. -/
def RPAREN : Char := Char.ofNat 41

/-- The number sign, which starts a comment. -/
def HASH : Char := Char.ofNat 35

/-- The characters at which `parse_commands` ends or goes on to the next command: `;`, `&`,
`|`, `)` and `#`. -/
def CMD_STOP : CStr :=
  [Char.ofNat 59, Char.ofNat 38, Char.ofNat 124, Char.ofNat 41, Char.ofNat 35]

/-- What an outcome of the parser is allowed to be: a result that satisfies `Q` or the failure
value; running out of the bound only when `T` holds, a failed assertion only when `A` holds and
the read outside the array of `check_parse_result` only when `U` holds. -/
def PRes.gives {α : Type} (T A U : Prop) (Q : α → Prop) (r : PRes α) : Prop :=
  match r with
  | PRes.ok a => Q a
  | PRes.err _ => True
  | PRes.assert_failed _ => A
  | PRes.undefined => U
  | PRes.timeout => T

/-- The content of a closed double-quoted string, with `N` the texts of the command
substitutions in it: characters other than `$`, backslash and `"`, backslash pairs, a `$` that
no parenthesis follows, and command substitutions `$(...)`. -/
inductive dq_text (N : CStr → Prop) : CStr → Prop
  | nil : dq_text N []
  | plain (c : Char) (q : CStr) : c ∉ DQUOTE_STOP → dq_text N q → dq_text N (c :: q)
  | esc (x : Char) (q : CStr) : dq_text N q → dq_text N (BSL :: x :: q)
  | dollar (q : CStr) : q.head? ≠ some LPAREN → dq_text N q → dq_text N (DOLLAR :: q)
  | subst (inner q : CStr) : N inner → dq_text N q →
      dq_text N (DOLLAR :: LPAREN :: (inner ++ RPAREN :: q))

/-- The words of a simple command, outside any redirection: plain characters, backslash pairs,
closed single-quoted and double-quoted strings, a `$` that no parenthesis follows, and command
substitutions `$(...)` whose texts satisfy `N`. No connector, parenthesis, redirection
operator, newline or `#` stands outside the quotes and substitutions. -/
inductive word_text (N : CStr → Prop) : CStr → Prop
  | nil : word_text N []
  | plain (c : Char) (t : CStr) : c ∉ BODY_STOP → word_text N t → word_text N (c :: t)
  | esc (x : Char) (t : CStr) : word_text N t → word_text N (BSL :: x :: t)
  | squote (q t : CStr) : SQUOTE ∉ q → word_text N t →
      word_text N (SQUOTE :: (q ++ SQUOTE :: t))
  | dquote (q t : CStr) : dq_text N q → word_text N t →
      word_text N (DQUOTE :: (q ++ DQUOTE :: t))
  | dollar (t : CStr) : t.head? ≠ some LPAREN → word_text N t → word_text N (DOLLAR :: t)
  | subst (inner t : CStr) : N inner → word_text N t →
      word_text N (DOLLAR :: LPAREN :: (inner ++ RPAREN :: t))

/-- Whether a character is a space or a tab. -/
def is_blank (c : Char) : Prop := c = Char.ofNat 32 ∨ c = Char.ofNat 9

/-- What may follow the target of a redirection that is written without quotes: the end of the
text or a character at which `get_token` ends a token. -/
def token_end (t : CStr) : Prop := t = [] ∨ ∃ c u, t = c :: u ∧ c ∈ TOKEN_END

/-- The operators of `parse_redir` that are followed by a target: those of `REDIR_OPS` and
`<>&`. -/
def REDIR_TARGET_OPS : List CStr := REDIR_OPS ++ ["<>&".toList]

/-- The operators of `parse_redir` that copy a file descriptor: `<&`, `>&` and `<>&`. -/
def REDIR_COPY_OPS : List CStr := ["<&".toList, ">&".toList, "<>&".toList]

/-- A redirection without its file descriptor. Either an operator among `<`, `>`, `>>`, `<>`,
`<&`, `>&`, `<>&`, spaces, and the target, which is a word free of metacharacters (`closed` is
false) or a string between two double quotes or two single quotes (`closed` is true; the
string is not empty after an operator that copies a file descriptor); or the operator `><`,
which has no target (`closed` is true). -/
def redir_item (R : CStr) (closed : Bool) : Prop :=
  (∃ op sp tgt, R = op ++ (sp ++ tgt) ∧ op ∈ REDIR_TARGET_OPS ∧
    (∀ c ∈ sp, c = Char.ofNat 32) ∧
    ((closed = false ∧ target_word tgt) ∨
      (closed = true ∧ ∃ qc q, (qc = DQUOTE ∨ qc = SQUOTE) ∧ qc ∉ q ∧
        (op ∈ REDIR_COPY_OPS → q ≠ []) ∧ tgt = qc :: (q ++ [qc])))) ∨
  (closed = true ∧ R = [Char.ofNat 62, Char.ofNat 60])

/-- The text of a simple command: words and redirections. The file descriptor of a
redirection is the run of digits that ends the words before it. After a target that is
written without quotes the text ends or a character follows at which `get_token` ends a
token. -/
inductive simple_text (N : CStr → Prop) : CStr → Prop
  | word (w : CStr) : word_text N w → simple_text N w
  | redir (w R t : CStr) (closed : Bool) : word_text N w → redir_item R closed →
      (closed = false → token_end t) → simple_text N t → simple_text N (w ++ (R ++ t))

/-- What follows the closing parenthesis of a group: blanks and redirections, each with its
file descriptor `ds`. -/
inductive group_tail : CStr → Prop
  | nil : group_tail []
  | blank (c : Char) (t : CStr) : is_blank c → group_tail t → group_tail (c :: t)
  | redir (ds R t : CStr) (closed : Bool) : is_digit_run ds → redir_item R closed →
      (closed = false → token_end t) → group_tail t → group_tail (ds ++ (R ++ t))

/-- The text of a group: blanks, the commands `inner` in parentheses, and what follows. -/
def group_text (N : CStr → Prop) (b : CStr) : Prop :=
  ∃ bl inner gt, b = bl ++ LPAREN :: (inner ++ RPAREN :: gt) ∧ (∀ c ∈ bl, is_blank c) ∧
    N inner ∧ group_tail gt

/-- The text of one command: a simple command or a group. -/
def cmd_text (N : CStr → Prop) (b : CStr) : Prop := simple_text N b ∨ group_text N b

/-- Commands joined by the connector tokens `toks`, which are the tokens at the top level:
outside every quote, backslash pair, substitution and group. After a single `&` no `&` follows
and after a single `|` no `|`, so that the token is the one that is read. -/
inductive cmds_text (N : CStr → Prop) : List conn_token → CStr → Prop
  | one (b : CStr) : cmd_text N b → cmds_text N [] b
  | cons (b : CStr) (tok : conn_token) (toks : List conn_token) (rest : CStr) :
      cmd_text N b → (tok = conn_token.amp → rest.head? ≠ some (Char.ofNat 38)) →
      (tok = conn_token.pipe → rest.head? ≠ some (Char.ofNat 124)) →
      cmds_text N toks rest → cmds_text N (tok :: toks) (b ++ (tok.text ++ rest))

/-- The texts of commands with substitutions and groups nested at most `d` deep. -/
def nested : Nat → CStr → Prop
  | 0 => fun _ => False
  | d + 1 => fun s => ∃ toks, cmds_text (nested d) toks s

/-- Whether a text is empty or starts with one of `;`, `&`, `|`, `)` and `#`. -/
def cmd_stop (rest : CStr) : Prop := rest = [] ∨ ∃ c t, rest = c :: t ∧ c ∈ CMD_STOP

/-- A text at whose head the loop of `parse_commands` reports `unsupported syntax`. -/
def bad_head (x : CStr) : Prop := ∃ c t, x = c :: t ∧ c ∉ CMD_STOP

/-- In a text, every run of digits that stands right before `<` or `>` is a number that fits
the type `int`, unless `A` holds. -/
def fd_ok (A : Prop) (text : CStr) : Prop :=
  ∀ pre ds c t, text = pre ++ (ds ++ c :: t) → is_digit_run ds →
    (c = Char.ofNat 60 ∨ c = Char.ofNat 62) → (digits_value ds : Int) ≤ INT_MAX ∨ A

/-- The nested texts `N` are read by `parse_commands` up to the closing parenthesis that
follows them. -/
def nested_reads (env : ParserEnv) (N : CStr → Prop) (A U : Prop) : Prop :=
  ∀ inner, N inner → ∀ (more : CStr) (fuel : Nat), fd_ok A (inner ++ RPAREN :: more) →
    PRes.gives (fuel < 4 * inner.length + 8) A U (fun r => r.2 = RPAREN :: more)
      (parse_commands env fuel (inner ++ RPAREN :: more))

/-- The end of the text that `parse_commands` reads and what remains after it: the end of
input, a closing parenthesis (which remains), or a comment (of which nothing remains). -/
def line_end (fin out : CStr) : Prop :=
  (fin = [] ∧ out = []) ∨ (∃ more, fin = RPAREN :: more ∧ out = fin) ∨
    (∃ cm, fin = HASH :: cm ∧ out = [])

/-- What the parsing functions have read when they give a result, with the bound `fuel` on the
recursion: the text read is a text of the grammar, with substitutions and groups nested at
most `fuel` deep. -/
def parser_back_at (env : ParserEnv) (fuel : Nat) : Prop :=
  (∀ s r, parse_commands env fuel s = PRes.ok r →
    ∃ toks text fin, s = text ++ fin ∧ line_end fin r.2 ∧
      cmds_text (nested fuel) toks text) ∧
  (∀ scmds ss r, parse_commands_loop env fuel scmds ss = PRes.ok r →
    ∃ fin, line_end fin r.2 ∧
      (ss = fin ∨ ∃ tok toks rest, ss = tok.text ++ (rest ++ fin) ∧
        cmds_text (nested fuel) toks rest ∧
        (tok = conn_token.amp → rest.head? ≠ some (Char.ofNat 38)) ∧
        (tok = conn_token.pipe → rest.head? ≠ some (Char.ofNat 124)))) ∧
  (∀ s r, parse_scmd env fuel s = PRes.ok r →
    ∃ b, s = b ++ r.2 ∧ cmd_text (nested fuel) b) ∧
  (∀ olds s we redirs r, parse_scmd_loop env fuel olds s we redirs = PRes.ok r →
    (s = r.2 ∧ (s = [] ∨ s.head?.any (fun c => decide (c ∈ SCMD_END)) = true)) ∨
      ∃ ds R closed t, s = ds ++ (R ++ (t ++ r.2)) ∧ is_digit_run ds ∧ redir_item R closed ∧
        (closed = false → token_end t) ∧ simple_text (nested fuel) t) ∧
  (∀ s p flags r, try_wordexp env fuel s p flags = PRes.ok r →
    ∃ w e1, s = w ++ e1 ∧ word_text (nested fuel) w ∧
      (r.1 = e1 ∨ ∃ c t, e1 = c :: t ∧ (c = Char.ofNat 60 ∨ c = Char.ofNat 62) ∧
        r.1 = find_start_of_number s e1)) ∧
  (∀ olds s e, find_end_of_command_body env fuel olds s = PRes.ok e →
    ∃ w e1, s = w ++ e1 ∧ word_text (nested fuel) w ∧
      (e = e1 ∨ ∃ c t, e1 = c :: t ∧ (c = Char.ofNat 60 ∨ c = Char.ofNat 62) ∧
        e = find_start_of_number olds e1)) ∧
  (∀ s e, find_end_of_dquote env fuel s = PRes.ok e →
    ∃ q, s = q ++ DQUOTE :: e ∧ dq_text (nested fuel) q) ∧
  (∀ s r, parse_subexp env fuel s = PRes.ok r →
    ∃ inner gt, s = LPAREN :: (inner ++ RPAREN :: (gt ++ r.2)) ∧ nested fuel inner ∧
      group_tail gt) ∧
  (∀ olds s inner redirs r, parse_subexp_loop env fuel olds s inner redirs = PRes.ok r →
    ∃ gt, s = gt ++ r.2 ∧ group_tail gt)

/-- Whether an outcome is a result. -/
def PRes.is_ok {α : Type} (r : PRes α) : Bool :=
  match r with
  | PRes.ok _ => true
  | _ => false

end ParserTexts

theorem unescape_cons_ne (c : Char) (s : WStr) (h : c ≠ BSL) :
    unescape (c :: s) = c :: unescape s := by
  rw [unescape.eq_def]; simp only [if_neg h]

theorem unescape_bsl_cons (d : Char) (s : WStr) :
    unescape (BSL :: d :: s) = d :: unescape s := by
  rw [unescape.eq_def]; simp only [if_pos]

theorem escape_none_cons (c : Char) (s : WStr) :
    escape (c :: s) none = BSL :: c :: escape s none := rfl

theorem escape_some_cons (c : Char) (s t : WStr) :
    escape (c :: s) (some t) =
      if c ∈ t then BSL :: c :: escape s (some t) else c :: escape s (some t) := rfl

/-- C7: quote removal reverses the pre-emptive escaping: for every wide string `s`,
`unescape (escape s ESCAPED_CHARS) = s`, and `unescape (escape s NULL) = s` where the null
set backslashes every character. -/
theorem unescape_escape (s : WStr) :
    unescape (escape s (some ESCAPED_CHARS)) = s ∧ unescape (escape s none) = s := by
  constructor
  · induction s with
    | nil => rfl
    | cons c s ih =>
      by_cases hc : c ∈ ESCAPED_CHARS
      · rw [escape_some_cons, if_pos hc, unescape_bsl_cons, ih]
      · have hb : c ≠ BSL := by
          intro h
          apply hc
          simp [h, ESCAPED_CHARS]
        rw [escape_some_cons, if_neg hc, unescape_cons_ne c _ hb, ih]
  · induction s with
    | nil => rfl
    | cons c s ih => rw [escape_none_cons, unescape_bsl_cons, ih]

/-! ## What `wcstol` reads -/

theorem skip_wspace_take (s : WStr) : ∀ c ∈ s.take (skip_wspace s), numchar c = true := by
  induction s with
  | nil => intro c hc; simp [skip_wspace] at hc
  | cons a s ih =>
    intro c hc
    by_cases ha : iswspace a = true
    · simp only [skip_wspace, ha, if_true, List.take_succ_cons, List.mem_cons] at hc
      rcases hc with rfl | hc
      · simp [numchar, ha]
      · exact ih c hc
    · simp [skip_wspace, ha] at hc

theorem wcstol_digits_take (base : Nat) (s : WStr) :
    ∀ acc n, ∃ k, (wcstol_digits base s acc n).2 = n + k ∧ ∀ c ∈ s.take k, numchar c = true := by
  induction s with
  | nil => intro acc n; exact ⟨0, by simp [wcstol_digits], by simp⟩
  | cons a s ih =>
    intro acc n
    cases hd : wdigit a with
    | none => exact ⟨0, by simp [wcstol_digits, hd], by simp⟩
    | some d =>
      by_cases hb : d < base
      · obtain ⟨k, hk, hall⟩ := ih (acc * base + d) (n + 1)
        refine ⟨k + 1, ?_, ?_⟩
        · simp only [wcstol_digits, hd, hb, if_true, hk]; omega
        · intro c hc
          simp only [List.take_succ_cons, List.mem_cons] at hc
          rcases hc with rfl | hc
          · simp [numchar, hd]
          · exact hall c hc
      · exact ⟨0, by simp [wcstol_digits, hd, hb], by simp⟩

theorem wcstol_sign_take (s : WStr) : ∀ c ∈ s.take (wcstol_sign s), numchar c = true := by
  intro c hc
  cases s with
  | nil => simp at hc
  | cons a t =>
    unfold wcstol_sign at hc
    split at hc
    · rename_i h
      simp only [List.head?_cons, Option.some.injEq] at h
      simp only [List.take_succ_cons, List.take_zero, List.mem_singleton] at hc
      subst hc
      rcases h with h | h <;> simp [numchar, h]
    · simp at hc

theorem wcstol_hex_take (s : WStr) (h : wcstol_hex s = true) :
    ∀ c ∈ s.take 2, numchar c = true := by
  intro c hc
  match s, h, hc with
  | [], h, _ => simp [wcstol_hex] at h
  | [a], h, _ => simp [wcstol_hex] at h
  | a :: b :: t, h, hc =>
    simp only [wcstol_hex, List.head?_cons, Option.some.injEq, List.drop_succ_cons, List.drop_zero,
      Bool.and_eq_true, Bool.or_eq_true, decide_eq_true_eq] at h
    simp only [List.take_succ_cons, List.take_zero, List.mem_cons, List.mem_singleton,
      List.not_mem_nil, or_false] at hc
    rcases hc with rfl | rfl
    · rw [h.1.1]; decide
    · rcases h.1.2 with h2 | h2 <;> (rw [h2]; decide)

theorem wcstol_finish_consumed (neg : Bool) (n : Nat) (r : Nat × Nat) :
    (wcstol_finish neg n r).2.1 = 0 ∨ (wcstol_finish neg n r).2.1 = n + r.2 := by
  unfold wcstol_finish
  split
  · left; rfl
  · right
    simp only
    split_ifs <;> rfl

theorem wcstol_take (s : WStr) : ∀ c ∈ s.take (wcstol s).2.1, numchar c = true := by
  intro c hc
  unfold wcstol at hc
  simp only at hc
  rcases wcstol_finish_consumed
    (decide ((s.drop (skip_wspace s)).head? = some (Char.ofNat 45)))
    (skip_wspace s + wcstol_sign (s.drop (skip_wspace s)) +
      (if wcstol_hex ((s.drop (skip_wspace s)).drop (wcstol_sign (s.drop (skip_wspace s))))
        then 2 else 0))
    (wcstol_digits
      (if wcstol_hex ((s.drop (skip_wspace s)).drop (wcstol_sign (s.drop (skip_wspace s))))
        then 16
       else if ((s.drop (skip_wspace s)).drop (wcstol_sign (s.drop (skip_wspace s)))).head?
          = some (Char.ofNat 48) then 8 else 10)
      (((s.drop (skip_wspace s)).drop (wcstol_sign (s.drop (skip_wspace s)))).drop
        (if wcstol_hex ((s.drop (skip_wspace s)).drop (wcstol_sign (s.drop (skip_wspace s))))
          then 2 else 0)) 0 0) with h | h
  · rw [h] at hc; simp at hc
  · rw [h] at hc
    clear h
    obtain ⟨k, hk, hall⟩ := wcstol_digits_take
      (if wcstol_hex ((s.drop (skip_wspace s)).drop (wcstol_sign (s.drop (skip_wspace s))))
        then 16
       else if ((s.drop (skip_wspace s)).drop (wcstol_sign (s.drop (skip_wspace s)))).head?
          = some (Char.ofNat 48) then 8 else 10)
      (((s.drop (skip_wspace s)).drop (wcstol_sign (s.drop (skip_wspace s)))).drop
        (if wcstol_hex ((s.drop (skip_wspace s)).drop (wcstol_sign (s.drop (skip_wspace s))))
          then 2 else 0)) 0 0
    rw [hk, Nat.zero_add, List.take_add, List.take_add, List.take_add] at hc
    simp only [List.mem_append] at hc
    rcases hc with ((hc | hc) | hc) | hc
    · exact skip_wspace_take s c hc
    · exact wcstol_sign_take _ c hc
    · split at hc
      · rename_i hx
        rw [List.drop_drop] at hx
        exact wcstol_hex_take _ hx c (by simpa [List.drop_drop] using hc)
      · simp at hc
    · exact hall c (by simpa [List.drop_drop] using hc)

theorem wcschr_some (s : WStr) (c : Char) :
    ∀ k, wcschr s c = some k → ∃ post, s = s.take k ++ c :: post ∧ (s.take k).length = k := by
  induction s with
  | nil => intro k h; simp [wcschr] at h
  | cons a s ih =>
    intro k h
    by_cases ha : a = c
    · simp [wcschr, ha] at h
      subst h
      exact ⟨s, by simp [ha], by simp⟩
    · simp only [wcschr, ha, if_false, Option.map_eq_some'] at h
      obtain ⟨k1, hk1, rfl⟩ := h
      obtain ⟨post, hp, hl⟩ := ih k1 hk1
      refine ⟨post, ?_, ?_⟩
      · simp only [List.take_succ_cons, List.cons_append]
        rw [← hp]
      · simp [hl]

theorem getElem?_drop_add (s : WStr) (i j : Nat) : (s.drop i)[j]? = s[i + j]? := by
  simp [List.getElem?_drop]

theorem drop_append_cons2 (N : WStr) (a b : Char) (r : WStr) (k : Nat) (hk : N.length = k) :
    (N ++ a :: b :: r).drop (k + 2) = r := by
  subst hk
  rw [List.drop_append_eq_append_drop]
  simp

/-- When `tryexpand_brace_sequence` does not return false, the text after the opening brace
is two numerals joined by two full stops and followed by a closing brace. -/
theorem tryexpand_brace_sequence_shape
    (rec : WStr → List Nat → List WStr → List (List Nat) → Option (List WStr × List (List Nat)))
    (word : WStr) (split : List Nat) (startc : Nat)
    (valuelist : List WStr) (splitlist : List (List Nat))
    (hL : word[startc - 1]? = some LBRACE)
    (h : tryexpand_brace_sequence rec word split startc valuelist splitlist ≠ some none) :
    ∃ N1 N2 tail, word.drop startc = N1 ++ DOT :: DOT :: (N2 ++ RBRACE :: tail) ∧
      (∀ c ∈ N1, numchar c = true) ∧ (∀ c ∈ N2, numchar c = true) := by
  unfold tryexpand_brace_sequence at h
  rw [if_neg (by simpa using hL)] at h
  cases hd : wcschr (word.drop startc) DOT with
  | none => simp [hd] at h
  | some dotoff =>
    simp only [hd] at h
    by_cases h0 : dotoff = 0
    · simp [h0] at h
    · rw [if_neg h0] at h
      by_cases h1 : (wcstol (word.drop startc)).2.2 = true ∨
          (wcstol (word.drop startc)).2.1 ≠ dotoff ∨ word[startc + dotoff + 1]? ≠ some DOT
      · rw [if_pos h1] at h
        exact absurd rfl h
      · rw [if_neg h1] at h
        simp only [not_or, not_not, ne_eq] at h1
        obtain ⟨-, h1b, h1c⟩ := h1
        cases hb : wcschr (word.drop (startc + dotoff + 2)) RBRACE with
        | none => simp [hb] at h
        | some braceoff =>
          simp only [hb] at h
          by_cases hb0 : braceoff = 0
          · simp [hb0] at h
          · rw [if_neg hb0] at h
            by_cases h2 : (wcstol (word.drop (startc + dotoff + 2))).2.2 = true ∨
                (wcstol (word.drop (startc + dotoff + 2))).2.1 ≠ braceoff
            · rw [if_pos h2] at h
              exact absurd rfl h
            · simp only [not_or, not_not, ne_eq] at h2
              obtain ⟨-, h2b⟩ := h2
              obtain ⟨post, hp, hl⟩ := wcschr_some _ _ _ hd
              obtain ⟨tail, hp2, hl2⟩ := wcschr_some _ _ _ hb
              have e1 : (word.drop startc)[dotoff + 1]? = some DOT := by
                rw [getElem?_drop_add, ← Nat.add_assoc]; exact h1c
              have e2 : post[0]? = some DOT := by
                rw [hp] at e1
                rw [List.getElem?_append_right (by omega)] at e1
                simpa [hl] using e1
              obtain ⟨post1, rfl⟩ : ∃ post1, post = DOT :: post1 := by
                cases post with
                | nil => simp at e2
                | cons a t => simp at e2; exact ⟨t, by rw [e2]⟩
              have e3 : word.drop (startc + dotoff + 2) = post1 := by
                have : word.drop (startc + dotoff + 2) = (word.drop startc).drop (dotoff + 2) := by
                  rw [List.drop_drop]; congr 1
                rw [this, hp]
                exact drop_append_cons2 _ _ _ _ _ hl
              rw [e3] at hp2 hl2 h2b
              refine ⟨(word.drop startc).take dotoff, post1.take braceoff, tail, ?_, ?_, ?_⟩
              · rw [← hp2]; exact hp
              · intro c hc
                rw [← h1b] at hc
                exact wcstol_take _ c hc
              · intro c hc
                rw [← h2b] at hc
                exact wcstol_take _ c hc

/-! ## Brace expansion -/

theorem escaped_wcspbrk_cons_ne (c : Char) (t accept : WStr) (h : c ≠ BSL) :
    escaped_wcspbrk (c :: t) accept =
      if c ∈ accept then some 0 else (escaped_wcspbrk t accept).map (fun k => k + 1) := by
  cases t with
  | nil => simp [escaped_wcspbrk, h]
  | cons d s => simp [escaped_wcspbrk, h]

theorem escaped_wcspbrk_bsl_cons (d : Char) (s accept : WStr) :
    escaped_wcspbrk (BSL :: d :: s) accept = (escaped_wcspbrk s accept).map (fun k => k + 2) := by
  simp [escaped_wcspbrk]

theorem unescaped_chars_cons_ne (c : Char) (t : WStr) (h : c ≠ BSL) :
    unescaped_chars (c :: t) = c :: unescaped_chars t := by
  cases t with
  | nil => simp [unescaped_chars, h]
  | cons d s => simp [unescaped_chars, h]

theorem escaped_wcspbrk_none_aux (accept : WStr) (n : Nat) :
    ∀ w : WStr, w.length ≤ n → (∀ c ∈ unescaped_chars w, c ∉ accept) →
      escaped_wcspbrk w accept = none := by
  induction n with
  | zero =>
    intro w hw _
    have : w = [] := List.length_eq_zero.mp (Nat.le_zero.mp hw)
    subst this
    rfl
  | succ n ih =>
    intro w hw h
    match w, hw, h with
    | [], _, _ => rfl
    | [c], _, h =>
      by_cases hc : c = BSL
      · simp [escaped_wcspbrk, hc]
      · have := h c (by simp [unescaped_chars, hc])
        simp [escaped_wcspbrk, hc, this]
    | c :: d :: s, hw, h =>
      by_cases hc : c = BSL
      · subst hc
        rw [escaped_wcspbrk_bsl_cons, ih s (by simp at hw; omega)]
        · rfl
        · intro x hx
          exact h x (by simpa [unescaped_chars] using hx)
      · rw [escaped_wcspbrk_cons_ne c _ _ hc]
        rw [unescaped_chars_cons_ne c _ hc] at h
        have h1 := h c (by simp)
        rw [if_neg h1, ih (d :: s) (by simp at hw ⊢; omega)]
        · rfl
        · intro x hx
          exact h x (by simp [hx])

theorem escaped_wcspbrk_none (accept w : WStr) (h : ∀ c ∈ unescaped_chars w, c ∉ accept) :
    escaped_wcspbrk w accept = none :=
  escaped_wcspbrk_none_aux accept w.length w (le_refl _) h

/-- C8: for every word `w` and splittability string `split` (of the same length or not) such
that `w` contains no opening brace outside a backslash-escaped pair, `expand_brace` adds
exactly one entry to the value list and one to the splittability list, and they are `w` and
`split` unchanged. -/
theorem expand_brace_no_brace (fuel : Nat) (w : WStr) (split : List Nat)
    (valuelist : List WStr) (splitlist : List (List Nat))
    (h : LBRACE ∉ unescaped_chars w) :
    expand_brace (fuel + 1) w split valuelist splitlist =
      some (valuelist ++ [w], splitlist ++ [split]) := by
  have h1 : escaped_wcspbrk w [LBRACE] = none := by
    apply escaped_wcspbrk_none
    intro c hc hm
    rw [List.mem_singleton] at hm
    subst hm
    exact h hc
  simp [expand_brace, expand_brace_from, h1]

/-- Witness of C8 on the word `a\{b`, whose only brace is backslash-escaped. -/
theorem expand_brace_no_brace_witness :
    LBRACE ∉ unescaped_chars [Char.ofNat 97, BSL, LBRACE, Char.ofNat 98] ∧
    expand_brace (0 + 1) [Char.ofNat 97, BSL, LBRACE, Char.ofNat 98] [0, 0, 0, 0] [] [] =
      some ([] ++ [[Char.ofNat 97, BSL, LBRACE, Char.ofNat 98]], [] ++ [[0, 0, 0, 0]]) :=
  ⟨by decide, expand_brace_no_brace 0 _ _ _ _ (by decide)⟩

theorem first_sep_unique (P : Char → Bool) :
    ∀ (A A1 B B1 : WStr) (x y : Char), A ++ x :: B = A1 ++ y :: B1 →
      (∀ c ∈ A, P c = false) → (∀ c ∈ A1, P c = false) → P x = true → P y = true →
      A = A1 ∧ x = y ∧ B = B1 := by
  intro A
  induction A with
  | nil =>
    intro A1 B B1 x y h _ hA1 hx _
    cases A1 with
    | nil => simp at h; exact ⟨rfl, h.1, h.2⟩
    | cons a t =>
      simp at h
      have := hA1 a (by simp)
      rw [← h.1, hx] at this
      exact absurd this (by simp)
  | cons a A ih =>
    intro A1 B B1 x y h hA hA1 hx hy
    cases A1 with
    | nil =>
      simp at h
      have := hA a (by simp)
      rw [h.1, hy] at this
      exact absurd this (by simp)
    | cons a1 t =>
      simp at h
      obtain ⟨h1, h2, h3⟩ := ih t B B1 x y h.2 (fun c hc => hA c (by simp [hc]))
        (fun c hc => hA1 c (by simp [hc])) hx hy
      exact ⟨by rw [h.1, h1], h2, h3⟩

theorem numchar_not_sep (c : Char) (h : numchar c = true) : is_sep c = false := by
  by_cases h1 : c = COMMA
  · subst h1; revert h; decide
  · by_cases h2 : c = RBRACE
    · subst h2; revert h; decide
    · simp [is_sep, h1, h2]

/-- `tryexpand_brace_sequence` returns false when the first comma or closing brace after the
opening brace is a comma, or is a closing brace that no two adjacent full stops precede. -/
theorem tryexpand_brace_sequence_false
    (rec : WStr → List Nat → List WStr → List (List Nat) → Option (List WStr × List (List Nat)))
    (word : WStr) (split : List Nat) (startc : Nat)
    (valuelist : List WStr) (splitlist : List (List Nat)) (u v : WStr) (x : Char)
    (hL : word[startc - 1]? = some LBRACE)
    (hw : word.drop startc = u ++ x :: v)
    (hu : ∀ c ∈ u, is_sep c = false)
    (hx : x = COMMA ∨ (x = RBRACE ∧ ¬ [DOT, DOT] <:+: u)) :
    tryexpand_brace_sequence rec word split startc valuelist splitlist = some none := by
  by_contra h
  obtain ⟨N1, N2, tail, hs, hN1, hN2⟩ :=
    tryexpand_brace_sequence_shape rec word split startc valuelist splitlist hL h
  rw [hw] at hs
  have hs1 : u ++ x :: v = (N1 ++ DOT :: DOT :: N2) ++ RBRACE :: tail := by
    rw [hs]; simp
  have hN : ∀ c ∈ N1 ++ DOT :: DOT :: N2, is_sep c = false := by
    intro c hc
    simp only [List.mem_append, List.mem_cons] at hc
    rcases hc with hc | rfl | rfl | hc
    · exact numchar_not_sep c (hN1 c hc)
    · decide
    · decide
    · exact numchar_not_sep c (hN2 c hc)
  have hxs : is_sep x = true := by
    rcases hx with rfl | ⟨rfl, -⟩ <;> decide
  obtain ⟨e1, e2, -⟩ := first_sep_unique is_sep u _ v tail x RBRACE hs1 hu hN hxs (by decide)
  rcases hx with rfl | ⟨-, hx⟩
  · revert e2; decide
  · apply hx
    rw [e1]
    exact ⟨N1, N2, by simp⟩

theorem escaped_wcspbrk_clean (accept : WStr) (x : Char) (rest : WStr)
    (hx : x ∈ accept) (hxb : x ≠ BSL) :
    ∀ pre : WStr, (∀ c ∈ pre, c ≠ BSL ∧ c ∉ accept) →
      escaped_wcspbrk (pre ++ x :: rest) accept = some pre.length := by
  intro pre
  induction pre with
  | nil => intro _; simp [escaped_wcspbrk_cons_ne x rest accept hxb, hx]
  | cons a pre ih =>
    intro h
    have ha := h a (by simp)
    rw [List.cons_append, escaped_wcspbrk_cons_ne a _ accept ha.1, if_neg ha.2,
      ih (fun c hc => h c (by simp [hc]))]
    simp

theorem escaped_wcspbrk_clean_none (accept : WStr) :
    ∀ s : WStr, (∀ c ∈ s, c ≠ BSL ∧ c ∉ accept) → escaped_wcspbrk s accept = none := by
  intro s
  induction s with
  | nil => intro _; rfl
  | cons a s ih =>
    intro h
    have ha := h a (by simp)
    rw [escaped_wcspbrk_cons_ne a _ accept ha.1, if_neg ha.2,
      ih (fun c hc => h c (by simp [hc]))]
    rfl

theorem getElem?_append_cons_length (p : WStr) (x : Char) (r : WStr) (k : Nat)
    (hk : k = p.length) : (p ++ x :: r)[k]? = some x := by
  subst hk
  rw [List.getElem?_append_right (le_refl _)]
  simp

theorem drop_append_cons_length (p : WStr) (x : Char) (r : WStr) (k : Nat)
    (hk : k = p.length + 1) : (p ++ x :: r).drop k = r := by
  subst hk
  rw [List.drop_append_eq_append_drop]
  simp

theorem getElem?_of_drop_cons (s : WStr) (k : Nat) (y : Char) (r : WStr)
    (h : s.drop k = y :: r) : s[k]? = some y := by
  have : s[k]? = (s.drop k)[0]? := by rw [List.getElem?_drop]; rfl
  rw [this, h]
  simp

theorem expand_brace_from_succ (fuel : Nat) (word : WStr) (split : List Nat) (c : Nat)
    (valuelist : List WStr) (splitlist : List (List Nat)) :
    expand_brace_from (fuel + 1) word split c valuelist splitlist =
      match escaped_wcspbrk (word.drop c) [LBRACE] with
      | none => some (valuelist ++ [word], splitlist ++ [split])
      | some off =>
        match word[c + off + 1]? with
        | none => some (valuelist ++ [word], splitlist ++ [split])
        | some _ =>
          match tryexpand_brace_sequence (fun w s v l => expand_brace_from fuel w s 0 v l)
              word split (c + off + 1) valuelist splitlist with
          | none => none
          | some (some r) => some r
          | some none =>
            match brace_scan word (word.length + 1) (c + off + 1) 0 [c + off + 1] with
            | none => expand_brace_from fuel word split (c + off + 1) valuelist splitlist
            | some elemlist =>
              brace_elems_loop (fun w s v l => expand_brace_from fuel w s 0 v l)
                word split elemlist (elemlist.length - 1) 0 valuelist splitlist := rfl

theorem not_escaped_of (c : Char) (h : c ∉ ESCAPED_CHARS) :
    c ≠ BSL ∧ c ≠ LBRACE ∧ c ≠ COMMA ∧ c ≠ RBRACE := by
  simp [ESCAPED_CHARS] at h
  exact h

/-- C10: brace alternation requires at least two elements: for every `p`, `q` and `e` that
contain none of backslash, opening brace, comma and closing brace, with `e` not containing
two adjacent full stops, and every splittability string, `expand_brace` on `p{e}q` produces
exactly one word, equal to the input with its braces kept literally. -/
theorem expand_brace_single_element (fuel : Nat) (p e q : WStr) (split : List Nat)
    (valuelist : List WStr) (splitlist : List (List Nat))
    (hp : ∀ c ∈ p, c ∉ ESCAPED_CHARS) (he : ∀ c ∈ e, c ∉ ESCAPED_CHARS)
    (hq : ∀ c ∈ q, c ∉ ESCAPED_CHARS) (hdots : ¬ [DOT, DOT] <:+: e) :
    expand_brace (fuel + 2) (p ++ LBRACE :: (e ++ RBRACE :: q)) split valuelist splitlist =
      some (valuelist ++ [p ++ LBRACE :: (e ++ RBRACE :: q)], splitlist ++ [split]) := by
  have h1 : escaped_wcspbrk (p ++ LBRACE :: (e ++ RBRACE :: q)) [LBRACE] = some p.length := by
    apply escaped_wcspbrk_clean _ _ _ (by simp) (by decide)
    intro c hc
    have := not_escaped_of c (hp c hc)
    exact ⟨this.1, by simp [this.2.1]⟩
  have hd : (p ++ LBRACE :: (e ++ RBRACE :: q)).drop (p.length + 1) = e ++ RBRACE :: q :=
    drop_append_cons_length _ _ _ _ rfl
  have h2 : ∃ y, (p ++ LBRACE :: (e ++ RBRACE :: q))[p.length + 1]? = some y := by
    cases e with
    | nil => exact ⟨RBRACE, getElem?_of_drop_cons _ _ _ _ hd⟩
    | cons a t => exact ⟨a, getElem?_of_drop_cons _ _ _ _ hd⟩
  obtain ⟨y, hy⟩ := h2
  have h3 : tryexpand_brace_sequence
      (fun w s v l => expand_brace_from (fuel + 1) w s 0 v l)
      (p ++ LBRACE :: (e ++ RBRACE :: q)) split (p.length + 1) valuelist splitlist = some none := by
    apply tryexpand_brace_sequence_false _ _ _ _ _ _ e q RBRACE
    · exact getElem?_append_cons_length _ _ _ _ (by simp)
    · exact hd
    · intro c hc
      have := not_escaped_of c (he c hc)
      simp [is_sep, this.2.2.1, this.2.2.2]
    · exact Or.inr ⟨rfl, hdots⟩
  have h4 : escaped_wcspbrk (e ++ RBRACE :: q) [LBRACE, COMMA, RBRACE] = some e.length := by
    apply escaped_wcspbrk_clean _ _ _ (by simp) (by decide)
    intro c hc
    have := not_escaped_of c (he c hc)
    exact ⟨this.1, by simp [this.2.1, this.2.2.1, this.2.2.2]⟩
  have h5 : (p ++ LBRACE :: (e ++ RBRACE :: q))[p.length + 1 + e.length]? = some RBRACE := by
    have : p ++ LBRACE :: (e ++ RBRACE :: q) = (p ++ LBRACE :: e) ++ RBRACE :: q := by simp
    rw [this]
    exact getElem?_append_cons_length _ _ _ _ (by simp; omega)
  have h6 : brace_scan (p ++ LBRACE :: (e ++ RBRACE :: q))
      ((p ++ LBRACE :: (e ++ RBRACE :: q)).length + 1) (p.length + 1) 0 [p.length + 1] = none := by
    have n1 : ¬ (some RBRACE = some LBRACE) := by decide
    have n2 : ¬ (some RBRACE = some COMMA) := by decide
    simp only [brace_scan, hd, h4, h5, n1, n2, if_false, gt_iff_lt, Nat.lt_irrefl,
      List.length_singleton, if_true]
  have h7 : escaped_wcspbrk (e ++ RBRACE :: q) [LBRACE] = none := by
    apply escaped_wcspbrk_clean_none
    intro c hc
    simp only [List.mem_append, List.mem_cons] at hc
    rcases hc with hc | rfl | hc
    · have := not_escaped_of c (he c hc)
      exact ⟨this.1, by simp [this.2.1]⟩
    · decide
    · have := not_escaped_of c (hq c hc)
      exact ⟨this.1, by simp [this.2.1]⟩
  rw [expand_brace, expand_brace_from_succ]
  simp only [List.drop_zero, h1, Nat.zero_add, hy, h3, h6]
  rw [expand_brace_from_succ]
  simp only [hd, h7]

/-- Witness of C10 on the word `x{a}y`. -/
theorem expand_brace_single_element_witness :
    (∀ c ∈ [Char.ofNat 120], c ∉ ESCAPED_CHARS) ∧ (∀ c ∈ [Char.ofNat 97], c ∉ ESCAPED_CHARS) ∧
    (∀ c ∈ [Char.ofNat 121], c ∉ ESCAPED_CHARS) ∧ ¬ [DOT, DOT] <:+: [Char.ofNat 97] ∧
    expand_brace (0 + 2) ([Char.ofNat 120] ++ LBRACE :: ([Char.ofNat 97] ++ RBRACE :: [Char.ofNat 121]))
        [0, 0, 0, 0, 0] [] [] =
      some ([] ++ [[Char.ofNat 120] ++ LBRACE :: ([Char.ofNat 97] ++ RBRACE :: [Char.ofNat 121])],
        [] ++ [[0, 0, 0, 0, 0]]) :=
  ⟨by decide, by decide, by decide, by decide,
    expand_brace_single_element 0 _ _ _ _ _ _ (by decide) (by decide) (by decide) (by decide)⟩

theorem intercalate_cons_cons (sep e e1 : WStr) (es : List WStr) :
    sep.intercalate (e :: e1 :: es) = e ++ sep ++ sep.intercalate (e1 :: es) := by
  simp [List.intercalate]

theorem intercalate_singleton (sep e : WStr) : sep.intercalate [e] = e := by
  simp [List.intercalate]

theorem elem_ends_length (c : Nat) (es : List WStr) : (elem_ends c es).length = es.length := by
  induction es generalizing c with
  | nil => rfl
  | cons e es ih => simp [elem_ends, ih]

theorem elem_span_append (a b : List WStr) : elem_span (a ++ b) = elem_span a + elem_span b := by
  induction a with
  | nil => simp [elem_span]
  | cons e a ih => simp [elem_span, ih]; omega

theorem elem_ends_getD (es : List WStr) :
    ∀ (c i : Nat), i ≤ es.length → (c :: elem_ends c es).getD i 0 = c + elem_span (es.take i) := by
  induction es with
  | nil => intro c i hi; simp at hi; subst hi; simp [elem_span]
  | cons e es ih =>
    intro c i hi
    cases i with
    | zero => simp [elem_span]
    | succ i =>
      simp only [List.length_cons, Nat.add_le_add_iff_right] at hi
      simp only [elem_ends, List.getD_cons_succ, List.take_succ_cons, elem_span]
      rw [ih (c + e.length + 1) i hi]
      omega

/-- The text from the start of an element on. -/
theorem drop_elem_span (post : WStr) (done : List WStr) :
    ∀ (e : WStr) (rest : List WStr), ∃ x t,
      ([COMMA].intercalate (done ++ e :: rest) ++ RBRACE :: post).drop (elem_span done) =
        e ++ x :: t := by
  induction done with
  | nil =>
    intro e rest
    cases rest with
    | nil => exact ⟨RBRACE, post, by simp [elem_span, intercalate_singleton]⟩
    | cons e1 rest =>
      exact ⟨COMMA, [COMMA].intercalate (e1 :: rest) ++ RBRACE :: post,
        by simp [elem_span, intercalate_cons_cons]⟩
  | cons d done ih =>
    intro e rest
    obtain ⟨x, t, h⟩ := ih e rest
    refine ⟨x, t, ?_⟩
    cases hdr : done ++ e :: rest with
    | nil => simp at hdr
    | cons e1 l =>
      rw [List.cons_append, hdr, intercalate_cons_cons, ← hdr, elem_span]
      have : d ++ [COMMA] ++ [COMMA].intercalate (done ++ e :: rest) ++ RBRACE :: post =
          (d ++ [COMMA]) ++ ([COMMA].intercalate (done ++ e :: rest) ++ RBRACE :: post) := by
        simp
      rw [this, List.drop_append_eq_append_drop]
      simp
      rw [List.drop_eq_nil_of_le (by simp)]
      simpa using h

theorem drop_full_span (post : WStr) (es : List WStr) (hne : es ≠ []) :
    ([COMMA].intercalate es ++ RBRACE :: post).drop (elem_span es) = post := by
  induction es with
  | nil => exact absurd rfl hne
  | cons d es ih =>
    cases es with
    | nil => simp [elem_span, intercalate_singleton]
    | cons e1 l =>
      rw [intercalate_cons_cons, elem_span]
      have : d ++ [COMMA] ++ [COMMA].intercalate (e1 :: l) ++ RBRACE :: post =
          (d ++ [COMMA]) ++ ([COMMA].intercalate (e1 :: l) ++ RBRACE :: post) := by
        simp
      rw [this, List.drop_append_eq_append_drop]
      simp
      rw [List.drop_eq_nil_of_le (by simp)]
      simpa using ih (by simp)

theorem clean_of_not_escaped (e : WStr) (he : ∀ c ∈ e, c ∉ ESCAPED_CHARS) :
    ∀ c ∈ e, c ≠ BSL ∧ c ∉ [LBRACE, COMMA, RBRACE] := by
  intro c hc
  have := not_escaped_of c (he c hc)
  exact ⟨this.1, by simp [this.2.1, this.2.2.1, this.2.2.2]⟩

theorem brace_scan_succ (word : WStr) (fuel c nest : Nat) (elemlist : List Nat) :
    brace_scan word (fuel + 1) c nest elemlist =
      match escaped_wcspbrk (word.drop c) [LBRACE, COMMA, RBRACE] with
      | none => none
      | some off =>
        if word[c + off]? = some LBRACE then brace_scan word fuel (c + off + 1) (nest + 1) elemlist
        else if word[c + off]? = some COMMA then
          brace_scan word fuel (c + off + 1) nest
            (if nest = 0 then elemlist ++ [c + off + 1] else elemlist)
        else if nest > 0 then brace_scan word fuel (c + off + 1) (nest - 1) elemlist
        else if elemlist.length = 1 then none
        else some (elemlist ++ [c + off + 1]) := rfl

/-- The element scan of `expand_brace` over elements free of backslash, braces and commas:
the element list gets the offset after each comma and after the closing brace. -/
theorem brace_scan_elems (word post : WStr) :
    ∀ (es : List WStr) (e : WStr) (fuel c : Nat) (elemlist : List Nat),
      (∀ x ∈ e :: es, ∀ c ∈ x, c ∉ ESCAPED_CHARS) →
      word.drop c = [COMMA].intercalate (e :: es) ++ RBRACE :: post →
      word.length < c + fuel → elemlist.length + es.length ≠ 1 →
      brace_scan word fuel c 0 elemlist = some (elemlist ++ elem_ends c (e :: es)) := by
  intro es
  induction es with
  | nil =>
    intro e fuel c elemlist hcl hw hf hlen
    rw [intercalate_singleton] at hw
    have hlt : c < word.length := by
      by_contra hge
      rw [List.drop_eq_nil_of_le (by omega)] at hw
      cases e <;> simp at hw
    obtain ⟨f, rfl⟩ : ∃ f, fuel = f + 1 := ⟨fuel - 1, by omega⟩
    have h4 : escaped_wcspbrk (e ++ RBRACE :: post) [LBRACE, COMMA, RBRACE] = some e.length :=
      escaped_wcspbrk_clean _ _ _ (by simp) (by decide) e
        (clean_of_not_escaped e (hcl e (by simp)))
    have h5 : word[c + e.length]? = some RBRACE := by
      rw [← getElem?_drop_add, hw]
      exact getElem?_append_cons_length _ _ _ _ rfl
    have n1 : ¬ (some RBRACE = some LBRACE) := by decide
    have n2 : ¬ (some RBRACE = some COMMA) := by decide
    rw [brace_scan_succ, hw, h4]
    simp only [h5, n1, n2, if_false, gt_iff_lt, Nat.lt_irrefl]
    rw [if_neg (by simpa using hlen)]
    simp [elem_ends]
  | cons e1 es ih =>
    intro e fuel c elemlist hcl hw hf hlen
    rw [intercalate_cons_cons] at hw
    have hw1 : word.drop c = e ++ COMMA :: ([COMMA].intercalate (e1 :: es) ++ RBRACE :: post) := by
      rw [hw]; simp
    have hlt : c + e.length < word.length := by
      have := congrArg List.length hw1
      simp at this
      omega
    obtain ⟨f, rfl⟩ : ∃ f, fuel = f + 1 := ⟨fuel - 1, by omega⟩
    have h4 : escaped_wcspbrk (e ++ COMMA :: ([COMMA].intercalate (e1 :: es) ++ RBRACE :: post))
        [LBRACE, COMMA, RBRACE] = some e.length :=
      escaped_wcspbrk_clean _ _ _ (by simp) (by decide) e
        (clean_of_not_escaped e (hcl e (by simp)))
    have h5 : word[c + e.length]? = some COMMA := by
      rw [← getElem?_drop_add, hw1]
      exact getElem?_append_cons_length _ _ _ _ rfl
    have n1 : ¬ (some COMMA = some LBRACE) := by decide
    have hd : word.drop (c + e.length + 1) = [COMMA].intercalate (e1 :: es) ++ RBRACE :: post := by
      have : word.drop (c + e.length + 1) = (word.drop c).drop (e.length + 1) := by
        rw [List.drop_drop]; congr 1
      rw [this, hw1]
      exact drop_append_cons_length _ _ _ _ rfl
    rw [brace_scan_succ, hw1, h4]
    simp only [h5, n1, if_false, if_true]
    rw [ih e1 f (c + e.length + 1) (elemlist ++ [c + e.length + 1])
      (fun x hx => hcl x (by simp at hx ⊢; right; exact hx)) hd (by omega)
      (by simp only [List.length_append, List.length_cons, List.length_nil] at hlen ⊢; omega)]
    simp [elem_ends]

theorem intercalate_length_span (es : List WStr) (hne : es ≠ []) :
    ([COMMA].intercalate es).length + 1 = elem_span es := by
  induction es with
  | nil => exact absurd rfl hne
  | cons d es ih =>
    cases es with
    | nil => simp [elem_span, intercalate_singleton]
    | cons e1 l =>
      rw [intercalate_cons_cons, elem_span]
      have := ih (by simp)
      simp only [List.length_append, List.length_singleton]
      omega

theorem brace_elems_loop_succ
    (rec : WStr → List Nat → List WStr → List (List Nat) → Option (List WStr × List (List Nat)))
    (word : WStr) (split : List Nat) (elemlist : List Nat) (k i : Nat)
    (valuelist : List WStr) (splitlist : List (List Nat)) :
    brace_elems_loop rec word split elemlist (k + 1) i valuelist splitlist =
      if (word.take (elemlist.getD 0 0 - 1) ++
            (word.drop (elemlist.getD i 0)).take
              (elemlist.getD (i + 1) 0 - elemlist.getD i 0 - 1) ++
            (word.drop (elemlist.getD (elemlist.length - 1) 0)).take
              (word.length - elemlist.getD (elemlist.length - 1) 0)).length ≠
          (split.take (elemlist.getD 0 0 - 1) ++
            (split.drop (elemlist.getD i 0)).take
              (elemlist.getD (i + 1) 0 - elemlist.getD i 0 - 1) ++
            (split.drop (elemlist.getD (elemlist.length - 1) 0)).take
              (word.length - elemlist.getD (elemlist.length - 1) 0)).length then none
      else
        match rec
            (word.take (elemlist.getD 0 0 - 1) ++
              (word.drop (elemlist.getD i 0)).take
                (elemlist.getD (i + 1) 0 - elemlist.getD i 0 - 1) ++
              (word.drop (elemlist.getD (elemlist.length - 1) 0)).take
                (word.length - elemlist.getD (elemlist.length - 1) 0))
            (split.take (elemlist.getD 0 0 - 1) ++
              (split.drop (elemlist.getD i 0)).take
                (elemlist.getD (i + 1) 0 - elemlist.getD i 0 - 1) ++
              (split.drop (elemlist.getD (elemlist.length - 1) 0)).take
                (word.length - elemlist.getD (elemlist.length - 1) 0))
            valuelist splitlist with
        | none => none
        | some r => brace_elems_loop rec word split elemlist k (i + 1) r.1 r.2 := rfl

/-- The loop over the elements of an alternation calls `rec` on the head, each element in
turn and the tail, with a splittability string of the same length. -/
theorem brace_elems_loop_spec
    (rec : WStr → List Nat → List WStr → List (List Nat) → Option (List WStr × List (List Nat)))
    (F : WStr → List WStr) (word pre post : WStr) (split : List Nat) (elems : List WStr)
    (hword : word = pre ++ LBRACE :: ([COMMA].intercalate elems ++ RBRACE :: post))
    (hsplit : split.length = word.length)
    (hrec : ∀ e ∈ elems, ∀ s1 : List Nat, s1.length = (pre ++ e ++ post).length →
      ∀ vl sl, ∃ sl1, rec (pre ++ e ++ post) s1 vl sl = some (vl ++ F e, sl1)) :
    ∀ (todo done : List WStr), elems = done ++ todo → ∀ vl sl, ∃ sl1,
      brace_elems_loop rec word split ((pre.length + 1) :: elem_ends (pre.length + 1) elems)
        todo.length done.length vl sl = some (vl ++ todo.flatMap F, sl1) := by
  intro todo
  induction todo with
  | nil => intro done _ vl sl; exact ⟨sl, by simp [brace_elems_loop]⟩
  | cons e todo ih =>
    intro done hel vl sl
    have hne : elems ≠ [] := by rw [hel]; simp
    have hwl : word.length = pre.length + 1 + elem_span elems + post.length := by
      have := intercalate_length_span elems hne
      rw [hword]
      simp only [List.length_append, List.length_cons]
      omega
    have hdrop : ∀ k, word.drop (pre.length + 1 + k) =
        ([COMMA].intercalate elems ++ RBRACE :: post).drop k := by
      intro k
      have : word.drop (pre.length + 1 + k) = (word.drop (pre.length + 1)).drop k := by
        rw [List.drop_drop]
      rw [this, hword, drop_append_cons_length _ _ _ _ rfl]
    have g0 : ((pre.length + 1) :: elem_ends (pre.length + 1) elems).getD 0 0 - 1 = pre.length := by
      simp
    have gl : ((pre.length + 1) :: elem_ends (pre.length + 1) elems).length - 1 = elems.length := by
      simp [elem_ends_length]
    have glast : ((pre.length + 1) :: elem_ends (pre.length + 1) elems).getD elems.length 0 =
        pre.length + 1 + elem_span elems := by
      rw [elem_ends_getD elems _ _ (le_refl _), List.take_length]
    have gi : ((pre.length + 1) :: elem_ends (pre.length + 1) elems).getD done.length 0 =
        pre.length + 1 + elem_span done := by
      rw [elem_ends_getD elems _ _ (by rw [hel]; simp), hel, List.take_left]
    have gi1 : ((pre.length + 1) :: elem_ends (pre.length + 1) elems).getD (done.length + 1) 0 =
        pre.length + 1 + elem_span done + e.length + 1 := by
      rw [elem_ends_getD elems _ _ (by rw [hel]; simp)]
      have : elems = (done ++ [e]) ++ todo := by rw [hel]; simp
      have h2 : (done ++ [e]).length = done.length + 1 := by simp
      rw [this, ← h2, List.take_left, elem_span_append]
      simp [elem_span]
      omega
    obtain ⟨x, t, hx⟩ := drop_elem_span post done e todo
    rw [← hel] at hx
    have w1 : word.take pre.length = pre := by rw [hword]; simp
    have w2 : (word.drop (pre.length + 1 + elem_span done)).take e.length = e := by
      rw [hdrop, hx]; simp
    have w3 : (word.drop (pre.length + 1 + elem_span elems)).take post.length = post := by
      rw [hdrop, drop_full_span post elems hne]; simp
    have hspan : elem_span elems = elem_span done + (e.length + 1 + elem_span todo) := by
      rw [hel, elem_span_append]; rfl
    have hb : (pre ++ e ++ post).length =
        (split.take pre.length ++ (split.drop (pre.length + 1 + elem_span done)).take e.length ++
          (split.drop (pre.length + 1 + elem_span elems)).take post.length).length := by
      simp only [List.length_append, List.length_take, List.length_drop]
      omega
    obtain ⟨sl1, h1⟩ := hrec e (by rw [hel]; simp) _ hb.symm vl sl
    obtain ⟨sl2, h2⟩ := ih (done ++ [e]) (by rw [hel]; simp) (vl ++ F e) sl1
    refine ⟨sl2, ?_⟩
    rw [List.length_cons, brace_elems_loop_succ, g0, gl, glast, gi, gi1]
    have a1 : pre.length + 1 + elem_span done + e.length + 1 - (pre.length + 1 + elem_span done) - 1
        = e.length := by omega
    have a2 : word.length - (pre.length + 1 + elem_span elems) = post.length := by omega
    rw [a1, a2, w1, w2, w3, if_neg (by rw [← hb]; simp), h1]
    simp only
    have h3 : (done ++ [e]).length = done.length + 1 := by simp
    rw [h3] at h2
    rw [h2]
    simp

theorem expand_brace_from_of_none (fuel : Nat) (word : WStr) (split : List Nat) (c : Nat)
    (valuelist : List WStr) (splitlist : List (List Nat))
    (h : escaped_wcspbrk (word.drop c) [LBRACE] = none) :
    expand_brace_from (fuel + 1) word split c valuelist splitlist =
      some (valuelist ++ [word], splitlist ++ [split]) := by
  rw [expand_brace_from_succ, h]

/-- One level of alternation: on a word `pre{e1,...,en}post` with at least two elements free
of backslash, braces and commas, and no brace or backslash in `pre`, `expand_brace` expands
`pre ei post` for each element in turn. -/
theorem expand_brace_alternation (fuel : Nat) (F : WStr → List WStr) (pre post : WStr)
    (elems : List WStr) (split : List Nat) (valuelist : List WStr) (splitlist : List (List Nat))
    (hpre : ∀ c ∈ pre, c ≠ BSL ∧ c ≠ LBRACE)
    (hel : ∀ x ∈ elems, ∀ c ∈ x, c ∉ ESCAPED_CHARS)
    (h2 : 2 ≤ elems.length)
    (hsplit : split.length =
      (pre ++ LBRACE :: ([COMMA].intercalate elems ++ RBRACE :: post)).length)
    (hrec : ∀ e ∈ elems, ∀ s1 : List Nat, s1.length = (pre ++ e ++ post).length →
      ∀ vl sl, ∃ sl1,
        expand_brace_from fuel (pre ++ e ++ post) s1 0 vl sl = some (vl ++ F e, sl1)) :
    ∃ sl1, expand_brace_from (fuel + 1)
        (pre ++ LBRACE :: ([COMMA].intercalate elems ++ RBRACE :: post)) split 0
        valuelist splitlist = some (valuelist ++ elems.flatMap F, sl1) := by
  match elems, hel, h2, hsplit, hrec with
  | e :: e1 :: es, hel, _, hsplit, hrec =>
    have hw0 : [COMMA].intercalate (e :: e1 :: es) ++ RBRACE :: post =
        e ++ COMMA :: ([COMMA].intercalate (e1 :: es) ++ RBRACE :: post) := by
      rw [intercalate_cons_cons]; simp
    have h1 : escaped_wcspbrk
        (pre ++ LBRACE :: ([COMMA].intercalate (e :: e1 :: es) ++ RBRACE :: post)) [LBRACE] =
        some pre.length := by
      apply escaped_wcspbrk_clean _ _ _ (by simp) (by decide)
      intro c hc
      exact ⟨(hpre c hc).1, by simp [(hpre c hc).2]⟩
    have hd : (pre ++ LBRACE :: ([COMMA].intercalate (e :: e1 :: es) ++ RBRACE :: post)).drop
        (pre.length + 1) = [COMMA].intercalate (e :: e1 :: es) ++ RBRACE :: post :=
      drop_append_cons_length _ _ _ _ rfl
    have hd2 : (pre ++ LBRACE :: ([COMMA].intercalate (e :: e1 :: es) ++ RBRACE :: post)).drop
        (pre.length + 1) = e ++ COMMA :: ([COMMA].intercalate (e1 :: es) ++ RBRACE :: post) := by
      rw [hd, hw0]
    have hy : ∃ y, (pre ++ LBRACE :: ([COMMA].intercalate (e :: e1 :: es) ++ RBRACE :: post))[
        pre.length + 1]? = some y := by
      cases he : e with
      | nil =>
        rw [he] at hd2
        exact ⟨COMMA, getElem?_of_drop_cons _ _ _ _ hd2⟩
      | cons a t =>
        rw [he] at hd2
        exact ⟨a, getElem?_of_drop_cons _ _ a
          (t ++ COMMA :: ([COMMA].intercalate (e1 :: es) ++ RBRACE :: post)) hd2⟩
    obtain ⟨y, hy⟩ := hy
    have h3 : tryexpand_brace_sequence
        (fun w s v l => expand_brace_from fuel w s 0 v l)
        (pre ++ LBRACE :: ([COMMA].intercalate (e :: e1 :: es) ++ RBRACE :: post)) split
        (pre.length + 1) valuelist splitlist = some none := by
      apply tryexpand_brace_sequence_false _ _ _ _ _ _ e
        ([COMMA].intercalate (e1 :: es) ++ RBRACE :: post) COMMA
      · exact getElem?_append_cons_length _ _ _ _ (by simp)
      · rw [hd, hw0]
      · intro c hc
        have := not_escaped_of c (hel e (by simp) c hc)
        simp [is_sep, this.2.2.1, this.2.2.2]
      · exact Or.inl rfl
    have h6 := brace_scan_elems
      (pre ++ LBRACE :: ([COMMA].intercalate (e :: e1 :: es) ++ RBRACE :: post)) post
      (e1 :: es) e
      ((pre ++ LBRACE :: ([COMMA].intercalate (e :: e1 :: es) ++ RBRACE :: post)).length + 1)
      (pre.length + 1) [pre.length + 1] hel hd (by omega) (by simp)
    obtain ⟨sl1, h7⟩ := brace_elems_loop_spec
      (fun w s v l => expand_brace_from fuel w s 0 v l) F _ pre post split (e :: e1 :: es) rfl
      hsplit hrec (e :: e1 :: es) [] rfl valuelist splitlist
    refine ⟨sl1, ?_⟩
    rw [expand_brace_from_succ]
    simp only [List.drop_zero, h1, Nat.zero_add, hy, h3, h6]
    have hlen : ([pre.length + 1] ++ elem_ends (pre.length + 1) (e :: e1 :: es)).length - 1 =
        (e :: e1 :: es).length := by
      simp [elem_ends_length]
    rw [hlen]
    exact h7

theorem flatMap_singleton_fun (f : WStr → WStr) (bs : List WStr) :
    bs.flatMap (fun b => [f b]) = bs.map f := by
  induction bs with
  | nil => rfl
  | cons b bs ih => simp [List.flatMap_cons, ih]

/-- C9: for all lists of elements `as` and `bs`, each of at least two elements that contain
none of backslash, opening brace, comma and closing brace, and every splittability string of
the length of the word, `expand_brace` on `{a1,...,an}{b1,...,bm}` produces exactly the words
`ai bj`, ordered by `i` first and then by `j`. -/
theorem expand_brace_two_groups (fuel : Nat) (as bs : List WStr) (split : List Nat)
    (valuelist : List WStr) (splitlist : List (List Nat))
    (has : ∀ x ∈ as, ∀ c ∈ x, c ∉ ESCAPED_CHARS) (hbs : ∀ x ∈ bs, ∀ c ∈ x, c ∉ ESCAPED_CHARS)
    (hn : 2 ≤ as.length) (hm : 2 ≤ bs.length)
    (hsplit : split.length =
      (LBRACE :: ([COMMA].intercalate as ++
        RBRACE :: LBRACE :: ([COMMA].intercalate bs ++ [RBRACE]))).length) :
    ∃ sl1, expand_brace (fuel + 3)
        (LBRACE :: ([COMMA].intercalate as ++
          RBRACE :: LBRACE :: ([COMMA].intercalate bs ++ [RBRACE]))) split
        valuelist splitlist =
      some (valuelist ++ as.flatMap (fun a => bs.map (fun b => a ++ b)), sl1) := by
  have inner : ∀ a ∈ as, ∀ s1 : List Nat,
      s1.length = ([] ++ a ++ LBRACE :: ([COMMA].intercalate bs ++ [RBRACE])).length →
      ∀ vl sl, ∃ sl1, expand_brace_from (fuel + 2)
        ([] ++ a ++ LBRACE :: ([COMMA].intercalate bs ++ [RBRACE])) s1 0 vl sl =
          some (vl ++ bs.map (fun b => a ++ b), sl1) := by
    intro a ha s1 hs1 vl sl
    have := expand_brace_alternation (fuel + 1) (fun b => [a ++ b]) a [] bs s1 vl sl
      (fun c hc => by
        have := not_escaped_of c (has a ha c hc)
        exact ⟨this.1, this.2.1⟩)
      hbs hm (by simpa using hs1)
      (fun b hb s2 _ vl2 sl2 => ⟨sl2 ++ [s2], by
        have hnone : escaped_wcspbrk ((a ++ b ++ []).drop 0) [LBRACE] = none := by
          apply escaped_wcspbrk_clean_none
          intro c hc
          simp only [List.drop_zero, List.append_nil, List.mem_append] at hc
          rcases hc with hc | hc
          · have := not_escaped_of c (has a ha c hc)
            exact ⟨this.1, by simp [this.2.1]⟩
          · have := not_escaped_of c (hbs b hb c hc)
            exact ⟨this.1, by simp [this.2.1]⟩
        have := expand_brace_from_of_none fuel (a ++ b ++ []) s2 0 vl2 sl2 hnone
        simpa using this⟩)
    obtain ⟨sl1, h⟩ := this
    refine ⟨sl1, ?_⟩
    have e1 : [] ++ a ++ LBRACE :: ([COMMA].intercalate bs ++ [RBRACE]) =
        a ++ LBRACE :: ([COMMA].intercalate bs ++ RBRACE :: []) := by simp
    rw [e1, h, flatMap_singleton_fun]
  have := expand_brace_alternation (fuel + 2) (fun a => bs.map (fun b => a ++ b)) []
    (LBRACE :: ([COMMA].intercalate bs ++ [RBRACE])) as split valuelist splitlist
    (by simp) has hn (by simpa using hsplit) inner
  simpa [expand_brace] using this

/-- Witness of C9 on the word `{a,b}{1,2}`, which gives `a1`, `a2`, `b1`, `b2`. -/
theorem expand_brace_two_groups_witness :
    (∀ x ∈ [[Char.ofNat 97], [Char.ofNat 98]], ∀ c ∈ x, c ∉ ESCAPED_CHARS) ∧
    (∀ x ∈ [[Char.ofNat 49], [Char.ofNat 50]], ∀ c ∈ x, c ∉ ESCAPED_CHARS) ∧
    ∃ sl1, expand_brace (0 + 3)
        (LBRACE :: ([COMMA].intercalate [[Char.ofNat 97], [Char.ofNat 98]] ++
          RBRACE :: LBRACE :: ([COMMA].intercalate [[Char.ofNat 49], [Char.ofNat 50]] ++
            [RBRACE]))) (List.replicate 10 0) [] [] =
      some ([] ++ [[Char.ofNat 97], [Char.ofNat 98]].flatMap
        (fun a => [[Char.ofNat 49], [Char.ofNat 50]].map (fun b => a ++ b)), sl1) :=
  ⟨by decide, by decide,
    expand_brace_two_groups 0 _ _ _ _ _ (by decide) (by decide) (by decide) (by decide)
      (by decide)⟩

/-! ## Field splitting -/

theorem fieldsplit_loop_succ (s : WStr) (split : List Nat) (ifs : WStr)
    (fuel index startindex : Nat) (dest : List WStr) :
    fieldsplit_loop s split ifs (fuel + 1) index startindex dest =
      match s[index]? with
      | none => (index, startindex, dest)
      | some c =>
        if c = BSL then
          match s[index + 1]? with
          | none => (index + 1, startindex, dest)
          | some _ => fieldsplit_loop s split ifs fuel (index + 2) startindex dest
        else if split.getD index 0 ≠ 0 ∧ c ∈ ifs then
          fieldsplit_loop s split ifs fuel
            (fieldsplit_run s split ifs startindex s.length index
              (!decide (startindex < index)) false
              (if startindex < index then dest ++ [xwcsndup s startindex (index - startindex)]
               else dest)).1
            (fieldsplit_run s split ifs startindex s.length index
              (!decide (startindex < index)) false
              (if startindex < index then dest ++ [xwcsndup s startindex (index - startindex)]
               else dest)).1
            (fieldsplit_run s split ifs startindex s.length index
              (!decide (startindex < index)) false
              (if startindex < index then dest ++ [xwcsndup s startindex (index - startindex)]
               else dest)).2
        else fieldsplit_loop s split ifs fuel (index + 1) startindex dest := rfl

theorem fieldsplit_run_succ (s : WStr) (split : List Nat) (ifs : WStr)
    (startindex fuel index : Nat) (splitonnonspace nonspace : Bool) (dest : List WStr) :
    fieldsplit_run s split ifs startindex (fuel + 1) index splitonnonspace nonspace dest =
      match s[index]? with
      | none => (index, dest)
      | some c =>
        match s[index + 1]? with
        | none =>
          (index + 1,
            if (if !iswspace c then true else nonspace) && decide (startindex < index + 1) then
              (if !iswspace c && splitonnonspace then dest ++ [[]] else dest) ++ [[]]
            else (if !iswspace c && splitonnonspace then dest ++ [[]] else dest))
        | some d =>
          if split.getD (index + 1) 0 ≠ 0 ∧ d ∈ ifs then
            fieldsplit_run s split ifs startindex fuel (index + 1)
              (if !iswspace c then true else splitonnonspace)
              (if !iswspace c then true else nonspace)
              (if !iswspace c && splitonnonspace then dest ++ [[]] else dest)
          else (index + 1, if !iswspace c && splitonnonspace then dest ++ [[]] else dest) := rfl

theorem getElem?_of_drop_nil (s : WStr) (k : Nat) (h : s.drop k = []) : s[k]? = none := by
  rw [List.getElem?_eq_none_iff]
  exact List.drop_eq_nil_iff.mp h

theorem drop_succ_of_drop_cons (s : WStr) (k : Nat) (y : Char) (r : WStr)
    (h : s.drop k = y :: r) : s.drop (k + 1) = r := by
  have : s.drop (k + 1) = (s.drop k).drop 1 := by rw [List.drop_drop]
  rw [this, h]
  rfl

theorem lt_length_of_drop_cons (s : WStr) (k : Nat) (y : Char) (r : WStr)
    (h : s.drop k = y :: r) : k < s.length := by
  by_contra hge
  rw [List.drop_eq_nil_of_le (by omega)] at h
  simp at h

theorem length_of_drop (s : WStr) (k : Nat) (r : WStr) (h : s.drop k = r) (hk : k ≤ s.length) :
    s.length = k + r.length := by
  rw [← h, List.length_drop]
  omega

theorem xwcsndup_of_drop (s : WStr) (si : Nat) (t rest : WStr) (n : Nat)
    (h : s.drop si = t ++ rest) (hn : n = t.length) : xwcsndup s si n = t := by
  subst hn
  simp [xwcsndup, h]

/-- The outer loop of `fieldsplit` passes over a run of characters that are neither a
backslash nor in `ifs`. -/
theorem fieldsplit_loop_token (s : WStr) (split : List Nat) (ifs : WStr) :
    ∀ (tok : WStr), (∀ x ∈ tok, x ≠ BSL ∧ x ∉ ifs) →
      ∀ (i fuel si : Nat) (dest : List WStr) (rest : WStr), s.drop i = tok ++ rest →
        fieldsplit_loop s split ifs (fuel + tok.length) i si dest =
          fieldsplit_loop s split ifs fuel (i + tok.length) si dest := by
  intro tok
  induction tok with
  | nil => intro _ i fuel si dest rest _; rfl
  | cons x tok ih =>
    intro h i fuel si dest rest hd
    have hx := h x (by simp)
    have e : fuel + (x :: tok).length = (fuel + tok.length) + 1 := by simp; omega
    rw [e, fieldsplit_loop_succ, getElem?_of_drop_cons s i x (tok ++ rest) hd]
    simp only [if_neg hx.1, hx.2, and_false, if_false]
    rw [ih (fun y hy => h y (by simp [hy])) (i + 1) fuel si dest rest
      (drop_succ_of_drop_cons s i x _ hd)]
    congr 1
    simp
    omega

/-- The outer loop of `fieldsplit` passes over backslash-escaped pairs. -/
theorem fieldsplit_loop_escaped (s : WStr) (split : List Nat) (ifs : WStr) :
    ∀ (v : WStr) (i fuel si : Nat) (dest : List WStr) (rest : WStr),
      s.drop i = escape v none ++ rest →
        fieldsplit_loop s split ifs (fuel + v.length) i si dest =
          fieldsplit_loop s split ifs fuel (i + 2 * v.length) si dest := by
  intro v
  induction v with
  | nil => intro i fuel si dest rest _; rfl
  | cons x v ih =>
    intro i fuel si dest rest hd
    have hd0 : s.drop i = BSL :: (x :: (escape v none ++ rest)) := by
      rw [hd, escape_none_cons]; rfl
    have hd1 := drop_succ_of_drop_cons s i BSL _ hd0
    have e : fuel + (x :: v).length = (fuel + v.length) + 1 := by simp; omega
    rw [e, fieldsplit_loop_succ, getElem?_of_drop_cons s i BSL _ hd0]
    simp only [if_true]
    rw [getElem?_of_drop_cons s (i + 1) x _ hd1]
    simp only
    rw [ih (i + 2) fuel si dest rest (drop_succ_of_drop_cons s (i + 1) x _ hd1)]
    congr 1
    simp
    omega

/-- A word in which every character is backslash-escaped is not split. -/
theorem fieldsplit_escaped (v : WStr) (split : List Nat) (ifs : WStr) (dest : List WStr) :
    fieldsplit (escape v none) split ifs dest = some (dest ++ [escape v none]) := by
  have hl : (escape v none).length = 2 * v.length := by
    induction v with
    | nil => rfl
    | cons x v ih => rw [escape_none_cons]; simp [ih]; omega
  have e : (escape v none).length + 1 = (v.length + 1) + v.length := by omega
  rw [fieldsplit, e,
    fieldsplit_loop_escaped (escape v none) split ifs v 0 (v.length + 1) 0 dest [] (by simp),
    fieldsplit_loop_succ, getElem?_of_drop_nil _ _ (by rw [List.drop_eq_nil_iff]; omega)]
  simp [fieldsplit_end]

/-- The `do ... while` loop of `fieldsplit` advances the index. -/
theorem fieldsplit_run_index (s : WStr) (split : List Nat) (ifs : WStr) (si : Nat) :
    ∀ (k i : Nat) (sons ns : Bool) (dest : List WStr), i < s.length → 1 ≤ k →
      i + 1 ≤ (fieldsplit_run s split ifs si k i sons ns dest).1 := by
  intro k
  induction k with
  | zero => intro i sons ns dest _ hk; omega
  | succ k ih =>
    intro i sons ns dest hi _
    rw [fieldsplit_run_succ]
    have hsome : s[i]? = some s[i] := List.getElem?_eq_getElem hi
    rw [hsome]
    simp only
    cases h1 : s[i + 1]? with
    | none => simp
    | some d =>
      simp only
      split
      · cases k with
        | zero => simp [fieldsplit_run]
        | succ k =>
          have hi1 : i + 1 < s.length := by
            by_contra hge
            rw [List.getElem?_eq_none (by omega)] at h1
            simp at h1
          have := ih (i + 1) (if !iswspace s[i] then true else sons)
            (if !iswspace s[i] then true else ns)
            (if !iswspace s[i] && sons then dest ++ [[]] else dest) hi1 (by omega)
          omega
      · simp

/-- The result of the outer loop of `fieldsplit` does not depend on the bound of its
iterations once the bound exceeds the number of characters left. -/
theorem fieldsplit_loop_fuel (s : WStr) (split : List Nat) (ifs : WStr) :
    ∀ (fuel fuel1 index si : Nat) (dest : List WStr),
      s.length < index + fuel → s.length < index + fuel1 →
      fieldsplit_loop s split ifs fuel index si dest =
        fieldsplit_loop s split ifs fuel1 index si dest := by
  intro fuel
  induction fuel with
  | zero =>
    intro fuel1 index si dest h _
    cases fuel1 with
    | zero => rfl
    | succ f1 =>
      rw [fieldsplit_loop_succ, List.getElem?_eq_none (by omega)]
      rfl
  | succ f ih =>
    intro fuel1 index si dest h h1
    cases fuel1 with
    | zero =>
      rw [fieldsplit_loop_succ, List.getElem?_eq_none (by omega)]
      rfl
    | succ f1 =>
      rw [fieldsplit_loop_succ, fieldsplit_loop_succ]
      cases hc : s[index]? with
      | none => rfl
      | some c =>
        have hi : index < s.length := by
          by_contra hge
          rw [List.getElem?_eq_none (by omega)] at hc
          simp at hc
        simp only
        split
        · cases s[index + 1]? with
          | none => rfl
          | some d => exact ih f1 (index + 2) si dest (by omega) (by omega)
        · split
          · have := fieldsplit_run_index s split ifs si s.length index (!decide (si < index))
              false (if si < index then dest ++ [xwcsndup s si (index - si)] else dest) hi
              (by omega)
            exact ih f1 _ _ _ (by omega) (by omega)
          · exact ih f1 (index + 1) si dest (by omega) (by omega)

/-- The outer loop of `fieldsplit` over a last field that holds no separator and no
backslash. -/
theorem fieldsplit_loop_last (s : WStr) (split : List Nat) (ifs : WStr) (tok : WStr)
    (htok : ∀ x ∈ tok, x ≠ BSL ∧ x ∉ ifs) (i fuel si : Nat) (dest : List WStr)
    (hd : s.drop i = tok) (hi : i ≤ s.length) (hf : s.length < i + fuel) :
    fieldsplit_loop s split ifs fuel i si dest = (s.length, si, dest) := by
  have hl := length_of_drop s i tok hd hi
  obtain ⟨f, rfl⟩ : ∃ f, fuel = (f + 1) + tok.length := ⟨fuel - tok.length - 1, by omega⟩
  rw [fieldsplit_loop_token s split ifs tok htok i (f + 1) si dest [] (by simpa using hd),
    fieldsplit_loop_succ, List.getElem?_eq_none (by omega), hl]

theorem intercalate_sep_cons_cons (c : Char) (t t2 : WStr) (ts : List WStr) :
    [c].intercalate (t :: t2 :: ts) = t ++ c :: [c].intercalate (t2 :: ts) := by
  rw [intercalate_cons_cons]; simp

/-- The outer loop of `fieldsplit` at the start of a field that a separator follows. -/
theorem fieldsplit_field_then_sep (s : WStr) (split : List Nat) (c : Char) (dest0 : List WStr)
    (hb : c ≠ BSL) (hsp : ∀ i < s.length, split.getD i 0 ≠ 0)
    (t t2 : WStr) (ts : List WStr) (ht : ∀ x ∈ t, x ≠ c ∧ x ≠ BSL)
    (hB : sep_run_spec s split c dest0 t2 ts)
    (i fuel : Nat) (dest : List WStr)
    (hd : s.drop i = [c].intercalate (t :: t2 :: ts))
    (hf : s.length < i + fuel) (hd0 : dest0.length ≤ dest.length) :
    fieldsplit_end s dest0 (fieldsplit_loop s split [c] fuel i i dest) =
      some (dest ++ t :: t2 :: ts) := by
  rw [intercalate_sep_cons_cons] at hd
  have hlen : i + t.length < s.length := by
    by_cases hi : i ≤ s.length
    · have := length_of_drop s i _ hd hi
      simp at this
      omega
    · rw [List.drop_eq_nil_of_le (by omega)] at hd
      cases t <;> simp at hd
  have hd1 : s.drop (i + t.length) = c :: [c].intercalate (t2 :: ts) := by
    have : s.drop (i + t.length) = (s.drop i).drop t.length := by rw [List.drop_drop]
    rw [this, hd]
    simp
  obtain ⟨f, rfl⟩ : ∃ f, fuel = (f + 1) + t.length := ⟨fuel - t.length - 1, by omega⟩
  rw [fieldsplit_loop_token s split [c] t
    (fun x hx => ⟨(ht x hx).2, by simp [(ht x hx).1]⟩) i (f + 1) i dest _ hd,
    fieldsplit_loop_succ, getElem?_of_drop_cons s _ c _ hd1]
  simp only [if_neg hb, List.mem_singleton, and_true, if_pos (hsp _ hlen)]
  have hidx := fieldsplit_run_index s split [c] i s.length (i + t.length)
    (!decide (i < i + t.length)) false
    (if i < i + t.length then dest ++ [xwcsndup s i (i + t.length - i)] else dest)
    hlen (by omega)
  rw [fieldsplit_loop_fuel s split [c] f (s.length + 1) _ _ _ (by omega) (by omega)]
  cases ht0 : t with
  | nil =>
    subst ht0
    have := hB i s.length i true false dest (by simpa using hd1) (by omega) (le_refl _) hd0
      (Or.inr rfl)
    simpa using this
  | cons x t1 =>
    have hpos : i < i + t.length := by rw [ht0]; simp
    have hx : xwcsndup s i (i + t.length - i) = t :=
      xwcsndup_of_drop s i t _ _ hd (by omega)
    have := hB (i + t.length) s.length i false false (dest ++ [t]) hd1 (by omega) (by omega)
      (by simp; omega) (Or.inl (by simp; omega))
    rw [← ht0]
    simp only [hpos, if_true, decide_True, Bool.not_true, hx]
    simpa using this

/-- The `do ... while` loop of `fieldsplit` at a separator that is not white space, with
`IFS` made of this separator only. -/
theorem fieldsplit_sep_run (s : WStr) (split : List Nat) (c : Char) (dest0 : List WStr)
    (hc : iswspace c = false) (hb : c ≠ BSL) (hsp : ∀ i < s.length, split.getD i 0 ≠ 0) :
    ∀ (ts : List WStr) (t : WStr), (∀ u ∈ t :: ts, ∀ x ∈ u, x ≠ c ∧ x ≠ BSL) →
      sep_run_spec s split c dest0 t ts := by
  intro ts
  induction ts with
  | nil =>
    intro t hcl i k si sons ns dest hd hk hsi hd0 hch
    have hi := lt_length_of_drop_cons s i c _ hd
    obtain ⟨k1, rfl⟩ : ∃ k1, k = k1 + 1 := ⟨k - 1, by omega⟩
    have hd1 : s.drop (i + 1) = t := by
      have := drop_succ_of_drop_cons s i c _ hd
      rwa [intercalate_singleton] at this
    rw [fieldsplit_run_succ, getElem?_of_drop_cons s i c _ hd]
    simp only [hc, Bool.not_false, if_true, Bool.true_and]
    cases ht0 : t with
    | nil =>
      rw [ht0] at hd1
      rw [getElem?_of_drop_nil s (i + 1) hd1]
      have hl := length_of_drop s (i + 1) [] hd1 (by omega)
      simp only [List.length_nil, Nat.add_zero] at hl
      have hlt : si < i + 1 := by omega
      simp only [hlt, decide_True, if_true]
      rw [fieldsplit_loop_succ, getElem?_of_drop_nil s (i + 1) hd1]
      simp only [fieldsplit_end]
      rw [if_neg (by
        cases sons <;> simp <;> omega), if_neg (by omega)]
      cases sons <;> simp
    | cons x t1 =>
      rw [ht0] at hd1
      have hx := hcl t (by simp) x (by rw [ht0]; simp)
      rw [getElem?_of_drop_cons s (i + 1) x _ hd1]
      simp only [List.mem_singleton, hx.1, and_false, if_false]
      rw [fieldsplit_loop_last s split [c] (x :: t1)
        (fun y hy => by
          have := hcl t (by simp) y (by rw [ht0]; exact hy)
          exact ⟨this.2, by simp [this.1]⟩)
        (i + 1) (s.length + 1) (i + 1) _ hd1 (by omega) (by omega)]
      have hl := length_of_drop s (i + 1) _ hd1 (by omega)
      simp only [List.length_cons] at hl
      simp only [fieldsplit_end]
      rw [if_neg (by
        rcases hch with h | h
        · cases sons <;> simp <;> omega
        · subst h; simp; omega), if_pos (by omega),
        xwcsndup_of_drop s (i + 1) (x :: t1) [] _ (by simpa using hd1) (by simp; omega)]
      cases sons <;> simp
  | cons t2 ts ih =>
    intro t hcl i k si sons ns dest hd hk hsi hd0 hch
    have hi := lt_length_of_drop_cons s i c _ hd
    obtain ⟨k1, rfl⟩ : ∃ k1, k = k1 + 1 := ⟨k - 1, by omega⟩
    have hd1 : s.drop (i + 1) = t ++ c :: [c].intercalate (t2 :: ts) := by
      have := drop_succ_of_drop_cons s i c _ hd
      rwa [intercalate_sep_cons_cons] at this
    have hB := ih t2 (fun u hu => hcl u (by simp at hu ⊢; right; exact hu))
    rw [fieldsplit_run_succ, getElem?_of_drop_cons s i c _ hd]
    simp only [hc, Bool.not_false, if_true, Bool.true_and]
    cases ht0 : t with
    | nil =>
      rw [ht0] at hd1
      have hd2 : s.drop (i + 1) = c :: [c].intercalate (t2 :: ts) := by simpa using hd1
      have hi1 := lt_length_of_drop_cons s (i + 1) c _ hd2
      rw [getElem?_of_drop_cons s (i + 1) c _ hd2]
      simp only [List.mem_singleton, and_true, if_pos (hsp _ hi1)]
      have := hB (i + 1) k1 si true true (if sons = true then dest ++ [[]] else dest) hd2
        (by omega) (by omega) (by cases sons <;> simp <;> omega) (Or.inr rfl)
      rw [this]
      cases sons <;> simp
    | cons x t1 =>
      rw [ht0] at hd1
      have hx := hcl t (by simp) x (by rw [ht0]; simp)
      have hd2 : s.drop (i + 1) = x :: (t1 ++ c :: [c].intercalate (t2 :: ts)) := by
        simpa using hd1
      rw [getElem?_of_drop_cons s (i + 1) x _ hd2]
      simp only [List.mem_singleton, hx.1, and_false, if_false]
      have := fieldsplit_field_then_sep s split c dest0 hb hsp (x :: t1) t2 ts
        (fun y hy => hcl t (by simp) y (by rw [ht0]; exact hy)) hB (i + 1) (s.length + 1)
        (if sons = true then dest ++ [[]] else dest)
        (by rw [intercalate_sep_cons_cons]; exact hd1) (by omega)
        (by cases sons <;> simp <;> omega)
      rw [this]
      cases sons <;> simp

theorem getD_replicate_one (n i : Nat) (h : i < n) : (List.replicate n 1).getD i 0 ≠ 0 := by
  simp [List.getD, List.getElem?_replicate, h]

/-- C5: for a separator `c` that is neither white space nor a backslash and every non-empty
list of fields, each possibly empty and containing neither `c` nor a backslash, `fieldsplit`
applied to the fields joined by single `c` characters, with every splittability byte equal
to 1 and `IFS` made of `c`, adds exactly the original list of fields. -/
theorem fieldsplit_nonspace_separator (c : Char) (tokens : List WStr) (dest : List WStr)
    (hne : tokens ≠ []) (hc : iswspace c = false) (hb : c ≠ BSL)
    (hcl : ∀ t ∈ tokens, ∀ x ∈ t, x ≠ c ∧ x ≠ BSL) :
    fieldsplit ([c].intercalate tokens)
      (List.replicate ([c].intercalate tokens).length 1) [c] dest = some (dest ++ tokens) := by
  have hsp : ∀ i < ([c].intercalate tokens).length,
      (List.replicate ([c].intercalate tokens).length 1).getD i 0 ≠ 0 :=
    fun i hi => getD_replicate_one _ i hi
  match tokens, hne, hcl, hsp with
  | [t], _, hcl, _ =>
    rw [fieldsplit, fieldsplit_loop_last _ _ [c] t
      (fun x hx => ⟨(hcl t (by simp) x hx).2, by simp [(hcl t (by simp) x hx).1]⟩)
      0 _ 0 dest (by simp [intercalate_singleton]) (by omega) (by omega)]
    simp [fieldsplit_end, intercalate_singleton]
  | t :: t2 :: ts, _, hcl, hsp =>
    rw [fieldsplit]
    exact fieldsplit_field_then_sep _ _ c dest hb hsp t t2 ts (hcl t (by simp))
      (fieldsplit_sep_run _ _ c dest hc hb hsp ts t2
        (fun u hu => hcl u (by simp at hu ⊢; right; exact hu)))
      0 _ dest (by simp) (by omega) (le_refl _)

/-- Witness of C5: with `IFS` a colon, `a::b` gives the fields `a`, the empty field
and `b`. -/
theorem fieldsplit_nonspace_separator_witness :
    [[Char.ofNat 97], [], [Char.ofNat 98]] ≠ [] ∧ iswspace (Char.ofNat 58) = false ∧
    Char.ofNat 58 ≠ BSL ∧
    (∀ t ∈ [[Char.ofNat 97], [], [Char.ofNat 98]], ∀ x ∈ t, x ≠ Char.ofNat 58 ∧ x ≠ BSL) ∧
    fieldsplit ([Char.ofNat 58].intercalate [[Char.ofNat 97], [], [Char.ofNat 98]])
      (List.replicate
        ([Char.ofNat 58].intercalate [[Char.ofNat 97], [], [Char.ofNat 98]]).length 1)
      [Char.ofNat 58] [] = some ([] ++ [[Char.ofNat 97], [], [Char.ofNat 98]]) :=
  ⟨by decide, by decide, by decide, by decide,
    fieldsplit_nonspace_separator _ _ _ (by decide) (by decide) (by decide) (by decide)⟩

/-- The `do ... while` loop of `fieldsplit` over a run of white-space separators that a
character outside `ifs` follows: the index passes over the run and nothing is added. -/
theorem fieldsplit_run_blanks (s : WStr) (split : List Nat) (ifs : WStr) (si : Nat)
    (hws : ∀ x ∈ ifs, iswspace x = true) (hsp : ∀ i < s.length, split.getD i 0 ≠ 0)
    (y : Char) (hy : y ∉ ifs) (more : WStr) :
    ∀ (sp : WStr) (a : Char) (i k : Nat) (sons : Bool) (dest : List WStr),
      (∀ x ∈ a :: sp, x ∈ ifs) → s.drop i = (a :: sp) ++ y :: more → s.length ≤ i + k →
      fieldsplit_run s split ifs si k i sons false dest = (i + (a :: sp).length, dest) := by
  intro sp
  induction sp with
  | nil =>
    intro a i k sons dest hin hd hk
    have hd0 : s.drop i = a :: (y :: more) := by simpa using hd
    have hi := lt_length_of_drop_cons s i a _ hd0
    obtain ⟨k1, rfl⟩ : ∃ k1, k = k1 + 1 := ⟨k - 1, by omega⟩
    have ha := hws a (hin a (by simp))
    rw [fieldsplit_run_succ, getElem?_of_drop_cons s i a _ hd0,
      getElem?_of_drop_cons s (i + 1) y _ (drop_succ_of_drop_cons s i a _ hd0)]
    simp [ha, hy]
  | cons b sp ih =>
    intro a i k sons dest hin hd hk
    have hd0 : s.drop i = a :: (b :: sp ++ y :: more) := by simpa using hd
    have hi := lt_length_of_drop_cons s i a _ hd0
    have hd1 := drop_succ_of_drop_cons s i a _ hd0
    have hi1 := lt_length_of_drop_cons s (i + 1) b _ hd1
    obtain ⟨k1, rfl⟩ : ∃ k1, k = k1 + 1 := ⟨k - 1, by omega⟩
    have ha := hws a (hin a (by simp))
    have hb := hin b (by simp)
    rw [fieldsplit_run_succ, getElem?_of_drop_cons s i a _ hd0,
      getElem?_of_drop_cons s (i + 1) b _ hd1]
    simp only [ha, Bool.not_true, Bool.false_and, if_false, hb, and_true, if_pos (hsp _ hi1),
      Bool.false_eq_true]
    rw [ih b (i + 1) k1 sons dest (fun x hx => hin x (by simp at hx ⊢; right; exact hx))
      (by simpa using hd1) (by omega)]
    simp
    omega

/-- The outer loop of `fieldsplit` at the start of a field, for fields separated by runs of
white-space separators. -/
theorem fieldsplit_blank_fields (s : WStr) (split : List Nat) (ifs : WStr) (dest0 : List WStr)
    (hws : ∀ x ∈ ifs, iswspace x = true) (hsp : ∀ i < s.length, split.getD i 0 ≠ 0) :
    ∀ (rest : List (WStr × WStr)) (tok : WStr) (i fuel : Nat) (dest : List WStr),
      tok ≠ [] → (∀ x ∈ tok, x ≠ BSL ∧ x ∉ ifs) →
      (∀ p ∈ rest, p.1 ≠ [] ∧ (∀ x ∈ p.1, x ∈ ifs) ∧ p.2 ≠ [] ∧ ∀ x ∈ p.2, x ≠ BSL ∧ x ∉ ifs) →
      s.drop i = blank_join tok rest → i ≤ s.length → s.length < i + fuel →
      dest0.length ≤ dest.length → (dest0.length = dest.length → i = 0) →
      fieldsplit_end s dest0 (fieldsplit_loop s split ifs fuel i i dest) =
        some (dest ++ tok :: rest.map (fun p => p.2)) := by
  intro rest
  induction rest with
  | nil =>
    intro tok i fuel dest hne htok _ hd hi hf hd0 hz
    have hd1 : s.drop i = tok := by simpa [blank_join] using hd
    have hl := length_of_drop s i tok hd1 hi
    have hpos : 0 < tok.length := List.length_pos.mpr hne
    rw [fieldsplit_loop_last s split ifs tok htok i fuel i dest hd1 hi hf]
    simp only [fieldsplit_end]
    by_cases he : dest0.length = dest.length
    · have hi0 := hz he
      subst hi0
      rw [if_pos he, if_pos rfl]
      simp at hd1
      simp [hd1]
    · rw [if_neg he, if_pos (by omega),
        xwcsndup_of_drop s i tok [] _ (by simpa using hd1) (by omega)]
      simp
  | cons p rest ih =>
    intro tok i fuel dest hne htok hrest hd hi hf hd0 hz
    obtain ⟨hp1, hp2, hp3, hp4⟩ := hrest p (by simp)
    obtain ⟨a, sp, hsp1⟩ : ∃ a sp, p.1 = a :: sp := by
      cases h : p.1 with
      | nil => exact absurd h hp1
      | cons a sp => exact ⟨a, sp, rfl⟩
    obtain ⟨y, t2, ht2⟩ : ∃ y t2, p.2 = y :: t2 := by
      cases h : p.2 with
      | nil => exact absurd h hp3
      | cons y t2 => exact ⟨y, t2, rfl⟩
    have hd1 : s.drop i = tok ++ ((a :: sp) ++ y :: (t2 ++ rest.flatMap (fun p => p.1 ++ p.2))) := by
      rw [hd]
      simp [blank_join, List.flatMap_cons, hsp1, ht2]
    have hpos : 0 < tok.length := List.length_pos.mpr hne
    have hl := length_of_drop s i _ hd1 hi
    simp only [List.length_append, List.length_cons] at hl
    have hd2 : s.drop (i + tok.length) =
        (a :: sp) ++ y :: (t2 ++ rest.flatMap (fun p => p.1 ++ p.2)) := by
      have : s.drop (i + tok.length) = (s.drop i).drop tok.length := by rw [List.drop_drop]
      rw [this, hd1]
      simp
    have hd3 : s.drop (i + tok.length) =
        a :: (sp ++ y :: (t2 ++ rest.flatMap (fun p => p.1 ++ p.2))) := by simpa using hd2
    have ha : a ∈ ifs := hp2 a (by rw [hsp1]; simp)
    have hab : a ≠ BSL := by
      intro h
      have := hws a ha
      rw [h] at this
      revert this
      decide
    have hy : y ∉ ifs := (hp4 y (by rw [ht2]; simp)).2
    obtain ⟨f, rfl⟩ : ∃ f, fuel = (f + 1) + tok.length := ⟨fuel - tok.length - 1, by omega⟩
    rw [fieldsplit_loop_token s split ifs tok htok i (f + 1) i dest _ hd1,
      fieldsplit_loop_succ, getElem?_of_drop_cons s _ a _ hd3]
    simp only [if_neg hab, ha, and_true, if_pos (hsp _ (show i + tok.length < s.length by omega))]
    rw [fieldsplit_run_blanks s split ifs i hws hsp y hy _ sp a (i + tok.length) s.length _ _
      (fun x hx => hp2 x (by rw [hsp1]; exact hx)) hd2 (by omega)]
    simp only [show i < i + tok.length by omega, if_true,
      xwcsndup_of_drop s i tok _ (i + tok.length - i) hd1 (by omega)]
    have hd4 : s.drop (i + tok.length + (a :: sp).length) = blank_join p.2 rest := by
      have : s.drop (i + tok.length + (a :: sp).length) =
          (s.drop (i + tok.length)).drop (a :: sp).length := by rw [List.drop_drop]
      rw [this, hd2, List.drop_left, ht2]
      simp [blank_join]
    have := ih p.2 (i + tok.length + (a :: sp).length) f (dest ++ [tok]) hp3 hp4
      (fun q hq => hrest q (by simp [hq])) hd4
      (by simp only [List.length_cons]; omega) (by simp only [List.length_cons]; omega)
      (by simp; omega) (by simp; omega)
    rw [this]
    simp

/-! ## Expansion of a parameter and field splitting -/

theorem escape_none_length (v : WStr) : (escape v none).length = 2 * v.length := by
  induction v with
  | nil => rfl
  | cons x v ih => rw [escape_none_cons]; simp [ih]; omega

theorem escaped_wcspbrk_escape_none (accept : WStr) (v : WStr) :
    escaped_wcspbrk (escape v none) accept = none := by
  induction v with
  | nil => rfl
  | cons x v ih => rw [escape_none_cons, escaped_wcspbrk_bsl_cons, ih]; rfl

/-- The expansion of a parameter without operator whose value is the single string `v`. -/
theorem expand_param_plain {σ : Type} (sh : Shell σ) (st : σ) (x : String) (v : WStr)
    (concat indq : Bool) (tilde : tildetype_T) (n m su : wordunit_T)
    (hx : sh.get_variable st x = (some [v], concat)) :
    expand_param sh (paramexp_T.mk PT_PLAIN x n m su) indq tilde st =
      Res.ret st (some (expand_param_close sh st PT_PLAIN indq concat [v])) := by
  simp [expand_param, PT_PLAIN, hx, Res.bind]

theorem expand_param_close_dq {σ : Type} (sh : Shell σ) (st : σ) (concat : Bool) (v : WStr) :
    expand_param_close sh st PT_PLAIN true concat [v] = [escape v none] := by
  cases concat <;>
    simp [expand_param_close, PT_PLAIN, joinwcsarray, intercalate_singleton, escapefree]

theorem escapefree_clean (v : WStr) (h : ∀ c ∈ v, c ∉ ESCAPED_CHARS) :
    escapefree v (some ESCAPED_CHARS) = v := by
  have : v.all (fun c => !(ESCAPED_CHARS.contains c)) = true := by
    rw [List.all_eq_true]
    intro c hc
    simpa using h c hc
  rw [escapefree, if_pos this]

theorem expand_param_close_clean {σ : Type} (sh : Shell σ) (st : σ) (concat : Bool) (v : WStr)
    (h : ∀ c ∈ v, c ∉ ESCAPED_CHARS) (hne : v ≠ []) :
    expand_param_close sh st PT_PLAIN false concat [v] = [v] := by
  cases concat <;>
    simp [expand_param_close, PT_PLAIN, joinwcsarray, intercalate_singleton,
      escapefree_clean v h, hne]

theorem expand_word_dquoted_param {σ : Type} (sh : Shell σ) (st : σ) (x : String) (v : WStr)
    (concat : Bool) (hx : sh.get_variable st x = (some [v], concat)) :
    expand_word sh st (dquoted_param x) tildetype_T.tt_single [] (some []) =
      Res.ret st (true, [escape v none], some [List.replicate (escape v none).length 1]) := by
  simp [expand_word, dquoted_param, expand_word_units, expand_tilde, expand_word_string,
    expand_param_plain sh st x v concat _ _ _ _ _ hx, expand_param_close_dq, Res.bind,
    expand_word_open, expand_word_array, FILL_SBUF, expand_word_close, DQUOTE, SQUOTE,
    wordunit_T.nonnull]

theorem expand_word_unquoted_param {σ : Type} (sh : Shell σ) (st : σ) (x : String) (v : WStr)
    (concat : Bool) (hx : sh.get_variable st x = (some [v], concat))
    (h : ∀ c ∈ v, c ∉ ESCAPED_CHARS) (hne : v ≠ []) :
    expand_word sh st (unquoted_param x) tildetype_T.tt_single [] (some []) =
      Res.ret st (true, [v], some [List.replicate v.length 1]) := by
  have hpos : 0 < v.length := List.length_pos.mpr hne
  simp [expand_word, unquoted_param, expand_word_units,
    expand_param_plain sh st x v concat _ _ _ _ _ hx, expand_param_close_clean sh st concat v h hne,
    Res.bind, expand_word_open, expand_word_array, FILL_SBUF, expand_word_close, hpos]

theorem unescape_escape_all (v : WStr) : unescape (escape v none) = v := by
  induction v with
  | nil => rfl
  | cons c s ih => rw [escape_none_cons, unescape_bsl_cons, ih]

theorem expand_brace_each_single (fuel : Nat) (w : WStr) (split : List Nat)
    (h : escaped_wcspbrk w [LBRACE] = none) :
    expand_brace_each (fuel + 1) [w] [split] [] [] = some ([w], [split]) := by
  have := expand_brace_from_of_none fuel w split 0 [] [] (by simpa using h)
  simp [expand_brace_each, expand_brace, this]

/-- C2: for every value `v` of a set parameter `x` and every value of `IFS`, the word made of
the double-quoted expansion of `x`, passed through `expand_word`, `expand_brace` and
`fieldsplit` by `expand_word_and_split`, yields exactly one field, `escape v NULL`, and
un-escaping that field gives exactly `v`. -/
theorem dquoted_param_one_field {σ : Type} (sh : Shell σ) (st : σ) (fuel : Nat) (x : String)
    (v : WStr) (concat : Bool) (list : List WStr)
    (hx : sh.get_variable st x = (some [v], concat)) :
    expand_word_and_split sh (fuel + 1) st (dquoted_param x) list =
        Res.ret st (true, list ++ [escape v none]) ∧
      unescape (escape v none) = v := by
  refine ⟨?_, unescape_escape_all v⟩
  have hb := expand_brace_each_single fuel (escape v none)
    (List.replicate (escape v none).length 1) (escaped_wcspbrk_escape_none _ v)
  have hf : ∀ ifs, fieldsplit_each ifs [escape v none]
      [List.replicate (escape v none).length 1] list = some (list ++ [escape v none]) := by
    intro ifs
    simp [fieldsplit_each, fieldsplit_escaped]
  rw [expand_word_and_split, expand_word_dquoted_param sh st x v concat hx]
  simp only [Res.bind, Option.getD_some, hb]
  cases hbe : sh.shopt_braceexpand <;>
    simp [fieldsplit_all, hf]

/-- C3: when `IFS` is unset, for every value made of a first field and further fields, each
after a non-empty run of spaces, tabs and newlines, the fields being non-empty and free of
space, tab, newline, backslash, braces and comma, the unquoted expansion of the parameter
passed through `expand_word_and_split` yields exactly the fields in order. -/
theorem unquoted_param_blank_fields {σ : Type} (sh : Shell σ) (st : σ) (fuel : Nat)
    (x : String) (concat : Bool) (list : List WStr) (tok : WStr) (rest : List (WStr × WStr))
    (hifs : sh.getvar st "IFS" = none)
    (hx : sh.get_variable st x = (some [blank_join tok rest], concat))
    (hne : tok ≠ []) (htok : ∀ c ∈ tok, c ∉ BLANKS ∧ c ∉ ESCAPED_CHARS)
    (hrest : ∀ p ∈ rest, p.1 ≠ [] ∧ (∀ c ∈ p.1, c ∈ BLANKS) ∧ p.2 ≠ [] ∧
      ∀ c ∈ p.2, c ∉ BLANKS ∧ c ∉ ESCAPED_CHARS) :
    expand_word_and_split sh (fuel + 1) st (unquoted_param x) list =
      Res.ret st (true, list ++ tok :: rest.map (fun p => p.2)) := by
  have hclean : ∀ c ∈ blank_join tok rest, c ∉ ESCAPED_CHARS := by
    intro c hc
    simp only [blank_join, List.mem_append, List.mem_flatMap] at hc
    rcases hc with hc | ⟨p, hp, hc | hc⟩
    · exact (htok c hc).2
    · have := (hrest p hp).2.1 c hc
      intro hce
      revert this hce
      simp only [BLANKS, ESCAPED_CHARS, List.mem_cons, List.mem_singleton, List.not_mem_nil,
        or_false]
      rintro (rfl | rfl | rfl) <;> decide
    · exact ((hrest p hp).2.2.2 c hc).2
  have hvne : blank_join tok rest ≠ [] := by
    cases tok with
    | nil => exact absurd rfl hne
    | cons a t => simp [blank_join]
  have hb := expand_brace_each_single fuel (blank_join tok rest)
    (List.replicate (blank_join tok rest).length 1)
    (escaped_wcspbrk_clean_none _ _ (fun c hc => by
      have := not_escaped_of c (hclean c hc)
      exact ⟨this.1, by simp [this.2.1]⟩))
  have hws : ∀ c ∈ BLANKS, iswspace c = true := by decide
  have hf := fieldsplit_blank_fields (blank_join tok rest)
    (List.replicate (blank_join tok rest).length 1) BLANKS list hws
    (fun i hi => getD_replicate_one _ i hi) rest tok 0 ((blank_join tok rest).length + 1) list hne
    (fun c hc => ⟨(not_escaped_of c (htok c hc).2).1, (htok c hc).1⟩)
    (fun p hp => ⟨(hrest p hp).1, (hrest p hp).2.1, (hrest p hp).2.2.1,
      fun c hc => ⟨(not_escaped_of c ((hrest p hp).2.2.2 c hc).2).1,
        ((hrest p hp).2.2.2 c hc).1⟩⟩)
    (by simp) (by omega) (by omega) (le_refl _) (fun _ => rfl)
  have hf2 : fieldsplit_each BLANKS [blank_join tok rest]
      [List.replicate (blank_join tok rest).length 1] list =
        some (list ++ tok :: rest.map (fun p => p.2)) := by
    simp only [fieldsplit_each, fieldsplit, hf]
  rw [expand_word_and_split, expand_word_unquoted_param sh st x _ concat hx hclean hvne]
  simp only [Res.bind, Option.getD_some, hb]
  cases hbe : sh.shopt_braceexpand <;>
    simp [fieldsplit_all, hifs, hf2]

/-- Witness of C2: the value `a b` of `x`, double-quoted, stays one field. -/
theorem dquoted_param_one_field_witness :
    (var_shell false).get_variable [("x", [Char.ofNat 97, Char.ofNat 32, Char.ofNat 98])] "x" =
        (some [[Char.ofNat 97, Char.ofNat 32, Char.ofNat 98]], false) ∧
    expand_word_and_split (var_shell false) (0 + 1)
        [("x", [Char.ofNat 97, Char.ofNat 32, Char.ofNat 98])] (dquoted_param "x") [] =
      Res.ret [("x", [Char.ofNat 97, Char.ofNat 32, Char.ofNat 98])]
        (true, [] ++ [escape [Char.ofNat 97, Char.ofNat 32, Char.ofNat 98] none]) ∧
    unescape (escape [Char.ofNat 97, Char.ofNat 32, Char.ofNat 98] none) =
      [Char.ofNat 97, Char.ofNat 32, Char.ofNat 98] :=
  ⟨by decide, dquoted_param_one_field (var_shell false) _ 0 "x" _ false [] (by decide)⟩

/-- Witness of C3: with `IFS` unset, the value `foo bar` of `A` gives the fields `foo`
and `bar`. -/
theorem unquoted_param_blank_fields_witness :
    (var_shell false).getvar
        [("A", blank_join [Char.ofNat 102, Char.ofNat 111, Char.ofNat 111]
          [([Char.ofNat 32], [Char.ofNat 98, Char.ofNat 97, Char.ofNat 114])])] "IFS" = none ∧
    expand_word_and_split (var_shell false) (0 + 1)
        [("A", blank_join [Char.ofNat 102, Char.ofNat 111, Char.ofNat 111]
          [([Char.ofNat 32], [Char.ofNat 98, Char.ofNat 97, Char.ofNat 114])])]
        (unquoted_param "A") [] =
      Res.ret
        [("A", blank_join [Char.ofNat 102, Char.ofNat 111, Char.ofNat 111]
          [([Char.ofNat 32], [Char.ofNat 98, Char.ofNat 97, Char.ofNat 114])])]
        (true, [] ++ [Char.ofNat 102, Char.ofNat 111, Char.ofNat 111] ::
          [([Char.ofNat 32], [Char.ofNat 98, Char.ofNat 97, Char.ofNat 114])].map
            (fun p => p.2)) :=
  ⟨by decide,
    unquoted_param_blank_fields (var_shell false) _ 0 "A" false []
      [Char.ofNat 102, Char.ofNat 111, Char.ofNat 111]
      [([Char.ofNat 32], [Char.ofNat 98, Char.ofNat 97, Char.ofNat 114])]
      (by decide) (by decide) (by decide) (by decide) (by decide)⟩

/-! ## The loop over a literal unit -/

theorem add_sq_loop_length (esc : Bool) :
    ∀ (s : WStr) (r : WStr × WStr), add_sq_loop s esc = some r →
      1 ≤ r.2.length ∧ r.2.length ≤ s.length := by
  intro s
  induction s with
  | nil => intro r h; simp [add_sq_loop] at h
  | cons c s ih =>
    intro r h
    simp only [add_sq_loop] at h
    split at h
    · simp only [Option.some.injEq] at h
      rw [← h]
      simp
    · split at h
      · simp at h
      · rename_i r1 hr1
        simp only [Option.some.injEq] at h
        have := ih r1 hr1
        rw [← h]
        simp only [List.length_cons]
        omega

theorem expand_tilde_length {σ : Type} (sh : Shell σ) (st : σ) (ss : WStr) (hasnext : Bool)
    (tt : tildetype_T) (r : WStr × WStr) (h : expand_tilde sh st ss hasnext tt = some r) :
    r.2.length ≤ ss.length := by
  cases ss with
  | nil => simp [expand_tilde] at h
  | cons c s =>
    simp only [expand_tilde] at h
    split at h
    · simp at h
    · split at h
      · simp at h
      · split at h
        · simp only [Option.some.injEq] at h
          rw [← h]
          simp only [List.length_drop, List.length_cons]
          omega
        · simp at h

/-- The result of the loop of `expand_word` over a literal unit does not depend on the bound
of its iterations once the bound exceeds the length of the string. -/
theorem expand_word_string_fuel {σ : Type} (sh : Shell σ) (st : σ) (hasnext : Bool)
    (tilde : tildetype_T) :
    ∀ (fuel fuel1 : Nat) (ss : WStr) (x : xw_T), ss.length < fuel → ss.length < fuel1 →
      expand_word_string sh st hasnext tilde fuel ss x =
        expand_word_string sh st hasnext tilde fuel1 ss x := by
  intro fuel
  induction fuel with
  | zero => intro fuel1 ss x h; omega
  | succ f ih =>
    intro fuel1 ss x h h1
    obtain ⟨f1, rfl⟩ : ∃ f1, fuel1 = f1 + 1 := ⟨fuel1 - 1, by omega⟩
    cases ss with
    | nil => simp [expand_word_string]
    | cons c ss1 =>
      simp only [List.length_cons] at h h1
      simp only [expand_word_string]
      split
      · exact ih f1 _ _ (by omega) (by omega)
      · split
        · cases hq : add_sq (c :: ss1) true with
          | none => rfl
          | some r =>
            have := add_sq_loop_length true ss1 r (by simpa [add_sq] using hq)
            simp only
            exact ih f1 _ _ (by simp only [List.length_drop]; omega)
              (by simp only [List.length_drop]; omega)
        · split
          · cases ss1 with
            | nil => exact ih f1 _ _ (by simp; omega) (by simp; omega)
            | cons d ss2 =>
              simp only [List.length_cons] at h h1
              exact ih f1 _ _ (by omega) (by omega)
          · split
            · cases ht : expand_tilde sh st ss1 hasnext tilde with
              | none => exact ih f1 _ _ (by omega) (by omega)
              | some r =>
                have := expand_tilde_length sh st ss1 hasnext tilde r ht
                simp only
                exact ih f1 _ _ (by omega) (by omega)
            · exact ih f1 _ _ (by omega) (by omega)

/-! ## The lengths of values and splittability strings -/

theorem xw_inv_fill (vl : List WStr) (sl : List (List Nat)) (x : xw_T) (added : WStr) (c : Nat)
    (ok indq force suppress : Bool) (h : xw_inv vl sl x) :
    xw_inv vl sl (FILL_SBUF c
      { x with ok := ok, indq := indq, force := force, suppress := suppress,
               buf := x.buf ++ added }) := by
  obtain ⟨ok0, indq0, force0, suppress0, buf, sbuf, valuelist, splitlist⟩ := x
  obtain ⟨⟨vs, ss, h1, h2, h3⟩, h4⟩ := h
  simp only at h1 h2 h4
  subst h1 h2
  simp only [FILL_SBUF, Option.isSome_some, if_true]
  refine ⟨⟨vs, ss, rfl, rfl, h3⟩, ?_⟩
  simp only [List.length_append, List.length_replicate]
  omega

theorem xw_inv_flags (vl : List WStr) (sl : List (List Nat)) (x : xw_T)
    (ok indq force suppress : Bool) (h : xw_inv vl sl x) :
    xw_inv vl sl { x with ok := ok, indq := indq, force := force, suppress := suppress } := h

theorem expand_word_string_inv {σ : Type} (sh : Shell σ) (st : σ) (hasnext : Bool)
    (tilde : tildetype_T) (vl : List WStr) (sl : List (List Nat)) :
    ∀ (fuel : Nat) (ss : WStr) (x x1 : xw_T), xw_inv vl sl x →
      expand_word_string sh st hasnext tilde fuel ss x = some x1 → xw_inv vl sl x1 := by
  intro fuel
  induction fuel with
  | zero =>
    intro ss x x1 h he
    simp only [expand_word_string, Option.some.injEq] at he
    rw [← he]; exact h
  | succ fuel ih =>
    intro ss x x1 h he
    cases ss with
    | nil =>
      simp only [expand_word_string, Option.some.injEq] at he
      rw [← he]; exact h
    | cons c ss1 =>
      simp only [expand_word_string] at he
      split at he
      · exact ih _ _ _ (xw_inv_flags vl sl x x.ok (!x.indq) true x.suppress h) he
      · split at he
        · split at he
          · simp at he
          · exact ih _ _ _ (xw_inv_fill vl sl x _ 0 x.ok x.indq true x.suppress h) he
        · split at he
          · split at he
            · exact ih _ _ _ (xw_inv_fill vl sl x _ 0 x.ok x.indq x.force x.suppress h) he
            · exact ih _ _ _ (xw_inv_fill vl sl x _ 0 x.ok x.indq x.force x.suppress h) he
          · split at he
            · split at he
              · rename_i r _
                have := xw_inv_fill vl sl x
                  ([Char.ofNat 58] ++ escapefree r.1 (some ESCAPED_CHARS))
                  0 x.ok x.indq x.force x.suppress h
                rw [← List.append_assoc] at this
                exact ih _ _ _ this he
              · exact ih _ _ _ (xw_inv_fill vl sl x _ 0 x.ok x.indq x.force x.suppress h) he
            · exact ih _ _ _ (xw_inv_fill vl sl x _ 0 x.ok x.indq x.force x.suppress h) he

theorem expand_word_array_inv (vl : List WStr) (sl : List (List Nat)) :
    ∀ (array : List WStr) (x : xw_T), xw_inv vl sl x → xw_inv vl sl (expand_word_array array x) := by
  intro array
  induction array with
  | nil => intro x h; exact h
  | cons a array ih =>
    intro x h
    cases array with
    | nil => exact xw_inv_fill vl sl x a 1 x.ok x.indq x.force x.suppress h
    | cons b array =>
      simp only [expand_word_array]
      apply ih
      have h1 := xw_inv_fill vl sl x a 1 x.ok x.indq x.force x.suppress h
      obtain ⟨ok0, indq0, force0, suppress0, buf, sbuf, valuelist, splitlist⟩ := x
      obtain ⟨⟨vs, ss, e1, e2, e3⟩, e4⟩ := h1
      obtain ⟨⟨vs0, ss0, f1, f2, f3⟩, f4⟩ := h
      simp only at f1 f2 f4
      subst f1 f2
      simp only [FILL_SBUF, Option.isSome_some, if_true] at e1 e2 e4 ⊢
      refine ⟨⟨vs0 ++ [buf ++ a], ss0 ++ [sbuf ++ List.replicate ((buf ++ a).length - sbuf.length) 1],
        by simp, by simp, ?_⟩, by simp⟩
      exact List.rel_append f3 (List.Forall₂.cons e4.symm List.Forall₂.nil)

theorem expand_word_units_inv {σ : Type} (sh : Shell σ) (tilde : tildetype_T)
    (vl : List WStr) (sl : List (List Nat)) :
    ∀ (n : Nat) (w : wordunit_T), w.count = n → ∀ (first : Bool) (st st1 : σ) (x x1 : xw_T),
      xw_inv vl sl x → expand_word_units sh tilde w first st x = Res.ret st1 x1 →
      xw_inv vl sl x1 := by
  intro n
  induction n with
  | zero =>
    intro w hw first st st1 x x1 h he
    cases w with
    | NULL =>
      simp only [expand_word_units, Res.ret.injEq] at he
      rw [← he.2]; exact h
    | WT_STRING _ _ => simp [wordunit_T.count] at hw
    | WT_PARAM _ _ => simp [wordunit_T.count] at hw
    | WT_CMDSUB _ _ => simp [wordunit_T.count] at hw
    | WT_ARITH _ _ => simp [wordunit_T.count] at hw
  | succ n ih =>
    intro w hw first st st1 x x1 h he
    cases w with
    | NULL => simp [wordunit_T.count] at hw
    | WT_STRING wu_string next =>
      have hn : next.count = n := by simpa [wordunit_T.count] using hw
      simp only [expand_word_units] at he
      split at he
      · simp at he
      · rename_i x2 hx2
        refine ih next hn false st st1 x2 x1 ?_ he
        refine expand_word_string_inv sh st _ tilde vl sl _ _ _ x2 ?_ hx2
        split
        · exact xw_inv_fill vl sl x _ 0 x.ok x.indq x.force x.suppress h
        · exact h
    | WT_PARAM wu_param next =>
      have hn : next.count = n := by simpa [wordunit_T.count] using hw
      simp only [expand_word_units] at he
      cases hp : expand_param sh wu_param x.indq tilde st with
      | fault => simp [hp, Res.bind] at he
      | exit st2 k => simp [hp, Res.bind] at he
      | ret st2 array =>
        simp only [hp, Res.bind] at he
        split at he
        · exact ih next hn false st2 st1 _ x1
            (xw_inv_flags vl sl x false x.indq x.force x.suppress h) he
        · exact ih next hn false st2 st1 _ x1
            (xw_inv_flags vl sl x x.ok x.indq x.force true h) he
        · exact ih next hn false st2 st1 _ x1
            (expand_word_array_inv vl sl _ _
              (xw_inv_flags vl sl x x.ok x.indq true x.suppress h)) he
    | WT_CMDSUB wu_cmdsub next =>
      have hn : next.count = n := by simpa [wordunit_T.count] using hw
      simp only [expand_word_units] at he
      split at he
      · exact ih next hn false _ st1 _ x1
          (xw_inv_fill vl sl x _ 1 x.ok x.indq x.force x.suppress h) he
      · exact ih next hn false _ st1 _ x1
          (xw_inv_flags vl sl x false x.indq x.force x.suppress h) he
    | WT_ARITH wu_arith next =>
      have hn : next.count = n := by simpa [wordunit_T.count] using hw
      simp only [expand_word_units] at he
      exact ih next hn false _ st1 _ x1
        (xw_inv_flags vl sl x false x.indq x.force x.suppress h) he

/-- C1: for every word, every tilde mode and every behaviour of the collaborators, when
`expand_word` is called with a non-null splittability list and returns, the value list and
the splittability list have grown by the same number of entries, and every value string
added is paired with a splittability string of exactly the same length. -/
theorem expand_word_lengths {σ : Type} (sh : Shell σ) (st st1 : σ) (w : wordunit_T)
    (tilde : tildetype_T) (valuelist : List WStr) (splitlist : List (List Nat))
    (ok : Bool) (valuelist1 : List WStr) (splitlist1 : Option (List (List Nat)))
    (h : expand_word sh st w tilde valuelist (some splitlist) =
      Res.ret st1 (ok, valuelist1, splitlist1)) :
    ∃ vs ss, valuelist1 = valuelist ++ vs ∧ splitlist1 = some (splitlist ++ ss) ∧
      vs.length = ss.length ∧
      List.Forall₂ (fun (v : WStr) (s : List Nat) => v.length = s.length) vs ss := by
  simp only [expand_word] at h
  cases hu : expand_word_units sh tilde w true st
      (expand_word_open valuelist (some splitlist)) with
  | fault => simp [hu, Res.bind] at h
  | exit st2 k => simp [hu, Res.bind] at h
  | ret st2 x =>
    simp only [hu, Res.bind, Res.ret.injEq] at h
    have hinv : xw_inv valuelist splitlist (expand_word_open valuelist (some splitlist)) :=
      ⟨⟨[], [], by simp [expand_word_open], by simp [expand_word_open], List.Forall₂.nil⟩, rfl⟩
    have hx := expand_word_units_inv sh tilde valuelist splitlist w.count w rfl true st st2 _ x
      hinv hu
    obtain ⟨⟨vs, ss, h1, h2, h3⟩, h4⟩ := hx
    have hc := h.2
    simp only [expand_word_close] at hc
    split at hc
    · simp only [Prod.mk.injEq] at hc
      refine ⟨vs ++ [x.buf], ss ++ [x.sbuf], ?_, ?_, ?_, ?_⟩
      · rw [← hc.2.1, h1]; simp
      · rw [← hc.2.2, h2]; simp
      · simp [h3.length_eq]
      · exact List.rel_append h3 (List.Forall₂.cons h4.symm List.Forall₂.nil)
    · simp only [Prod.mk.injEq] at hc
      exact ⟨vs, ss, by rw [← hc.2.1, h1], by rw [← hc.2.2, h2], h3.length_eq, h3⟩

/-- Witness of C1 on the double-quoted expansion of `x` with the value `ab`. -/
theorem expand_word_lengths_witness :
    expand_word (var_shell false) [("x", [Char.ofNat 97, Char.ofNat 98])] (dquoted_param "x")
        tildetype_T.tt_single [] (some []) =
      Res.ret [("x", [Char.ofNat 97, Char.ofNat 98])]
        (true, [[BSL, Char.ofNat 97, BSL, Char.ofNat 98]], some [[1, 1, 1, 1]]) ∧
    ∃ vs ss, [[BSL, Char.ofNat 97, BSL, Char.ofNat 98]] = [] ++ vs ∧
      some [[1, 1, 1, 1]] = some ([] ++ ss) ∧ vs.length = ss.length ∧
      List.Forall₂ (fun (v : WStr) (s : List Nat) => v.length = s.length) vs ss :=
  ⟨by decide,
    expand_word_lengths (var_shell false) [("x", [Char.ofNat 97, Char.ofNat 98])]
      [("x", [Char.ofNat 97, Char.ofNat 98])] (dquoted_param "x") tildetype_T.tt_single
      [] [] true [[BSL, Char.ofNat 97, BSL, Char.ofNat 98]] (some [[1, 1, 1, 1]]) (by decide)⟩

/-- C4, the failing input: on the string made of a space and `a`, with every splittability
byte 1 and `IFS` a space, the loop of `fieldsplit` ends with nothing added to the destination
and `startindex = 1`, so `assert(startindex == 0)` fails; the field `a` is not produced. The
input is reached by the unquoted expansion of a parameter with this value. -/
theorem fieldsplit_leading_blank :
    fieldsplit_loop [Char.ofNat 32, Char.ofNat 97] [1, 1] [Char.ofNat 32] 3 0 0 [] =
        (2, 1, []) ∧
      fieldsplit [Char.ofNat 32, Char.ofNat 97] [1, 1] [Char.ofNat 32] [] = none ∧
      expand_word (var_shell false)
          [("x", [Char.ofNat 32, Char.ofNat 97]), ("IFS", [Char.ofNat 32])]
          (unquoted_param "x") tildetype_T.tt_single [] (some []) =
        Res.ret [("x", [Char.ofNat 32, Char.ofNat 97]), ("IFS", [Char.ofNat 32])]
          (true, [[Char.ofNat 32, Char.ofNat 97]], some [[1, 1]]) ∧
      expand_word_and_split (var_shell false) 1
          [("x", [Char.ofNat 32, Char.ofNat 97]), ("IFS", [Char.ofNat 32])]
          (unquoted_param "x") [] = Res.fault := by
  refine ⟨by decide, by decide, by decide, ?_⟩
  rfl

/-- C6, the failing input: for the word made of a double-quoted `a`, `expand_line` gives the
word `a` when `noglob` is off, and the word with its backslash kept, which differs from its
un-escaped form, when `noglob` is set. -/
theorem expand_line_noglob_keeps_backslash :
    expand_line (var_shell true) 1 []
        [wordunit_T.WT_STRING [DQUOTE, Char.ofNat 97, DQUOTE] wordunit_T.NULL] =
      Res.ret [] (some [[BSL, Char.ofNat 97]]) ∧
    unescape [BSL, Char.ofNat 97] ≠ [BSL, Char.ofNat 97] ∧
    expand_line (var_shell false) 1 []
        [wordunit_T.WT_STRING [DQUOTE, Char.ofNat 97, DQUOTE] wordunit_T.NULL] =
      Res.ret [] (some [[Char.ofNat 97]]) := by
  decide

/-! ## parser.c: acceptance rules of `check_parse_result` (C18, C19, C20) -/

section ParserCheck

open c_type_T check_T

theorem check_loop_error (scmds : List SCMD) (count : Nat) :
    ∀ (k i j : Nat), i ≤ j → j < i + k →
      (∀ m, i ≤ m → m < j → check_parse_result_body scmds count m = none ∨
        check_parse_result_body scmds count m = some error) →
      check_parse_result_body scmds count j = some error →
      check_parse_result_loop scmds count k i = error := by
  intro k
  induction k with
  | zero => intro i j h1 h2; omega
  | succ k ih =>
    intro i j h1 h2 hbefore hj
    rw [check_parse_result_loop]
    by_cases hij : i = j
    · subst hij
      rw [hj]
    · rcases hbefore i (Nat.le_refl i) (by omega) with h | h
      · rw [h]
        exact ih (i + 1) j (by omega) (by omega) (fun m hm1 hm2 => hbefore m (by omega) hm2) hj
      · rw [h]

theorem check_loop_ok (scmds : List SCMD) (count : Nat) :
    ∀ (k i : Nat), check_parse_result_loop scmds count k i = ok →
      ∀ j, i ≤ j → j < i + k → check_parse_result_body scmds count j = none := by
  intro k
  induction k with
  | zero => intro i _ j h1 h2; omega
  | succ k ih =>
    intro i h j h1 h2
    rw [check_parse_result_loop] at h
    cases hb : check_parse_result_body scmds count i with
    | some r =>
      rw [hb] at h
      simp only at h
      -- the body returned ok: impossible
      subst h
      exfalso
      revert hb
      unfold check_parse_result_body check_prev_piped check_prev_and_or
      intro hb
      repeat' split at hb
      all_goals simp at hb
    | none =>
      rw [hb] at h
      by_cases hij : i = j
      · subst hij; exact hb
      · exact ih (i + 1) h j (by omega) (by omega)

theorem prev_c_type_succ (scmds : List SCMD) (i : Nat) (p : SCMD) (hp : scmds[i]? = some p) :
    prev_c_type scmds (i + 1) = some p.c_type := by
  simp [prev_c_type, hp]

theorem check_body_none_or_error (scmds : List SCMD) (count m : Nat) (c : SCMD)
    (hc : scmds[m]? = some c) (hone : c.one_of) (h0 : m = 0 → count ≥ 2) :
    check_parse_result_body scmds count m = none ∨
      check_parse_result_body scmds count m = some error := by
  have hone2 : ¬ (c.c_argv.isSome = c.c_subcmds.isSome) := hone
  unfold check_parse_result_body
  rw [hc]
  simp only [if_neg hone2]
  by_cases he : c.c_argv.isSome = true ∧ c.c_argc = 0
  · rw [if_pos he]
    cases m with
    | zero => rw [if_pos ⟨rfl, h0 rfl⟩]; exact Or.inr rfl
    | succ n =>
      have hn : n < scmds.length := by
        have := (List.getElem?_eq_some.mp hc).1
        omega
      have hp : scmds[n]? = some (scmds.get ⟨n, hn⟩) := by simp
      have hprev := prev_c_type_succ scmds n _ hp
      rw [if_neg (by omega)]
      unfold check_prev_piped check_prev_and_or
      rw [hprev]
      cases c.c_type <;> cases (scmds.get ⟨n, hn⟩).c_type <;> simp <;> omega
  · rw [if_neg he]; exact Or.inl rfl

theorem check_error_of_body (scmds : List SCMD) (j : Nat)
    (hwf : ∀ c ∈ scmds, c.one_of) (hj : j < scmds.length)
    (hb : check_parse_result_body scmds scmds.length j = some error) :
    check_parse_result scmds = error := by
  unfold check_parse_result
  rw [if_neg (by omega)]
  apply check_loop_error scmds scmds.length scmds.length 0 j (Nat.zero_le j) (by omega) _ hb
  intro m _ hm
  have hm2 : m < scmds.length := by omega
  have hc : scmds[m]? = some (scmds.get ⟨m, hm2⟩) := by simp
  exact check_body_none_or_error scmds scmds.length m _ hc (hwf _ (List.get_mem _ _ _))
    (fun _ => by omega)

/-- C20. An empty simple command that comes immediately after a command whose connector is
`CT_AND` or `CT_OR` makes `check_parse_result` return the error value, whatever connector the
empty command carries and wherever it stands (the commands are taken to satisfy the assertion of
the loop: exactly one of `c_argv` and `c_subcmds` is set). -/
theorem check_parse_result_empty_after_and_or (scmds : List SCMD) (i : Nat) (p e : SCMD)
    (hwf : ∀ c ∈ scmds, c.one_of)
    (hp : scmds[i]? = some p) (he : scmds[i + 1]? = some e)
    (hpt : p.c_type = CT_AND ∨ p.c_type = CT_OR) (hempty : e.empty) :
    check_parse_result scmds = error := by
  have hlen : i + 1 < scmds.length := (List.getElem?_eq_some.mp he).1
  apply check_error_of_body scmds (i + 1) hwf hlen
  have hone : ¬ (e.c_argv.isSome = e.c_subcmds.isSome) :=
    hwf e (List.mem_iff_getElem?.mpr ⟨_, he⟩)
  unfold check_parse_result_body
  rw [he]
  simp only [if_neg hone, if_pos (show e.c_argv.isSome = true ∧ e.c_argc = 0 from hempty)]
  rw [if_neg (by omega)]
  unfold check_prev_piped check_prev_and_or
  rw [prev_c_type_succ scmds i p hp]
  rcases hpt with h | h <;> rw [h] <;> cases e.c_type <;> simp

theorem check_parse_result_empty_after_and_or_witness :
    check_parse_result [simple_scmd CT_AND [[Char.ofNat 97]], simple_scmd CT_END []] = error :=
  check_parse_result_empty_after_and_or
    [simple_scmd CT_AND [[Char.ofNat 97]], simple_scmd CT_END []] 0
    (simple_scmd CT_AND [[Char.ofNat 97]]) (simple_scmd CT_END [])
    (by intro c hc; simp at hc; rcases hc with rfl | rfl <;>
      simp [SCMD.one_of, simple_scmd, SCMD.c_argv, SCMD.c_subcmds])
    rfl rfl (Or.inl rfl) ⟨rfl, rfl⟩

/-- C18 (as stated, refuted). The arrays of `a |` and of `a | ; b` have an empty simple command
right after a command whose connector is `CT_PIPED`, and `check_parse_result` returns 0
for both. -/
theorem check_parse_result_pipe_then_empty_ok :
    check_parse_result [simple_scmd CT_PIPED [[Char.ofNat 97]], simple_scmd CT_END []] = ok ∧
    check_parse_result [simple_scmd CT_PIPED [[Char.ofNat 97]], simple_scmd CT_END [],
      simple_scmd CT_END [[Char.ofNat 98]]] = ok := by
  constructor <;> decide

/-- C18 (amended). An empty simple command that carries the connector `CT_PIPED` itself makes
`check_parse_result` return the error value, for every array whose commands satisfy the
assertion of the loop. -/
theorem check_parse_result_empty_piped (scmds : List SCMD) (i : Nat) (e : SCMD)
    (hwf : ∀ c ∈ scmds, c.one_of) (he : scmds[i]? = some e)
    (hempty : e.empty) (ht : e.c_type = CT_PIPED) :
    check_parse_result scmds = error := by
  have hlen : i < scmds.length := (List.getElem?_eq_some.mp he).1
  apply check_error_of_body scmds i hwf hlen
  have hone : ¬ (e.c_argv.isSome = e.c_subcmds.isSome) :=
    hwf e (List.mem_iff_getElem?.mpr ⟨_, he⟩)
  unfold check_parse_result_body
  rw [he]
  simp only [if_neg hone, if_pos (show e.c_argv.isSome = true ∧ e.c_argc = 0 from hempty), ht]
  split <;> rfl

theorem check_parse_result_empty_piped_witness :
    check_parse_result [simple_scmd CT_END [[Char.ofNat 97]], simple_scmd CT_PIPED [],
      simple_scmd CT_END [[Char.ofNat 98]]] = error :=
  check_parse_result_empty_piped
    [simple_scmd CT_END [[Char.ofNat 97]], simple_scmd CT_PIPED [],
      simple_scmd CT_END [[Char.ofNat 98]]] 1 (simple_scmd CT_PIPED [])
    (by intro c hc; simp at hc; rcases hc with rfl | rfl | rfl <;>
      simp [SCMD.one_of, simple_scmd, SCMD.c_argv, SCMD.c_subcmds])
    rfl ⟨rfl, rfl⟩ rfl

/-- C19 (as stated, refuted). The array of `a &` ends in an empty simple command whose
predecessor has the connector `CT_BG`, and the array of `a |&` ends in one whose predecessor
is itself empty; `check_parse_result` returns 0 for both. -/
theorem check_parse_result_final_empty_ok :
    check_parse_result [simple_scmd CT_BG [[Char.ofNat 97]], simple_scmd CT_END []] = ok ∧
    check_parse_result [simple_scmd CT_PIPED [[Char.ofNat 97]], simple_scmd CT_BG [],
      simple_scmd CT_END []] = ok := by
  constructor <;> decide

/-- C19 (amended). When an array of at least two commands ends in an empty simple command and
`check_parse_result` returns 0, the connector of the command before it is `CT_END`, `CT_BG` or
`CT_PIPED` (not `CT_AND`, not `CT_OR`), the empty command does not carry `CT_PIPED`, and it
carries `CT_BG` only after `CT_PIPED`. -/
theorem check_parse_result_final_empty (init : List SCMD) (p e : SCMD)
    (hempty : e.empty) (hok : check_parse_result (init ++ [p, e]) = ok) :
    (p.c_type = CT_END ∨ p.c_type = CT_BG ∨ p.c_type = CT_PIPED) ∧
      e.c_type ≠ CT_PIPED ∧ (e.c_type = CT_BG → p.c_type = CT_PIPED) := by
  have hlen : (init ++ [p, e]).length = init.length + 2 := by simp
  unfold check_parse_result at hok
  rw [if_neg (by omega)] at hok
  have hb := check_loop_ok _ _ _ _ hok (init.length + 1) (Nat.zero_le _) (by omega)
  have he : (init ++ [p, e])[init.length + 1]? = some e := by
    rw [List.getElem?_append_right (by omega)]
    simp
  have hp : (init ++ [p, e])[init.length]? = some p := by
    rw [List.getElem?_append_right (by omega)]
    simp
  unfold check_parse_result_body at hb
  rw [he] at hb
  simp only at hb
  by_cases hone : e.c_argv.isSome = e.c_subcmds.isSome
  · rw [if_pos hone] at hb; exact absurd hb (by simp)
  · rw [if_neg hone, if_pos (show e.c_argv.isSome = true ∧ e.c_argc = 0 from hempty),
      if_neg (by omega)] at hb
    unfold check_prev_piped check_prev_and_or at hb
    rw [prev_c_type_succ _ _ p hp, hlen] at hb
    revert hb
    cases e.c_type <;> cases p.c_type <;> simp

theorem check_parse_result_final_empty_witness :
    ((simple_scmd CT_BG [[Char.ofNat 97]]).c_type = CT_END ∨
      (simple_scmd CT_BG [[Char.ofNat 97]]).c_type = CT_BG ∨
      (simple_scmd CT_BG [[Char.ofNat 97]]).c_type = CT_PIPED) ∧
      (simple_scmd CT_END []).c_type ≠ CT_PIPED ∧
      ((simple_scmd CT_END []).c_type = CT_BG →
        (simple_scmd CT_BG [[Char.ofNat 97]]).c_type = CT_PIPED) :=
  check_parse_result_final_empty [] (simple_scmd CT_BG [[Char.ofNat 97]]) (simple_scmd CT_END [])
    ⟨rfl, rfl⟩ (by decide)

end ParserCheck

/-! ## Numeric brace sequences: `tryexpand_brace_sequence` on integer literals -/

theorem digitChar_toNat : ∀ k, k < 10 → (Nat.digitChar k).toNat = 48 + k := by
  decide

theorem toDigitsCore_spec :
    ∀ (fuel n : Nat) (ds : List Char), n < fuel →
      ∃ l : List Char, Nat.toDigitsCore 10 fuel n ds = l ++ ds ∧ l ≠ [] ∧
        (∀ c ∈ l, is_decimal_digit c = true) ∧
        ∀ acc, l.foldl (fun acc c => acc * 10 + (c.toNat - 48)) acc = acc * 10 ^ l.length + n := by
  intro fuel
  induction fuel with
  | zero => intro n ds h; omega
  | succ fuel ih =>
    intro n ds h
    have hd := digitChar_toNat (n % 10) (Nat.mod_lt _ (by decide))
    have hdd : is_decimal_digit (Nat.digitChar (n % 10)) = true := by
      have : n % 10 < 10 := Nat.mod_lt _ (by decide)
      simp only [is_decimal_digit, hd, Bool.and_eq_true, decide_eq_true_eq]
      omega
    rw [Nat.toDigitsCore]
    by_cases h0 : n / 10 = 0
    · simp only [h0, if_true]
      refine ⟨[Nat.digitChar (n % 10)], rfl, by simp, ?_, ?_⟩
      · intro c hc
        simp at hc
        rw [hc]; exact hdd
      · intro acc
        simp only [List.foldl_cons, List.foldl_nil, hd, List.length_singleton, pow_one]
        have : n < 10 := by
          by_contra hcon
          have : 1 ≤ n / 10 := (Nat.le_div_iff_mul_le (by decide)).mpr (by omega)
          omega
        omega
    · simp only [h0, if_false]
      have hlt : n / 10 < fuel := by
        have : n / 10 < n := Nat.div_lt_self (by omega) (by decide)
        omega
      obtain ⟨l, hl1, hl2, hl3, hl4⟩ := ih (n / 10) (Nat.digitChar (n % 10) :: ds) hlt
      refine ⟨l ++ [Nat.digitChar (n % 10)], by simp [hl1], by simp, ?_, ?_⟩
      · intro c hc
        rw [List.mem_append] at hc
        rcases hc with hc | hc
        · exact hl3 c hc
        · simp at hc; rw [hc]; exact hdd
      · intro acc
        rw [List.foldl_append, hl4]
        simp only [List.foldl_cons, List.foldl_nil, hd, List.length_append,
          List.length_singleton, pow_succ]
        have := Nat.div_add_mod n 10
        have e1 : 48 + n % 10 - 48 = n % 10 := by omega
        rw [e1]
        nlinarith [Nat.div_add_mod n 10]

theorem toDigits_spec (n : Nat) :
    Nat.toDigits 10 n ≠ [] ∧ (∀ c ∈ Nat.toDigits 10 n, is_decimal_digit c = true) ∧
      ∀ acc, (Nat.toDigits 10 n).foldl (fun acc c => acc * 10 + (c.toNat - 48)) acc =
        acc * 10 ^ (Nat.toDigits 10 n).length + n := by
  obtain ⟨l, h1, h2, h3, h4⟩ := toDigitsCore_spec (n + 1) n [] (Nat.lt_succ_self n)
  rw [List.append_nil] at h1
  unfold Nat.toDigits
  rw [h1]
  exact ⟨h2, h3, h4⟩

theorem foldl_zeros (k : Nat) :
    (List.replicate k (Char.ofNat 48)).foldl (fun acc c => acc * 10 + (c.toNat - 48)) 0 = 0 := by
  induction k with
  | zero => rfl
  | succ k ih => rw [List.replicate_succ, List.foldl_cons]; exact ih

theorem decimal_value_padded (k n : Nat) :
    decimal_value (List.replicate k (Char.ofNat 48) ++ Nat.toDigits 10 n) = n := by
  unfold decimal_value
  rw [List.foldl_append, foldl_zeros, (toDigits_spec n).2.2]
  simp

theorem padded_digits (k n : Nat) :
    ∀ c ∈ List.replicate k (Char.ofNat 48) ++ Nat.toDigits 10 n, is_decimal_digit c = true := by
  intro c hc
  rw [List.mem_append] at hc
  rcases hc with hc | hc
  · rw [List.eq_of_mem_replicate hc]; decide
  · exact (toDigits_spec n).2.1 c hc

theorem padded_ne_nil (k n : Nat) :
    List.replicate k (Char.ofNat 48) ++ Nat.toDigits 10 n ≠ [] := by
  intro h
  exact (toDigits_spec n).1 (List.append_eq_nil.mp h).2

theorem digit_not_sign (c : Char) (h : is_decimal_digit c = true) :
    c ≠ Char.ofNat 43 ∧ c ≠ Char.ofNat 45 ∧ c ≠ BSL ∧ c ≠ LBRACE := by
  simp only [is_decimal_digit, Bool.and_eq_true, decide_eq_true_eq] at h
  refine ⟨?_, ?_, ?_, ?_⟩ <;> intro hc <;> rw [hc] at h <;> revert h <;> decide

theorem wcstol_sign_digits (ds : WStr) (h : ∀ c ∈ ds, is_decimal_digit c = true) :
    wcstol_sign ds = 0 := by
  unfold wcstol_sign
  cases ds with
  | nil => simp
  | cons d ds =>
    have := digit_not_sign d (h d (List.mem_cons_self _ _))
    simp [this.1, this.2.1]

theorem wprintf_ld_form (sign : Bool) (len : Nat) (value : Int) :
    ∃ sg k, wprintf_ld sign len value = sg ++ (List.replicate k (Char.ofNat 48) ++
        Nat.toDigits 10 value.natAbs) ∧
      sg = (if value < 0 then [Char.ofNat 45] else if sign then [Char.ofNat 43] else []) := by
  refine ⟨_, len - ((if value < 0 then [Char.ofNat 45] else if sign then [Char.ofNat 43]
    else []).length + (Nat.toDigits 10 value.natAbs).length), ?_, rfl⟩
  unfold wprintf_ld
  simp only [List.append_assoc]

theorem literal_value_wprintf_ld (sign : Bool) (len : Nat) (value : Int) :
    literal_value (wprintf_ld sign len value) = some value := by
  obtain ⟨sg, k, h, hsg⟩ := wprintf_ld_form sign len value
  rw [h]
  have hd := padded_digits k value.natAbs
  have hne := padded_ne_nil k value.natAbs
  have hv := decimal_value_padded k value.natAbs
  generalize List.replicate k (Char.ofNat 48) ++ Nat.toDigits 10 value.natAbs = ds at hd hne hv
  by_cases hneg : value < 0
  · rw [if_pos hneg] at hsg
    subst hsg
    have hs : wcstol_sign ([Char.ofNat 45] ++ ds) = 1 := by simp [wcstol_sign]
    have hl : literal_digits ([Char.ofNat 45] ++ ds) = ds := by
      unfold literal_digits; rw [hs]; rfl
    have hlit : is_literal ([Char.ofNat 45] ++ ds) = true := by
      unfold is_literal; rw [hl]
      simp only [Bool.and_eq_true, Bool.not_eq_true', List.all_eq_true]
      exact ⟨by cases ds with | nil => exact absurd rfl hne | cons _ _ => rfl, hd⟩
    unfold literal_value
    rw [hlit, hl, hv]
    simp only [if_true, List.singleton_append, List.head?_cons]
    congr 1
    omega
  · rw [if_neg hneg] at hsg
    cases sign with
    | true =>
      simp only [if_true] at hsg
      subst hsg
      have hs : wcstol_sign ([Char.ofNat 43] ++ ds) = 1 := by simp [wcstol_sign]
      have hl : literal_digits ([Char.ofNat 43] ++ ds) = ds := by
        unfold literal_digits; rw [hs]; rfl
      have hlit : is_literal ([Char.ofNat 43] ++ ds) = true := by
        unfold is_literal; rw [hl]
        simp only [Bool.and_eq_true, Bool.not_eq_true', List.all_eq_true]
        exact ⟨by cases ds with | nil => exact absurd rfl hne | cons _ _ => rfl, hd⟩
      unfold literal_value
      rw [hlit, hl, hv]
      have : ¬ (([Char.ofNat 43] ++ ds).head? = some (Char.ofNat 45)) := by
        simp only [List.singleton_append, List.head?_cons]; decide
      simp only [if_true, if_neg this]
      congr 1
      omega
    | false =>
      simp only [Bool.false_eq_true, if_false] at hsg
      subst hsg
      rw [List.nil_append]
      have hs := wcstol_sign_digits ds hd
      have hl : literal_digits ds = ds := by
        unfold literal_digits; rw [hs]; rfl
      have hlit : is_literal ds = true := by
        unfold is_literal; rw [hl]
        simp only [Bool.and_eq_true, Bool.not_eq_true', List.all_eq_true]
        exact ⟨by cases ds with | nil => exact absurd rfl hne | cons _ _ => rfl, hd⟩
      unfold literal_value
      rw [hlit, hl, hv]
      have : ¬ (ds.head? = some (Char.ofNat 45)) := by
        cases ds with
        | nil => simp
        | cons d ds =>
          have := (digit_not_sign d (hd d (List.mem_cons_self _ _))).2.1
          simpa using this
      simp only [if_true, if_neg this]
      congr 1
      omega

theorem wprintf_ld_clean (sign : Bool) (len : Nat) (value : Int) :
    ∀ c ∈ wprintf_ld sign len value, c ≠ BSL ∧ c ≠ LBRACE := by
  obtain ⟨sg, k, h, hsg⟩ := wprintf_ld_form sign len value
  rw [h]
  intro c hc
  rw [List.mem_append] at hc
  rcases hc with hc | hc
  · rw [hsg] at hc
    split_ifs at hc <;> simp at hc <;> rw [hc] <;> decide
  · exact (digit_not_sign c (padded_digits k _ c hc)).2.2

theorem wcschr_append (c : Char) (rest : WStr) :
    ∀ N : WStr, c ∉ N → wcschr (N ++ c :: rest) c = some N.length := by
  intro N
  induction N with
  | nil => intro _; simp [wcschr]
  | cons a N ih =>
    intro h
    have ha : a ≠ c := fun e => h (by rw [e]; exact List.mem_cons_self _ _)
    have hN : c ∉ N := fun e => h (List.mem_cons_of_mem _ e)
    simp [wcschr, ha, ih hN]

theorem is_literal_cases (L : WStr) (h : is_literal L = true) :
    ∃ sg ds, L = sg ++ ds ∧ (sg = [] ∨ sg = [Char.ofNat 43] ∨ sg = [Char.ofNat 45]) ∧
      literal_digits L = ds ∧ ds ≠ [] ∧ (∀ c ∈ ds, is_decimal_digit c = true) := by
  unfold is_literal at h
  simp only [Bool.and_eq_true, Bool.not_eq_true', List.all_eq_true] at h
  have hne : literal_digits L ≠ [] := by
    intro e; rw [e] at h; exact absurd h.1 (by decide)
  refine ⟨L.take (wcstol_sign L), literal_digits L, ?_, ?_, rfl, hne, h.2⟩
  · unfold literal_digits; exact (List.take_append_drop _ _).symm
  · unfold wcstol_sign
    cases L with
    | nil => simp
    | cons a L =>
      by_cases h1 : a = Char.ofNat 43
      · subst h1; simp
      · by_cases h2 : a = Char.ofNat 45
        · subst h2; simp
        · simp [h1, h2]

theorem literal_no_char (L : WStr) (h : is_literal L = true) (x : Char)
    (hx1 : x ≠ Char.ofNat 43) (hx2 : x ≠ Char.ofNat 45) (hx3 : is_decimal_digit x = false) :
    x ∉ L := by
  obtain ⟨sg, ds, hL, hsg, _, _, hds⟩ := is_literal_cases L h
  rw [hL]
  intro hmem
  rw [List.mem_append] at hmem
  rcases hmem with hm | hm
  · rcases hsg with e | e | e <;> rw [e] at hm <;> simp at hm
    · exact hx1 hm
    · exact hx2 hm
  · rw [hds x hm] at hx3; exact absurd hx3 (by decide)

theorem digit_not_wspace (c : Char) (h : is_decimal_digit c = true) : iswspace c = false := by
  simp only [is_decimal_digit, Bool.and_eq_true, decide_eq_true_eq] at h
  cases hw : iswspace c with
  | false => rfl
  | true =>
    exfalso
    unfold iswspace at hw
    simp only [Bool.or_eq_true, decide_eq_true_eq] at hw
    rcases hw with ((((hw | hw) | hw) | hw) | hw) | hw <;> rw [hw] at h <;> revert h <;> decide

theorem literal_head (L rest : WStr) (h : is_literal L = true) :
    skip_wspace (L ++ rest) = 0 ∧ L ≠ [] ∧ wcstol_sign (L ++ rest) = wcstol_sign L ∧
      (L ++ rest).head? = L.head? ∧
      ((L ++ rest).drop (wcstol_sign L)).head? = (literal_digits L).head? := by
  obtain ⟨sg, ds, hL, hsg, hld, hne, hds⟩ := is_literal_cases L h
  obtain ⟨d, ds1, rfl⟩ := List.exists_cons_of_ne_nil hne
  have hd := hds d (List.mem_cons_self _ _)
  have hdw := digit_not_wspace d hd
  have hdn := digit_not_sign d hd
  rcases hsg with e | e | e
  · subst e
    simp only [List.nil_append] at hL
    subst hL
    have hs : wcstol_sign (d :: ds1) = 0 := wcstol_sign_digits _ hds
    have hs2 : wcstol_sign (d :: ds1 ++ rest) = 0 := by
      simp [wcstol_sign, hdn.1, hdn.2.1]
    refine ⟨by simp [skip_wspace, hdw], by simp, by rw [hs, hs2], rfl, ?_⟩
    rw [hld, hs]; rfl
  · subst e
    subst hL
    have hs : wcstol_sign ([Char.ofNat 43] ++ d :: ds1) = 1 := by simp [wcstol_sign]
    have hs2 : wcstol_sign ([Char.ofNat 43] ++ d :: ds1 ++ rest) = 1 := by simp [wcstol_sign]
    refine ⟨by simp [skip_wspace, iswspace], by simp, by rw [hs, hs2], rfl, ?_⟩
    rw [hld, hs]; rfl
  · subst e
    subst hL
    have hs : wcstol_sign ([Char.ofNat 45] ++ d :: ds1) = 1 := by simp [wcstol_sign]
    have hs2 : wcstol_sign ([Char.ofNat 45] ++ d :: ds1 ++ rest) = 1 := by simp [wcstol_sign]
    refine ⟨by simp [skip_wspace, iswspace], by simp, by rw [hs, hs2], rfl, ?_⟩
    rw [hld, hs]; rfl

theorem has_leading_zero_literal (L rest : WStr) (sign : Bool) (h : is_literal L = true) :
    has_leading_zero (L ++ rest) sign = (written_zero L, sign || written_plus L) := by
  obtain ⟨h0, hne, hs, hh, hd⟩ := literal_head L rest h
  unfold has_leading_zero
  rw [h0, List.drop_zero]
  simp only [hh]
  unfold written_zero written_plus
  by_cases hp : L.head? = some (Char.ofNat 43)
  · have hs1 : wcstol_sign L = 1 := by simp [wcstol_sign, hp]
    rw [hs1, List.head?_drop] at hd
    simp [hp, hd]
  · by_cases hm : L.head? = some (Char.ofNat 45)
    · have hs1 : wcstol_sign L = 1 := by simp [wcstol_sign, hm]
      rw [hs1, List.head?_drop] at hd
      simp [hp, hm, hd]
    · have hs1 : wcstol_sign L = 0 := by simp [wcstol_sign, hm, hp]
      unfold literal_digits
      rw [hs1, List.drop_zero]
      simp [hp, hm]

theorem decimal_digit_dot : is_decimal_digit DOT = false := by decide

theorem decimal_digit_rbrace : is_decimal_digit RBRACE = false := by decide

theorem tryexpand_brace_sequence_eval
    (rec : WStr → List Nat → List WStr → List (List Nat) → Option (List WStr × List (List Nat)))
    (pre N M post : WStr) (split : List Nat) (start e : Int)
    (valuelist : List WStr) (splitlist : List (List Nat))
    (hN : is_literal N = true) (hM : is_literal M = true)
    (hNr : wcstol (N ++ DOT :: DOT :: (M ++ RBRACE :: post)) = (start, N.length, false))
    (hMr : wcstol (M ++ RBRACE :: post) = (e, M.length, false)) :
    tryexpand_brace_sequence rec (brace_seq_word pre N M post) split (pre.length + 1)
        valuelist splitlist =
      (brace_sequence_loop rec (brace_seq_word pre N M post) split (pre.length + 1)
        (pre.length + 1 + N.length + 2 + M.length) (written_plus N || written_plus M)
        (seq_width N M) start e ((e - start).natAbs + 1) start valuelist splitlist).map some := by
  have hNdot : DOT ∉ N :=
    literal_no_char N hN DOT (by decide) (by decide) decimal_digit_dot
  have hMbr : RBRACE ∉ M :=
    literal_no_char M hM RBRACE (by decide) (by decide) decimal_digit_rbrace
  have hN0 : N.length ≠ 0 := by
    have := (literal_head N [] hN).2.1
    exact fun h => this (List.length_eq_zero.mp h)
  have hM0 : M.length ≠ 0 := by
    have := (literal_head M [] hM).2.1
    exact fun h => this (List.length_eq_zero.mp h)
  have hb : (brace_seq_word pre N M post)[pre.length + 1 - 1]? = some LBRACE := by
    unfold brace_seq_word
    exact getElem?_append_cons_length _ _ _ _ (by omega)
  have hd1 : (brace_seq_word pre N M post).drop (pre.length + 1) =
      N ++ DOT :: DOT :: (M ++ RBRACE :: post) := by
    unfold brace_seq_word
    exact drop_append_cons_length _ _ _ _ rfl
  have hdot2 : (brace_seq_word pre N M post)[pre.length + 1 + N.length + 1]? = some DOT := by
    rw [Nat.add_assoc (pre.length + 1), ← getElem?_drop_add, hd1]
    rw [List.getElem?_append_right (by omega)]
    simp
  have hd2 : (brace_seq_word pre N M post).drop (pre.length + 1 + N.length + 2) =
      M ++ RBRACE :: post := by
    rw [Nat.add_assoc (pre.length + 1), ← List.drop_drop, hd1]
    rw [List.drop_append_eq_append_drop]
    simp
  unfold tryexpand_brace_sequence
  rw [if_neg (by rw [hb]; simp), hd1, wcschr_append DOT _ N hNdot]
  simp only [if_neg hN0, hNr, hdot2, Bool.false_eq_true, false_or, ne_eq, not_true_eq_false,
    if_false, hd2, wcschr_append RBRACE _ M hMbr, if_neg hM0, hMr,
    has_leading_zero_literal N _ false hN, has_leading_zero_literal M _ _ hM, Bool.false_or]
  congr 2
  unfold seq_width
  simp only [max_def]
  split_ifs <;> first | rfl | omega

theorem seq_value_last (start e : Int) : seq_value start e (e - start).natAbs = e := by
  unfold seq_value
  split <;> omega

theorem seq_value_ne (start e : Int) (j : Nat) (h : j < (e - start).natAbs) :
    seq_value start e j ≠ e := by
  unfold seq_value
  split <;> omega

theorem seq_value_succ (start e : Int) (j : Nat) :
    (if start < e then seq_value start e j + 1 else seq_value start e j - 1) =
      seq_value start e (j + 1) := by
  unfold seq_value
  split <;> push_cast <;> omega

theorem int_seq_eq (start e : Int) :
    int_seq start e = (List.range' 0 ((e - start).natAbs + 1)).map (seq_value start e) := by
  unfold int_seq
  rw [List.range_eq_range']

theorem brace_seq_word_length (pre N M post : WStr) :
    (brace_seq_word pre N M post).length =
      pre.length + 1 + N.length + 2 + M.length + 1 + post.length := by
  unfold brace_seq_word
  simp only [List.length_append, List.length_cons]
  omega

theorem brace_seq_word_take (pre N M post : WStr) :
    (brace_seq_word pre N M post).take (pre.length + 1 - 1) = pre := by
  unfold brace_seq_word
  simp

theorem brace_seq_word_drop (pre N M post : WStr) :
    (brace_seq_word pre N M post).drop (pre.length + 1 + N.length + 2 + M.length + 1) = post := by
  have h : brace_seq_word pre N M post =
      (pre ++ LBRACE :: (N ++ DOT :: DOT :: M)) ++ RBRACE :: post := by
    unfold brace_seq_word
    simp
  rw [h]
  apply drop_append_cons_length
  simp only [List.length_append, List.length_cons]
  omega

theorem brace_sequence_loop_spec (fuel : Nat) (pre N M post : WStr) (split : List Nat)
    (sign : Bool) (len : Nat) (start e : Int)
    (hpre : ∀ c ∈ pre, c ≠ BSL ∧ c ≠ LBRACE) (hpost : ∀ c ∈ post, c ≠ BSL ∧ c ≠ LBRACE)
    (hsplit : split.length = (brace_seq_word pre N M post).length) :
    ∀ (m j : Nat) (vl : List WStr) (sl : List (List Nat)), j + m = (e - start).natAbs →
      brace_sequence_loop (fun w s v l => expand_brace_from (fuel + 1) w s 0 v l)
          (brace_seq_word pre N M post) split (pre.length + 1)
          (pre.length + 1 + N.length + 2 + M.length) sign len start e (m + 1)
          (seq_value start e j) vl sl =
        some (vl ++ (List.range' j (m + 1)).map
            (fun i => pre ++ wprintf_ld sign len (seq_value start e i) ++ post),
          sl ++ (List.range' j (m + 1)).map
            (fun i => seq_split split pre N M post
              (wprintf_ld sign len (seq_value start e i)).length)) := by
  have hrec : ∀ (v : Int) (sbuf : List Nat) (vl : List WStr) (sl : List (List Nat)),
      expand_brace_from (fuel + 1) (pre ++ wprintf_ld sign len v ++ post) sbuf 0 vl sl =
        some (vl ++ [pre ++ wprintf_ld sign len v ++ post], sl ++ [sbuf]) := by
    intro v sbuf vl sl
    apply expand_brace_from_of_none
    rw [List.drop_zero]
    apply escaped_wcspbrk_clean_none
    intro c hc
    have : c ≠ BSL ∧ c ≠ LBRACE := by
      rw [List.mem_append, List.mem_append] at hc
      rcases hc with (hc | hc) | hc
      · exact hpre c hc
      · exact wprintf_ld_clean sign len v c hc
      · exact hpost c hc
    exact ⟨this.1, by simpa using this.2⟩
  have hwl := brace_seq_word_length pre N M post
  have hsb : ∀ plen : Nat,
      split.take (pre.length + 1 - 1) ++ List.replicate plen 0 ++
        (split.drop (pre.length + 1 + N.length + 2 + M.length + 1)).take
          ((brace_seq_word pre N M post).length -
            (pre.length + 1 + N.length + 2 + M.length + 1)) =
      seq_split split pre N M post plen := by
    intro plen
    unfold seq_split
    rw [hwl]
    congr 2
    · omega
  have hlen : ∀ plen : Nat, (seq_split split pre N M post plen).length =
      pre.length + plen + post.length := by
    intro plen
    unfold seq_split
    simp only [List.length_append, List.length_take, List.length_replicate, List.length_drop]
    omega
  intro m
  induction m with
  | zero =>
    intro j vl sl hj
    rw [brace_sequence_loop]
    simp only [brace_seq_word_take, brace_seq_word_drop, hsb]
    rw [if_neg (by simp only [List.length_append, hlen]; omega), hrec]
    have he : seq_value start e j = e := by
      have : j = (e - start).natAbs := by omega
      rw [this]; exact seq_value_last start e
    simp only [if_pos he]
    simp [List.range']
  | succ m ih =>
    intro j vl sl hj
    rw [brace_sequence_loop]
    simp only [brace_seq_word_take, brace_seq_word_drop, hsb]
    rw [if_neg (by simp only [List.length_append, hlen]; omega), hrec]
    have he : seq_value start e j ≠ e := seq_value_ne start e j (by omega)
    simp only [if_neg he, seq_value_succ]
    rw [ih (j + 1) _ _ (by omega)]
    simp [List.range', List.append_assoc]

theorem seq_value_zero (start e : Int) : seq_value start e 0 = start := by
  unfold seq_value
  split <;> simp

theorem expand_brace_sequence (fuel : Nat) (pre N M post : WStr) (split : List Nat)
    (start e : Int) (vl : List WStr) (sl : List (List Nat))
    (hpre : ∀ c ∈ pre, c ≠ BSL ∧ c ≠ LBRACE) (hpost : ∀ c ∈ post, c ≠ BSL ∧ c ≠ LBRACE)
    (hsplit : split.length = (brace_seq_word pre N M post).length)
    (hN : is_literal N = true) (hM : is_literal M = true)
    (hNr : wcstol (N ++ DOT :: DOT :: (M ++ RBRACE :: post)) = (start, N.length, false))
    (hMr : wcstol (M ++ RBRACE :: post) = (e, M.length, false)) :
    expand_brace (fuel + 2) (brace_seq_word pre N M post) split vl sl =
      some (vl ++ (int_seq start e).map
          (fun v => pre ++ wprintf_ld (written_plus N || written_plus M) (seq_width N M) v ++ post),
        sl ++ (int_seq start e).map
          (fun v => seq_split split pre N M post
            (wprintf_ld (written_plus N || written_plus M) (seq_width N M) v).length)) := by
  have hfind : escaped_wcspbrk ((brace_seq_word pre N M post).drop 0) [LBRACE] =
      some pre.length := by
    rw [List.drop_zero]
    unfold brace_seq_word
    apply escaped_wcspbrk_clean [LBRACE] LBRACE _ (by simp) (by decide)
    intro c hc
    exact ⟨(hpre c hc).1, by simpa using (hpre c hc).2⟩
  have hNne : N ≠ [] := (literal_head N [] hN).2.1
  obtain ⟨a, N1, hN1⟩ := List.exists_cons_of_ne_nil hNne
  have hnext : (brace_seq_word pre N M post)[0 + pre.length + 1]? = some a := by
    rw [Nat.zero_add, ← getElem?_drop_add]
    have : (brace_seq_word pre N M post).drop pre.length =
        LBRACE :: (N ++ DOT :: DOT :: (M ++ RBRACE :: post)) := by
      unfold brace_seq_word
      simp
    rw [this, hN1]
    simp
  unfold expand_brace
  rw [expand_brace_from_succ, hfind]
  simp only [hnext]
  rw [Nat.zero_add, tryexpand_brace_sequence_eval _ pre N M post split start e vl sl hN hM hNr hMr]
  have hloop := brace_sequence_loop_spec fuel pre N M post split
    (written_plus N || written_plus M) (seq_width N M) start e hpre hpost hsplit
    (e - start).natAbs 0 vl sl (by omega)
  rw [seq_value_zero] at hloop
  rw [hloop]
  simp only [Option.map_some', int_seq_eq, List.map_map]
  rfl

/-! ## Numeric brace sequences: values, width and sign (C11, C12, C13) -/

theorem wdigit_decimal (c : Char) (h : is_decimal_digit c = true) :
    wdigit c = some (c.toNat - 48) := by
  simp only [is_decimal_digit, Bool.and_eq_true, decide_eq_true_eq] at h
  unfold wdigit
  rw [if_pos h]

theorem wcstol_digits_decimal (x : Char) (rest : WStr) (hx : wdigit x = none) :
    ∀ (ds : WStr) (acc n : Nat), (∀ c ∈ ds, is_decimal_digit c = true) →
      wcstol_digits 10 (ds ++ x :: rest) acc n =
        (ds.foldl (fun acc c => acc * 10 + (c.toNat - 48)) acc, n + ds.length) := by
  intro ds
  induction ds with
  | nil =>
    intro acc n _
    simp [wcstol_digits, hx]
  | cons d ds ih =>
    intro acc n h
    have hd := h d (List.mem_cons_self _ _)
    have hd2 := hd
    simp only [is_decimal_digit, Bool.and_eq_true, decide_eq_true_eq] at hd2
    rw [List.cons_append, wcstol_digits, wdigit_decimal d hd]
    simp only
    rw [if_pos (by omega), ih _ _ (fun c hc => h c (List.mem_cons_of_mem _ hc))]
    simp only [List.foldl_cons, List.length_cons]
    congr 1
    omega

theorem wcstol_unsigned (ds : WStr) (x : Char) (rest : WStr) (hx : wdigit x = none)
    (hne : ds ≠ []) (hds : ∀ c ∈ ds, is_decimal_digit c = true)
    (hz : ds.head? = some (Char.ofNat 48) → ds = [Char.ofNat 48]) :
    (if wcstol_hex (ds ++ x :: rest) then 2 else 0) = 0 ∧
    wcstol_digits
      (if wcstol_hex (ds ++ x :: rest) then 16
        else if (ds ++ x :: rest).head? = some (Char.ofNat 48) then 8 else 10)
      (ds ++ x :: rest) 0 0 = (decimal_value ds, ds.length) := by
  obtain ⟨d, ds1, rfl⟩ := List.exists_cons_of_ne_nil hne
  by_cases hd : d = Char.ofNat 48
  · subst hd
    have h1 := hz rfl
    simp only [List.cons.injEq, true_and] at h1
    subst h1
    have hhex : wcstol_hex ([Char.ofNat 48] ++ x :: rest) = false := by
      have hx1 : x ≠ Char.ofNat 120 := by
        intro e; rw [e] at hx; revert hx; decide
      have hx2 : x ≠ Char.ofNat 88 := by
        intro e; rw [e] at hx; revert hx; decide
      simp [wcstol_hex, hx1, hx2]
    rw [hhex]
    refine ⟨rfl, ?_⟩
    simp [wcstol_digits, hx, decimal_value]
    decide
  · have hhex : wcstol_hex (d :: ds1 ++ x :: rest) = false := by
      simp [wcstol_hex, hd]
    rw [hhex]
    refine ⟨rfl, ?_⟩
    have hh : ¬ ((d :: ds1 ++ x :: rest).head? = some (Char.ofNat 48)) := by
      simpa using hd
    simp only [Bool.false_eq_true, if_false, if_neg hh]
    rw [wcstol_digits_decimal x rest hx (d :: ds1) 0 0 hds]
    simp [decimal_value]

theorem wcstol_literal (L : WStr) (x : Char) (rest : WStr) (n : Int)
    (hx : wdigit x = none) (hL : literal_value L = some n)
    (hz : no_leading_zeros L = true) (hlo : LONG_MIN ≤ n) (hhi : n ≤ LONG_MAX) :
    wcstol (L ++ x :: rest) = (n, L.length, false) := by
  have hlit : is_literal L = true := by
    unfold literal_value at hL
    by_contra hc
    simp [hc] at hL
  obtain ⟨h0, hne, hs, hh, _⟩ := literal_head L (x :: rest) hlit
  obtain ⟨sg, ds, hLe, hsg, hld, hdne, hds⟩ := is_literal_cases L hlit
  have hz2 : ds.head? = some (Char.ofNat 48) → ds = [Char.ofNat 48] := by
    intro h
    unfold no_leading_zeros written_zero at hz
    rw [hld] at hz
    simpa [h] using hz
  have hsl : wcstol_sign L = sg.length := by
    have h1 : (literal_digits L).length = ds.length := by rw [hld]
    unfold literal_digits at h1
    rw [List.length_drop, hLe, List.length_append] at h1
    have h2 : wcstol_sign (sg ++ ds) ≤ 1 := by
      unfold wcstol_sign; split <;> omega
    rw [hLe]
    have h3 : sg.length ≤ 1 := by
      rcases hsg with e | e | e <;> rw [e] <;> simp
    have h4 : 0 < ds.length := List.length_pos.mpr hdne
    omega
  have hdrop : (L ++ x :: rest).drop (wcstol_sign L) = ds ++ x :: rest := by
    rw [hsl, hLe, List.append_assoc, List.drop_left]
  obtain ⟨hu1, hu2⟩ := wcstol_unsigned ds x rest hx hdne hds hz2
  have hval : n = if (L.head? = some (Char.ofNat 45)) then -(decimal_value ds : Int)
      else (decimal_value ds : Int) := by
    unfold literal_value at hL
    rw [hlit, hld] at hL
    simp only [if_true] at hL
    split at hL <;> rename_i hc <;> simp only [Option.some.injEq] at hL
    · rw [if_pos hc]; exact hL.symm
    · rw [if_neg hc]; exact hL.symm
  unfold wcstol
  simp only [h0, List.drop_zero, hs, hdrop, hu1, hu2, hh]
  unfold wcstol_finish
  have hlen : ds.length ≠ 0 := fun e => hdne (List.length_eq_zero.mp e)
  simp only [if_neg hlen, decide_eq_true_eq]
  rw [← hval]
  rw [if_neg (by omega), if_neg (by omega)]
  have : L.length = 0 + wcstol_sign L + 0 + ds.length := by
    rw [hsl, hLe, List.length_append]; omega
  rw [this]

theorem wdigit_dot : wdigit DOT = none := by decide

theorem wdigit_rbrace : wdigit RBRACE = none := by decide

theorem is_literal_of_value (L : WStr) (n : Int) (h : literal_value L = some n) :
    is_literal L = true := by
  unfold literal_value at h
  by_contra hc
  simp [hc] at h

theorem decimal_foldl_ge :
    ∀ (ds : WStr) (acc : Nat), acc ≤ ds.foldl (fun acc c => acc * 10 + (c.toNat - 48)) acc := by
  intro ds
  induction ds with
  | nil => intro acc; exact Nat.le_refl _
  | cons d ds ih =>
    intro acc
    rw [List.foldl_cons]
    have := ih (acc * 10 + (d.toNat - 48))
    omega

theorem wcstol_digits_octal (x : Char) (rest : WStr) (hx : wdigit x = none) :
    ∀ (ds : WStr) (acc n : Nat), (∀ c ∈ ds, is_decimal_digit c = true) →
      ds.foldl (fun acc c => acc * 10 + (c.toNat - 48)) acc < 8 →
      wcstol_digits 8 (ds ++ x :: rest) acc n =
        (ds.foldl (fun acc c => acc * 10 + (c.toNat - 48)) acc, n + ds.length) := by
  intro ds
  induction ds with
  | nil =>
    intro acc n _ _
    simp [wcstol_digits, hx]
  | cons d ds ih =>
    intro acc n h hv
    have hd := h d (List.mem_cons_self _ _)
    rw [List.foldl_cons] at hv
    have hge := decimal_foldl_ge ds (acc * 10 + (d.toNat - 48))
    have hacc : acc = 0 := by omega
    subst hacc
    rw [List.cons_append, wcstol_digits, wdigit_decimal d hd]
    simp only
    rw [if_pos (by omega)]
    have e : 0 * 8 + (d.toNat - 48) = 0 * 10 + (d.toNat - 48) := by omega
    rw [e, ih _ _ (fun c hc => h c (List.mem_cons_of_mem _ hc)) hv]
    simp only [List.foldl_cons, List.length_cons]
    congr 1
    omega

theorem wcstol_zero_led (ds : WStr) (x : Char) (rest : WStr) (hx : wdigit x = none)
    (hds : ∀ c ∈ ds, is_decimal_digit c = true)
    (hz : ds.head? = some (Char.ofNat 48)) (hv : decimal_value ds < 8) :
    (if wcstol_hex (ds ++ x :: rest) then 2 else 0) = 0 ∧
    wcstol_digits
      (if wcstol_hex (ds ++ x :: rest) then 16
        else if (ds ++ x :: rest).head? = some (Char.ofNat 48) then 8 else 10)
      (ds ++ x :: rest) 0 0 = (decimal_value ds, ds.length) := by
  cases ds with
  | nil => simp at hz
  | cons d ds1 =>
    simp only [List.head?_cons, Option.some.injEq] at hz
    subst hz
    have hx1 : x ≠ Char.ofNat 120 := by
      intro e; rw [e] at hx; revert hx; decide
    have hx2 : x ≠ Char.ofNat 88 := by
      intro e; rw [e] at hx; revert hx; decide
    have hhex : wcstol_hex (Char.ofNat 48 :: ds1 ++ x :: rest) = false := by
      cases ds1 with
      | nil => simp [wcstol_hex, hx1, hx2]
      | cons d2 ds2 =>
        have hd2 := hds d2 (by simp)
        have h1 : d2 ≠ Char.ofNat 120 := by
          intro e; rw [e] at hd2; revert hd2; decide
        have h2 : d2 ≠ Char.ofNat 88 := by
          intro e; rw [e] at hd2; revert hd2; decide
        simp [wcstol_hex, h1, h2]
    rw [hhex]
    refine ⟨rfl, ?_⟩
    have hh : (Char.ofNat 48 :: ds1 ++ x :: rest).head? = some (Char.ofNat 48) := rfl
    simp only [Bool.false_eq_true, if_false, if_pos hh]
    have := wcstol_digits_octal x rest hx (Char.ofNat 48 :: ds1) 0 0 hds hv
    rw [Nat.zero_add] at this
    exact this

theorem wcstol_literal_decimal (L : WStr) (x : Char) (rest : WStr) (n : Int)
    (hx : wdigit x = none) (hL : literal_value L = some n)
    (hz : read_as_decimal L = true) (hlo : LONG_MIN ≤ n) (hhi : n ≤ LONG_MAX) :
    wcstol (L ++ x :: rest) = (n, L.length, false) := by
  have hlit : is_literal L = true := is_literal_of_value L n hL
  obtain ⟨h0, hne, hs, hh, _⟩ := literal_head L (x :: rest) hlit
  obtain ⟨sg, ds, hLe, hsg, hld, hdne, hds⟩ := is_literal_cases L hlit
  have hsl : wcstol_sign L = sg.length := by
    have h1 : (literal_digits L).length = ds.length := by rw [hld]
    unfold literal_digits at h1
    rw [List.length_drop, hLe, List.length_append] at h1
    have h2 : wcstol_sign (sg ++ ds) ≤ 1 := by
      unfold wcstol_sign; split <;> omega
    rw [hLe]
    have h3 : sg.length ≤ 1 := by
      rcases hsg with e | e | e <;> rw [e] <;> simp
    have h4 : 0 < ds.length := List.length_pos.mpr hdne
    omega
  have hdrop : (L ++ x :: rest).drop (wcstol_sign L) = ds ++ x :: rest := by
    rw [hsl, hLe, List.append_assoc, List.drop_left]
  have hu : (if wcstol_hex (ds ++ x :: rest) then 2 else 0) = 0 ∧
      wcstol_digits
        (if wcstol_hex (ds ++ x :: rest) then 16
          else if (ds ++ x :: rest).head? = some (Char.ofNat 48) then 8 else 10)
        (ds ++ x :: rest) 0 0 = (decimal_value ds, ds.length) := by
    by_cases hw : ds.head? = some (Char.ofNat 48)
    · apply wcstol_zero_led ds x rest hx hds hw
      unfold read_as_decimal written_zero at hz
      rw [hld] at hz
      simpa [hw] using hz
    · exact wcstol_unsigned ds x rest hx hdne hds (fun h => absurd h hw)
  obtain ⟨hu1, hu2⟩ := hu
  have hval : n = if (L.head? = some (Char.ofNat 45)) then -(decimal_value ds : Int)
      else (decimal_value ds : Int) := by
    unfold literal_value at hL
    rw [hlit, hld] at hL
    simp only [if_true] at hL
    split at hL <;> rename_i hc <;> simp only [Option.some.injEq] at hL
    · rw [if_pos hc]; exact hL.symm
    · rw [if_neg hc]; exact hL.symm
  unfold wcstol
  simp only [h0, List.drop_zero, hs, hdrop, hu1, hu2, hh]
  unfold wcstol_finish
  have hlen : ds.length ≠ 0 := fun e => hdne (List.length_eq_zero.mp e)
  simp only [if_neg hlen, decide_eq_true_eq]
  rw [← hval]
  rw [if_neg (by omega), if_neg (by omega)]
  have : L.length = 0 + wcstol_sign L + 0 + ds.length := by
    rw [hsl, hLe, List.length_append]; omega
  rw [this]

/-- C11 (as stated, refuted). The literal 9223372036854775808 is outside the range of `long`:
`wcstol` sets `errno`, `tryexpand_brace_sequence` returns false and the word
`{9223372036854775807..9223372036854775808}` is left as it is: one word that is no numeral, not
the two words with the values of the literals. -/
theorem expand_brace_sequence_out_of_range :
    expand_brace 3
        (brace_seq_word [] "9223372036854775807".toList "9223372036854775808".toList [])
        (List.replicate 42 1) [] [] =
      some ([brace_seq_word [] "9223372036854775807".toList "9223372036854775808".toList []],
        [List.replicate 42 1]) ∧
    literal_value
      (brace_seq_word [] "9223372036854775807".toList "9223372036854775808".toList []) = none := by
  constructor <;> decide

/-- The base of `wcstol` in `tryexpand_brace_sequence` is 0, so a literal with a leading zero is
read in base 8: `{010..012}` gives `008`, `009`, `010` (the values 8, 9, 10, not 10, 11, 12),
and `{08..10}`, where `8` is no octal digit, is left as it is. -/
theorem expand_brace_sequence_octal :
    expand_brace 3 (brace_seq_word [] "010".toList "012".toList []) (List.replicate 10 1) [] [] =
      some (["008".toList, "009".toList, "010".toList], [[0, 0, 0], [0, 0, 0], [0, 0, 0]]) ∧
    expand_brace 3 (brace_seq_word [] "08".toList "10".toList []) (List.replicate 8 1) [] [] =
      some ([brace_seq_word [] "08".toList "10".toList []], [List.replicate 8 1]) := by
  constructor <;> decide

/-- C11 (amended). For integer literals `N` and `M` (an optional `+` or `-` and decimal digits,
leading zeros allowed) with values `n` and `m` in the range of `long`, where a literal that is
written with a leading zero has a value below 8, brace expansion of the word `{N..M}` adds
exactly `|n - m| + 1` words, and their decimal values are `n`, then each next integer towards
`m`, then `m`, in that order. -/
theorem expand_brace_numeric_sequence (fuel : Nat) (N M : WStr) (n m : Int) (split : List Nat)
    (vl : List WStr) (sl : List (List Nat))
    (hN : literal_value N = some n) (hM : literal_value M = some m)
    (hNz : read_as_decimal N = true) (hMz : read_as_decimal M = true)
    (hn : LONG_MIN ≤ n ∧ n ≤ LONG_MAX) (hm : LONG_MIN ≤ m ∧ m ≤ LONG_MAX)
    (hsplit : split.length = (brace_seq_word [] N M []).length) :
    ∃ words splits,
      expand_brace (fuel + 2) (brace_seq_word [] N M []) split vl sl =
        some (vl ++ words, sl ++ splits) ∧
      words.length = (n - m).natAbs + 1 ∧
      words.map literal_value = (int_seq n m).map some := by
  have hNr := wcstol_literal_decimal N DOT (DOT :: (M ++ RBRACE :: [])) n wdigit_dot hN hNz
    hn.1 hn.2
  have hMr := wcstol_literal_decimal M RBRACE [] m wdigit_rbrace hM hMz hm.1 hm.2
  have h := expand_brace_sequence fuel [] N M [] split n m vl sl (by simp) (by simp) hsplit
    (is_literal_of_value N n hN) (is_literal_of_value M m hM) hNr hMr
  refine ⟨_, _, h, ?_, ?_⟩
  · rw [List.length_map]
    unfold int_seq
    rw [List.length_map, List.length_range]
    omega
  · rw [List.map_map]
    apply List.map_congr_left
    intro v _
    simp only [Function.comp, List.nil_append, List.append_nil]
    exact literal_value_wprintf_ld _ _ v

/-- Witness of C11 on `{007..10}`: the first literal is written with leading zeros and has the
value 7; the words are `007`, `008`, `009`, `010`. -/
theorem expand_brace_numeric_sequence_witness :
    (∃ words splits,
      expand_brace (0 + 2) (brace_seq_word [] "007".toList "10".toList []) (List.replicate 9 1)
        [] [] = some ([] ++ words, [] ++ splits) ∧
      words.length = ((7 : Int) - 10).natAbs + 1 ∧
      words.map literal_value = (int_seq 7 10).map some) ∧
    expand_brace 2 (brace_seq_word [] "007".toList "10".toList []) (List.replicate 9 1) [] [] =
      some (["007".toList, "008".toList, "009".toList, "010".toList],
        [[0, 0, 0], [0, 0, 0], [0, 0, 0], [0, 0, 0]]) :=
  ⟨expand_brace_numeric_sequence 0 "007".toList "10".toList 7 10 (List.replicate 9 1) [] []
    (by decide) (by decide) (by decide) (by decide) (by decide) (by decide) (by decide),
    by decide⟩

theorem wprintf_ld_length (sign : Bool) (len : Nat) (value : Int) :
    (wprintf_ld sign len value).length = max len (wprintf_ld sign 0 value).length := by
  unfold wprintf_ld
  simp only [List.length_append, List.length_replicate, Nat.zero_sub, Nat.add_zero]
  omega

theorem wprintf_ld_head (sign : Bool) (len : Nat) (value : Int) :
    (0 ≤ value → ((wprintf_ld sign len value).head? = some (Char.ofNat 43) ↔ sign = true)) ∧
      (value < 0 → (wprintf_ld sign len value).head? = some (Char.ofNat 45)) := by
  obtain ⟨sg, k, h, hsg⟩ := wprintf_ld_form sign len value
  rw [h]
  constructor
  · intro hv
    rw [if_neg (by omega)] at hsg
    cases sign with
    | true =>
      simp only [if_true] at hsg
      subst hsg
      simp
    | false =>
      simp only [Bool.false_eq_true, if_false] at hsg
      subst hsg
      rw [List.nil_append]
      have hd := padded_digits k value.natAbs
      have hne := padded_ne_nil k value.natAbs
      generalize List.replicate k (Char.ofNat 48) ++ Nat.toDigits 10 value.natAbs = ds at hd hne
      obtain ⟨d, ds1, rfl⟩ := List.exists_cons_of_ne_nil hne
      have := (digit_not_sign d (hd d (List.mem_cons_self _ _))).1
      simp [this]
  · intro hv
    rw [if_pos hv] at hsg
    subst hsg
    rfl

/-- C12 (as stated, refuted). In `{+10..07}` and in `{100..07}` only the second literal is
written with a leading zero and it is the shorter one: the width is its width 2, not the larger
width 3, so the words are `+10`, `+9`, `+8`, `+7` (not `+09`, ...) and `100`, `99`, `98`, ...
(not `099`, ...). -/
theorem expand_brace_sequence_width_shorter_zero :
    expand_brace 3 (brace_seq_word [] "+10".toList "07".toList []) (List.replicate 9 1) [] [] =
      some (["+10".toList, "+9".toList, "+8".toList, "+7".toList],
        [[0, 0, 0], [0, 0], [0, 0], [0, 0]]) ∧
    (expand_brace 3 (brace_seq_word [] "100".toList "07".toList []) (List.replicate 9 1)
        [] []).map (fun r => (r.1.length, r.1.take 3)) =
      some (94, ["100".toList, "99".toList, "98".toList]) := by
  constructor <;> decide

/-- C12 (amended). In a numeric brace sequence `pre{N..M}post`, where `wcstol` reads the
literals `N` and `M` entirely and without range error as `start` and `e`, every generated value
is printed zero-padded to the field width `w` that is the larger of the source widths of those
endpoint literals that are written with a leading zero (an endpoint without a leading zero
counts as width 0): each word has `w` characters unless the value needs more. When neither
literal has a leading zero, `w = 0` and no padding is applied. -/
theorem expand_brace_sequence_width (fuel : Nat) (pre N M post : WStr) (split : List Nat)
    (start e : Int) (vl : List WStr) (sl : List (List Nat))
    (hpre : ∀ c ∈ pre, c ≠ BSL ∧ c ≠ LBRACE) (hpost : ∀ c ∈ post, c ≠ BSL ∧ c ≠ LBRACE)
    (hsplit : split.length = (brace_seq_word pre N M post).length)
    (hN : is_literal N = true) (hM : is_literal M = true)
    (hNr : wcstol (N ++ DOT :: DOT :: (M ++ RBRACE :: post)) = (start, N.length, false))
    (hMr : wcstol (M ++ RBRACE :: post) = (e, M.length, false)) :
    ∃ (sign : Bool) (splits : List (List Nat)) (w : Nat),
      w = max (if written_zero N then N.length else 0) (if written_zero M then M.length else 0) ∧
      expand_brace (fuel + 2) (brace_seq_word pre N M post) split vl sl =
        some (vl ++ (int_seq start e).map (fun v => pre ++ wprintf_ld sign w v ++ post),
          sl ++ splits) ∧
      (∀ v, (wprintf_ld sign w v).length = max w (wprintf_ld sign 0 v).length) ∧
      (written_zero N = false → written_zero M = false → w = 0) := by
  refine ⟨_, _, _, rfl,
    expand_brace_sequence fuel pre N M post split start e vl sl hpre hpost hsplit hN hM hNr hMr,
    fun v => wprintf_ld_length _ _ v, ?_⟩
  intro h1 h2
  simp [h1, h2]

/-- Witness of C12: `{03..5}` gives `03`, `04`, `05`. -/
theorem expand_brace_sequence_width_witness :
    ∃ (sign : Bool) (splits : List (List Nat)) (w : Nat),
      w = max (if written_zero "03".toList then "03".toList.length else 0)
        (if written_zero "5".toList then "5".toList.length else 0) ∧
      expand_brace (0 + 2) (brace_seq_word [] "03".toList "5".toList []) (List.replicate 7 1)
          [] [] =
        some ([] ++ (int_seq 3 5).map (fun v => [] ++ wprintf_ld sign w v ++ []),
          [] ++ splits) ∧
      (∀ v, (wprintf_ld sign w v).length = max w (wprintf_ld sign 0 v).length) ∧
      (written_zero "03".toList = false → written_zero "5".toList = false → w = 0) :=
  expand_brace_sequence_width 0 [] "03".toList "5".toList [] (List.replicate 7 1) 3 5 [] []
    (by simp) (by simp) (by decide) (by decide) (by decide) (by decide) (by decide)

/-- C13. In a numeric brace sequence `pre{N..M}post`, where `wcstol` reads the literals `N` and
`M` entirely and without range error as `start` and `e`, every generated value that is not
negative is written with a leading `+` if and only if `N` or `M` is written with a leading `+`,
and every negative value is written with a leading `-`. -/
theorem expand_brace_sequence_plus (fuel : Nat) (pre N M post : WStr) (split : List Nat)
    (start e : Int) (vl : List WStr) (sl : List (List Nat))
    (hpre : ∀ c ∈ pre, c ≠ BSL ∧ c ≠ LBRACE) (hpost : ∀ c ∈ post, c ≠ BSL ∧ c ≠ LBRACE)
    (hsplit : split.length = (brace_seq_word pre N M post).length)
    (hN : is_literal N = true) (hM : is_literal M = true)
    (hNr : wcstol (N ++ DOT :: DOT :: (M ++ RBRACE :: post)) = (start, N.length, false))
    (hMr : wcstol (M ++ RBRACE :: post) = (e, M.length, false)) :
    ∃ (printed : Int → WStr) (splits : List (List Nat)),
      expand_brace (fuel + 2) (brace_seq_word pre N M post) split vl sl =
        some (vl ++ (int_seq start e).map (fun v => pre ++ printed v ++ post), sl ++ splits) ∧
      ∀ v : Int,
        (0 ≤ v → ((printed v).head? = some (Char.ofNat 43) ↔
          (written_plus N = true ∨ written_plus M = true))) ∧
        (v < 0 → (printed v).head? = some (Char.ofNat 45)) ∧
        literal_value (printed v) = some v := by
  refine ⟨_, _,
    expand_brace_sequence fuel pre N M post split start e vl sl hpre hpost hsplit hN hM hNr hMr,
    fun v => ⟨?_, ?_, literal_value_wprintf_ld _ _ v⟩⟩
  · intro hv
    rw [(wprintf_ld_head _ _ v).1 hv, Bool.or_eq_true]
  · exact (wprintf_ld_head _ _ v).2

/-- Witness of C13 on `{1..+3}`, which gives `+1`, `+2`, `+3`. -/
theorem expand_brace_sequence_plus_witness :
    ∃ (printed : Int → WStr) (splits : List (List Nat)),
      expand_brace (0 + 2) (brace_seq_word [] "1".toList "+3".toList []) (List.replicate 7 1)
          [] [] =
        some ([] ++ (int_seq 1 3).map (fun v => [] ++ printed v ++ []), [] ++ splits) ∧
      ∀ v : Int,
        (0 ≤ v → ((printed v).head? = some (Char.ofNat 43) ↔
          (written_plus "1".toList = true ∨ written_plus "+3".toList = true))) ∧
        (v < 0 → (printed v).head? = some (Char.ofNat 45)) ∧
        literal_value (printed v) = some v :=
  expand_brace_sequence_plus 0 [] "1".toList "+3".toList [] (List.replicate 7 1) 1 3 [] []
    (by simp) (by simp) (by decide) (by decide) (by decide) (by decide) (by decide)

/-! ## Lock-step of values and splittability through brace expansion (C14) -/

theorem lockstep_refl : ∀ Z : List (Char × Nat), lockstep Z Z
  | [] => lockstep.done
  | p :: Z => lockstep.copy p Z Z (lockstep_refl Z)

theorem lockstep_nil : ∀ Z : List (Char × Nat), lockstep Z []
  | [] => lockstep.done
  | p :: Z => lockstep.drop p Z [] (lockstep_nil Z)

theorem lockstep_of_sublist {out inp : List (Char × Nat)} (h : out.Sublist inp) :
    lockstep inp out := by
  induction h with
  | slnil => exact lockstep.done
  | cons a _ ih => exact lockstep.drop a _ _ ih
  | cons₂ a _ ih => exact lockstep.copy a _ _ ih

theorem lockstep_append {a b c d : List (Char × Nat)} (h1 : lockstep a b) (h2 : lockstep c d) :
    lockstep (a ++ c) (b ++ d) := by
  induction h1 with
  | done => exact h2
  | copy p inp out _ ih => exact lockstep.copy p _ _ ih
  | drop p inp out _ ih => exact lockstep.drop p _ _ ih
  | gen ch inp out hc _ ih => exact lockstep.gen ch _ _ hc ih

theorem lockstep_tail {a b : List (Char × Nat)} (h : lockstep a b) :
    ∀ p b1, b = p :: b1 → lockstep a b1 := by
  induction h with
  | done => intro p b1 e; cases e
  | copy q inp out h1 _ =>
    intro p b1 e
    cases e
    exact lockstep.drop _ _ _ h1
  | drop q inp out _ ih =>
    intro p b1 e
    exact lockstep.drop _ _ _ (ih p b1 e)
  | gen ch inp out _ h1 _ =>
    intro p b1 e
    cases e
    exact h1

theorem lockstep_cons_trans {c1 : List (Char × Nat)} {a bb : List (Char × Nat)}
    (h : lockstep a bb) :
    ∀ p b1, bb = p :: b1 → (∀ a1, lockstep a1 b1 → lockstep a1 c1) → lockstep a (p :: c1) := by
  induction h with
  | done => intro p b1 e; cases e
  | copy q inp out h1 _ =>
    intro p b1 e hc
    cases e
    exact lockstep.copy _ _ _ (hc _ h1)
  | drop q inp out _ ih =>
    intro p b1 e hc
    exact lockstep.drop _ _ _ (ih p b1 e hc)
  | gen ch inp out hch h1 _ =>
    intro p b1 e hc
    cases e
    exact lockstep.gen ch _ _ hch (hc _ h1)

theorem lockstep_trans {b c : List (Char × Nat)} (h2 : lockstep b c) :
    ∀ a, lockstep a b → lockstep a c := by
  induction h2 with
  | done => intro a h1; exact h1
  | copy p inp out _ ih =>
    intro a h1
    exact lockstep_cons_trans h1 p inp rfl ih
  | drop p inp out _ ih =>
    intro a h1
    exact ih a (lockstep_tail h1 p inp rfl)
  | gen ch inp out hch _ ih =>
    intro a h1
    exact lockstep.gen ch _ _ hch (ih a h1)

theorem lockstep_gen_list (Z : List (Char × Nat)) :
    ∀ printed : WStr, (∀ c ∈ printed, printed_char c = true) →
      lockstep Z (printed.zip (List.replicate printed.length 0) ++ Z) := by
  intro printed
  induction printed with
  | nil => intro _; exact lockstep_refl Z
  | cons c printed ih =>
    intro h
    simp only [List.length_cons, List.replicate_succ, List.zip_cons_cons, List.cons_append]
    exact lockstep.gen c _ _ (h c (List.mem_cons_self _ _))
      (ih (fun x hx => h x (List.mem_cons_of_mem _ hx)))

theorem wprintf_ld_printed (sign : Bool) (len : Nat) (value : Int) :
    ∀ c ∈ wprintf_ld sign len value, printed_char c = true := by
  obtain ⟨sg, k, h, hsg⟩ := wprintf_ld_form sign len value
  rw [h]
  intro c hc
  rw [List.mem_append] at hc
  unfold printed_char
  rcases hc with hc | hc
  · rw [hsg] at hc
    split_ifs at hc <;> simp at hc <;> rw [hc] <;> decide
  · rw [padded_digits k _ c hc]; simp

theorem zip_take_take (w : WStr) (s : List Nat) (n : Nat) :
    (w.take n).zip (s.take n) = (w.zip s).take n := by
  simp only [List.zip, List.take_zipWith]

theorem zip_drop_drop (w : WStr) (s : List Nat) (n : Nat) :
    (w.drop n).zip (s.drop n) = (w.zip s).drop n := by
  simp only [List.zip, List.drop_zipWith]

theorem three_pieces_sublist (Z : List (Char × Nat)) (h a n b m : Nat)
    (h1 : h ≤ a) (h2 : a + n ≤ b) :
    (Z.take h ++ (Z.drop a).take n ++ (Z.drop b).take m).Sublist Z := by
  have e1 : Z = Z.take a ++ ((Z.drop a).take n ++ Z.drop (a + n)) := by
    rw [← List.drop_drop, List.take_append_drop, List.take_append_drop]
  have s1 : (Z.take h).Sublist (Z.take a) := List.take_sublist_take_left Z h1
  have s3 : ((Z.drop b).take m).Sublist (Z.drop (a + n)) :=
    (List.take_sublist _ _).trans (List.drop_sublist_drop_left Z h2)
  have s := s1.append ((List.Sublist.refl ((Z.drop a).take n)).append s3)
  rw [← e1, ← List.append_assoc] at s
  exact s

theorem alt_buffer_lockstep (word : WStr) (split : List Nat) (h a n b m : Nat)
    (hlen : split.length = word.length) (h1 : h ≤ a) (h2 : a + n ≤ b) :
    lockstep (word.zip split)
      ((word.take h ++ (word.drop a).take n ++ (word.drop b).take m).zip
        (split.take h ++ (split.drop a).take n ++ (split.drop b).take m)) := by
  have l1 : (word.take h).length = (split.take h).length := by
    simp only [List.length_take, hlen]
  have l2 : ((word.drop a).take n).length = ((split.drop a).take n).length := by
    simp only [List.length_take, List.length_drop, hlen]
  rw [List.append_assoc, List.append_assoc, List.zip_append l1, List.zip_append l2,
    zip_take_take, zip_take_take, zip_take_take, zip_drop_drop, zip_drop_drop,
    ← List.append_assoc]
  exact lockstep_of_sublist (three_pieces_sublist _ h a n b m h1 h2)

theorem alt_buffer_length (word : WStr) (split : List Nat) (h a n b m : Nat)
    (hlen : split.length = word.length) :
    (word.take h ++ (word.drop a).take n ++ (word.drop b).take m).length =
      (split.take h ++ (split.drop a).take n ++ (split.drop b).take m).length := by
  simp only [List.length_append, List.length_take, List.length_drop, hlen]

theorem seq_buffer_length (word : WStr) (split : List Nat) (p q : Nat) (printed : WStr)
    (hlen : split.length = word.length) :
    (word.take p ++ printed ++ word.drop q).length =
      (split.take p ++ List.replicate printed.length 0 ++
        (split.drop q).take (word.length - q)).length := by
  simp only [List.length_append, List.length_take, List.length_drop, List.length_replicate, hlen]
  omega

theorem seq_buffer_lockstep (word : WStr) (split : List Nat) (p q : Nat) (printed : WStr)
    (hlen : split.length = word.length) (hpq : p ≤ q)
    (hpr : ∀ c ∈ printed, printed_char c = true) :
    lockstep (word.zip split)
      ((word.take p ++ printed ++ word.drop q).zip
        (split.take p ++ List.replicate printed.length 0 ++
          (split.drop q).take (word.length - q))) := by
  have l1 : (word.take p).length = (split.take p).length := by
    simp only [List.length_take, hlen]
  have l2 : printed.length = (List.replicate printed.length 0).length := by simp
  have e3 : (split.drop q).take (word.length - q) = split.drop q := by
    apply List.take_of_length_le
    simp only [List.length_drop, hlen]
    exact Nat.le_refl _
  rw [e3, List.append_assoc, List.append_assoc, List.zip_append l1, List.zip_append l2,
    zip_take_take, zip_drop_drop]
  have h2 : lockstep ((word.zip split).drop p)
      (printed.zip (List.replicate printed.length 0) ++ (word.zip split).drop q) :=
    lockstep_trans (lockstep_gen_list _ printed hpr) _
      (lockstep_of_sublist (List.drop_sublist_drop_left _ hpq))
  have h3 := lockstep_append (lockstep_refl ((word.zip split).take p)) h2
  rw [List.take_append_drop] at h3
  exact h3

theorem lockstep_result_refl (word : WStr) (split : List Nat) (vl : List WStr)
    (sl : List (List Nat)) : lockstep_result word split vl sl (vl, sl) :=
  ⟨[], [], by simp, List.Forall₂.nil⟩

theorem lockstep_result_self (word : WStr) (split : List Nat) (vl : List WStr)
    (sl : List (List Nat)) (hlen : split.length = word.length) :
    lockstep_result word split vl sl (vl ++ [word], sl ++ [split]) :=
  ⟨[word], [split], rfl, List.Forall₂.cons ⟨hlen.symm, lockstep_refl _⟩ List.Forall₂.nil⟩

theorem lockstep_result_step (word buf : WStr) (split sbuf : List Nat)
    (vl : List WStr) (sl : List (List Nat)) (r1 r : List WStr × List (List Nat))
    (hb : lockstep (word.zip split) (buf.zip sbuf))
    (h1 : lockstep_result buf sbuf vl sl r1)
    (h2 : lockstep_result word split r1.1 r1.2 r) :
    lockstep_result word split vl sl r := by
  obtain ⟨vs1, ss1, e1, f1⟩ := h1
  obtain ⟨vs2, ss2, e2, f2⟩ := h2
  subst e1
  refine ⟨vs1 ++ vs2, ss1 ++ ss2, by rw [e2]; simp, ?_⟩
  apply List.rel_append _ f2
  exact f1.imp (fun v s hvs => ⟨hvs.1, lockstep_trans hvs.2 _ hb⟩)

theorem getD_le_of_pairwise (l : List Nat) (hl : l.Pairwise (fun a b => a ≤ b)) (i j : Nat)
    (hij : i ≤ j) (hj : j < l.length) : l.getD i 0 ≤ l.getD j 0 := by
  rcases Nat.eq_or_lt_of_le hij with e | hlt
  · rw [e]
  · rw [List.getD_eq_getElem l 0 hj, List.getD_eq_getElem l 0 (by omega)]
    exact List.pairwise_iff_getElem.mp hl i j (by omega) hj hlt

theorem brace_elems_loop_lockstep
    (rec : WStr → List Nat → List WStr → List (List Nat) → Option (List WStr × List (List Nat)))
    (word : WStr) (split : List Nat) (elemlist : List Nat)
    (hlen : split.length = word.length) (hsorted : elemlist.Pairwise (fun a b => a ≤ b))
    (hrec : ∀ w s v l r, s.length = w.length → rec w s v l = some r → lockstep_result w s v l r) :
    ∀ (k i : Nat) (vl : List WStr) (sl : List (List Nat)) (r : List WStr × List (List Nat)),
      i + k ≤ elemlist.length - 1 →
      brace_elems_loop rec word split elemlist k i vl sl = some r →
      lockstep_result word split vl sl r := by
  intro k
  induction k with
  | zero =>
    intro i vl sl r _ h
    rw [brace_elems_loop] at h
    cases h
    exact lockstep_result_refl word split vl sl
  | succ k ih =>
    intro i vl sl r hik h
    rw [brace_elems_loop_succ] at h
    have hl := alt_buffer_length word split (elemlist.getD 0 0 - 1) (elemlist.getD i 0)
      (elemlist.getD (i + 1) 0 - elemlist.getD i 0 - 1) (elemlist.getD (elemlist.length - 1) 0)
      (word.length - elemlist.getD (elemlist.length - 1) 0) hlen
    rw [if_neg (by rw [hl]; simp)] at h
    have g1 := getD_le_of_pairwise elemlist hsorted 0 i (Nat.zero_le _) (by omega)
    have g2 := getD_le_of_pairwise elemlist hsorted i (i + 1) (by omega) (by omega)
    have g3 := getD_le_of_pairwise elemlist hsorted (i + 1) (elemlist.length - 1) (by omega)
      (by omega)
    have hb := alt_buffer_lockstep word split (elemlist.getD 0 0 - 1) (elemlist.getD i 0)
      (elemlist.getD (i + 1) 0 - elemlist.getD i 0 - 1) (elemlist.getD (elemlist.length - 1) 0)
      (word.length - elemlist.getD (elemlist.length - 1) 0) hlen (by omega) (by omega)
    split at h
    · cases h
    · rename_i r1 hr1
      have q1 := hrec _ _ _ _ _ hl.symm hr1
      have q2 := ih (i + 1) r1.1 r1.2 r (by omega) h
      exact lockstep_result_step word _ split _ vl sl r1 r hb q1 q2

theorem brace_sequence_loop_lockstep
    (rec : WStr → List Nat → List WStr → List (List Nat) → Option (List WStr × List (List Nat)))
    (word : WStr) (split : List Nat) (startc braceexpect : Nat) (sign : Bool) (len : Nat)
    (start e : Int)
    (hlen : split.length = word.length) (hpq : startc - 1 ≤ braceexpect + 1)
    (hrec : ∀ w s v l r, s.length = w.length → rec w s v l = some r → lockstep_result w s v l r) :
    ∀ (k : Nat) (value : Int) (vl : List WStr) (sl : List (List Nat))
      (r : List WStr × List (List Nat)),
      brace_sequence_loop rec word split startc braceexpect sign len start e k value vl sl =
        some r →
      lockstep_result word split vl sl r := by
  intro k
  induction k with
  | zero =>
    intro value vl sl r h
    rw [brace_sequence_loop] at h
    cases h
  | succ k ih =>
    intro value vl sl r h
    rw [brace_sequence_loop] at h
    have hl := seq_buffer_length word split (startc - 1) (braceexpect + 1)
      (wprintf_ld sign len value) hlen
    rw [if_neg (by rw [hl]; simp)] at h
    have hb := seq_buffer_lockstep word split (startc - 1) (braceexpect + 1)
      (wprintf_ld sign len value) hlen hpq (wprintf_ld_printed sign len value)
    split at h
    · cases h
    · rename_i r1 hr1
      have q1 := hrec _ _ _ _ _ hl.symm hr1
      split at h
      · rw [← Option.some.inj h]
        exact lockstep_result_step word _ split _ vl sl r1 r1 hb q1
          (lockstep_result_refl word split r1.1 r1.2)
      · have q2 := ih _ r1.1 r1.2 r h
        exact lockstep_result_step word _ split _ vl sl r1 r hb q1 q2

theorem tryexpand_brace_sequence_lockstep
    (rec : WStr → List Nat → List WStr → List (List Nat) → Option (List WStr × List (List Nat)))
    (word : WStr) (split : List Nat) (startc : Nat) (vl : List WStr) (sl : List (List Nat))
    (r : List WStr × List (List Nat))
    (hlen : split.length = word.length)
    (hrec : ∀ w s v l r, s.length = w.length → rec w s v l = some r → lockstep_result w s v l r)
    (h : tryexpand_brace_sequence rec word split startc vl sl = some (some r)) :
    lockstep_result word split vl sl r := by
  unfold tryexpand_brace_sequence at h
  split at h
  · cases h
  · split at h
    · cases h
    · rename_i dotoff _
      split at h
      · cases h
      · simp only at h
        split at h
        · cases h
        · split at h
          · cases h
          · rename_i braceoff _
            split at h
            · cases h
            · split at h
              · cases h
              · cases hl : brace_sequence_loop rec word split startc
                    (startc + dotoff + 2 + braceoff)
                    (has_leading_zero (word.drop (startc + dotoff + 2))
                      (has_leading_zero (word.drop startc) false).2).2
                    (if (if (has_leading_zero (word.drop startc) false).1 = true then dotoff
                          else 0) >
                        (if (has_leading_zero (word.drop (startc + dotoff + 2))
                          (has_leading_zero (word.drop startc) false).2).1 = true
                          then braceoff else 0)
                      then (if (has_leading_zero (word.drop startc) false).1 = true then dotoff
                          else 0)
                      else (if (has_leading_zero (word.drop (startc + dotoff + 2))
                          (has_leading_zero (word.drop startc) false).2).1 = true
                          then braceoff else 0))
                    (wcstol (word.drop startc)).1 (wcstol (word.drop (startc + dotoff + 2))).1
                    (((wcstol (word.drop (startc + dotoff + 2))).1 -
                      (wcstol (word.drop startc)).1).natAbs + 1)
                    (wcstol (word.drop startc)).1 vl sl with
                | none => rw [hl] at h; cases h
                | some r1 =>
                  rw [hl] at h
                  simp only [Option.map_some', Option.some.injEq] at h
                  subst h
                  exact brace_sequence_loop_lockstep rec word split startc _ _ _ _ _ hlen
                    (by omega) hrec _ _ vl sl r1 hl

theorem brace_scan_sorted (word : WStr) :
    ∀ (fuel c nest : Nat) (el el1 : List Nat),
      brace_scan word fuel c nest el = some el1 →
      (∀ x ∈ el, x ≤ c) → el.Pairwise (fun a b => a ≤ b) →
      el1.Pairwise (fun a b => a ≤ b) := by
  intro fuel
  induction fuel with
  | zero => intro c nest el el1 h; rw [brace_scan] at h; cases h
  | succ fuel ih =>
    intro c nest el el1 h hb hs
    rw [brace_scan_succ] at h
    have happ : ∀ off, (el ++ [c + off + 1]).Pairwise (fun a b => a ≤ b) := by
      intro off
      rw [List.pairwise_append]
      refine ⟨hs, List.pairwise_singleton _ _, ?_⟩
      intro a ha b hb2
      simp only [List.mem_singleton] at hb2
      have := hb a ha
      omega
    have hbnd : ∀ off, ∀ x ∈ el, x ≤ c + off + 1 := by
      intro off x hx
      have := hb x hx
      omega
    split at h
    · cases h
    · rename_i off _
      split at h
      · exact ih _ _ _ _ h (hbnd off) hs
      · split at h
        · split at h
          · refine ih _ _ _ _ h ?_ (happ off)
            intro x hx
            rw [List.mem_append] at hx
            rcases hx with hx | hx
            · exact hbnd off x hx
            · simp only [List.mem_singleton] at hx; omega
          · exact ih _ _ _ _ h (hbnd off) hs
        · split at h
          · exact ih _ _ _ _ h (hbnd off) hs
          · split at h
            · cases h
            · rw [← Option.some.inj h]
              exact happ off

theorem expand_brace_from_lockstep :
    ∀ (fuel : Nat) (word : WStr) (split : List Nat) (c : Nat) (vl : List WStr)
      (sl : List (List Nat)) (r : List WStr × List (List Nat)),
      split.length = word.length →
      expand_brace_from fuel word split c vl sl = some r →
      lockstep_result word split vl sl r := by
  intro fuel
  induction fuel with
  | zero => intro word split c vl sl r _ h; rw [expand_brace_from] at h; cases h
  | succ fuel ih =>
    intro word split c vl sl r hlen h
    have hrec : ∀ w s v l r, s.length = w.length →
        (fun w s v l => expand_brace_from fuel w s 0 v l) w s v l = some r →
        lockstep_result w s v l r :=
      fun w s v l r hl hr => ih w s 0 v l r hl hr
    rw [expand_brace_from_succ] at h
    split at h
    · rw [← Option.some.inj h]
      exact lockstep_result_self word split vl sl hlen
    · rename_i off _
      split at h
      · rw [← Option.some.inj h]
        exact lockstep_result_self word split vl sl hlen
      · split at h
        · cases h
        · rename_i r1 ht
          rw [← Option.some.inj h]
          exact tryexpand_brace_sequence_lockstep _ word split _ vl sl r1 hlen hrec ht
        · split at h
          · exact ih word split _ vl sl r hlen h
          · rename_i elemlist hscan
            have hsorted := brace_scan_sorted word _ _ _ _ _ hscan (by simp) (by simp)
            exact brace_elems_loop_lockstep _ word split elemlist hlen hsorted hrec _ 0 vl sl r
              (by omega) h

theorem escaped_wcspbrk_found (accept : WStr) :
    ∀ (n : Nat) (s : WStr), s.length ≤ n → ∀ k, escaped_wcspbrk s accept = some k →
      ∃ x, x ∈ accept ∧ s[k]? = some x := by
  intro n
  induction n with
  | zero =>
    intro s hs k h
    have : s = [] := List.length_eq_zero.mp (by omega)
    subst this
    simp [escaped_wcspbrk] at h
  | succ n ih =>
    intro s hs k h
    cases s with
    | nil => simp [escaped_wcspbrk] at h
    | cons c t =>
      by_cases hc : c = BSL
      · subst hc
        cases t with
        | nil => simp [escaped_wcspbrk] at h
        | cons d u =>
          rw [escaped_wcspbrk_bsl_cons] at h
          cases hu : escaped_wcspbrk u accept with
          | none => rw [hu] at h; cases h
          | some k1 =>
            rw [hu] at h
            simp only [Option.map_some', Option.some.injEq] at h
            subst h
            obtain ⟨x, hx1, hx2⟩ := ih u (by simp at hs; omega) k1 hu
            exact ⟨x, hx1, by simpa using hx2⟩
      · rw [escaped_wcspbrk_cons_ne c t accept hc] at h
        by_cases hm : c ∈ accept
        · rw [if_pos hm] at h
          rw [← Option.some.inj h]
          exact ⟨c, hm, by simp⟩
        · rw [if_neg hm] at h
          cases ht : escaped_wcspbrk t accept with
          | none => rw [ht] at h; cases h
          | some k1 =>
            rw [ht] at h
            simp only [Option.map_some', Option.some.injEq] at h
            subst h
            obtain ⟨x, hx1, hx2⟩ := ih t (by simp at hs; omega) k1 ht
            exact ⟨x, hx1, by simpa using hx2⟩

theorem brace_elems_loop_returns
    (rec : WStr → List Nat → List WStr → List (List Nat) → Option (List WStr × List (List Nat)))
    (word : WStr) (split : List Nat) (elemlist : List Nat)
    (hlen : split.length = word.length)
    (hrec : ∀ w s v l, s.length = w.length → rec w s v l ≠ none) :
    ∀ (k i : Nat) (vl : List WStr) (sl : List (List Nat)),
      brace_elems_loop rec word split elemlist k i vl sl ≠ none := by
  intro k
  induction k with
  | zero => intro i vl sl; rw [brace_elems_loop]; simp
  | succ k ih =>
    intro i vl sl
    rw [brace_elems_loop_succ]
    have hl := alt_buffer_length word split (elemlist.getD 0 0 - 1) (elemlist.getD i 0)
      (elemlist.getD (i + 1) 0 - elemlist.getD i 0 - 1) (elemlist.getD (elemlist.length - 1) 0)
      (word.length - elemlist.getD (elemlist.length - 1) 0) hlen
    rw [if_neg (by rw [hl]; simp)]
    split
    · rename_i hr
      exact absurd hr (hrec _ _ _ _ hl.symm)
    · exact ih _ _ _

theorem brace_sequence_loop_returns
    (rec : WStr → List Nat → List WStr → List (List Nat) → Option (List WStr × List (List Nat)))
    (word : WStr) (split : List Nat) (startc braceexpect : Nat) (sign : Bool) (len : Nat)
    (start e : Int)
    (hlen : split.length = word.length)
    (hrec : ∀ w s v l, s.length = w.length → rec w s v l ≠ none) :
    ∀ (m j : Nat) (vl : List WStr) (sl : List (List Nat)), j + m = (e - start).natAbs →
      brace_sequence_loop rec word split startc braceexpect sign len start e (m + 1)
        (seq_value start e j) vl sl ≠ none := by
  intro m
  induction m with
  | zero =>
    intro j vl sl hj
    rw [brace_sequence_loop]
    have hl := seq_buffer_length word split (startc - 1) (braceexpect + 1)
      (wprintf_ld sign len (seq_value start e j)) hlen
    rw [if_neg (by rw [hl]; simp)]
    split
    · rename_i hr
      exact absurd hr (hrec _ _ _ _ hl.symm)
    · have he : seq_value start e j = e := by
        have : j = (e - start).natAbs := by omega
        rw [this]; exact seq_value_last start e
      rw [if_pos he]
      simp
  | succ m ih =>
    intro j vl sl hj
    rw [brace_sequence_loop]
    have hl := seq_buffer_length word split (startc - 1) (braceexpect + 1)
      (wprintf_ld sign len (seq_value start e j)) hlen
    rw [if_neg (by rw [hl]; simp)]
    split
    · rename_i hr
      exact absurd hr (hrec _ _ _ _ hl.symm)
    · have he : seq_value start e j ≠ e := seq_value_ne start e j (by omega)
      rw [if_neg he, seq_value_succ]
      exact ih (j + 1) _ _ (by omega)

theorem tryexpand_brace_sequence_returns
    (rec : WStr → List Nat → List WStr → List (List Nat) → Option (List WStr × List (List Nat)))
    (word : WStr) (split : List Nat) (startc : Nat) (vl : List WStr) (sl : List (List Nat))
    (hlen : split.length = word.length)
    (hrec : ∀ w s v l, s.length = w.length → rec w s v l ≠ none)
    (hb : word[startc - 1]? = some LBRACE) :
    tryexpand_brace_sequence rec word split startc vl sl ≠ none := by
  unfold tryexpand_brace_sequence
  rw [if_neg (by rw [hb]; simp)]
  split
  · simp
  · rename_i dotoff _
    split
    · simp
    · simp only
      split
      · simp
      · split
        · simp
        · rename_i braceoff _
          split
          · simp
          · split
            · simp
            · have := brace_sequence_loop_returns rec word split startc
                (startc + dotoff + 2 + braceoff)
                (has_leading_zero (word.drop (startc + dotoff + 2))
                  (has_leading_zero (word.drop startc) false).2).2
                (if (if (has_leading_zero (word.drop startc) false).1 = true then dotoff
                      else 0) >
                    (if (has_leading_zero (word.drop (startc + dotoff + 2))
                      (has_leading_zero (word.drop startc) false).2).1 = true
                      then braceoff else 0)
                  then (if (has_leading_zero (word.drop startc) false).1 = true then dotoff
                      else 0)
                  else (if (has_leading_zero (word.drop (startc + dotoff + 2))
                      (has_leading_zero (word.drop startc) false).2).1 = true
                      then braceoff else 0))
                (wcstol (word.drop startc)).1 (wcstol (word.drop (startc + dotoff + 2))).1
                hlen hrec
                ((wcstol (word.drop (startc + dotoff + 2))).1 -
                  (wcstol (word.drop startc)).1).natAbs 0 vl sl (by omega)
              rw [seq_value_zero] at this
              intro hn
              rw [Option.map_eq_none'] at hn
              exact this hn

/-- C14. For every word and splittability string of equal length: (1) whenever `expand_brace`
returns, what it has added to the two lists are pairs of a word and a splittability string of
equal length, and the (character, byte) pairs of each are in lock-step with those of the
input: input pairs copied unchanged and in their order, printed characters inserted with the
byte 0, at any recursion depth; (2), (3) the loops of the alternation branch and of
`tryexpand_brace_sequence` return whenever the recursive calls, which they make on buffers of
equal length, return: their assertions `buf.length == sbuf.length` do not fail;
(4) the assertion `startc[-1] == L'{'` holds at the call of `tryexpand_brace_sequence`. -/
theorem expand_brace_lockstep (word : WStr) (split : List Nat)
    (hlen : split.length = word.length) :
    (∀ (fuel : Nat) (vl : List WStr) (sl : List (List Nat)) (r : List WStr × List (List Nat)),
      expand_brace fuel word split vl sl = some r →
      ∃ vs ss, r = (vl ++ vs, sl ++ ss) ∧
        List.Forall₂ (fun (v : WStr) (s : List Nat) =>
          v.length = s.length ∧ lockstep (word.zip split) (v.zip s)) vs ss) ∧
    (∀ (rec : WStr → List Nat → List WStr → List (List Nat) →
          Option (List WStr × List (List Nat)))
        (elemlist : List Nat) (k i : Nat) (vl : List WStr) (sl : List (List Nat)),
      (∀ w s v l, s.length = w.length → rec w s v l ≠ none) →
      brace_elems_loop rec word split elemlist k i vl sl ≠ none) ∧
    (∀ (rec : WStr → List Nat → List WStr → List (List Nat) →
          Option (List WStr × List (List Nat)))
        (startc : Nat) (vl : List WStr) (sl : List (List Nat)),
      (∀ w s v l, s.length = w.length → rec w s v l ≠ none) →
      word[startc - 1]? = some LBRACE →
      tryexpand_brace_sequence rec word split startc vl sl ≠ none) ∧
    (∀ c off : Nat, escaped_wcspbrk (word.drop c) [LBRACE] = some off →
      word[c + off + 1 - 1]? = some LBRACE) := by
  refine ⟨?_, ?_, ?_, ?_⟩
  · intro fuel vl sl r h
    exact expand_brace_from_lockstep fuel word split 0 vl sl r hlen h
  · intro rec elemlist k i vl sl hrec
    exact brace_elems_loop_returns rec word split elemlist hlen hrec k i vl sl
  · intro rec startc vl sl hrec hb
    exact tryexpand_brace_sequence_returns rec word split startc vl sl hlen hrec hb
  · intro c off h
    obtain ⟨x, hx1, hx2⟩ := escaped_wcspbrk_found [LBRACE] _ _ (Nat.le_refl _) off h
    simp only [List.mem_singleton] at hx1
    rw [getElem?_drop_add, hx1] at hx2
    exact hx2

/-- Witness of C14 on the word `x{a,b}{1..2}` with every byte 1: the four pairs added are
`xa1`, `xa2`, `xb1`, `xb2`, each with the bytes 1, 1, 0. -/
theorem expand_brace_lockstep_witness :
    ∃ vs ss,
      (["xa1".toList, "xa2".toList, "xb1".toList, "xb2".toList],
        [[1, 1, 0], [1, 1, 0], [1, 1, 0], [1, 1, 0]]) = ([] ++ vs, [] ++ ss) ∧
      List.Forall₂ (fun (v : WStr) (s : List Nat) =>
        v.length = s.length ∧
          lockstep ("x\x7ba,b\x7d\x7b1..2\x7d".toList.zip (List.replicate 12 1)) (v.zip s))
        vs ss :=
  (expand_brace_lockstep "x\x7ba,b\x7d\x7b1..2\x7d".toList (List.replicate 12 1)
    (by decide)).1 4 [] [] _ (by decide)

/-! ## parser.c: unfolding lemmas -/

section ParserProps

open c_type_T check_T

theorem parse_commands_succ (env : ParserEnv) (fuel : Nat) (s : CStr) :
    parse_commands env (fuel + 1) s =
      (parse_scmd env fuel s).bind fun r => parse_commands_loop env fuel [r.1] r.2 := rfl

theorem parse_commands_loop_succ (env : ParserEnv) (fuel : Nat) (scmds : List SCMD)
    (ss : CStr) :
    parse_commands_loop env (fuel + 1) scmds ss =
      match ss with
      | [] => check_to_PRes (check_parse_result scmds) (scmds, ss)
      | c :: ss1 =>
        if c = Char.ofNat 35 then check_to_PRes (check_parse_result scmds) (scmds, [])
        else if c = Char.ofNat 41 then check_to_PRes (check_parse_result scmds) (scmds, ss)
        else if c = Char.ofNat 59 ∨ c = Char.ofNat 38 ∨ c = Char.ofNat 124 then
          let double := (c = Char.ofNat 38 ∨ c = Char.ofNat 124) ∧ ss1.head? = some c
          let t : c_type_T :=
            if c = Char.ofNat 59 then CT_END
            else if c = Char.ofNat 38 then (if double then CT_AND else CT_BG)
            else (if double then CT_OR else CT_PIPED)
          let ss2 := if double then ss1.drop 1 else ss1
          (parse_scmd env fuel ss2).bind fun r =>
            parse_commands_loop env fuel (set_last_c_type scmds t ++ [r.1]) r.2
        else PRes.err ["unsupported syntax"] := rfl

theorem parse_scmd_succ (env : ParserEnv) (fuel : Nat) (s : CStr) :
    parse_scmd env (fuel + 1) s =
      let s1 := s.drop (env.skipwhites s)
      if s1.head? = some (Char.ofNat 40) then parse_subexp env fuel s1
      else
        let olds := env.expand_alias s1
        (try_wordexp env fuel olds [] 0).bind fun r =>
          parse_scmd_loop env fuel olds r.1 r.2 [] := rfl

theorem parse_scmd_loop_succ (env : ParserEnv) (fuel : Nat) (olds : CStr) (s : CStr)
    (we : List CStr) (redirs : List REDIR) :
    parse_scmd_loop env (fuel + 1) olds s we redirs =
      if s = [] ∨ s.head?.any (fun c => decide (c ∈ SCMD_END)) then
        PRes.ok (SCMD.mk CT_END we.length (some we) none redirs
          (olds.take (olds.length - s.length)), s)
      else if s.head?.any (fun c => c = Char.ofNat 60 || c = Char.ofNat 62 || is_digit_char c) then
        (parse_redir env s).bind fun r =>
        (try_wordexp env fuel r.2 we WRDE_APPEND).bind fun r1 =>
          parse_scmd_loop env fuel olds r1.1 r1.2 (redirs ++ [r.1])
      else PRes.assert_failed "parse_scmd" := rfl

theorem try_wordexp_succ (env : ParserEnv) (fuel : Nat) (s : CStr) (p : List CStr)
    (flags : Nat) :
    try_wordexp env (fuel + 1) s p flags =
      (find_end_of_command_body env fuel s s).bind fun eoc =>
        let p0 := if flags &&& (WRDE_APPEND ||| WRDE_REUSE) = 0 then [] else p
        let r := env.wordexp (s.take (s.length - eoc.length)) p0 flags
        if r.1 = 0 then PRes.ok (eoc, r.2)
        else
          match wordexp_message r.1 with
          | some m => PRes.err [m]
          | none => PRes.assert_failed "try_wordexp" := rfl

theorem find_end_of_command_body_succ (env : ParserEnv) (fuel : Nat) (olds : CStr)
    (s0 : CStr) :
    find_end_of_command_body env (fuel + 1) olds s0 =
      let s := s0.drop (strcspn s0 BODY_STOP)
      match s with
      | [] => PRes.ok s
      | c :: s1 =>
        if c = Char.ofNat 36 then
          (if s1.head? = some (Char.ofNat 40) then
            (parse_commands env fuel (s1.drop 1)).bind fun r =>
              if r.2.head? ≠ some (Char.ofNat 41) then PRes.err ["invalid syntax: missing ')'"]
              else find_end_of_command_body env fuel olds (r.2.drop 1)
          else find_end_of_command_body env fuel olds s1)
        else if c = Char.ofNat 34 then
          (find_end_of_dquote env fuel s1).bind fun s2 =>
            find_end_of_command_body env fuel olds s2
        else if c = Char.ofNat 39 then
          match strchr s1 (Char.ofNat 39) with
          | none => PRes.err ["unclosed string"]
          | some k => find_end_of_command_body env fuel olds (s1.drop (k + 1))
        else if c = Char.ofNat 92 then
          match s1 with
          | [] => PRes.err ["invalid use of '\\'"]
          | _ :: s2 => find_end_of_command_body env fuel olds s2
        else if c = Char.ofNat 10 then PRes.err ["invalid newline in command"]
        else if c = Char.ofNat 60 ∨ c = Char.ofNat 62 then PRes.ok (find_start_of_number olds s)
        else PRes.ok s := rfl

theorem find_end_of_dquote_succ (env : ParserEnv) (fuel : Nat) (s0 : CStr) :
    find_end_of_dquote env (fuel + 1) s0 =
      let s := s0.drop (strcspn s0 DQUOTE_STOP)
      match s with
      | [] => PRes.err ["unclosed string"]
      | c :: s1 =>
        if c = Char.ofNat 36 then
          (if s1.head? = some (Char.ofNat 40) then
            (parse_commands env fuel (s1.drop 1)).bind fun r =>
              if r.2.head? ≠ some (Char.ofNat 41) then PRes.err ["invalid syntax: missing ')'"]
              else find_end_of_dquote env fuel (r.2.drop 1)
          else find_end_of_dquote env fuel s1)
        else if c = Char.ofNat 92 then
          match s1 with
          | [] => PRes.err ["invalid use of '\\'"]
          | _ :: s2 => find_end_of_dquote env fuel s2
        else if c = Char.ofNat 34 then PRes.ok s1
        else PRes.assert_failed "find_end_of_dquote" := rfl

theorem parse_subexp_succ (env : ParserEnv) (fuel : Nat) (olds : CStr) :
    parse_subexp env (fuel + 1) olds =
      match olds with
      | [] => PRes.assert_failed "parse_subexp"
      | c :: s =>
        if c ≠ Char.ofNat 40 then PRes.assert_failed "parse_subexp"
        else
          (parse_commands env fuel s).bind fun r =>
            if r.2.head? ≠ some (Char.ofNat 41) then PRes.err ["invalid syntax: missing ')'"]
            else parse_subexp_loop env fuel olds (r.2.drop 1) r.1 [] := rfl

theorem parse_subexp_loop_succ (env : ParserEnv) (fuel : Nat) (olds : CStr) (s0 : CStr)
    (innerscmds : List SCMD) (redirs : List REDIR) :
    parse_subexp_loop env (fuel + 1) olds s0 innerscmds redirs =
      let s := s0.drop (env.skipwhites s0)
      if s.head?.any (fun c => c = Char.ofNat 60 || c = Char.ofNat 62 || is_digit_char c) then
        (parse_redir env s).bind fun r =>
          parse_subexp_loop env fuel olds r.2 innerscmds (redirs ++ [r.1])
      else
        PRes.ok (SCMD.mk CT_END innerscmds.length none (some innerscmds) redirs
          (olds.take (olds.length - s.length)), s) := rfl

/-! ## parser.c: exactly one of `c_argv` and `c_subcmds` (C16) -/

theorem sound_bind {α β : Type} (Q : α → Prop) (Q1 : β → Prop) (r : PRes α) (f : α → PRes β)
    (h : PRes.sound Q r) (hf : ∀ a, Q a → PRes.sound Q1 (f a)) : PRes.sound Q1 (r.bind f) := by
  cases r with
  | ok a => exact hf a h
  | err m => exact trivial
  | assert_failed g => exact h
  | undefined => exact trivial
  | timeout => exact trivial

theorem sound_of_ne {α : Type} (r : PRes α) (h : r ≠ PRes.assert_failed "check_parse_result") :
    PRes.sound (fun _ => True) r := by
  cases r with
  | ok a => exact trivial
  | err m => exact trivial
  | assert_failed g =>
    intro e
    exact h (by rw [e])
  | undefined => exact trivial
  | timeout => exact trivial

theorem get_token_sound (s : CStr) : PRes.sound (fun _ => True) (get_token s) := by
  apply sound_of_ne
  intro h
  unfold get_token at h
  repeat' first | split at h | dsimp only at h
  all_goals first | cases h | (injection h with h; revert h; decide)

theorem parse_redir_fd_sound (s : CStr) : PRes.sound (fun _ => True) (parse_redir_fd s) := by
  apply sound_of_ne
  intro h
  unfold parse_redir_fd at h
  repeat' first | split at h | dsimp only at h
  all_goals first | cases h | (injection h with h; revert h; decide)

theorem parse_redir_op_sound (fd : Int) (s : CStr) :
    PRes.sound (fun _ => True) (parse_redir_op fd s) := by
  apply sound_of_ne
  intro h
  unfold parse_redir_op at h
  repeat' first | split at h | dsimp only at h
  all_goals cases h

theorem parse_redir_fdcopy_sound (file : CStr) :
    PRes.sound (fun _ => True) (parse_redir_fdcopy file) := by
  apply sound_of_ne
  intro h
  unfold parse_redir_fdcopy at h
  repeat' first | split at h | dsimp only at h
  all_goals cases h

theorem parse_redir_sound (env : ParserEnv) (s : CStr) :
    PRes.sound (fun _ => True) (parse_redir env s) := by
  unfold parse_redir
  apply sound_bind _ _ _ _ (parse_redir_fd_sound s)
  intro a _
  apply sound_bind _ _ _ _ (parse_redir_op_sound _ _)
  intro b _
  simp only
  split
  · exact trivial
  · have hg := get_token_sound (List.dropWhile (fun c => decide (c = Char.ofNat 32)) b.2.2.2.2)
    split
    · exact trivial
    · rename_i g hgt
      rw [hgt] at hg
      exact hg
    · exact trivial
    · exact trivial
    · split
      · simp only [PRes.sound]; decide
      · apply sound_bind (fun _ => True)
        · split
          · exact parse_redir_fdcopy_sound _
          · exact trivial
        · intro _ _
          exact trivial

theorem one_of_of_deep (c : SCMD) (h : c.one_of_deep) : c.one_of := by
  cases c with
  | mk t n a s r nm =>
    unfold SCMD.one_of_deep at h
    exact h.1

theorem all_one_of_deep_mem :
    ∀ l : List SCMD, SCMD.all_one_of_deep l → ∀ c ∈ l, c.one_of_deep := by
  intro l
  induction l with
  | nil => intro _ c hc; cases hc
  | cons a l ih =>
    intro h c hc
    rw [SCMD.all_one_of_deep] at h
    rcases List.mem_cons.mp hc with e | e
    · rw [e]; exact h.1
    · exact ih h.2 c e

theorem all_one_of_deep_of_mem :
    ∀ l : List SCMD, (∀ c ∈ l, c.one_of_deep) → SCMD.all_one_of_deep l := by
  intro l
  induction l with
  | nil => intro _; rw [SCMD.all_one_of_deep]; exact trivial
  | cons a l ih =>
    intro h
    rw [SCMD.all_one_of_deep]
    exact ⟨h a (List.mem_cons_self _ _), ih (fun c hc => h c (List.mem_cons_of_mem _ hc))⟩

theorem set_c_type_one_of_deep (c : SCMD) (t : c_type_T) (h : c.one_of_deep) :
    (c.set_c_type t).one_of_deep := by
  cases c with
  | mk t0 n a s r nm =>
    rw [SCMD.set_c_type]
    unfold SCMD.one_of_deep at h ⊢
    exact h

theorem set_last_c_type_one_of_deep (l : List SCMD) (t : c_type_T)
    (h : SCMD.all_one_of_deep l) : SCMD.all_one_of_deep (set_last_c_type l t) := by
  unfold set_last_c_type
  have hm := all_one_of_deep_mem l h
  split
  · exact h
  · rename_i c hc
    apply all_one_of_deep_of_mem
    intro x hx
    rw [List.mem_append] at hx
    rcases hx with hx | hx
    · exact hm x (List.mem_of_mem_dropLast hx)
    · simp only [List.mem_singleton] at hx
      rw [hx]
      exact set_c_type_one_of_deep c t (hm c (List.mem_of_getLast?_eq_some hc))

theorem check_body_no_assert (scmds : List SCMD) (count i : Nat)
    (h : ∀ c ∈ scmds, c.one_of) :
    check_parse_result_body scmds count i ≠ some assert_failed := by
  intro hb
  unfold check_parse_result_body check_prev_piped check_prev_and_or at hb
  split at hb
  · cases hb
  · rename_i cmd hcmd
    have hone : ¬ (cmd.c_argv.isSome = cmd.c_subcmds.isSome) :=
      h cmd (List.mem_iff_getElem?.mpr ⟨_, hcmd⟩)
    rw [if_neg hone] at hb
    repeat' split at hb
    all_goals cases hb

theorem check_loop_no_assert (scmds : List SCMD) (count : Nat) (h : ∀ c ∈ scmds, c.one_of) :
    ∀ k i, check_parse_result_loop scmds count k i ≠ assert_failed := by
  intro k
  induction k with
  | zero => intro i; rw [check_parse_result_loop]; decide
  | succ k ih =>
    intro i
    rw [check_parse_result_loop]
    split
    · rename_i r hr
      intro e
      rw [e] at hr
      exact check_body_no_assert scmds count i h hr
    · exact ih _

theorem check_no_assert (scmds : List SCMD) (h : ∀ c ∈ scmds, c.one_of) (hne : scmds ≠ []) :
    check_parse_result scmds ≠ assert_failed := by
  unfold check_parse_result
  rw [if_neg (fun e => hne (List.length_eq_zero.mp e))]
  exact check_loop_no_assert scmds _ h _ _

theorem check_to_PRes_sound {α : Type} (Q : α → Prop) (scmds : List SCMD) (a : α)
    (h : SCMD.all_one_of_deep scmds) (hne : scmds ≠ []) (hq : Q a) :
    PRes.sound Q (check_to_PRes (check_parse_result scmds) a) := by
  have hc := check_no_assert scmds
    (fun c hc => one_of_of_deep c (all_one_of_deep_mem scmds h c hc)) hne
  unfold check_to_PRes
  split
  · exact hq
  · exact trivial
  · rename_i e; exact absurd e hc
  · exact trivial

theorem parser_sound_zero (env : ParserEnv) : parser_sound_at env 0 := by
  unfold parser_sound_at
  refine ⟨?_, ?_, ?_, ?_, ?_, ?_, ?_, ?_, ?_⟩
  · intro s; rw [parse_commands]; exact trivial
  · intro a b _ _; rw [parse_commands_loop]; exact trivial
  · intro s; rw [parse_scmd]; exact trivial
  · intro a b c d; rw [parse_scmd_loop]; exact trivial
  · intro a b c; rw [try_wordexp]; exact trivial
  · intro a b; rw [find_end_of_command_body]; exact trivial
  · intro s; rw [find_end_of_dquote]; exact trivial
  · intro s; rw [parse_subexp]; exact trivial
  · intro a b c d _; rw [parse_subexp_loop]; exact trivial

theorem parser_sound_succ (env : ParserEnv) (fuel : Nat) (ih : parser_sound_at env fuel) :
    parser_sound_at env (fuel + 1) := by
  obtain ⟨ih1, ih2, ih3, ih4, ih5, ih6, ih7, ih8, ih9⟩ := ih
  have single : ∀ c : SCMD, c.one_of_deep → SCMD.all_one_of_deep [c] := by
    intro c hc
    apply all_one_of_deep_of_mem
    intro x hx
    simp only [List.mem_singleton] at hx
    rw [hx]; exact hc
  refine ⟨?_, ?_, ?_, ?_, ?_, ?_, ?_, ?_, ?_⟩
  · intro s
    rw [parse_commands_succ]
    apply sound_bind _ _ _ _ (ih3 s)
    intro r hr
    exact ih2 _ _ (single _ hr) (by simp)
  · intro scmds ss hall hne
    rw [parse_commands_loop_succ]
    split
    · exact check_to_PRes_sound _ scmds _ hall hne ⟨hall, hne⟩
    · split
      · exact check_to_PRes_sound _ scmds _ hall hne ⟨hall, hne⟩
      · split
        · exact check_to_PRes_sound _ scmds _ hall hne ⟨hall, hne⟩
        · split
          · apply sound_bind _ _ _ _ (ih3 _)
            intro r hr
            apply ih2
            · apply all_one_of_deep_of_mem
              intro x hx
              rw [List.mem_append] at hx
              rcases hx with hx | hx
              · exact all_one_of_deep_mem _ (set_last_c_type_one_of_deep scmds _ hall) x hx
              · simp only [List.mem_singleton] at hx
                rw [hx]; exact hr
            · simp
          · exact trivial
  · intro s
    rw [parse_scmd_succ]
    simp only
    split
    · exact ih8 _
    · apply sound_bind _ _ _ _ (ih5 _ _ _)
      intro r _
      exact ih4 _ _ _ _
  · intro olds s we redirs
    rw [parse_scmd_loop_succ]
    split
    · simp only [PRes.sound]
      unfold SCMD.one_of_deep
      exact ⟨by simp, trivial⟩
    · split
      · apply sound_bind _ _ _ _ (parse_redir_sound env s)
        intro r _
        apply sound_bind _ _ _ _ (ih5 _ _ _)
        intro r1 _
        exact ih4 _ _ _ _
      · simp only [PRes.sound]; decide
  · intro s p flags
    rw [try_wordexp_succ]
    apply sound_bind _ _ _ _ (ih6 _ _)
    intro eoc _
    apply sound_of_ne
    intro h
    repeat' first | split at h | dsimp only at h
    all_goals first | cases h | (injection h with h; revert h; decide)
  · intro olds s0
    rw [find_end_of_command_body_succ]
    simp only
    split
    · exact trivial
    · split
      · split
        · apply sound_bind _ _ _ _ (ih1 _)
          intro r _
          split
          · exact trivial
          · exact ih6 _ _
        · exact ih6 _ _
      · split
        · apply sound_bind _ _ _ _ (ih7 _)
          intro r _
          exact ih6 _ _
        · split
          · split
            · exact trivial
            · exact ih6 _ _
          · split
            · split
              · exact trivial
              · exact ih6 _ _
            · split
              · exact trivial
              · split
                · exact trivial
                · exact trivial
  · intro s0
    rw [find_end_of_dquote_succ]
    simp only
    split
    · exact trivial
    · split
      · split
        · apply sound_bind _ _ _ _ (ih1 _)
          intro r _
          split
          · exact trivial
          · exact ih7 _
        · exact ih7 _
      · split
        · split
          · exact trivial
          · exact ih7 _
        · split
          · exact trivial
          · simp only [PRes.sound]; decide
  · intro s
    rw [parse_subexp_succ]
    split
    · simp only [PRes.sound]; decide
    · split
      · simp only [PRes.sound]; decide
      · apply sound_bind _ _ _ _ (ih1 _)
        intro r hr
        split
        · exact trivial
        · exact ih9 _ _ _ _ hr.1
  · intro olds s0 inner redirs hin
    rw [parse_subexp_loop_succ]
    simp only
    split
    · apply sound_bind _ _ _ _ (parse_redir_sound env _)
      intro r _
      exact ih9 _ _ _ _ hin
    · simp only [PRes.sound]
      unfold SCMD.one_of_deep
      exact ⟨by simp, hin⟩

theorem parser_sound (env : ParserEnv) : ∀ fuel, parser_sound_at env fuel
  | 0 => parser_sound_zero env
  | fuel + 1 => parser_sound_succ env fuel (parser_sound env fuel)

theorem parse_scmd_loop_sets_argv (env : ParserEnv) :
    ∀ (fuel : Nat) (olds s : CStr) (we : List CStr) (redirs : List REDIR) (c : SCMD)
      (rest : CStr), parse_scmd_loop env fuel olds s we redirs = PRes.ok (c, rest) →
      c.c_argv.isSome = true ∧ c.c_subcmds = none := by
  intro fuel
  induction fuel with
  | zero => intro olds s we redirs c rest h; rw [parse_scmd_loop] at h; cases h
  | succ fuel ih =>
    intro olds s we redirs c rest h
    rw [parse_scmd_loop_succ] at h
    split at h
    · injection h with h
      injection h with h1 h2
      rw [← h1]
      exact ⟨rfl, rfl⟩
    · split at h
      · cases hr : parse_redir env s with
        | ok r =>
          rw [hr] at h
          simp only [PRes.bind] at h
          cases hw : try_wordexp env fuel r.2 we WRDE_APPEND with
          | ok r1 =>
            rw [hw] at h
            exact ih _ _ _ _ _ _ h
          | err m => rw [hw] at h; cases h
          | assert_failed g => rw [hw] at h; cases h
          | undefined => rw [hw] at h; cases h
          | timeout => rw [hw] at h; cases h
        | err m => rw [hr] at h; cases h
        | assert_failed g => rw [hr] at h; cases h
        | undefined => rw [hr] at h; cases h
        | timeout => rw [hr] at h; cases h
      · cases h

theorem parse_subexp_loop_sets_subcmds (env : ParserEnv) :
    ∀ (fuel : Nat) (olds s : CStr) (inner : List SCMD) (redirs : List REDIR) (c : SCMD)
      (rest : CStr), parse_subexp_loop env fuel olds s inner redirs = PRes.ok (c, rest) →
      c.c_argv = none ∧ c.c_subcmds.isSome = true := by
  intro fuel
  induction fuel with
  | zero => intro olds s inner redirs c rest h; rw [parse_subexp_loop] at h; cases h
  | succ fuel ih =>
    intro olds s inner redirs c rest h
    rw [parse_subexp_loop_succ] at h
    simp only at h
    split at h
    · cases hr : parse_redir env (List.drop (env.skipwhites s) s) with
      | ok r =>
        rw [hr] at h
        exact ih _ _ _ _ _ _ h
      | err m => rw [hr] at h; cases h
      | assert_failed g => rw [hr] at h; cases h
      | undefined => rw [hr] at h; cases h
      | timeout => rw [hr] at h; cases h
    · injection h with h
      injection h with h1 h2
      rw [← h1]
      exact ⟨rfl, rfl⟩

/-- C16. For every input on which `parse_line` succeeds, every command of the result, at every
nesting depth, has exactly one of `c_argv` and `c_subcmds` set, and the assertion of
`check_parse_result` fails on no input; the token loop of `parse_scmd` sets `c_argv` and
clears `c_subcmds`, and the loop of `parse_subexp` does the opposite. This holds for every
behaviour of `skipwhites`, `expand_alias`, `wordexp` and `expand_tilde` and for every bound
on the recursion. -/
theorem parse_line_one_of (env : ParserEnv) (fuel : Nat) (line : CStr) :
    (∀ scmds, parse_line env fuel line = PRes.ok scmds → SCMD.all_one_of_deep scmds) ∧
    parse_line env fuel line ≠ PRes.assert_failed "check_parse_result" ∧
    (∀ olds s we redirs c rest, parse_scmd_loop env fuel olds s we redirs = PRes.ok (c, rest) →
      c.c_argv.isSome = true ∧ c.c_subcmds = none) ∧
    (∀ olds s inner redirs c rest,
      parse_subexp_loop env fuel olds s inner redirs = PRes.ok (c, rest) →
      c.c_argv = none ∧ c.c_subcmds.isSome = true) := by
  have hs : PRes.sound (fun scmds => SCMD.all_one_of_deep scmds) (parse_line env fuel line) := by
    unfold parse_line
    apply sound_bind _ _ _ _ ((parser_sound env fuel).1 line)
    intro r hr
    split
    · exact trivial
    · exact hr.1
  refine ⟨?_, ?_, parse_scmd_loop_sets_argv env fuel, parse_subexp_loop_sets_subcmds env fuel⟩
  · intro scmds h
    rw [h] at hs
    exact hs
  · intro h
    rw [h] at hs
    exact hs rfl

/-- Witness of C16 on the line `(a;b)|c`: a subshell command with two inner commands, and a
simple command. -/
theorem parse_line_one_of_witness :
    SCMD.all_one_of_deep
      [SCMD.mk CT_PIPED 2 none
        (some [SCMD.mk CT_END 1 (some ["a".toList]) none [] "a".toList,
          SCMD.mk CT_END 1 (some ["b".toList]) none [] "b".toList]) [] "(a;b)".toList,
        SCMD.mk CT_END 1 (some ["c".toList]) none [] "c".toList] :=
  (parse_line_one_of plain_env 10 "(a;b)|c".toList).1 _ rfl

end ParserProps

/-! ## parser.c: facts on texts and outcomes used for whole lines -/

section ParserConnectors

open c_type_T check_T

theorem strcspn_plain (reject : CStr) (rest : CStr)
    (hrest : rest = [] ∨ ∃ c t, rest = c :: t ∧ c ∈ reject) :
    ∀ b : CStr, (∀ c ∈ b, c ∉ reject) → strcspn (b ++ rest) reject = b.length := by
  intro b
  induction b with
  | nil =>
    intro _
    rcases hrest with e | ⟨c, t, e, hc⟩
    · rw [e]; rfl
    · rw [e]; simp [strcspn, hc]
  | cons a b ih =>
    intro h
    have ha : a ∉ reject := h a (List.mem_cons_self _ _)
    rw [List.cons_append, strcspn, if_neg ha, ih (fun c hc => h c (List.mem_cons_of_mem _ hc)),
      List.length_cons]

theorem bind_ok {α β : Type} (r : PRes α) (f : α → PRes β) (b : β)
    (h : r.bind f = PRes.ok b) : ∃ a, r = PRes.ok a ∧ f a = PRes.ok b := by
  cases r with
  | ok a => exact ⟨a, rfl, h⟩
  | err m => cases h
  | assert_failed g => cases h
  | undefined => cases h
  | timeout => cases h

theorem set_last_c_type_append (scmds : List SCMD) (last : SCMD) (t : c_type_T) :
    set_last_c_type (scmds ++ [last]) t = scmds ++ [last.set_c_type t] := by
  unfold set_last_c_type
  simp

theorem set_c_type_c_type (c : SCMD) (t : c_type_T) : (c.set_c_type t).c_type = t := by
  cases c
  rfl

theorem plain_env_plain : plain_env.plain := by
  constructor
  · intro s c hc
    left
    have hsub : s.take (plain_env.skipwhites s) = s.takeWhile (fun c => c = Char.ofNat 32) :=
      (List.prefix_iff_eq_take.mp (List.takeWhile_prefix _)).symm
    rw [hsub] at hc
    have := List.mem_takeWhile_imp hc
    simpa using this
  · intro s
    rfl

end ParserConnectors

/-! ## parser.c: characters that the scans pass over -/

section ParserUnclosed

open c_type_T check_T

theorem find_end_of_dquote_skip (env : ParserEnv) (fuel : Nat) (c : Char) (r : CStr)
    (hc : c ∉ DQUOTE_STOP) :
    find_end_of_dquote env (fuel + 1) (c :: r) = find_end_of_dquote env (fuel + 1) r := by
  rw [find_end_of_dquote_succ, find_end_of_dquote_succ]
  simp only [strcspn, if_neg hc, List.drop_succ_cons]

theorem find_end_of_command_body_skip (env : ParserEnv) (fuel : Nat) (olds : CStr) (c : Char)
    (r : CStr) (hc : c ∉ BODY_STOP) :
    find_end_of_command_body env (fuel + 1) olds (c :: r) =
      find_end_of_command_body env (fuel + 1) olds r := by
  rw [find_end_of_command_body_succ, find_end_of_command_body_succ]
  simp only [strcspn, if_neg hc, List.drop_succ_cons]

theorem strchr_append (c : Char) (rest : CStr) :
    ∀ q : CStr, c ∉ q → strchr (q ++ c :: rest) c = some q.length := by
  intro q
  induction q with
  | nil => intro _; simp [strchr]
  | cons a q ih =>
    intro h
    have ha : a ≠ c := fun e => h (by rw [e]; exact List.mem_cons_self _ _)
    have hq : c ∉ q := fun e => h (List.mem_cons_of_mem _ e)
    simp [strchr, ha, ih hq]

theorem strchr_none (c : Char) : ∀ q : CStr, c ∉ q → strchr q c = none := by
  intro q
  induction q with
  | nil => intro _; rfl
  | cons a q ih =>
    intro h
    have ha : a ≠ c := fun e => h (by rw [e]; exact List.mem_cons_self _ _)
    have hq : c ∉ q := fun e => h (List.mem_cons_of_mem _ e)
    simp [strchr, ha, ih hq]

theorem wordexp_message_some : ∀ code : Nat, code ≤ 5 → code ≠ 0 →
    ∃ m, wordexp_message code = some m := by
  intro code h1 h0
  interval_cases code
  · exact absurd rfl h0
  all_goals exact ⟨_, rfl⟩

end ParserUnclosed

/-! ## parser.c: redirections (C21, C22, C23) -/

section ParserRedir

open c_type_T check_T

theorem takeWhile_digit_run (ds : CStr) (c : Char) (t : CStr) (hds : is_digit_run ds)
    (hc : is_digit_char c = false) :
    (ds ++ c :: t).takeWhile is_digit_char = ds := by
  induction ds with
  | nil => simp [List.takeWhile, hc]
  | cons a ds ih =>
    have ha : is_digit_char a = true := hds a (List.mem_cons_self _ _)
    have hr : is_digit_run ds := fun x hx => hds x (List.mem_cons_of_mem _ hx)
    rw [List.cons_append, List.takeWhile_cons, ha, if_pos rfl, ih hr]

theorem long_to_int_small (v : Int) (h0 : 0 ≤ v) (h1 : v ≤ INT_MAX) : long_to_int v = v := by
  unfold long_to_int
  unfold INT_MAX at h1
  have hm : v % 4294967296 = v := Int.emod_eq_of_lt h0 (by omega)
  simp only [hm]
  rw [if_neg (by unfold INT_MAX; omega)]

theorem parse_redir_fd_digits (ds : CStr) (c : Char) (t : CStr) (hds : is_digit_run ds)
    (hc : is_digit_char c = false) (hv : (digits_value ds : Int) ≤ INT_MAX) :
    parse_redir_fd (ds ++ c :: t) =
      PRes.ok (if ds = [] then -1 else (digits_value ds : Int), c :: t) := by
  cases ds with
  | nil =>
    simp [parse_redir_fd, hc]
  | cons a ds =>
    have ha : is_digit_char a = true := hds a (List.mem_cons_self _ _)
    have htw := takeWhile_digit_run (a :: ds) c t hds hc
    have hlong : ¬ ((digits_value (a :: ds) : Int) > LONG_MAX) := by
      unfold LONG_MAX; unfold INT_MAX at hv; omega
    have hsmall := long_to_int_small (digits_value (a :: ds)) (Int.ofNat_nonneg _) hv
    unfold parse_redir_fd
    simp only [List.cons_append, List.head?_cons, ha, if_true]
    rw [List.cons_append] at htw
    simp only [htw, if_neg hlong, hsmall]
    rw [if_neg (by omega)]
    simp

theorem head_blanks_word (blanks w rest : CStr) (hb : ∀ c ∈ blanks, c = Char.ofNat 32)
    (hw : target_word w) (c : Char) (hc : c ∈ TOKEN_END) (hc2 : c ≠ Char.ofNat 32) :
    (blanks ++ (w ++ rest)).head? ≠ some c := by
  cases blanks with
  | nil =>
    obtain ⟨hne, hall⟩ := hw
    cases w with
    | nil => exact absurd rfl hne
    | cons a w1 =>
      simp only [List.nil_append, List.cons_append, List.head?_cons, ne_eq, Option.some.injEq]
      intro e
      exact hall a (List.mem_cons_self _ _) (e ▸ hc)
  | cons b bs =>
    simp only [List.cons_append, List.head?_cons, ne_eq, Option.some.injEq]
    intro e
    exact hc2 (e ▸ hb b (List.mem_cons_self _ _))

theorem dropWhile_blanks_word (blanks w rest : CStr) (hb : ∀ c ∈ blanks, c = Char.ofNat 32)
    (hw : target_word w) :
    (blanks ++ (w ++ rest)).dropWhile (fun c => decide (c = Char.ofNat 32)) = w ++ rest := by
  induction blanks with
  | nil =>
    obtain ⟨hne, hall⟩ := hw
    cases w with
    | nil => exact absurd rfl hne
    | cons a w1 =>
      have ha : a ≠ Char.ofNat 32 := by
        intro e
        exact hall a (List.mem_cons_self _ _) (e ▸ by decide)
      simp [List.dropWhile, ha]
  | cons b bs ih =>
    have hb1 : b = Char.ofNat 32 := hb b (List.mem_cons_self _ _)
    rw [List.cons_append, List.dropWhile_cons, if_pos (by simp [hb1])]
    exact ih (fun c hc => hb c (List.mem_cons_of_mem _ hc))

theorem get_token_word (w rest : CStr) (hw : target_word w)
    (hrest : rest = [] ∨ ∃ c t, rest = c :: t ∧ c ∈ TOKEN_END) :
    get_token (w ++ rest) = PRes.ok w := by
  obtain ⟨hne, hall⟩ := hw
  have hlen := strcspn_plain TOKEN_END rest hrest w hall
  cases w with
  | nil => exact absurd rfl hne
  | cons a w1 =>
    have ha : a ∉ TOKEN_END := hall a (List.mem_cons_self _ _)
    have h1 : a ≠ Char.ofNat 32 := fun e => ha (e ▸ by decide)
    have h2 : a ≠ Char.ofNat 34 := fun e => ha (e ▸ by decide)
    have h3 : a ≠ Char.ofNat 39 := fun e => ha (e ▸ by decide)
    rw [List.cons_append] at hlen ⊢
    unfold get_token
    simp only [if_neg h1, h2, h3, or_self, if_false, hlen]
    rw [if_neg (by simp)]
    congr 1
    exact List.take_left' rfl

theorem parse_redir_op_word (fd : Int) (op x : CStr) (hop : op ∈ REDIR_OPS)
    (h1 : x.head? ≠ some (Char.ofNat 60)) (h2 : x.head? ≠ some (Char.ofNat 62))
    (h3 : x.head? ≠ some (Char.ofNat 38)) :
    ∃ flags cp, parse_redir_op fd (op ++ x) =
      PRes.ok (if fd < 0 then redir_default_fd op else fd, flags, cp, false, x) := by
  simp only [REDIR_OPS, List.mem_cons, List.mem_singleton, List.not_mem_nil, or_false] at hop
  rcases hop with e | e | e | e | e | e <;> subst e <;>
    simp [parse_redir_op, redir_default_fd, h1, h2, h3]

theorem redir_op_head (op : CStr) (hop : op ∈ REDIR_OPS) :
    ∃ c op1, op = c :: op1 ∧ is_digit_char c = false := by
  simp only [REDIR_OPS, List.mem_cons, List.mem_singleton, List.not_mem_nil, or_false] at hop
  rcases hop with e | e | e | e | e | e <;> subst e <;> exact ⟨_, _, rfl, by decide⟩

theorem parse_redir_fdcopy_word (w : CStr) (hw : w ≠ []) :
    ∃ f, parse_redir_fdcopy w = PRes.ok f := by
  unfold parse_redir_fdcopy
  simp only
  split
  · rw [if_neg (by simpa using hw)]
    exact ⟨_, rfl⟩
  · exact ⟨_, rfl⟩

theorem parse_redir_word (env : ParserEnv) (ds op blanks w rest : CStr)
    (hds : is_digit_run ds) (hv : (digits_value ds : Int) ≤ INT_MAX)
    (hop : op ∈ REDIR_OPS) (hb : ∀ c ∈ blanks, c = Char.ofNat 32) (hw : target_word w)
    (hrest : rest = [] ∨ ∃ c t, rest = c :: t ∧ c ∈ TOKEN_END) :
    ∃ r, parse_redir env (ds ++ (op ++ (blanks ++ (w ++ rest)))) = PRes.ok (r, rest) ∧
      r.rd_fd = redir_written_fd ds op ∧ r.rd_file.isSome = true := by
  obtain ⟨c, op1, hc, hcd⟩ := redir_op_head op hop
  have hfd := parse_redir_fd_digits ds c (op1 ++ (blanks ++ (w ++ rest))) hds hcd hv
  rw [← List.cons_append, ← hc] at hfd
  obtain ⟨flags, cp, hopr⟩ := parse_redir_op_word
    (if ds = [] then -1 else (digits_value ds : Int)) op (blanks ++ (w ++ rest)) hop
    (head_blanks_word blanks w rest hb hw _ (by decide) (by decide))
    (head_blanks_word blanks w rest hb hw _ (by decide) (by decide))
    (head_blanks_word blanks w rest hb hw _ (by decide) (by decide))
  have hdw := dropWhile_blanks_word blanks w rest hb hw
  have htok := get_token_word w rest hw hrest
  obtain ⟨hne, hall⟩ := hw
  have hq1 : w.head? ≠ some (Char.ofNat 34) := by
    intro e
    exact hall _ (List.mem_of_mem_head? e) (by decide)
  have hq2 : w.head? ≠ some (Char.ofNat 39) := by
    intro e
    exact hall _ (List.mem_of_mem_head? e) (by decide)
  have hfdv : (if (if ds = [] then (-1 : Int) else (digits_value ds : Int)) < 0
      then redir_default_fd op else (if ds = [] then (-1 : Int) else (digits_value ds : Int))) =
      redir_written_fd ds op := by
    unfold redir_written_fd
    by_cases hd : ds = []
    · simp [hd]
    · simp only [hd, if_false]
      rw [if_neg (by omega)]
  rw [hfdv] at hopr
  unfold parse_redir
  rw [hfd]
  simp only [PRes.bind, hopr]
  simp only [hdw, htok, hq1, hq2, or_self, false_and, if_false, Bool.false_eq_true]
  cases cp with
  | false =>
    simp only [Bool.false_eq_true, if_false, PRes.bind]
    rw [List.drop_left]
    exact ⟨_, rfl, rfl, rfl⟩
  | true =>
    obtain ⟨f, hf⟩ := parse_redir_fdcopy_word w hne
    simp only [if_true, hf, PRes.bind]
    rw [List.drop_left]
    exact ⟨_, rfl, rfl, rfl⟩

theorem parse_redir_clobber_rejected :
    target_word "f".toList ∧
      (∀ env : ParserEnv, parse_redir env ">|f".toList =
        PRes.err ["invalid redirection (no file specified)"]) ∧
      is_digit_run "99999999999999999999".toList ∧
      (∀ env : ParserEnv, parse_redir env "99999999999999999999>f".toList =
        PRes.err ["invalid file descriptor"]) := by
  refine ⟨⟨by decide, by decide⟩, fun _ => rfl, by unfold is_digit_run; decide, fun _ => ?_⟩
  rfl

/-- C21. `parse_redir` accepts the operators `<`, `>`, `>>`, `<>`, `<&` and `>&`, optionally
preceded by a digit run whose number is at most `INT_MAX`, and followed by optional spaces and
a non-empty target word free of metacharacters (after which the text ends or a metacharacter
stands): it succeeds, the record holds the number written (0 for `<`, `<>`, `<&` and 1 for `>`,
`>>`, `>&` without digits) and a file name, and the text after the word remains. The same
holds for `>&-` and `<&-`, which are read as `>&` and `<&` with the target `-`. -/
theorem parse_redir_accepts (env : ParserEnv) (ds op blanks w rest : CStr)
    (hds : is_digit_run ds) (hv : (digits_value ds : Int) ≤ INT_MAX)
    (hop : op ∈ REDIR_OPS) (hb : ∀ c ∈ blanks, c = Char.ofNat 32) (hw : target_word w)
    (hrest : rest = [] ∨ ∃ c t, rest = c :: t ∧ c ∈ TOKEN_END) :
    (∃ r, parse_redir env (ds ++ (op ++ (blanks ++ (w ++ rest)))) = PRes.ok (r, rest) ∧
      r.rd_fd = redir_written_fd ds op ∧ r.rd_file.isSome = true) ∧
    (∀ cl ∈ REDIR_CLOSE_OPS, ∃ r, parse_redir env (ds ++ (cl ++ rest)) = PRes.ok (r, rest) ∧
      r.rd_fd = redir_written_fd ds cl ∧ r.rd_file.isSome = true) := by
  refine ⟨parse_redir_word env ds op blanks w rest hds hv hop hb hw hrest, ?_⟩
  intro cl hcl
  have hdash : target_word "-".toList := ⟨by decide, by decide⟩
  simp only [REDIR_CLOSE_OPS, List.mem_cons, List.mem_singleton, List.not_mem_nil,
    or_false] at hcl
  rcases hcl with e | e <;> subst e
  · exact parse_redir_word env ds ">&".toList [] "-".toList rest hds hv (by decide)
      (fun _ h => absurd h (List.not_mem_nil _)) hdash hrest
  · exact parse_redir_word env ds "<&".toList [] "-".toList rest hds hv (by decide)
      (fun _ h => absurd h (List.not_mem_nil _)) hdash hrest

theorem parse_redir_accepts_witness :
    (∃ r, parse_redir plain_env ("2".toList ++ (">>".toList ++ (" ".toList ++
        ("f".toList ++ ";".toList)))) = PRes.ok (r, ";".toList) ∧
      r.rd_fd = redir_written_fd "2".toList ">>".toList ∧ r.rd_file.isSome = true) ∧
    (∀ cl ∈ REDIR_CLOSE_OPS, ∃ r, parse_redir plain_env ("2".toList ++ (cl ++ ";".toList)) =
        PRes.ok (r, ";".toList) ∧
      r.rd_fd = redir_written_fd "2".toList cl ∧ r.rd_file.isSome = true) :=
  parse_redir_accepts plain_env "2".toList ">>".toList " ".toList "f".toList ";".toList
    (by unfold is_digit_run; decide) (by decide) (by decide) (by decide)
    ⟨by decide, by decide⟩ (Or.inr ⟨_, _, rfl, by decide⟩)

theorem long_to_int_ne (v : Int) (h1 : INT_MAX < v) : long_to_int v ≠ v := by
  unfold long_to_int
  unfold INT_MAX at h1 ⊢
  simp only
  split <;> omega

/-- C22. A digit run whose number is larger than `INT_MAX` and at most `LONG_MAX` is not
reported as an error: `strtol` does not set `errno`, the conversion to `int` wraps, and
`parse_redir` either fails the assertion `fd >= 0` or goes on with a file descriptor that is
not the number written. -/
theorem parse_redir_fd_wraps (ds : CStr) (c : Char) (t : CStr) (hds : is_digit_run ds)
    (hc : is_digit_char c = false) (h1 : INT_MAX < (digits_value ds : Int))
    (h2 : (digits_value ds : Int) ≤ LONG_MAX) :
    parse_redir_fd (ds ++ c :: t) =
      (if long_to_int (digits_value ds) < 0 then PRes.assert_failed "parse_redir"
        else PRes.ok (long_to_int (digits_value ds), c :: t)) ∧
      long_to_int (digits_value ds) ≠ (digits_value ds : Int) := by
  refine ⟨?_, long_to_int_ne _ h1⟩
  cases ds with
  | nil =>
    exfalso
    revert h1
    decide
  | cons a ds =>
    have ha : is_digit_char a = true := hds a (List.mem_cons_self _ _)
    have htw := takeWhile_digit_run (a :: ds) c t hds hc
    have hlong : ¬ ((digits_value (a :: ds) : Int) > LONG_MAX) := by omega
    unfold parse_redir_fd
    simp only [List.cons_append, List.head?_cons, ha, if_true]
    rw [List.cons_append] at htw
    simp only [htw, if_neg hlong]
    split
    · rfl
    · simp

theorem parse_redir_fd_wraps_witness :
    (parse_redir_fd ("2147483648".toList ++ Char.ofNat 62 :: "f".toList) =
      (if long_to_int (digits_value "2147483648".toList) < 0
        then PRes.assert_failed "parse_redir"
        else PRes.ok (long_to_int (digits_value "2147483648".toList),
          Char.ofNat 62 :: "f".toList)) ∧
      long_to_int (digits_value "2147483648".toList) ≠
        (digits_value "2147483648".toList : Int)) ∧
    parse_redir plain_env "2147483648>f".toList = PRes.assert_failed "parse_redir" ∧
    parse_redir plain_env "4294967297>f".toList =
      PRes.ok ({ rd_flags := 577, rd_fd := 1, rd_file := some "f".toList }, []) :=
  ⟨parse_redir_fd_wraps "2147483648".toList (Char.ofNat 62) "f".toList
      (by unfold is_digit_run; decide) (by decide) (by decide) (by decide),
    by rfl, by rfl⟩

theorem find_start_of_number_back_digits (ds : CStr) (hds : is_digit_run ds) :
    ∀ (r : CStr) (n : Nat),
      find_start_of_number_back (ds.reverse ++ r) n = find_start_of_number_back r (n + ds.length) := by
  induction ds with
  | nil => intro r n; rfl
  | cons a ds ih =>
    intro r n
    have ha : is_digit_char a = true := hds a (List.mem_cons_self _ _)
    have hsp : a ≠ Char.ofNat 32 := by
      intro e
      rw [e] at ha
      revert ha
      decide
    have hr : is_digit_run ds := fun x hx => hds x (List.mem_cons_of_mem _ hx)
    rw [List.reverse_cons, List.append_assoc, ih hr, List.singleton_append,
      find_start_of_number_back, if_neg hsp, ha]
    simp only [Bool.not_true, Bool.false_eq_true, if_false, List.length_cons, Nat.add_assoc]

/-- C23. The function `find_start_of_number(s, t)`, for a text `s` that is `pre`, a run of
digits `ds` and the text at `t`: when `pre` is empty or ends with a space the result is the
start of the run (which is `t` for an empty run), and when `pre` ends with another character
that is no digit the result is `t`. So `echo 2 >f` redirects descriptor 1 and keeps the word
`2`, and `a2>f` redirects descriptor 1 and keeps the word `a2`. -/
theorem find_start_of_number_spec (pre ds t : CStr) (hds : is_digit_run ds) :
    ((pre = [] ∨ pre.getLast? = some (Char.ofNat 32)) →
      find_start_of_number (pre ++ (ds ++ t)) t = ds ++ t) ∧
    ((∃ c, pre.getLast? = some c ∧ c ≠ Char.ofNat 32 ∧ is_digit_char c = false) →
      find_start_of_number (pre ++ (ds ++ t)) t = t) ∧
    parse_line plain_env 10 "echo 2 >f".toList =
      PRes.ok [SCMD.mk CT_END 2 (some ["echo".toList, "2".toList]) none
        [{ rd_flags := 577, rd_fd := 1, rd_file := some "f".toList }] "echo 2 >f".toList] ∧
    parse_line plain_env 10 "a2>f".toList =
      PRes.ok [SCMD.mk CT_END 1 (some ["a2".toList]) none
        [{ rd_flags := 577, rd_fd := 1, rd_file := some "f".toList }] "a2>f".toList] := by
  have hbefore : (pre ++ (ds ++ t)).take ((pre ++ (ds ++ t)).length - t.length) = pre ++ ds := by
    rw [← List.append_assoc]
    have hl : (pre ++ ds ++ t).length - t.length = (pre ++ ds).length := by
      simp only [List.length_append]; omega
    rw [hl, List.take_left]
  have hback : find_start_of_number_back ((pre ++ ds).reverse) 0 =
      find_start_of_number_back pre.reverse ds.length := by
    rw [List.reverse_append, find_start_of_number_back_digits ds hds, Nat.zero_add]
  refine ⟨?_, ?_, by rfl, by rfl⟩
  · intro h
    unfold find_start_of_number
    simp only [hbefore, hback]
    have hres : find_start_of_number_back pre.reverse ds.length = ds.length := by
      rcases h with h | h
      · rw [h]; rfl
      · obtain ⟨p, hp⟩ : ∃ p, pre = p ++ [Char.ofNat 32] := by
          rcases List.eq_nil_or_concat pre with e | ⟨p, b, e⟩
          · rw [e] at h; cases h
          · rw [e, List.concat_eq_append, List.getLast?_append] at h
            have h2 : b = Char.ofNat 32 := by simpa [Option.or] using h
            exact ⟨p, by rw [e, h2, List.concat_eq_append]⟩
        rw [hp, List.reverse_append, List.reverse_singleton, List.singleton_append,
          find_start_of_number_back, if_pos rfl]
    rw [hres]
    have hl : (pre ++ ds).length - ds.length = pre.length := by
      simp only [List.length_append]; omega
    rw [hl, List.drop_left]
  · rintro ⟨c, h, hc1, hc2⟩
    unfold find_start_of_number
    simp only [hbefore, hback]
    have hres : find_start_of_number_back pre.reverse ds.length = 0 := by
      obtain ⟨p, hp⟩ : ∃ p, pre = p ++ [c] := by
        rcases List.eq_nil_or_concat pre with e | ⟨p, b, e⟩
        · rw [e] at h; cases h
        · rw [e, List.concat_eq_append, List.getLast?_append] at h
          have h2 : b = c := by simpa [Option.or] using h
          exact ⟨p, by rw [e, h2, List.concat_eq_append]⟩
      rw [hp, List.reverse_append, List.reverse_singleton, List.singleton_append,
        find_start_of_number_back, if_neg hc1, hc2]
      rfl
    rw [hres, Nat.sub_zero, ← List.append_assoc, List.drop_left]

theorem find_start_of_number_spec_witness :
    ((("echo ".toList = [] ∨ "echo ".toList.getLast? = some (Char.ofNat 32)) →
      find_start_of_number ("echo ".toList ++ ("12".toList ++ ">f".toList)) ">f".toList =
        "12".toList ++ ">f".toList) ∧
    ((∃ c, "echo ".toList.getLast? = some c ∧ c ≠ Char.ofNat 32 ∧ is_digit_char c = false) →
      find_start_of_number ("echo ".toList ++ ("12".toList ++ ">f".toList)) ">f".toList =
        ">f".toList) ∧
    parse_line plain_env 10 "echo 2 >f".toList =
      PRes.ok [SCMD.mk CT_END 2 (some ["echo".toList, "2".toList]) none
        [{ rd_flags := 577, rd_fd := 1, rd_file := some "f".toList }] "echo 2 >f".toList] ∧
    parse_line plain_env 10 "a2>f".toList =
      PRes.ok [SCMD.mk CT_END 1 (some ["a2".toList]) none
        [{ rd_flags := 577, rd_fd := 1, rd_file := some "f".toList }] "a2>f".toList]) ∧
    find_start_of_number "echo 12>f".toList ">f".toList = "12>f".toList ∧
    find_start_of_number "echo a12>f".toList ">f".toList = ">f".toList :=
  ⟨find_start_of_number_spec "echo ".toList "12".toList ">f".toList
    (by unfold is_digit_run; decide), by rfl, by rfl⟩

end ParserRedir

/-! ## expand.c: the operators of expand_param and failing units (C24 to C30) -/

section ExpandParamOps

theorem expand_param_subst_eq {σ : Type} (sh : Shell σ) (st : σ) (su : wordunit_T)
    (indq : Bool) :
    ((expand_word_units sh tildetype_T.tt_single su true st (expand_word_open [] none)).bind
      fun st2 x =>
        if (expand_word_close 0 x).1 = true then
          Res.ret st2 (some (if indq then reescape_full_array (expand_word_close 0 x).2.1
            else (expand_word_close 0 x).2.1))
        else Res.ret st2 none) = expand_param_subst sh st su indq := by
  unfold expand_param_subst expand_word
  cases expand_word_units sh tildetype_T.tt_single su true st (expand_word_open [] none) <;>
    simp [Res.bind]

/-- C24. With the colon flag, a parameter whose single value is a non-empty string that
starts with a character whose code is a multiple of 256 is treated as unset: the use-default
operator discards the value and gives the expansion of the subst word. -/
theorem expand_param_colon_first_byte {σ : Type} (sh : Shell σ) (st : σ) (x : String)
    (c : Char) (v : WStr) (concat indq : Bool) (tilde : tildetype_T) (n m su : wordunit_T)
    (hx : sh.get_variable st x = (some [c :: v], concat)) (hc : c.toNat % 256 = 0) :
    expand_param sh (paramexp_T.mk (pt_op paramop_T.PT_MINUS true) x n m su) indq tilde st =
      expand_param_subst sh st su indq := by
  rw [← expand_param_subst_eq]
  simp [expand_param, pt_op, hx, Res.bind, first_byte, hc]

theorem expand_param_colon_first_byte_witness :
    expand_param (var_shell false)
        (paramexp_T.mk (pt_op paramop_T.PT_MINUS true) "x" wordunit_T.NULL wordunit_T.NULL
          (wordunit_T.WT_STRING "d".toList wordunit_T.NULL))
        false tildetype_T.tt_none [("x", [Char.ofNat 256, Char.ofNat 97])] =
      expand_param_subst (var_shell false) [("x", [Char.ofNat 256, Char.ofNat 97])]
        (wordunit_T.WT_STRING "d".toList wordunit_T.NULL) false ∧
    expand_param_subst (var_shell false) [("x", [Char.ofNat 256, Char.ofNat 97])]
        (wordunit_T.WT_STRING "d".toList wordunit_T.NULL) false =
      Res.ret [("x", [Char.ofNat 256, Char.ofNat 97])] (some ["d".toList]) :=
  ⟨expand_param_colon_first_byte (var_shell false) [("x", [Char.ofNat 256, Char.ofNat 97])]
      "x" (Char.ofNat 256) [Char.ofNat 97] false false tildetype_T.tt_none wordunit_T.NULL
      wordunit_T.NULL (wordunit_T.WT_STRING "d".toList wordunit_T.NULL) rfl (by decide),
    by rfl⟩

theorem escape_clean (v t : WStr) (h : v.all (fun c => !(t.contains c)) = true) :
    escape v (some t) = v := by
  induction v with
  | nil => rfl
  | cons a v ih =>
    rw [List.all_cons, Bool.and_eq_true] at h
    have ha : a ∉ t := by simpa using h.1
    rw [escape_some_cons, if_neg ha, ih h.2]

theorem escapefree_eq_escape (s : WStr) (t : Option WStr) : escapefree s t = escape s t := by
  cases t with
  | none => rfl
  | some t1 =>
    unfold escapefree
    simp only
    split
    · rename_i h
      exact (escape_clean s t1 h).symm
    · rfl

theorem expand_param_close_eq {σ : Type} (sh : Shell σ) (st : σ) (type : paramexptype_T)
    (indq concat : Bool) (list : List WStr) (hnum : type.PT_NUMBER = false) :
    expand_param_close sh st type indq concat list =
      param_values_escaped sh st indq concat list := by
  unfold expand_param_close param_values_escaped
  simp only [hnum, escapefree_eq_escape, Bool.false_eq_true, if_false]

theorem expand_param_set {σ : Type} (sh : Shell σ) (st : σ) (mask : paramop_T) (colon : Bool)
    (x : String) (list : List WStr) (concat indq : Bool) (tilde : tildetype_T)
    (n m su : wordunit_T)
    (hmask : mask = paramop_T.PT_MINUS ∨ mask = paramop_T.PT_ASSIGN ∨
      mask = paramop_T.PT_ERROR)
    (hx : sh.get_variable st x = (some list, concat))
    (hset : colon = true →
      ¬ (list = [] ∨ (first_byte (list.headD []) = 0 ∧ list.length = 1))) :
    expand_param sh (paramexp_T.mk (pt_op mask colon) x n m su) indq tilde st =
      Res.ret st (some (param_values_escaped sh st indq concat list)) := by
  have hclose := expand_param_close_eq sh st (pt_op mask colon) indq concat list rfl
  cases colon with
  | false =>
    rcases hmask with e | e | e <;> subst e <;>
      simp [expand_param, pt_op, hx, Res.bind, ← hclose]
  | true =>
    have h := hset rfl
    have h2 : ¬ (list = [] ∨ (first_byte (list.head?.getD []) = 0 ∧ list.length = 1)) := by
      simpa using h
    rcases hmask with e | e | e <;> subst e <;>
      simp [expand_param, pt_op, hx, Res.bind, ← hclose] <;>
      exact fun hh => absurd hh h2

theorem expand_param_minus_unset {σ : Type} (sh : Shell σ) (st : σ) (colon : Bool)
    (x : String) (concat indq : Bool) (tilde : tildetype_T) (n m su : wordunit_T)
    (hnounset : sh.shopt_nounset = false)
    (hx : sh.get_variable st x = (none, concat) ∨
      (colon = true ∧ (sh.get_variable st x = (some [], concat) ∨
        sh.get_variable st x = (some [[]], concat)))) :
    expand_param sh (paramexp_T.mk (pt_op paramop_T.PT_MINUS colon) x n m su) indq tilde st =
      expand_param_subst sh st su indq := by
  rw [← expand_param_subst_eq]
  rcases hx with hx | ⟨hc, hx | hx⟩
  · simp [expand_param, pt_op, hx, Res.bind, hnounset]
  · simp [expand_param, pt_op, hx, Res.bind, hc]
  · simp [expand_param, pt_op, hx, Res.bind, hc, first_byte]

theorem escape_eq_nil (v : WStr) (t : Option WStr) : escape v t = [] ↔ v = [] := by
  cases v with
  | nil => exact ⟨fun _ => rfl, fun _ => rfl⟩
  | cons a v =>
    constructor
    · intro h
      cases t with
      | none => rw [escape_none_cons] at h; cases h
      | some t1 =>
        rw [escape_some_cons] at h
        split at h <;> cases h
    · intro h; cases h

theorem param_values_escaped_single {σ : Type} (sh : Shell σ) (st : σ) (indq concat : Bool)
    (v : WStr) :
    param_values_escaped sh st indq concat [v] =
      if indq = false ∧ v = [] then []
      else [escape v (if indq then none else some ESCAPED_CHARS)] := by
  unfold param_values_escaped
  have hj : (if concat then [joinwcsarray [v] (ifs_padding sh st)] else [v]) = [v] := by
    cases concat
    · rfl
    · simp [joinwcsarray, intercalate_singleton]
  simp only [hj, List.map_cons, List.map_nil, List.cons.injEq, and_true, escape_eq_nil]

theorem expand_param_minus_set_empty :
    expand_param (var_shell false)
        (paramexp_T.mk (pt_op paramop_T.PT_MINUS false) "x" wordunit_T.NULL wordunit_T.NULL
          (wordunit_T.WT_STRING "d".toList wordunit_T.NULL))
        false tildetype_T.tt_none [("x", [])] =
      Res.ret [("x", [])] (some []) := by
  rfl

/-- C25. The use-default operator on a named parameter, with `nounset` off. When the
parameter is set (and, with the colon flag, its values are not the empty list or a single
string whose first byte is zero), `expand_param` returns its values, joined when the
parameter concatenates, with the characters of `ESCAPED_CHARS` backslashed (all characters
inside double quotes); a single value gives that one string, except that outside double
quotes the empty string gives the empty list. When the parameter is unset (or, with the colon
flag, has no value or the single empty string), `expand_param` returns what `expand_word`
gives for the subst word with the tilde type `tt_single`, re-escaped inside double quotes and
unchanged otherwise. -/
theorem expand_param_use_default {σ : Type} (sh : Shell σ) (st : σ) (colon : Bool)
    (x : String) (concat indq : Bool) (tilde : tildetype_T) (n m su : wordunit_T)
    (hnounset : sh.shopt_nounset = false) :
    (∀ list, sh.get_variable st x = (some list, concat) →
      (colon = true → ¬ (list = [] ∨ (first_byte (list.headD []) = 0 ∧ list.length = 1))) →
      expand_param sh (paramexp_T.mk (pt_op paramop_T.PT_MINUS colon) x n m su) indq tilde st =
        Res.ret st (some (param_values_escaped sh st indq concat list))) ∧
    (∀ v : WStr, param_values_escaped sh st indq concat [v] =
      if indq = false ∧ v = [] then []
      else [escape v (if indq then none else some ESCAPED_CHARS)]) ∧
    ((sh.get_variable st x = (none, concat) ∨
      (colon = true ∧ (sh.get_variable st x = (some [], concat) ∨
        sh.get_variable st x = (some [[]], concat)))) →
      expand_param sh (paramexp_T.mk (pt_op paramop_T.PT_MINUS colon) x n m su) indq tilde st =
        expand_param_subst sh st su indq) :=
  ⟨fun list hx hset =>
      expand_param_set sh st paramop_T.PT_MINUS colon x list concat indq tilde n m su
        (Or.inl rfl) hx hset,
    fun v => param_values_escaped_single sh st indq concat v,
    fun hx => expand_param_minus_unset sh st colon x concat indq tilde n m su hnounset hx⟩

theorem expand_param_use_default_witness :
    (expand_param (var_shell false)
        (paramexp_T.mk (pt_op paramop_T.PT_MINUS true) "x" wordunit_T.NULL wordunit_T.NULL
          (wordunit_T.WT_STRING "d".toList wordunit_T.NULL))
        false tildetype_T.tt_none [("x", "a,b".toList)] =
      Res.ret [("x", "a,b".toList)]
        (some (param_values_escaped (var_shell false) [("x", "a,b".toList)] false false
          ["a,b".toList]))) ∧
    param_values_escaped (var_shell false) [("x", "a,b".toList)] false false ["a,b".toList] =
      [[Char.ofNat 97, BSL, COMMA, Char.ofNat 98]] ∧
    (expand_param (var_shell false)
        (paramexp_T.mk (pt_op paramop_T.PT_MINUS true) "x" wordunit_T.NULL wordunit_T.NULL
          (wordunit_T.WT_STRING "d".toList wordunit_T.NULL))
        true tildetype_T.tt_none [("x", [])] =
      expand_param_subst (var_shell false) [("x", [])]
        (wordunit_T.WT_STRING "d".toList wordunit_T.NULL) true) ∧
    expand_param_subst (var_shell false) [("x", [])]
        (wordunit_T.WT_STRING "d".toList wordunit_T.NULL) true =
      Res.ret [("x", [])] (some [[BSL, Char.ofNat 100]]) :=
  ⟨(expand_param_use_default (var_shell false) [("x", "a,b".toList)] true "x" false false
      tildetype_T.tt_none wordunit_T.NULL wordunit_T.NULL
      (wordunit_T.WT_STRING "d".toList wordunit_T.NULL) rfl).1 ["a,b".toList] rfl
      (fun _ => by decide),
    by rfl,
    (expand_param_use_default (var_shell false) [("x", [])] true "x" false true
      tildetype_T.tt_none wordunit_T.NULL wordunit_T.NULL
      (wordunit_T.WT_STRING "d".toList wordunit_T.NULL) rfl).2.2
      (Or.inr ⟨rfl, Or.inr rfl⟩),
    by rfl⟩

theorem expand_param_assign_unset {σ : Type} (sh : Shell σ) (st : σ) (colon : Bool)
    (x : String) (concat indq : Bool) (tilde : tildetype_T) (n m su : wordunit_T)
    (hnounset : sh.shopt_nounset = false) (hname : sh.is_name x = true)
    (hx : sh.get_variable st x = (none, concat) ∨
      (colon = true ∧ (sh.get_variable st x = (some [], concat) ∨
        sh.get_variable st x = (some [[]], concat)))) :
    expand_param sh (paramexp_T.mk (pt_op paramop_T.PT_ASSIGN colon) x n m su) indq tilde st =
      expand_param_assign sh st x su indq concat := by
  have hclose : ∀ (st3 : σ) (l : List WStr),
      expand_param_close sh st3 (pt_op paramop_T.PT_ASSIGN colon) indq concat l =
        param_values_escaped sh st3 indq concat l :=
    fun st3 l => expand_param_close_eq sh st3 _ indq concat l rfl
  unfold expand_param_assign expand_single expand_word
  simp only [pt_op] at hclose
  rcases hx with hx | ⟨hc, hx | hx⟩
  · simp [expand_param, pt_op, hx, Res.bind, hnounset, hname, hclose]
  · subst hc
    simp [expand_param, pt_op, hx, Res.bind, hname, hclose]
  · subst hc
    simp [expand_param, pt_op, hx, Res.bind, first_byte, hname, hclose]

theorem expand_param_assign_empty_subst :
    expand_param (var_shell false)
        (paramexp_T.mk (pt_op paramop_T.PT_ASSIGN false) "x" wordunit_T.NULL wordunit_T.NULL
          wordunit_T.NULL)
        false tildetype_T.tt_none [] =
      Res.ret [("x", [])] (some []) ∧
    expand_param readonly_shell
        (paramexp_T.mk (pt_op paramop_T.PT_ASSIGN false) "x" wordunit_T.NULL wordunit_T.NULL
          (wordunit_T.WT_STRING "v".toList wordunit_T.NULL))
        false tildetype_T.tt_none [] =
      Res.ret [] none :=
  ⟨by rfl, by rfl⟩

/-- C26. The assign-default operator on a named parameter with a valid name, with `nounset`
off. When the parameter is unset (or, with the colon flag, has no value or the single empty
string), `expand_param` expands the subst word by `expand_single`, calls `set_variable` once,
with the name and the unescaped string, in the state left by that expansion, and returns
that string escaped, except that outside double quotes the empty string gives the empty
list. When the parameter is set, `expand_param` returns its values in the unchanged state. -/
theorem expand_param_assign_default {σ : Type} (sh : Shell σ) (st : σ) (colon : Bool)
    (x : String) (concat indq : Bool) (tilde : tildetype_T) (n m su : wordunit_T)
    (hnounset : sh.shopt_nounset = false) (hname : sh.is_name x = true) :
    ((sh.get_variable st x = (none, concat) ∨
      (colon = true ∧ (sh.get_variable st x = (some [], concat) ∨
        sh.get_variable st x = (some [[]], concat)))) →
      expand_param sh (paramexp_T.mk (pt_op paramop_T.PT_ASSIGN colon) x n m su) indq tilde
          st =
        expand_param_assign sh st x su indq concat) ∧
    (∀ (st3 : σ) (v : WStr), param_values_escaped sh st3 indq concat [v] =
      if indq = false ∧ v = [] then []
      else [escape v (if indq then none else some ESCAPED_CHARS)]) ∧
    (∀ list, sh.get_variable st x = (some list, concat) →
      (colon = true → ¬ (list = [] ∨ (first_byte (list.headD []) = 0 ∧ list.length = 1))) →
      expand_param sh (paramexp_T.mk (pt_op paramop_T.PT_ASSIGN colon) x n m su) indq tilde
          st =
        Res.ret st (some (param_values_escaped sh st indq concat list))) :=
  ⟨fun hx => expand_param_assign_unset sh st colon x concat indq tilde n m su hnounset hname hx,
    fun st3 v => param_values_escaped_single sh st3 indq concat v,
    fun list hx hset =>
      expand_param_set sh st paramop_T.PT_ASSIGN colon x list concat indq tilde n m su
        (Or.inr (Or.inl rfl)) hx hset⟩

theorem expand_param_assign_default_witness :
    (expand_param (var_shell false)
        (paramexp_T.mk (pt_op paramop_T.PT_ASSIGN false) "x" wordunit_T.NULL wordunit_T.NULL
          (wordunit_T.WT_STRING "a,b".toList wordunit_T.NULL))
        false tildetype_T.tt_none [("y", "c".toList)] =
      expand_param_assign (var_shell false) [("y", "c".toList)] "x"
        (wordunit_T.WT_STRING "a,b".toList wordunit_T.NULL) false false) ∧
    expand_param_assign (var_shell false) [("y", "c".toList)] "x"
        (wordunit_T.WT_STRING "a,b".toList wordunit_T.NULL) false false =
      Res.ret [("x", "a,b".toList), ("y", "c".toList)]
        (some [[Char.ofNat 97, BSL, COMMA, Char.ofNat 98]]) ∧
    expand_param (var_shell false)
        (paramexp_T.mk (pt_op paramop_T.PT_ASSIGN false) "y" wordunit_T.NULL wordunit_T.NULL
          (wordunit_T.WT_STRING "a,b".toList wordunit_T.NULL))
        false tildetype_T.tt_none [("y", "c".toList)] =
      Res.ret [("y", "c".toList)]
        (some (param_values_escaped (var_shell false) [("y", "c".toList)] false false
          ["c".toList])) :=
  ⟨(expand_param_assign_default (var_shell false) [("y", "c".toList)] false "x" false false
      tildetype_T.tt_none wordunit_T.NULL wordunit_T.NULL
      (wordunit_T.WT_STRING "a,b".toList wordunit_T.NULL) rfl rfl).1 (Or.inl rfl),
    by rfl,
    (expand_param_assign_default (var_shell false) [("y", "c".toList)] false "y" false false
      tildetype_T.tt_none wordunit_T.NULL wordunit_T.NULL
      (wordunit_T.WT_STRING "a,b".toList wordunit_T.NULL) rfl rfl).2.2 ["c".toList] rfl
      (fun h => by cases h)⟩

theorem expand_param_assign_nested_side_effect :
    expand_param (var_shell false)
        (paramexp_T.mk (pt_nest_op paramop_T.PT_ASSIGN true) ""
          (wordunit_T.WT_PARAM
            (paramexp_T.mk (pt_op paramop_T.PT_ASSIGN false) "y" wordunit_T.NULL
              wordunit_T.NULL wordunit_T.NULL)
            wordunit_T.NULL)
          wordunit_T.NULL (wordunit_T.WT_STRING "w".toList wordunit_T.NULL))
        false tildetype_T.tt_none [] =
      Res.ret [("y", [])] none := by
  rfl

/-- C27. The assign-default operator on an unset parameter that cannot be assigned to. For
a named parameter whose name is not a valid identifier, `expand_param` writes a diagnostic
and returns null in the state it was called in: no assignment is made and the subst word is
not expanded. For a nested expansion (which counts as unset only with the colon flag, when
the nested word gave no value or a single string whose first byte is zero), `expand_param`
writes a diagnostic and returns null in the state left by the expansion of the nested word:
no assignment of its own is made and the subst word is not expanded. -/
theorem expand_param_assign_invalid {σ : Type} (sh : Shell σ) (st : σ) (colon : Bool)
    (x : String) (concat indq : Bool) (tilde : tildetype_T) (n m su : wordunit_T)
    (hnounset : sh.shopt_nounset = false) :
    (sh.is_name x = false →
      (sh.get_variable st x = (none, concat) ∨
        (colon = true ∧ (sh.get_variable st x = (some [], concat) ∨
          sh.get_variable st x = (some [[]], concat)))) →
      expand_param sh (paramexp_T.mk (pt_op paramop_T.PT_ASSIGN colon) x n m su) indq tilde
          st =
        Res.ret (sh.xerror st ("cannot assign to " ++ x ++ " in parameter expansion")) none) ∧
    (∀ (st1 : σ) (vl : List WStr) (sl : Option (List (List Nat))),
      expand_word sh st n tilde [] none = Res.ret st1 (true, vl, sl) →
      (vl.map unescapefree = [] ∨
        (first_byte ((vl.map unescapefree).headD []) = 0 ∧ vl.length = 1)) →
      expand_param sh (paramexp_T.mk (pt_nest_op paramop_T.PT_ASSIGN true) x n m su) indq
          tilde st =
        Res.ret (sh.xerror st1 "invalid assignment in parameter expansion") none) := by
  constructor
  · intro hname hx
    rcases hx with hx | ⟨hc, hx | hx⟩
    · simp [expand_param, pt_op, hx, Res.bind, hnounset, hname]
    · subst hc
      simp [expand_param, pt_op, hx, Res.bind, hname]
    · subst hc
      simp [expand_param, pt_op, hx, Res.bind, first_byte, hname]
  · intro st1 vl sl hw hempty
    unfold expand_word at hw
    cases hu : expand_word_units sh tilde n true st (expand_word_open [] none) with
    | fault => rw [hu] at hw; simp [Res.bind] at hw
    | exit st2 k => rw [hu] at hw; simp [Res.bind] at hw
    | ret st2 x2 =>
      rw [hu] at hw
      simp only [Res.bind, List.length_nil, Res.ret.injEq] at hw
      obtain ⟨hst, hclose⟩ := hw
      subst hst
      have h1 : (expand_word_close 0 x2).1 = true := by rw [hclose]
      have h2 : (expand_word_close 0 x2).2.1 = vl := by rw [hclose]
      have hempty2 : vl.map unescapefree = [] ∨
          (first_byte ((vl.map unescapefree).head?.getD []) = 0 ∧ vl.length = 1) := by
        simpa using hempty
      simp [expand_param, pt_nest_op, hu, Res.bind, h1, h2]
      intro ha
      rcases hempty2 with e | ⟨e1, e2⟩
      · exact absurd (by simpa using e) ha
      · exact ⟨by simpa using e1, e2⟩

theorem expand_param_assign_invalid_witness :
    expand_param ident_shell
        (paramexp_T.mk (pt_op paramop_T.PT_ASSIGN false) "1" wordunit_T.NULL wordunit_T.NULL
          (wordunit_T.WT_STRING "w".toList wordunit_T.NULL))
        false tildetype_T.tt_none [] =
      Res.ret (ident_shell.xerror [] ("cannot assign to " ++ "1" ++ " in parameter expansion"))
        none ∧
    ident_shell.xerror [] ("cannot assign to " ++ "1" ++ " in parameter expansion") = [] ∧
    expand_param ident_shell
        (paramexp_T.mk (pt_nest_op paramop_T.PT_ASSIGN true) ""
          (unquoted_param "y") wordunit_T.NULL
          (wordunit_T.WT_STRING "w".toList wordunit_T.NULL))
        false tildetype_T.tt_none [] =
      Res.ret (ident_shell.xerror [] "invalid assignment in parameter expansion") none :=
  ⟨(expand_param_assign_invalid ident_shell [] false "1" false false tildetype_T.tt_none
      wordunit_T.NULL wordunit_T.NULL (wordunit_T.WT_STRING "w".toList wordunit_T.NULL) rfl).1
      rfl (Or.inl rfl),
    rfl,
    (expand_param_assign_invalid ident_shell [] false "" false false tildetype_T.tt_none
      (unquoted_param "y") wordunit_T.NULL (wordunit_T.WT_STRING "w".toList wordunit_T.NULL)
      rfl).2 [] [] none rfl (Or.inl rfl)⟩

theorem expand_param_subst_null {σ : Type} (sh : Shell σ) (st : σ) (su : wordunit_T)
    (indq : Bool) (hsu : su = wordunit_T.NULL ∨ su = wordunit_T.WT_STRING [] wordunit_T.NULL) :
    expand_param_subst sh st su indq = Res.ret st (some []) := by
  rcases hsu with e | e <;> subst e <;>
    cases indq <;>
    simp [expand_param_subst, expand_word, expand_word_units, expand_word_string,
      expand_tilde, Res.bind, expand_word_open, expand_word_close, reescape_full_array]

/-- C28. A double-quoted use-default expansion of an unset parameter with an empty subst
word gives the empty list: `expand_param`, called with in-double-quote true, succeeds and
returns no element, and `expand_word` adds no value for the word made of the quoted
expansion. -/
theorem expand_param_dquoted_empty_list {σ : Type} (sh : Shell σ) (st : σ) (colon : Bool)
    (x : String) (concat : Bool) (tilde : tildetype_T) (n m su : wordunit_T)
    (vl : List WStr) (sl : Option (List (List Nat)))
    (hnounset : sh.shopt_nounset = false) (hx : sh.get_variable st x = (none, concat))
    (hsu : su = wordunit_T.NULL ∨ su = wordunit_T.WT_STRING [] wordunit_T.NULL) :
    expand_param sh (paramexp_T.mk (pt_op paramop_T.PT_MINUS colon) x n m su) true tilde st =
      Res.ret st (some []) ∧
    expand_word sh st
        (dquoted_unit (paramexp_T.mk (pt_op paramop_T.PT_MINUS colon) x n m su)) tilde vl sl =
      Res.ret st (true, vl, sl) := by
  have hp : ∀ t, expand_param sh (paramexp_T.mk (pt_op paramop_T.PT_MINUS colon) x n m su)
      true t st = Res.ret st (some []) := by
    intro t
    rw [expand_param_minus_unset sh st colon x concat true t n m su hnounset (Or.inl hx),
      expand_param_subst_null sh st su true hsu]
  refine ⟨hp tilde, ?_⟩
  simp [expand_word, dquoted_unit, expand_word_units, expand_tilde, expand_word_string,
    hp, Res.bind, expand_word_open, expand_word_close, DQUOTE, SQUOTE, wordunit_T.nonnull]

theorem expand_param_dquoted_empty_list_witness :
    expand_param (var_shell false)
        (paramexp_T.mk (pt_op paramop_T.PT_MINUS false) "x" wordunit_T.NULL wordunit_T.NULL
          wordunit_T.NULL) true tildetype_T.tt_single [] =
      Res.ret [] (some []) ∧
    expand_word (var_shell false) []
        (dquoted_unit (paramexp_T.mk (pt_op paramop_T.PT_MINUS false) "x" wordunit_T.NULL
          wordunit_T.NULL wordunit_T.NULL)) tildetype_T.tt_single [] (some []) =
      Res.ret [] (true, [], some []) :=
  expand_param_dquoted_empty_list (var_shell false) [] false "x" false tildetype_T.tt_single
    wordunit_T.NULL wordunit_T.NULL wordunit_T.NULL [] (some []) rfl rfl (Or.inl rfl)

theorem expand_param_plain_empty {σ : Type} (sh : Shell σ) (st : σ) (x : String)
    (concat : Bool) (tilde : tildetype_T) (n m su : wordunit_T)
    (hnounset : sh.shopt_nounset = false)
    (hx : sh.get_variable st x = (none, concat) ∨ sh.get_variable st x = (some [[]], concat)) :
    expand_param sh (paramexp_T.mk PT_PLAIN x n m su) false tilde st = Res.ret st (some []) := by
  rcases hx with hx | hx <;> cases concat <;>
    simp [expand_param, PT_PLAIN, hx, hnounset, Res.bind, expand_param_close, joinwcsarray,
      intercalate_singleton, escapefree]

/-- C29. A word made of the quoted empty literal followed or preceded by the unquoted
expansion of a scalar parameter that is unset or whose value is the empty string is not
emitted: `expand_word` succeeds and adds no value. -/
theorem expand_word_empty_quote_param {σ : Type} (sh : Shell σ) (st : σ) (x : String)
    (concat : Bool) (tilde : tildetype_T) (vl : List WStr) (sl : Option (List (List Nat)))
    (hnounset : sh.shopt_nounset = false)
    (hx : sh.get_variable st x = (none, concat) ∨ sh.get_variable st x = (some [[]], concat)) :
    expand_word sh st (empty_quote_then_param x) tilde vl sl = Res.ret st (true, vl, sl) ∧
    expand_word sh st (param_then_empty_quote x) tilde vl sl = Res.ret st (true, vl, sl) := by
  have hp := fun t n m su => expand_param_plain_empty sh st x concat t n m su hnounset hx
  constructor
  · simp [expand_word, empty_quote_then_param, unquoted_param, expand_word_units, expand_tilde,
      expand_word_string, hp, Res.bind, expand_word_open, expand_word_close, DQUOTE, SQUOTE,
      wordunit_T.nonnull]
  · simp [expand_word, param_then_empty_quote, expand_word_units, expand_tilde,
      expand_word_string, hp, Res.bind, expand_word_open, expand_word_close, DQUOTE, SQUOTE,
      wordunit_T.nonnull]

theorem expand_word_empty_quote_param_witness :
    expand_word (var_shell false) [("x", [])] (empty_quote_then_param "x")
        tildetype_T.tt_single [] (some []) =
      Res.ret [("x", [])] (true, [], some []) ∧
    expand_word (var_shell false) [("x", [])] (param_then_empty_quote "x")
        tildetype_T.tt_single [] (some []) =
      Res.ret [("x", [])] (true, [], some []) :=
  expand_word_empty_quote_param (var_shell false) [("x", [])] "x" false tildetype_T.tt_single
    [] (some []) rfl (Or.inr rfl)

theorem expand_word_string_ok {σ : Type} (sh : Shell σ) (st : σ) (hasnext : Bool)
    (tilde : tildetype_T) :
    ∀ (fuel : Nat) (ss : WStr) (x x1 : xw_T),
      expand_word_string sh st hasnext tilde fuel ss x = some x1 → x1.ok = x.ok := by
  intro fuel
  induction fuel with
  | zero =>
    intro ss x x1 h
    simp only [expand_word_string, Option.some.injEq] at h
    rw [← h]
  | succ fuel ih =>
    intro ss x x1 h
    cases ss with
    | nil =>
      simp only [expand_word_string, Option.some.injEq] at h
      rw [← h]
    | cons c ss1 =>
      simp only [expand_word_string] at h
      repeat' first | split at h | dsimp only at h
      all_goals first
        | cases h
        | (have h2 := ih _ _ _ h
           simpa [FILL_SBUF, apply_ite] using h2)

theorem expand_word_array_ok : ∀ (l : List WStr) (x : xw_T), (expand_word_array l x).ok = x.ok
  | [], _ => rfl
  | [_], x => by
    simp only [expand_word_array, FILL_SBUF]
    split <;> rfl
  | a :: b :: l, x => by
    rw [expand_word_array, expand_word_array_ok (b :: l)]
    simp only [FILL_SBUF]
    split <;> rfl

theorem expand_word_units_ok_false {σ : Type} (sh : Shell σ) (tilde : tildetype_T) :
    ∀ (n : Nat) (w : wordunit_T), w.count = n → ∀ (first : Bool) (st st1 : σ) (x x1 : xw_T),
      x.ok = false → expand_word_units sh tilde w first st x = Res.ret st1 x1 →
      x1.ok = false := by
  intro n
  induction n with
  | zero =>
    intro w hw first st st1 x x1 h he
    cases w with
    | NULL =>
      simp only [expand_word_units, Res.ret.injEq] at he
      rw [← he.2]; exact h
    | WT_STRING _ _ => simp [wordunit_T.count] at hw
    | WT_PARAM _ _ => simp [wordunit_T.count] at hw
    | WT_CMDSUB _ _ => simp [wordunit_T.count] at hw
    | WT_ARITH _ _ => simp [wordunit_T.count] at hw
  | succ n ih =>
    intro w hw first st st1 x x1 h he
    cases w with
    | NULL => simp [wordunit_T.count] at hw
    | WT_STRING wu_string next =>
      have hn : next.count = n := by simpa [wordunit_T.count] using hw
      simp only [expand_word_units] at he
      split at he
      · simp at he
      · rename_i x2 hx2
        refine ih next hn false st st1 x2 x1 ?_ he
        rw [expand_word_string_ok sh st _ tilde _ _ _ x2 hx2]
        split
        · simp only [FILL_SBUF]
          split <;> exact h
        · exact h
    | WT_PARAM wu_param next =>
      have hn : next.count = n := by simpa [wordunit_T.count] using hw
      simp only [expand_word_units] at he
      cases hp : expand_param sh wu_param x.indq tilde st with
      | fault => simp [hp, Res.bind] at he
      | exit st2 k => simp [hp, Res.bind] at he
      | ret st2 array =>
        simp only [hp, Res.bind] at he
        split at he
        · exact ih next hn false st2 st1 _ x1 rfl he
        · exact ih next hn false st2 st1 { x with suppress := true } x1 h he
        · exact ih next hn false st2 st1 _ x1
            (by rw [expand_word_array_ok]; exact h) he
    | WT_CMDSUB wu_cmdsub next =>
      have hn : next.count = n := by simpa [wordunit_T.count] using hw
      simp only [expand_word_units] at he
      split at he
      · refine ih next hn false _ st1 _ x1 ?_ he
        simp only [FILL_SBUF]
        split <;> exact h
      · exact ih next hn false _ st1 _ x1 rfl he
    | WT_ARITH wu_arith next =>
      have hn : next.count = n := by simpa [wordunit_T.count] using hw
      simp only [expand_word_units] at he
      exact ih next hn false _ st1 _ x1 rfl he

theorem expand_word_close_ok (initlen : Nat) (x : xw_T) :
    (expand_word_close initlen x).1 = x.ok := by
  unfold expand_word_close
  split <;> rfl

theorem expand_word_later_unit_assigns :
    expand_word (var_shell false) []
        (wordunit_T.WT_ARITH "1".toList
          (wordunit_T.WT_PARAM
            (paramexp_T.mk (pt_op paramop_T.PT_ASSIGN false) "y" wordunit_T.NULL
              wordunit_T.NULL (wordunit_T.WT_STRING "v".toList wordunit_T.NULL))
            (wordunit_T.WT_CMDSUB "c".toList wordunit_T.NULL)))
        tildetype_T.tt_none [] none =
      Res.ret [("y", "v".toList)] (false, ["vc".toList], none) := by
  rfl

/-- C30. A failing unit does not end the loop of `expand_word`: after an arithmetic unit, a
command substitution that fails or a parameter expansion that fails, the later units are
expanded in the state left by the failing unit with `ok` false; `ok` stays false through
every later unit, and it is the value that `expand_word` returns. -/
theorem expand_word_failure_sticky {σ : Type} (sh : Shell σ) (tilde : tildetype_T) :
    (∀ (a : WStr) (next : wordunit_T) (first : Bool) (st : σ) (x : xw_T),
      expand_word_units sh tilde (wordunit_T.WT_ARITH a next) first st x =
        expand_word_units sh tilde next false
          (sh.xerror st "arithmetic expansion not implemented") { x with ok := false }) ∧
    (∀ (c : embedcmd_T) (next : wordunit_T) (first : Bool) (st st1 : σ) (x : xw_T),
      sh.exec_command_substitution st c = (st1, none) →
      expand_word_units sh tilde (wordunit_T.WT_CMDSUB c next) first st x =
        expand_word_units sh tilde next false st1 { x with ok := false }) ∧
    (∀ (p : paramexp_T) (next : wordunit_T) (first : Bool) (st st1 : σ) (x : xw_T),
      expand_param sh p x.indq tilde st = Res.ret st1 none →
      expand_word_units sh tilde (wordunit_T.WT_PARAM p next) first st x =
        expand_word_units sh tilde next false st1 { x with ok := false }) ∧
    (∀ (w : wordunit_T) (first : Bool) (st st1 : σ) (x x1 : xw_T),
      x.ok = false → expand_word_units sh tilde w first st x = Res.ret st1 x1 →
      x1.ok = false) ∧
    (∀ (initlen : Nat) (x : xw_T), (expand_word_close initlen x).1 = x.ok) := by
  refine ⟨?_, ?_, ?_, ?_, expand_word_close_ok⟩
  · intro a next first st x
    simp only [expand_word_units]
  · intro c next first st st1 x h
    simp only [expand_word_units, h]
  · intro p next first st st1 x h
    simp only [expand_word_units, h, Res.bind]
  · intro w first st st1 x x1 h he
    exact expand_word_units_ok_false sh tilde w.count w rfl first st st1 x x1 h he

theorem expand_word_failure_sticky_witness :
    expand_word_units (var_shell false) tildetype_T.tt_none
        (wordunit_T.WT_ARITH "1".toList (wordunit_T.WT_CMDSUB "c".toList wordunit_T.NULL))
        true [] (expand_word_open [] none) =
      expand_word_units (var_shell false) tildetype_T.tt_none
        (wordunit_T.WT_CMDSUB "c".toList wordunit_T.NULL) false
        ((var_shell false).xerror [] "arithmetic expansion not implemented")
        { expand_word_open [] none with ok := false } ∧
    expand_word_units (var_shell false) tildetype_T.tt_none
        (wordunit_T.WT_CMDSUB "c".toList wordunit_T.NULL) false
        ((var_shell false).xerror [] "arithmetic expansion not implemented")
        { expand_word_open [] none with ok := false } =
      Res.ret []
        { ok := false, indq := false, force := false, suppress := false, buf := "c".toList,
          sbuf := [], valuelist := [], splitlist := none } :=
  ⟨(expand_word_failure_sticky (var_shell false) tildetype_T.tt_none).1 "1".toList
      (wordunit_T.WT_CMDSUB "c".toList wordunit_T.NULL) true [] (expand_word_open [] none),
    by rfl⟩

end ExpandParamOps

/-! ## expand.c and parser.c: safety of the scans, tilde and backslash (C31, C32, C34 to C37) -/

section LastClaimsA

open c_type_T check_T

theorem fieldsplit_run_all_blank (s : WStr) (split : List Nat) (ifs : WStr) (si : Nat)
    (hall : ∀ c ∈ s, iswspace c = true ∧ c ∈ ifs) (hsp : ∀ i < s.length, split.getD i 0 ≠ 0) :
    ∀ (k i : Nat) (sons : Bool) (dest : List WStr), i < s.length → s.length ≤ i + k →
      fieldsplit_run s split ifs si k i sons false dest = (s.length, dest) := by
  intro k
  induction k with
  | zero => intro i sons dest hi hk; omega
  | succ k ih =>
    intro i sons dest hi hk
    rw [fieldsplit_run_succ]
    have hsome : s[i]? = some s[i] := List.getElem?_eq_getElem hi
    have hw : iswspace s[i] = true := (hall _ (List.getElem_mem hi)).1
    rw [hsome]
    simp only [hw, Bool.not_true, Bool.false_and, Bool.false_eq_true, if_false]
    cases h1 : s[i + 1]? with
    | none =>
      have hlen : s.length ≤ i + 1 := List.getElem?_eq_none_iff.mp h1
      have : i + 1 = s.length := by omega
      simp [this]
    | some d =>
      have hi1 : i + 1 < s.length := by
        by_contra hc
        rw [List.getElem?_eq_none (by omega)] at h1
        cases h1
      have hd : d ∈ ifs := by
        have := List.getElem?_eq_getElem hi1
        rw [this] at h1
        cases h1
        exact (hall _ (List.getElem_mem hi1)).2
      simp only
      rw [if_pos ⟨hsp _ hi1, hd⟩]
      exact ih (i + 1) _ dest hi1 (by omega)

/-- C35. For every non-empty string made only of whitespace characters of `IFS`, all of them
splittable, the scan of `fieldsplit` ends with nothing added to the destination and
`startindex` equal to the length of the string, so `assert(startindex == 0)` fails. -/
theorem fieldsplit_only_blanks (s : WStr) (split : List Nat) (ifs : WStr) (dest : List WStr)
    (hne : s ≠ []) (hall : ∀ c ∈ s, iswspace c = true ∧ c ∈ ifs)
    (hsp : ∀ i < s.length, split.getD i 0 ≠ 0) :
    fieldsplit_loop s split ifs (s.length + 1) 0 0 dest = (s.length, s.length, dest) ∧
      fieldsplit s split ifs dest = none := by
  have hpos : 0 < s.length := List.length_pos.mpr hne
  have hloop : fieldsplit_loop s split ifs (s.length + 1) 0 0 dest =
      (s.length, s.length, dest) := by
    have hsome : s[0]? = some s[0] := List.getElem?_eq_getElem hpos
    have hc := hall _ (List.getElem_mem hpos)
    have hb : s[0] ≠ BSL := by
      intro e
      rw [e] at hc
      exact absurd hc.1 (by decide)
    rw [fieldsplit_loop_succ, hsome]
    simp only [if_neg hb]
    rw [if_pos ⟨hsp 0 hpos, hc.2⟩]
    simp only [Nat.lt_irrefl, if_false]
    rw [fieldsplit_run_all_blank s split ifs 0 hall hsp s.length 0 _ dest hpos (by omega)]
    obtain ⟨f, hf⟩ : ∃ f, s.length = f + 1 := ⟨s.length - 1, by omega⟩
    rw [hf, fieldsplit_loop_succ, ← hf, List.getElem?_eq_none (Nat.le_refl _)]
  refine ⟨hloop, ?_⟩
  unfold fieldsplit
  rw [hloop]
  unfold fieldsplit_end
  simp only [if_true]
  rw [if_neg (by omega)]

theorem fieldsplit_only_blanks_witness :
    (fieldsplit_loop [Char.ofNat 32] [1] [Char.ofNat 32] ([Char.ofNat 32].length + 1) 0 0 [] =
        ([Char.ofNat 32].length, [Char.ofNat 32].length, []) ∧
      fieldsplit [Char.ofNat 32] [1] [Char.ofNat 32] [] = none) ∧
    expand_word_and_split (var_shell false) 1
        [("x", [Char.ofNat 32]), ("IFS", [Char.ofNat 32])] (unquoted_param "x") [] =
      Res.fault :=
  ⟨fieldsplit_only_blanks [Char.ofNat 32] [1] [Char.ofNat 32] [] (by decide) (by decide)
    (by decide), by rfl⟩

/-- C36. For an array of one command that is an empty simple command (with any connector
other than pipe), `check_parse_result` reads `scmds[i-1]` with `i = 0`, outside the array.
That is the array of an empty line, of a line that holds only a comment, and of the inside
of `()` and of `$()`. -/
theorem check_parse_result_single_empty (t : c_type_T) (redirs : List REDIR) (name : CStr)
    (ht : t ≠ CT_PIPED) :
    check_parse_result [SCMD.mk t 0 (some []) none redirs name] = out_of_bounds ∧
    parse_line plain_env 4 [] = PRes.undefined ∧
    parse_line plain_env 4 "#c".toList = PRes.undefined ∧
    parse_line plain_env 8 "()".toList = PRes.undefined ∧
    parse_line plain_env 8 "echo $()".toList = PRes.undefined := by
  refine ⟨?_, by rfl, by rfl, by rfl, by rfl⟩
  cases t with
  | CT_PIPED => exact absurd rfl ht
  | CT_END => rfl
  | CT_BG => rfl
  | CT_AND => rfl
  | CT_OR => rfl

theorem check_parse_result_single_empty_witness :
    check_parse_result [SCMD.mk CT_END 0 (some []) none [] []] = out_of_bounds ∧
    parse_line plain_env 4 [] = PRes.undefined ∧
    parse_line plain_env 4 "#c".toList = PRes.undefined ∧
    parse_line plain_env 8 "()".toList = PRes.undefined ∧
    parse_line plain_env 8 "echo $()".toList = PRes.undefined :=
  check_parse_result_single_empty CT_END [] [] (by decide)

/-- C37. When the shortest match length of the pattern is larger than the length of the
first string, the start `len - minlen` of `match_tail_shortest_each` wraps around in `size_t`
to an offset beyond the string, with which the matcher is called. -/
theorem match_tail_shortest_wraps {σ : Type} (sh : Shell σ) (pattern s : WStr)
    (slist : List WStr)
    (h1 : s.length < sh.shortest_match_length pattern (wfnm_flags sh))
    (h2 : sh.shortest_match_length pattern (wfnm_flags sh) < SIZE_MOD) :
    (s.length + SIZE_MOD - sh.shortest_match_length pattern (wfnm_flags sh) % SIZE_MOD) %
        SIZE_MOD > s.length ∧
      match_tail_shortest_each sh pattern (s :: slist) = none := by
  have hm : sh.shortest_match_length pattern (wfnm_flags sh) % SIZE_MOD =
      sh.shortest_match_length pattern (wfnm_flags sh) := Nat.mod_eq_of_lt h2
  have hpos : 0 < sh.shortest_match_length pattern (wfnm_flags sh) := by omega
  have hidx : (s.length + SIZE_MOD - sh.shortest_match_length pattern (wfnm_flags sh) %
      SIZE_MOD) % SIZE_MOD =
      s.length + SIZE_MOD - sh.shortest_match_length pattern (wfnm_flags sh) := by
    rw [hm]
    exact Nat.mod_eq_of_lt (by omega)
  have hgt : s.length + SIZE_MOD - sh.shortest_match_length pattern (wfnm_flags sh) >
      s.length := by omega
  refine ⟨by rw [hidx]; exact hgt, ?_⟩
  unfold match_tail_shortest_each
  simp only [hidx, if_pos hgt]

theorem match_tail_shortest_wraps_witness :
    (("a".toList.length + SIZE_MOD -
        literal_shell.shortest_match_length "abc".toList (wfnm_flags literal_shell) %
          SIZE_MOD) % SIZE_MOD > "a".toList.length ∧
      match_tail_shortest_each literal_shell "abc".toList ("a".toList :: []) = none) ∧
    expand_param literal_shell
        (paramexp_T.mk PT_SUFFIX_SHORTEST "x" wordunit_T.NULL
          (wordunit_T.WT_STRING "abc".toList wordunit_T.NULL) wordunit_T.NULL)
        false tildetype_T.tt_single [("x", "a".toList)] = Res.fault :=
  ⟨match_tail_shortest_wraps literal_shell "abc".toList "a".toList [] (by decide) (by decide),
    by rfl⟩

theorem escape_eq_backslashed (t v : WStr) : escape v (some t) = backslashed t v := by
  induction v with
  | nil => rfl
  | cons a v ih =>
    rw [escape_some_cons, ih]
    unfold backslashed
    rw [List.flatMap_cons]
    split <;> rfl

theorem expand_param_glob_chars_unescaped :
    expand_param (var_shell false)
        (paramexp_T.mk PT_PLAIN "x" wordunit_T.NULL wordunit_T.NULL wordunit_T.NULL)
        false tildetype_T.tt_single [("x", "*?[".toList)] =
      Res.ret [("x", "*?[".toList)] (some ["*?[".toList]) := by
  rfl

/-- C34. For every non-empty value `v` of an unquoted expansion of a scalar parameter
without operator, `expand_param` returns the one string made from `v` by putting a backslash
before every backslash, `{`, `,` and `}`; every other character, `*`, `?` and `[` included,
is returned as it is. -/
theorem expand_param_backslashes_escaped_chars {σ : Type} (sh : Shell σ) (st : σ)
    (x : String) (v : WStr) (concat : Bool) (tilde : tildetype_T) (n m su : wordunit_T)
    (hx : sh.get_variable st x = (some [v], concat)) (hne : v ≠ []) :
    expand_param sh (paramexp_T.mk PT_PLAIN x n m su) false tilde st =
      Res.ret st (some [backslashed ESCAPED_CHARS v]) := by
  rw [expand_param_plain sh st x v concat false tilde n m su hx,
    expand_param_close_eq sh st PT_PLAIN false concat [v] rfl,
    param_values_escaped_single, if_neg (fun h => hne h.2)]
  simp only [Bool.false_eq_true, if_false, escape_eq_backslashed]

theorem expand_param_backslashes_escaped_chars_witness :
    expand_param (var_shell false)
        (paramexp_T.mk PT_PLAIN "x" wordunit_T.NULL wordunit_T.NULL wordunit_T.NULL)
        false tildetype_T.tt_single [("x", "a\x7bb,c\x7d*".toList)] =
      Res.ret [("x", "a\x7bb,c\x7d*".toList)]
        (some [backslashed ESCAPED_CHARS "a\x7bb,c\x7d*".toList]) ∧
    backslashed ESCAPED_CHARS "a\x7bb,c\x7d*".toList =
      [Char.ofNat 97, BSL, LBRACE, Char.ofNat 98, BSL, COMMA, Char.ofNat 99, BSL, RBRACE,
        Char.ofNat 42] :=
  ⟨expand_param_backslashes_escaped_chars (var_shell false) [("x", "a\x7bb,c\x7d*".toList)] "x"
      "a\x7bb,c\x7d*".toList false tildetype_T.tt_single wordunit_T.NULL wordunit_T.NULL
      wordunit_T.NULL rfl (by decide),
    by decide⟩

theorem FILL_SBUF_some (c : Nat) (x : xw_T) (l : List (List Nat)) (h : x.splitlist = some l) :
    FILL_SBUF c x =
      { x with sbuf := x.sbuf ++ List.replicate (x.buf.length - x.sbuf.length) c } := by
  unfold FILL_SBUF
  rw [h]
  rfl

theorem expand_word_string_plain {σ : Type} (sh : Shell σ) (st : σ) (hasnext : Bool)
    (tilde : tildetype_T) (l : List (List Nat)) :
    ∀ (r : WStr) (fuel : Nat) (x : xw_T), r.length < fuel →
      (∀ c ∈ r, c ∉ QUOTE_CHARS ∧ (tilde = tildetype_T.tt_multi → c ≠ Char.ofNat 58)) →
      x.indq = false → x.splitlist = some l → x.sbuf.length = x.buf.length →
      expand_word_string sh st hasnext tilde fuel r x =
        some { x with buf := x.buf ++ r, sbuf := x.sbuf ++ List.replicate r.length 0 } := by
  intro r
  induction r with
  | nil =>
    intro fuel x hf _ _ _ _
    obtain ⟨f, rfl⟩ : ∃ f, fuel = f + 1 := ⟨fuel - 1, by omega⟩
    simp [expand_word_string]
  | cons c r ih =>
    intro fuel x hf hr hq hsl hlen
    obtain ⟨f, rfl⟩ : ∃ f, fuel = f + 1 := ⟨fuel - 1, by omega⟩
    obtain ⟨ok, indq, force, suppress, buf, sbuf, vl, spl⟩ := x
    simp only at hq hsl hlen
    subst hq
    subst hsl
    have hc := hr c (List.mem_cons_self _ _)
    have h1 : c ≠ DQUOTE := fun e => hc.1 (e ▸ by decide)
    have h2 : c ≠ SQUOTE := fun e => hc.1 (e ▸ by decide)
    have h3 : c ≠ BSL := fun e => hc.1 (e ▸ by decide)
    have h4 : ¬ (c = Char.ofNat 58 ∧ tilde = tildetype_T.tt_multi) :=
      fun e => hc.2 e.2 e.1
    simp only [List.length_cons] at hf
    simp only [expand_word_string, if_neg h1, h2, h3, false_and, if_false, true_and,
      if_neg h4, Bool.false_eq_true]
    rw [FILL_SBUF_some 0 _ l rfl]
    rw [ih f _ (by omega) (fun d hd => hr d (List.mem_cons_of_mem _ hd)) rfl rfl
      (by simp only [List.length_append, List.length_replicate, List.length_singleton]; omega)]
    simp only [List.length_append, List.length_singleton, List.append_assoc,
      List.singleton_append, List.length_cons, hlen]
    congr 2
    simp only [List.length_nil, Nat.zero_add, Nat.add_sub_cancel_left]
    rw [← List.replicate_add, Nat.add_comm]

theorem unescape_escape_append (h r : WStr) :
    unescape (escape h (some ESCAPED_CHARS) ++ r) = h ++ unescape r := by
  induction h with
  | nil => rfl
  | cons a h ih =>
    rw [escape_some_cons]
    split
    · rw [List.cons_append, List.cons_append, unescape_bsl_cons, ih, List.cons_append]
    · rename_i ha
      have hb : a ≠ BSL := fun e => ha (e ▸ by decide)
      rw [List.cons_append, unescape_cons_ne a _ hb, ih, List.cons_append]

theorem unescape_plain (r : WStr) (h : BSL ∉ r) : unescape r = r := by
  induction r with
  | nil => rfl
  | cons a r ih =>
    have ha : a ≠ BSL := fun e => h (e ▸ List.mem_cons_self _ _)
    rw [unescape_cons_ne a r ha, ih (fun hm => h (List.mem_cons_of_mem _ hm))]

theorem expand_tilde_home_slash {σ : Type} (sh : Shell σ) (st : σ) (r : WStr)
    (hasnext : Bool) :
    expand_tilde sh st (Char.ofNat 126 :: Char.ofNat 47 :: r) hasnext tildetype_T.tt_single =
      (sh.getvar st "HOME").map (fun h => (h, Char.ofNat 47 :: r)) := by
  have hf : (Char.ofNat 47 :: r).findIdx?
      (fun x => (tilde_accept tildetype_T.tt_single).contains x) = some 0 := by
    rw [List.findIdx?_cons]
    rfl
  unfold expand_tilde
  simp only [ne_eq, not_true_eq_false, if_false, hf, Option.isNone_some, Bool.false_and,
    Bool.false_eq_true, Option.getD_some, List.take_zero, List.drop_zero]
  have ht : tilde_home sh st [] = sh.getvar st "HOME" := by
    unfold tilde_home
    rw [if_pos rfl]
  rw [ht]
  cases sh.getvar st "HOME" <;> rfl

/-- C31. For every literal `r` that begins with `/` and contains no quote character,
`expand_word` with the tilde type `tt_single` on the single-literal word `~r`: when `HOME` has
the value `h` it adds one value, the escaped `h` followed by `r`, whose un-escaped form is `h`
followed by `r`, with a splittability string of zeros; when `HOME` is unset it adds the
literal `~r`. -/
theorem expand_word_tilde_home {σ : Type} (sh : Shell σ) (st : σ) (r : WStr)
    (vl : List WStr) (sl : List (List Nat))
    (hq : ∀ c ∈ Char.ofNat 47 :: r, c ∉ QUOTE_CHARS) :
    (∀ h, sh.getvar st "HOME" = some h →
      expand_word sh st (tilde_word (Char.ofNat 47 :: r)) tildetype_T.tt_single vl (some sl) =
        Res.ret st (true, vl ++ [escapefree h (some ESCAPED_CHARS) ++ Char.ofNat 47 :: r],
          some (sl ++ [List.replicate
            (escapefree h (some ESCAPED_CHARS) ++ Char.ofNat 47 :: r).length 0])) ∧
      unescape (escapefree h (some ESCAPED_CHARS) ++ Char.ofNat 47 :: r) =
        h ++ Char.ofNat 47 :: r) ∧
    (sh.getvar st "HOME" = none →
      expand_word sh st (tilde_word (Char.ofNat 47 :: r)) tildetype_T.tt_single vl (some sl) =
        Res.ret st (true, vl ++ [Char.ofNat 126 :: Char.ofNat 47 :: r],
          some (sl ++ [List.replicate (r.length + 2) 0]))) := by
  have hplain : ∀ c ∈ Char.ofNat 47 :: r,
      c ∉ QUOTE_CHARS ∧ (tildetype_T.tt_single = tildetype_T.tt_multi → c ≠ Char.ofNat 58) :=
    fun c hc => ⟨hq c hc, fun e => by cases e⟩
  have hb : BSL ∉ Char.ofNat 47 :: r := fun hm => hq _ hm (by decide)
  constructor
  · intro h hh
    constructor
    · have ht := expand_tilde_home_slash sh st r false
      rw [hh] at ht
      have hs := expand_word_string_plain sh st false tildetype_T.tt_single sl
        (Char.ofNat 47 :: r) ((Char.ofNat 47 :: r).length + 1)
        { ok := true, indq := false, force := false, suppress := false,
          buf := escapefree h (some ESCAPED_CHARS),
          sbuf := List.replicate (escapefree h (some ESCAPED_CHARS)).length 0,
          valuelist := vl, splitlist := some sl }
        (Nat.lt_succ_self _) hplain rfl rfl (by simp)
      simp only [expand_word, tilde_word, expand_word_units, wordunit_T.nonnull, ht,
        Option.map_some', expand_word_open, ne_eq, reduceCtorEq, not_false_eq_true, and_self,
        if_true, List.nil_append, FILL_SBUF, Option.isSome_some, List.length_nil,
        Nat.sub_zero, hs, Res.bind, expand_word_close]
      rw [if_pos (Or.inl (by simp))]
      simp only [Option.map_some', List.length_append, List.replicate_add, List.length_cons]
    · rw [escapefree_eq_escape, unescape_escape_append, unescape_plain _ hb]
  · intro hh
    have ht := expand_tilde_home_slash sh st r false
    rw [hh] at ht
    have hplain2 : ∀ c ∈ Char.ofNat 126 :: Char.ofNat 47 :: r,
        c ∉ QUOTE_CHARS ∧
          (tildetype_T.tt_single = tildetype_T.tt_multi → c ≠ Char.ofNat 58) := by
      intro c hc
      rcases List.mem_cons.mp hc with e | hc2
      · exact ⟨e ▸ by decide, fun e2 => by cases e2⟩
      · exact hplain c hc2
    have hs := expand_word_string_plain sh st false tildetype_T.tt_single sl
      (Char.ofNat 126 :: Char.ofNat 47 :: r) ((Char.ofNat 126 :: Char.ofNat 47 :: r).length + 1)
      (expand_word_open vl (some sl)) (Nat.lt_succ_self _) hplain2 rfl rfl rfl
    simp only [expand_word, tilde_word, expand_word_units, wordunit_T.nonnull, ht,
      Option.map_none', ne_eq, reduceCtorEq, not_false_eq_true, and_self, if_true, hs,
      Res.bind, expand_word_close]
    rw [if_pos (Or.inl (by simp [expand_word_open]))]
    simp [expand_word_open]

theorem expand_word_tilde_home_witness :
    (expand_word (var_shell false) [("HOME", "/h".toList)]
        (tilde_word (Char.ofNat 47 :: "x".toList)) tildetype_T.tt_single [] (some []) =
      Res.ret [("HOME", "/h".toList)]
        (true, [] ++ [escapefree "/h".toList (some ESCAPED_CHARS) ++ Char.ofNat 47 :: "x".toList],
          some ([] ++ [List.replicate
            (escapefree "/h".toList (some ESCAPED_CHARS) ++
              Char.ofNat 47 :: "x".toList).length 0])) ∧
      unescape (escapefree "/h".toList (some ESCAPED_CHARS) ++ Char.ofNat 47 :: "x".toList) =
        "/h".toList ++ Char.ofNat 47 :: "x".toList) ∧
    escapefree "/h".toList (some ESCAPED_CHARS) ++ Char.ofNat 47 :: "x".toList =
      "/h/x".toList ∧
    expand_word (var_shell false) [] (tilde_word (Char.ofNat 47 :: "x".toList))
        tildetype_T.tt_single [] (some []) =
      Res.ret [] (true, [] ++ ["~/x".toList], some ([] ++ [List.replicate 3 0])) :=
  ⟨(expand_word_tilde_home (var_shell false) [("HOME", "/h".toList)] "x".toList [] []
      (by decide)).1 "/h".toList rfl,
    by decide,
    (expand_word_tilde_home (var_shell false) [] "x".toList [] [] (by decide)).2 rfl⟩

theorem expand_word_string_cons {σ : Type} (sh : Shell σ) (st : σ) (hasnext : Bool)
    (tilde : tildetype_T) (fuel : Nat) (c : Char) (ss1 : WStr) (x : xw_T) :
    expand_word_string sh st hasnext tilde (fuel + 1) (c :: ss1) x =
      if c = DQUOTE then
        expand_word_string sh st hasnext tilde fuel ss1
          { x with indq := !x.indq, force := true }
      else if c = SQUOTE ∧ x.indq = false then
        match add_sq (c :: ss1) true with
        | none => none
        | some r =>
          expand_word_string sh st hasnext tilde fuel (r.2.drop 1)
            (FILL_SBUF 0 { x with force := true, buf := x.buf ++ r.1 })
      else if c = BSL ∧ ¬ (x.indq = true ∧ wcschr_found ESCAPABLE_CHARS ss1.head? = false) then
        match ss1 with
        | [] =>
          expand_word_string sh st hasnext tilde fuel []
            (FILL_SBUF 0 { x with buf := x.buf ++ [BSL] })
        | d :: ss2 =>
          expand_word_string sh st hasnext tilde fuel ss2
            (FILL_SBUF 0 { x with buf := x.buf ++ [BSL, d] })
      else if c = Char.ofNat 58 ∧ x.indq = false ∧ tilde = tildetype_T.tt_multi then
        match expand_tilde sh st ss1 hasnext tilde with
        | some r =>
          expand_word_string sh st hasnext tilde fuel r.2
            (FILL_SBUF 0
              { x with buf := x.buf ++ [Char.ofNat 58] ++ escapefree r.1 (some ESCAPED_CHARS) })
        | none =>
          expand_word_string sh st hasnext tilde fuel ss1
            (FILL_SBUF 0 { x with buf := x.buf ++ [Char.ofNat 58] })
      else
        expand_word_string sh st hasnext tilde fuel ss1
          (FILL_SBUF 0 { x with buf := x.buf ++ (if x.indq then [BSL, c] else [c]) }) := by
  rfl

theorem FILL_SBUF_indq (c : Nat) (x : xw_T) : (FILL_SBUF c x).indq = x.indq := by
  unfold FILL_SBUF
  split <;> rfl

theorem FILL_SBUF_buf (c : Nat) (x : xw_T) : (FILL_SBUF c x).buf = x.buf := by
  unfold FILL_SBUF
  split <;> rfl

theorem expand_word_string_dq_escapable {σ : Type} (sh : Shell σ) (st : σ) (hasnext : Bool)
    (tilde : tildetype_T) (fuel : Nat) (c : Char) (rest : WStr) (x : xw_T)
    (hc : c ∈ ESCAPABLE_CHARS) :
    expand_word_string sh st hasnext tilde (fuel + 1) (BSL :: c :: rest) x =
      expand_word_string sh st hasnext tilde fuel rest
        (FILL_SBUF 0 { x with buf := x.buf ++ [BSL, c] }) := by
  have h1 : BSL ≠ DQUOTE := by decide
  have h2 : BSL ≠ SQUOTE := by decide
  have hw : wcschr_found ESCAPABLE_CHARS (some c) = true := by
    unfold wcschr_found
    simpa using hc
  have hcond : BSL = BSL ∧
      ¬ (x.indq = true ∧ wcschr_found ESCAPABLE_CHARS (c :: rest).head? = false) := by
    refine ⟨rfl, ?_⟩
    rw [List.head?_cons, hw]
    exact fun h => by cases h.2
  rw [expand_word_string_cons, if_neg h1, if_neg (fun h => h2 h.1), if_pos hcond]

theorem expand_word_string_dq_literal {σ : Type} (sh : Shell σ) (st : σ) (hasnext : Bool)
    (tilde : tildetype_T) (fuel : Nat) (c : Char) (rest : WStr) (x : xw_T)
    (hq : x.indq = true) (hc : c ∉ ESCAPABLE_CHARS) :
    expand_word_string sh st hasnext tilde (fuel + 2) (BSL :: c :: rest) x =
      expand_word_string sh st hasnext tilde fuel rest
        (FILL_SBUF 0
          { FILL_SBUF 0 { x with buf := x.buf ++ [BSL, BSL] } with
            buf := (FILL_SBUF 0 { x with buf := x.buf ++ [BSL, BSL] }).buf ++ [BSL, c] }) := by
  have h1 : BSL ≠ DQUOTE := by decide
  have h2 : BSL ≠ SQUOTE := by decide
  have h3 : BSL ≠ Char.ofNat 58 := by decide
  have hw : wcschr_found ESCAPABLE_CHARS (some c) = false := by
    unfold wcschr_found
    simpa using hc
  have c1 : c ≠ DQUOTE := fun e => hc (e ▸ by decide)
  have c3 : c ≠ BSL := fun e => hc (e ▸ by decide)
  have hcond : ¬ (BSL = BSL ∧
      ¬ (x.indq = true ∧ wcschr_found ESCAPABLE_CHARS (c :: rest).head? = false)) := by
    rw [List.head?_cons, hw]
    exact fun h => h.2 ⟨hq, rfl⟩
  have hbuf1 : x.buf ++ (if x.indq = true then [BSL, BSL] else [BSL]) = x.buf ++ [BSL, BSL] := by
    rw [if_pos hq]
  rw [expand_word_string_cons, if_neg h1, if_neg (fun h => h2 h.1), if_neg hcond,
    if_neg (fun h => h3 h.1), hbuf1]
  generalize hy : FILL_SBUF 0 { x with buf := x.buf ++ [BSL, BSL] } = y
  have hq2 : y.indq = true := by
    rw [← hy, FILL_SBUF_indq]; exact hq
  rw [expand_word_string_cons, if_neg c1, if_neg (fun h => by rw [hq2] at h; cases h.2),
    if_neg (fun h => c3 h.1), if_neg (fun h => by rw [hq2] at h; cases h.2.1), if_pos hq2]

theorem expand_word_string_dquote {σ : Type} (sh : Shell σ) (st : σ) (hasnext : Bool)
    (tilde : tildetype_T) (fuel : Nat) (rest : WStr) (x : xw_T) :
    expand_word_string sh st hasnext tilde (fuel + 1) (DQUOTE :: rest) x =
      expand_word_string sh st hasnext tilde fuel rest
        { x with indq := !x.indq, force := true } := by
  rw [expand_word_string_cons, if_pos rfl]

theorem expand_word_string_nil {σ : Type} (sh : Shell σ) (st : σ) (hasnext : Bool)
    (tilde : tildetype_T) (fuel : Nat) (x : xw_T) :
    expand_word_string sh st hasnext tilde fuel [] x = some x := by
  cases fuel <;> rfl

theorem expand_word_units_string_dquote {σ : Type} (sh : Shell σ) (tilde : tildetype_T)
    (rest : WStr) (first : Bool) (st : σ) (x : xw_T) :
    expand_word_units sh tilde (wordunit_T.WT_STRING (DQUOTE :: rest) wordunit_T.NULL) first
        st x =
      match expand_word_string sh st false tilde (rest.length + 1) rest
          { x with indq := !x.indq, force := true } with
      | none => Res.fault
      | some x2 => Res.ret st x2 := by
  have ht : expand_tilde sh st (DQUOTE :: rest) false tilde = none := by
    have hn : DQUOTE ≠ Char.ofNat 126 := by decide
    simp only [expand_tilde, if_pos hn]
  simp only [expand_word_units, wordunit_T.nonnull, ht, ite_self, List.length_cons,
    expand_word_string_dquote]

/-- C32. Inside double quotes in a literal unit: a backslash followed by `$`, a backquote,
`"` or a backslash is added to the buffer with that character, and quote removal gives the
character alone; a backslash followed by any other character is added as an escaped
backslash, then the character is added escaped, and quote removal gives the backslash and
the character. For the word made of a double-quoted backslash and `c`, `expand_word` adds
one value with these contents. -/
theorem expand_word_dquoted_backslash {σ : Type} (sh : Shell σ) (st : σ)
    (tilde : tildetype_T) (c : Char) :
    (∀ (hasnext : Bool) (fuel : Nat) (rest : WStr) (x : xw_T), c ∈ ESCAPABLE_CHARS →
      expand_word_string sh st hasnext tilde (fuel + 1) (BSL :: c :: rest) x =
        expand_word_string sh st hasnext tilde fuel rest
          (FILL_SBUF 0 { x with buf := x.buf ++ [BSL, c] }) ∧
      unescape [BSL, c] = [c]) ∧
    (∀ (hasnext : Bool) (fuel : Nat) (rest : WStr) (x : xw_T), x.indq = true →
      c ∉ ESCAPABLE_CHARS →
      expand_word_string sh st hasnext tilde (fuel + 2) (BSL :: c :: rest) x =
        expand_word_string sh st hasnext tilde fuel rest
          (FILL_SBUF 0
            { FILL_SBUF 0 { x with buf := x.buf ++ [BSL, BSL] } with
              buf := (FILL_SBUF 0 { x with buf := x.buf ++ [BSL, BSL] }).buf ++ [BSL, c] }) ∧
      unescape [BSL, BSL, BSL, c] = [BSL, c]) ∧
    (∀ (vl : List WStr) (sl : List (List Nat)),
      expand_word sh st (dquoted_backslash c) tilde vl (some sl) =
        Res.ret st (true,
          vl ++ [if c ∈ ESCAPABLE_CHARS then [BSL, c] else [BSL, BSL, BSL, c]],
          some (sl ++ [if c ∈ ESCAPABLE_CHARS then [0, 0] else [0, 0, 0, 0]]))) := by
  refine ⟨fun hasnext fuel rest x hc =>
      ⟨expand_word_string_dq_escapable sh st hasnext tilde fuel c rest x hc, rfl⟩,
    fun hasnext fuel rest x hq hc =>
      ⟨expand_word_string_dq_literal sh st hasnext tilde fuel c rest x hq hc, rfl⟩, ?_⟩
  intro vl sl
  unfold expand_word dquoted_backslash
  rw [expand_word_units_string_dquote]
  by_cases hc : c ∈ ESCAPABLE_CHARS
  · simp only [List.length_cons, List.length_nil, Nat.zero_add, Nat.reduceAdd]
    rw [expand_word_string_dq_escapable sh st false tilde 3 c [DQUOTE] _ hc,
      expand_word_string_dquote, expand_word_string_nil]
    simp [expand_word_open, FILL_SBUF, Res.bind, expand_word_close, hc]
  · simp only [List.length_cons, List.length_nil, Nat.zero_add, Nat.reduceAdd]
    rw [expand_word_string_dq_literal sh st false tilde 2 c [DQUOTE] _ rfl hc,
      expand_word_string_dquote, expand_word_string_nil]
    simp [expand_word_open, FILL_SBUF, Res.bind, expand_word_close, hc]

theorem expand_word_dquoted_backslash_witness :
    expand_word (var_shell false) [] (dquoted_backslash (Char.ofNat 36))
        tildetype_T.tt_single [] (some []) =
      Res.ret [] (true, [[BSL, Char.ofNat 36]], some [[0, 0]]) ∧
    expand_word (var_shell false) [] (dquoted_backslash (Char.ofNat 110))
        tildetype_T.tt_single [] (some []) =
      Res.ret [] (true, [[BSL, BSL, BSL, Char.ofNat 110]], some [[0, 0, 0, 0]]) :=
  ⟨(expand_word_dquoted_backslash (var_shell false) [] tildetype_T.tt_single
      (Char.ofNat 36)).2.2 [] [],
    (expand_word_dquoted_backslash (var_shell false) [] tildetype_T.tt_single
      (Char.ofNat 110)).2.2 [] []⟩

end LastClaimsA

/-! ## expand.c: the scan of subst_generic_each (C33) -/

section SubstGeneric

theorem subst_generic_loop_succ {σ : Type} (sh : Shell σ) (pattern subst : WStr)
    (substall : Bool) (s : WStr) (fuel index : Nat) (buf : WStr) :
    subst_generic_loop sh pattern subst substall s (fuel + 1) index buf =
      match s[index]? with
      | none => some buf
      | some c =>
        if sh.wfnmatchl pattern (s.drop index) (wfnm_flags sh) wfnmtype.WFNM_LONGEST
            (sh.shortest_match_length pattern (wfnm_flags sh)) = WFNM_ERROR then none
        else if sh.wfnmatchl pattern (s.drop index) (wfnm_flags sh) wfnmtype.WFNM_LONGEST
            (sh.shortest_match_length pattern (wfnm_flags sh)) ≠ WFNM_NOMATCH ∧
            sh.wfnmatchl pattern (s.drop index) (wfnm_flags sh) wfnmtype.WFNM_LONGEST
              (sh.shortest_match_length pattern (wfnm_flags sh)) > 0 then
          if !substall then
            some (buf ++ subst ++ s.drop (index +
              sh.wfnmatchl pattern (s.drop index) (wfnm_flags sh) wfnmtype.WFNM_LONGEST
                (sh.shortest_match_length pattern (wfnm_flags sh))))
          else
            subst_generic_loop sh pattern subst substall s fuel
              (index + sh.wfnmatchl pattern (s.drop index) (wfnm_flags sh)
                wfnmtype.WFNM_LONGEST (sh.shortest_match_length pattern (wfnm_flags sh)))
              (buf ++ subst)
        else subst_generic_loop sh pattern subst substall s fuel (index + 1) (buf ++ [c]) := by
  rfl

theorem subst_generic_loop_fuel {σ : Type} (sh : Shell σ) (pattern subst : WStr)
    (substall : Bool) (s : WStr) :
    ∀ (fuel fuel1 index : Nat) (buf : WStr),
      s.length < index + fuel → s.length < index + fuel1 →
      subst_generic_loop sh pattern subst substall s fuel index buf =
        subst_generic_loop sh pattern subst substall s fuel1 index buf := by
  intro fuel
  induction fuel with
  | zero =>
    intro fuel1 index buf h _
    cases fuel1 with
    | zero => rfl
    | succ f1 =>
      rw [subst_generic_loop_succ, List.getElem?_eq_none (by omega)]
      rfl
  | succ f ih =>
    intro fuel1 index buf h h1
    cases fuel1 with
    | zero =>
      rw [subst_generic_loop_succ, List.getElem?_eq_none (by omega)]
      rfl
    | succ f1 =>
      rw [subst_generic_loop_succ, subst_generic_loop_succ]
      cases hc : s[index]? with
      | none => rfl
      | some c =>
        simp only
        split
        · rfl
        · split
          · rename_i hm
            split
            · rfl
            · exact ih f1 _ _ (by omega) (by omega)
          · exact ih f1 _ _ (by omega) (by omega)

theorem subst_generic_loop_literal {σ : Type} (sh : Shell σ) (pattern subst : WStr)
    (c : Char) (s : WStr)
    (hm : ∀ t : WStr, sh.wfnmatchl pattern t (wfnm_flags sh) wfnmtype.WFNM_LONGEST
        (sh.shortest_match_length pattern (wfnm_flags sh)) =
      if t.head? = some c then 1 else WFNM_NOMATCH) :
    ∀ (fuel index : Nat) (buf : WStr), s.length < index + fuel →
      subst_generic_loop sh pattern subst true s fuel index buf =
        some (buf ++ replace_char c subst (s.drop index)) := by
  intro fuel
  induction fuel with
  | zero =>
    intro index buf h
    rw [List.drop_eq_nil_of_le (by omega)]
    simp [subst_generic_loop, replace_char]
  | succ f ih =>
    intro index buf h
    rw [subst_generic_loop_succ]
    cases hc : s[index]? with
    | none =>
      have hlen : s.length ≤ index := List.getElem?_eq_none_iff.mp hc
      rw [List.drop_eq_nil_of_le hlen]
      simp [replace_char]
    | some a =>
      have hi : index < s.length := by
        by_contra hcon
        rw [List.getElem?_eq_none (by omega)] at hc
        cases hc
      have hd : s.drop index = a :: s.drop (index + 1) := by
        rw [List.drop_eq_getElem_cons hi]
        congr 1
        have := List.getElem?_eq_getElem hi
        rw [this] at hc
        exact Option.some.inj hc
      have hhead : (s.drop index).head? = some a := by rw [hd]; rfl
      simp only [hm, hhead, Option.some.injEq]
      by_cases hac : a = c
      · rw [if_pos hac]
        have e1 : ¬ ((1 : Nat) = WFNM_ERROR) := by decide
        have e2 : (1 : Nat) ≠ WFNM_NOMATCH ∧ (1 : Nat) > 0 := by decide
        rw [if_neg e1, if_pos e2]
        simp only [Bool.not_true, Bool.false_eq_true, if_false]
        rw [ih (index + 1) _ (by omega), hd]
        simp only [replace_char, List.flatMap_cons, if_pos hac, List.append_assoc]
      · rw [if_neg hac]
        have e1 : ¬ (WFNM_NOMATCH = WFNM_ERROR) := by decide
        have e2 : ¬ (WFNM_NOMATCH ≠ WFNM_NOMATCH ∧ WFNM_NOMATCH > 0) := fun h => h.1 rfl
        rw [if_neg e1, if_neg e2]
        rw [ih (index + 1) _ (by omega), hd]
        simp only [replace_char, List.flatMap_cons, if_neg hac, List.append_assoc,
          List.singleton_append]

/-- C33. The scan of `subst_generic_each` over one string ends for every string, every
replacement and every matcher: an iteration goes on with the index increased by the match
length when it is positive and by one otherwise, and the result does not depend on the bound
on the iterations once the bound exceeds what is left of the string. With `substall`, for a
matcher that matches exactly the one-character literal `c`, the result is the string with
every occurrence of `c` replaced by the replacement. -/
theorem subst_generic_each_terminates {σ : Type} (sh : Shell σ) (pattern subst : WStr)
    (substall : Bool) (s : WStr) :
    (∀ (fuel fuel1 index : Nat) (buf : WStr),
      s.length < index + fuel → s.length < index + fuel1 →
      subst_generic_loop sh pattern subst substall s fuel index buf =
        subst_generic_loop sh pattern subst substall s fuel1 index buf) ∧
    (∀ (fuel index : Nat) (buf : WStr) (a : Char), s[index]? = some a →
      sh.wfnmatchl pattern (s.drop index) (wfnm_flags sh) wfnmtype.WFNM_LONGEST
        (sh.shortest_match_length pattern (wfnm_flags sh)) = 0 →
      subst_generic_loop sh pattern subst substall s (fuel + 1) index buf =
        subst_generic_loop sh pattern subst substall s fuel (index + 1) (buf ++ [a])) ∧
    (∀ (fuel index : Nat) (buf : WStr) (a : Char) (m : Nat), s[index]? = some a →
      sh.wfnmatchl pattern (s.drop index) (wfnm_flags sh) wfnmtype.WFNM_LONGEST
        (sh.shortest_match_length pattern (wfnm_flags sh)) = m →
      0 < m → m ≠ WFNM_NOMATCH → m ≠ WFNM_ERROR →
      subst_generic_loop sh pattern subst true s (fuel + 1) index buf =
        subst_generic_loop sh pattern subst true s fuel (index + m) (buf ++ subst)) ∧
    (∀ (c : Char) (slist : List WStr),
      (∀ t : WStr, sh.wfnmatchl pattern t (wfnm_flags sh) wfnmtype.WFNM_LONGEST
          (sh.shortest_match_length pattern (wfnm_flags sh)) =
        if t.head? = some c then 1 else WFNM_NOMATCH) →
      subst_generic_each sh pattern subst true slist =
        slist.map (replace_char c subst)) := by
  refine ⟨subst_generic_loop_fuel sh pattern subst substall s, ?_, ?_, ?_⟩
  · intro fuel index buf a ha hz
    rw [subst_generic_loop_succ, ha]
    simp only [hz]
    have e1 : ¬ ((0 : Nat) = WFNM_ERROR) := by decide
    have e2 : ¬ ((0 : Nat) ≠ WFNM_NOMATCH ∧ (0 : Nat) > 0) := fun h => absurd h.2 (by decide)
    rw [if_neg e1, if_neg e2]
  · intro fuel index buf a m ha hm hpos hn he
    rw [subst_generic_loop_succ, ha]
    simp only [hm]
    rw [if_neg he, if_pos ⟨hn, hpos⟩]
    rfl
  · intro c slist hm
    induction slist with
    | nil => rfl
    | cons s1 slist ih =>
      rw [subst_generic_each,
        subst_generic_loop_literal sh pattern subst c s1 hm (s1.length + 1) 0 [] (by omega)]
      simp only [List.nil_append, List.drop_zero, ih, List.map_cons]

theorem literal_shell_one_char (c : Char) (flags minlen : Nat) (t : WStr) :
    literal_shell.wfnmatchl [c] t flags wfnmtype.WFNM_LONGEST minlen =
      if t.head? = some c then 1 else WFNM_NOMATCH := by
  show (if List.isPrefixOf [c] t = true then [c].length else WFNM_NOMATCH) = _
  cases t with
  | nil => rfl
  | cons x t =>
    by_cases hx : x = c
    · subst hx
      simp [List.isPrefixOf]
    · have h2 : ¬ ((x :: t).head? = some c) := by simpa using hx
      have h3 : List.isPrefixOf [c] (x :: t) = false := by
        simp [List.isPrefixOf, Ne.symm hx]
      rw [if_neg h2, h3]
      rfl

theorem subst_generic_each_terminates_witness :
    subst_generic_each literal_shell "a".toList "Z".toList true ["abcabc".toList] =
      ["abcabc".toList].map (replace_char (Char.ofNat 97) "Z".toList) ∧
    ["abcabc".toList].map (replace_char (Char.ofNat 97) "Z".toList) = ["ZbcZbc".toList] ∧
    expand_param literal_shell
        (paramexp_T.mk PT_SUBST_ALL "X" wordunit_T.NULL
          (wordunit_T.WT_STRING "a".toList wordunit_T.NULL)
          (wordunit_T.WT_STRING "Z".toList wordunit_T.NULL))
        false tildetype_T.tt_single [("X", "abcabc".toList)] =
      Res.ret [("X", "abcabc".toList)] (some ["ZbcZbc".toList]) :=
  ⟨(subst_generic_each_terminates literal_shell "a".toList "Z".toList true []).2.2.2
      (Char.ofNat 97) ["abcabc".toList]
      (fun t => literal_shell_one_char (Char.ofNat 97) _ _ t),
    by decide, by rfl⟩

end SubstGeneric

/-! ## expand.c: unquote and the quote removal of expand_word agree (C39) -/

section UnquoteAgree

theorem esc_balanced_nil : esc_balanced [] := fun _ => rfl

theorem esc_balanced_append (e1 e2 : WStr) (h1 : esc_balanced e1) (h2 : esc_balanced e2) :
    esc_balanced (e1 ++ e2) := by
  intro t
  rw [List.append_assoc, h1, h2, h1, List.append_assoc]

theorem esc_balanced_pair (c : Char) : esc_balanced [BSL, c] := fun _ => rfl

theorem esc_balanced_single (c : Char) (h : c ≠ BSL) : esc_balanced [c] := by
  intro t
  rw [List.singleton_append, unescape_cons_ne c t h, unescape_cons_ne c [] h]
  rfl

theorem unescape_append_balanced (e1 e2 : WStr) (h1 : esc_balanced e1) :
    unescape (e1 ++ e2) = unescape e1 ++ unescape e2 := h1 e2

theorem add_sq_loop_closed (q s : WStr) (hq : SQUOTE ∉ q) (esc : Bool) :
    add_sq_loop (q ++ SQUOTE :: s) esc =
      some (q.flatMap (fun c => if esc then [BSL, c] else [c]), SQUOTE :: s) := by
  induction q with
  | nil => simp [add_sq_loop]
  | cons a q ih =>
    have ha : a ≠ SQUOTE := fun e => hq (e ▸ List.mem_cons_self _ _)
    rw [List.cons_append, add_sq_loop, if_neg ha,
      ih (fun hm => hq (List.mem_cons_of_mem _ hm))]
    simp only [List.flatMap_cons]

theorem esc_balanced_all (q : WStr) : esc_balanced (q.flatMap (fun c => [BSL, c])) := by
  induction q with
  | nil => exact esc_balanced_nil
  | cons a q ih =>
    rw [List.flatMap_cons]
    exact esc_balanced_append _ _ (esc_balanced_pair a) ih

theorem unescape_all (q : WStr) : unescape (q.flatMap (fun c => [BSL, c])) = q := by
  induction q with
  | nil => rfl
  | cons a q ih =>
    rw [List.flatMap_cons, unescape_append_balanced _ _ (esc_balanced_pair a), ih]
    rfl

theorem flatMap_singleton_id (q : WStr) : q.flatMap (fun c => [c]) = q := by
  induction q with
  | nil => rfl
  | cons a q ih => rw [List.flatMap_cons, ih]; rfl

theorem unquote_loop_cons (fuel : Nat) (c : Char) (s1 : WStr) (indq : Bool) (buf : WStr) :
    unquote_loop (fuel + 1) (c :: s1) indq buf =
      if c = SQUOTE ∧ indq = false then
        match add_sq (c :: s1) false with
        | none => none
        | some r => unquote_loop fuel (r.2.drop 1) indq (buf ++ r.1)
      else if c = DQUOTE then unquote_loop fuel s1 (!indq) buf
      else
        match s1 with
        | d :: s2 =>
          if c = BSL ∧ (indq = false ∨ d ∈ ESCAPABLE_CHARS) then
            unquote_loop fuel s2 indq (buf ++ [d])
          else unquote_loop fuel s1 indq (buf ++ [c])
        | [] => unquote_loop fuel s1 indq (buf ++ [c]) := by
  rfl

theorem unquote_loop_plain (fuel : Nat) (c : Char) (s1 : WStr) (indq : Bool) (buf : WStr)
    (h1 : c ≠ DQUOTE) (h2 : c ≠ BSL) (h3 : indq = true ∨ c ≠ SQUOTE) :
    unquote_loop (fuel + 1) (c :: s1) indq buf = unquote_loop fuel s1 indq (buf ++ [c]) := by
  have hs : ¬ (c = SQUOTE ∧ indq = false) := by
    rintro ⟨e1, e2⟩
    rcases h3 with h | h
    · rw [h] at e2; cases e2
    · exact h e1
  rw [unquote_loop_cons, if_neg hs, if_neg h1]
  cases s1 with
  | nil => rfl
  | cons d s2 =>
    simp only
    rw [if_neg (fun h => h2 h.1)]

theorem unquote_loop_escape (fuel : Nat) (d : Char) (s2 : WStr) (indq : Bool) (buf : WStr)
    (h : indq = false ∨ d ∈ ESCAPABLE_CHARS) :
    unquote_loop (fuel + 1) (BSL :: d :: s2) indq buf =
      unquote_loop fuel s2 indq (buf ++ [d]) := by
  have h1 : ¬ (BSL = SQUOTE ∧ indq = false) := fun hh => absurd hh.1 (by decide)
  have h2 : BSL ≠ DQUOTE := by decide
  rw [unquote_loop_cons, if_neg h1, if_neg h2]
  exact if_pos ⟨rfl, h⟩

theorem unquote_loop_backslash (fuel : Nat) (d : Char) (s2 : WStr) (buf : WStr)
    (h : d ∉ ESCAPABLE_CHARS) :
    unquote_loop (fuel + 1) (BSL :: d :: s2) true buf =
      unquote_loop fuel (d :: s2) true (buf ++ [BSL]) := by
  have h1 : ¬ (BSL = SQUOTE ∧ true = false) := fun hh => absurd hh.1 (by decide)
  have h2 : BSL ≠ DQUOTE := by decide
  have h3 : ¬ (BSL = BSL ∧ (true = false ∨ d ∈ ESCAPABLE_CHARS)) := by
    rintro ⟨_, hh | hh⟩
    · cases hh
    · exact h hh
  rw [unquote_loop_cons, if_neg h1, if_neg h2]
  exact if_neg h3

theorem FILL_SBUF_piece (ok q f sp : Bool) (buf p : WStr) (sbuf : List Nat) (vl : List WStr)
    (l : List (List Nat)) (h : sbuf.length = buf.length) :
    FILL_SBUF 0
        { ok := ok, indq := q, force := f, suppress := sp, buf := buf ++ p, sbuf := sbuf,
          valuelist := vl, splitlist := some l } =
      { ok := ok, indq := q, force := f, suppress := sp, buf := buf ++ p,
        sbuf := sbuf ++ List.replicate p.length 0, valuelist := vl, splitlist := some l } := by
  rw [FILL_SBUF_some 0 _ l rfl]
  simp only [List.length_append, h, Nat.add_sub_cancel_left]

theorem xw_append_piece (ok f sp : Bool) (buf p e : WStr) (sbuf : List Nat) (vl : List WStr)
    (l : List (List Nat)) :
    ({ ok := ok, indq := false, force := f, suppress := sp, buf := buf ++ p ++ e,
        sbuf := sbuf ++ List.replicate p.length 0 ++ List.replicate e.length 0,
        valuelist := vl, splitlist := some l } : xw_T) =
      { ok := ok, indq := false, force := f, suppress := sp, buf := buf ++ (p ++ e),
        sbuf := sbuf ++ List.replicate (p ++ e).length 0, valuelist := vl,
        splitlist := some l } := by
  rw [List.append_assoc, List.append_assoc, List.length_append, List.replicate_add]

theorem expand_word_string_unquote {σ : Type} (sh : Shell σ) (st : σ) (hasnext : Bool)
    (l : List (List Nat)) :
    ∀ (b : Bool) (r : WStr), lit_closed b r →
      ∀ (fuel fuelu : Nat) (ok force suppress : Bool) (buf : WStr) (sbuf : List Nat)
        (vl : List WStr) (ub : WStr),
        r.length < fuel → r.length < fuelu → sbuf.length = buf.length →
        ∃ (e : WStr) (f : Bool),
          expand_word_string sh st hasnext tildetype_T.tt_none fuel r
              { ok := ok, indq := b, force := force, suppress := suppress, buf := buf,
                sbuf := sbuf, valuelist := vl, splitlist := some l } =
            some
              { ok := ok, indq := false, force := f, suppress := suppress, buf := buf ++ e,
                sbuf := sbuf ++ List.replicate e.length 0, valuelist := vl,
                splitlist := some l } ∧
          esc_balanced e ∧ unquote_loop fuelu r b ub = some (ub ++ unescape e) := by
  intro b r h
  induction h with
  | nil =>
    intro fuel fuelu ok force suppress buf sbuf vl ub hf hfu _
    refine ⟨[], force, ?_, esc_balanced_nil, ?_⟩
    · rw [expand_word_string_nil]
      simp
    · obtain ⟨k, rfl⟩ : ∃ k, fuelu = k + 1 := ⟨fuelu - 1, by simp at hfu; omega⟩
      simp [unquote_loop, unescape]
  | dquote b s _ ih =>
    intro fuel fuelu ok force suppress buf sbuf vl ub hf hfu hlen
    simp only [List.length_cons] at hf hfu
    obtain ⟨k, rfl⟩ : ∃ k, fuel = k + 1 := ⟨fuel - 1, by omega⟩
    obtain ⟨ku, rfl⟩ : ∃ k, fuelu = k + 1 := ⟨fuelu - 1, by omega⟩
    obtain ⟨e, f, h1, h2, h3⟩ := ih k ku ok true suppress buf sbuf vl ub (by omega) (by omega)
      hlen
    refine ⟨e, f, ?_, h2, ?_⟩
    · rw [expand_word_string_dquote]
      exact h1
    · have hs : ¬ (DQUOTE = SQUOTE ∧ b = false) := fun hh => absurd hh.1 (by decide)
      rw [unquote_loop_cons, if_neg hs, if_pos rfl]
      exact h3
  | squote q s hq _ ih =>
    intro fuel fuelu ok force suppress buf sbuf vl ub hf hfu hlen
    simp only [List.length_cons, List.length_append] at hf hfu
    obtain ⟨k, rfl⟩ : ∃ k, fuel = k + 1 := ⟨fuel - 1, by omega⟩
    obtain ⟨ku, rfl⟩ : ∃ k, fuelu = k + 1 := ⟨fuelu - 1, by omega⟩
    have hn : SQUOTE ≠ DQUOTE := by decide
    have ha1 : add_sq (SQUOTE :: (q ++ SQUOTE :: s)) true =
        some (q.flatMap (fun c => [BSL, c]), SQUOTE :: s) := by
      unfold add_sq
      rw [List.drop_one, List.tail_cons, add_sq_loop_closed q s hq true]
      rfl
    have ha2 : add_sq (SQUOTE :: (q ++ SQUOTE :: s)) false = some (q, SQUOTE :: s) := by
      unfold add_sq
      rw [List.drop_one, List.tail_cons, add_sq_loop_closed q s hq false]
      simp only [Bool.false_eq_true, if_false, flatMap_singleton_id]
    obtain ⟨e, f, h1, h2, h3⟩ := ih k ku ok true suppress
      (buf ++ q.flatMap (fun c => [BSL, c]))
      (sbuf ++ List.replicate (q.flatMap (fun c => [BSL, c])).length 0) vl (ub ++ q)
      (by omega) (by omega)
      (by simp only [List.length_append, List.length_replicate, hlen])
    refine ⟨q.flatMap (fun c => [BSL, c]) ++ e, f, ?_,
      esc_balanced_append _ _ (esc_balanced_all q) h2, ?_⟩
    · rw [expand_word_string_cons, if_neg hn, if_pos ⟨rfl, rfl⟩, ha1]
      simp only [List.drop_one, List.tail_cons]
      rw [FILL_SBUF_piece _ _ _ _ _ _ _ _ _ hlen, h1, xw_append_piece]
    · rw [unquote_loop_cons, if_pos ⟨rfl, rfl⟩, ha2]
      simp only [List.drop_one, List.tail_cons]
      rw [h3, unescape_append_balanced _ _ (esc_balanced_all q), unescape_all,
        List.append_assoc]
  | esc_out d s _ ih =>
    intro fuel fuelu ok force suppress buf sbuf vl ub hf hfu hlen
    simp only [List.length_cons] at hf hfu
    obtain ⟨k, rfl⟩ : ∃ k, fuel = k + 1 := ⟨fuel - 1, by omega⟩
    obtain ⟨ku, rfl⟩ : ∃ k, fuelu = k + 1 := ⟨fuelu - 1, by omega⟩
    have h1n : BSL ≠ DQUOTE := by decide
    have h2n : BSL ≠ SQUOTE := by decide
    obtain ⟨e, f, h1, h2, h3⟩ := ih k ku ok force suppress (buf ++ [BSL, d])
      (sbuf ++ List.replicate [BSL, d].length 0) vl (ub ++ [d]) (by omega) (by omega)
      (by simp only [List.length_append, List.length_replicate, hlen])
    refine ⟨[BSL, d] ++ e, f, ?_, esc_balanced_append _ _ (esc_balanced_pair d) h2, ?_⟩
    · rw [expand_word_string_cons, if_neg h1n, if_neg (fun hh => h2n hh.1),
        if_pos ⟨rfl, fun hh => by cases hh.1⟩]
      simp only
      rw [FILL_SBUF_piece _ _ _ _ _ _ _ _ _ hlen, h1, xw_append_piece]
    · rw [unquote_loop_escape ku d s false ub (Or.inl rfl), h3,
        unescape_append_balanced _ _ (esc_balanced_pair d), List.append_assoc]
      rfl
  | esc_in d s hd _ ih =>
    intro fuel fuelu ok force suppress buf sbuf vl ub hf hfu hlen
    simp only [List.length_cons] at hf hfu
    obtain ⟨k, rfl⟩ : ∃ k, fuel = k + 1 := ⟨fuel - 1, by omega⟩
    obtain ⟨ku, rfl⟩ : ∃ k, fuelu = k + 1 := ⟨fuelu - 1, by omega⟩
    have h1n : BSL ≠ DQUOTE := by decide
    have h2n : BSL ≠ SQUOTE := by decide
    obtain ⟨e, f, h1, h2, h3⟩ := ih k ku ok force suppress (buf ++ [BSL, d])
      (sbuf ++ List.replicate [BSL, d].length 0) vl (ub ++ [d]) (by omega) (by omega)
      (by simp only [List.length_append, List.length_replicate, hlen])
    refine ⟨[BSL, d] ++ e, f, ?_, esc_balanced_append _ _ (esc_balanced_pair d) h2, ?_⟩
    · rw [expand_word_string_dq_escapable sh st hasnext _ k d s _ hd]
      simp only
      rw [FILL_SBUF_piece _ _ _ _ _ _ _ _ _ hlen, h1, xw_append_piece]
    · rw [unquote_loop_escape ku d s true ub (Or.inr hd), h3,
        unescape_append_balanced _ _ (esc_balanced_pair d), List.append_assoc]
      rfl
  | bsl_in d s hd _ ih =>
    intro fuel fuelu ok force suppress buf sbuf vl ub hf hfu hlen
    simp only [List.length_cons] at hf hfu
    obtain ⟨k, rfl⟩ : ∃ k, fuel = k + 1 := ⟨fuel - 1, by omega⟩
    obtain ⟨ku, rfl⟩ : ∃ k, fuelu = k + 1 := ⟨fuelu - 1, by omega⟩
    have h1n : BSL ≠ DQUOTE := by decide
    have h2n : BSL ≠ SQUOTE := by decide
    have h3n : BSL ≠ Char.ofNat 58 := by decide
    have hw : wcschr_found ESCAPABLE_CHARS (some d) = false := by
      unfold wcschr_found
      simpa using hd
    obtain ⟨e, f, h1, h2, h3⟩ := ih k ku ok force suppress (buf ++ [BSL, BSL])
      (sbuf ++ List.replicate [BSL, BSL].length 0) vl (ub ++ [BSL])
      (by simp only [List.length_cons]; omega) (by simp only [List.length_cons]; omega)
      (by simp only [List.length_append, List.length_replicate, hlen])
    refine ⟨[BSL, BSL] ++ e, f, ?_, esc_balanced_append _ _ (esc_balanced_pair BSL) h2, ?_⟩
    · have hcond : ¬ (BSL = BSL ∧
          ¬ (true = true ∧ wcschr_found ESCAPABLE_CHARS (d :: s).head? = false)) := by
        rw [List.head?_cons, hw]
        exact fun hh => hh.2 ⟨rfl, rfl⟩
      rw [expand_word_string_cons, if_neg h1n, if_neg (fun hh => h2n hh.1), if_neg hcond,
        if_neg (fun hh => h3n hh.1)]
      simp only [if_true]
      rw [FILL_SBUF_piece _ _ _ _ _ _ _ _ _ hlen, h1, xw_append_piece]
    · rw [unquote_loop_backslash ku d s ub hd, h3,
        unescape_append_balanced _ _ (esc_balanced_pair BSL), List.append_assoc]
      rfl
  | plain b c s hc1 hc2 hc3 _ ih =>
    intro fuel fuelu ok force suppress buf sbuf vl ub hf hfu hlen
    simp only [List.length_cons] at hf hfu
    obtain ⟨k, rfl⟩ : ∃ k, fuel = k + 1 := ⟨fuel - 1, by omega⟩
    obtain ⟨ku, rfl⟩ : ∃ k, fuelu = k + 1 := ⟨fuelu - 1, by omega⟩
    have hs : ¬ (c = SQUOTE ∧ b = false) := by
      rintro ⟨e1, e2⟩
      rcases hc3 with h | h
      · rw [h] at e2; cases e2
      · exact h e1
    have hpb : esc_balanced (if b = true then [BSL, c] else [c]) := by
      split
      · exact esc_balanced_pair c
      · exact esc_balanced_single c hc2
    have hpu : unescape (if b = true then [BSL, c] else [c]) = [c] := by
      split
      · rfl
      · rw [unescape_cons_ne c [] hc2]; rfl
    obtain ⟨e, f, h1, h2, h3⟩ := ih k ku ok force suppress
      (buf ++ (if b = true then [BSL, c] else [c]))
      (sbuf ++ List.replicate (if b = true then [BSL, c] else [c]).length 0) vl (ub ++ [c])
      (by omega) (by omega)
      (by simp only [List.length_append, List.length_replicate, hlen])
    refine ⟨(if b = true then [BSL, c] else [c]) ++ e, f, ?_,
      esc_balanced_append _ _ hpb h2, ?_⟩
    · rw [expand_word_string_cons, if_neg hc1, if_neg hs, if_neg (fun hh => hc2 hh.1),
        if_neg (fun hh => by cases hh.2.2)]
      simp only
      rw [FILL_SBUF_piece _ _ _ _ _ _ _ _ _ hlen, h1, xw_append_piece]
    · rw [unquote_loop_plain ku c s b ub hc1 hc2 hc3, h3,
        unescape_append_balanced _ _ hpb, hpu, List.append_assoc]

/-- C39. For every literal string `s` in which every single quote and double quote is closed
and which does not end with a lone backslash, `expand_word` with the tilde type `tt_none` on
the single-literal word `s` adds at most one value, un-escaping what it adds gives the
result of `unquote(s)`, and the splittability string added with it holds only zeros. -/
theorem expand_word_unquote {σ : Type} (sh : Shell σ) (st : σ) (s : WStr) (vl : List WStr)
    (sl : List (List Nat)) (h : lit_closed false s) :
    ∃ (vs : List WStr) (ss : List (List Nat)),
      expand_word sh st (literal_word s) tildetype_T.tt_none vl (some sl) =
        Res.ret st (true, vl ++ vs, some (sl ++ ss)) ∧
      vs.length ≤ 1 ∧ unquote s = some (vs.flatMap unescape) ∧
      ∀ z ∈ ss, ∀ b ∈ z, b = 0 := by
  obtain ⟨e, f, h1, _, h3⟩ := expand_word_string_unquote sh st false sl false s h
    (s.length + 1) (s.length + 1) true false false [] [] vl [] (Nat.lt_succ_self _)
    (Nat.lt_succ_self _) rfl
  have hu : unquote s = some (unescape e) := by
    unfold unquote
    rw [h3, List.nil_append]
  have hw : expand_word_units sh tildetype_T.tt_none (literal_word s) true st
      (expand_word_open vl (some sl)) =
      Res.ret st
        { ok := true, indq := false, force := f, suppress := false, buf := e,
          sbuf := List.replicate e.length 0, valuelist := vl, splitlist := some sl } := by
    simp only [literal_word, expand_word_units, ne_eq, not_true_eq_false, and_false,
      if_false, wordunit_T.nonnull, expand_word_open, h1, List.nil_append]
  unfold expand_word
  rw [hw]
  simp only [Res.bind, expand_word_close]
  by_cases hc : e.length > 0 ∨ (True ∧ f = true ∧ True)
  · rw [if_pos hc]
    refine ⟨[e], [List.replicate e.length 0], rfl, Nat.le_refl _, ?_, ?_⟩
    · rw [hu]
      simp
    · intro z hz b hb
      rw [List.mem_singleton.mp hz] at hb
      exact List.eq_of_mem_replicate hb
  · rw [if_neg hc]
    have he : e = [] := by
      cases e with
      | nil => rfl
      | cons a e => exact absurd (Or.inl (Nat.succ_pos _)) hc
    refine ⟨[], [], by simp, Nat.zero_le _, ?_, ?_⟩
    · rw [hu, he]
      rfl
    · intro z hz
      cases hz

theorem expand_word_unquote_witness :
    (∃ (vs : List WStr) (ss : List (List Nat)),
      expand_word (var_shell false) []
          (literal_word [Char.ofNat 97, DQUOTE, Char.ofNat 98, BSL, Char.ofNat 110, DQUOTE,
            SQUOTE, Char.ofNat 99, SQUOTE, BSL, Char.ofNat 100])
          tildetype_T.tt_none [] (some []) =
        Res.ret [] (true, [] ++ vs, some ([] ++ ss)) ∧
      vs.length ≤ 1 ∧
      unquote [Char.ofNat 97, DQUOTE, Char.ofNat 98, BSL, Char.ofNat 110, DQUOTE,
            SQUOTE, Char.ofNat 99, SQUOTE, BSL, Char.ofNat 100] = some (vs.flatMap unescape) ∧
      ∀ z ∈ ss, ∀ b ∈ z, b = 0) ∧
    unquote [Char.ofNat 97, DQUOTE, Char.ofNat 98, BSL, Char.ofNat 110, DQUOTE,
        SQUOTE, Char.ofNat 99, SQUOTE, BSL, Char.ofNat 100] =
      some [Char.ofNat 97, Char.ofNat 98, BSL, Char.ofNat 110, Char.ofNat 99,
        Char.ofNat 100] :=
  ⟨expand_word_unquote (var_shell false) [] _ [] []
      (lit_closed.plain _ _ _ (by decide) (by decide) (Or.inr (by decide))
        (lit_closed.dquote _ _
          (lit_closed.plain _ _ _ (by decide) (by decide) (Or.inl rfl)
            (lit_closed.bsl_in _ _ (by decide)
              (lit_closed.plain _ _ _ (by decide) (by decide) (Or.inl rfl)
                (lit_closed.dquote _ _
                  (lit_closed.squote [Char.ofNat 99] _ (by decide)
                    (lit_closed.esc_out _ _ lit_closed.nil)))))))),
    by rfl⟩

end UnquoteAgree

/-! ## parser.c: the default branch of the token loop of parse_scmd (C38) -/

section ParserBodyEndProps

open c_type_T check_T

theorem reach_bind {α β : Type} (Q : α → Prop) (Q1 : β → Prop) (r : PRes α) (f : α → PRes β)
    (h : PRes.reach Q r) (hf : ∀ a, Q a → PRes.reach Q1 (f a)) : PRes.reach Q1 (r.bind f) := by
  cases r with
  | ok a => exact hf a h
  | err m => exact trivial
  | assert_failed g => exact h
  | undefined => exact trivial
  | timeout => exact trivial

theorem reach_mono {α : Type} (Q Q1 : α → Prop) (r : PRes α) (h : PRes.reach Q r)
    (hq : ∀ a, Q a → Q1 a) : PRes.reach Q1 r := by
  cases r with
  | ok a => exact hq a h
  | err m => exact trivial
  | assert_failed g => exact h
  | undefined => exact trivial
  | timeout => exact trivial

theorem check_to_PRes_reach {α : Type} (Q : α → Prop) (r : check_T) (a : α) (h : Q a) :
    PRes.reach Q (check_to_PRes r a) := by
  cases r with
  | ok => exact h
  | error => exact trivial
  | assert_failed => simp only [check_to_PRes, PRes.reach]; decide
  | out_of_bounds => exact trivial

theorem find_start_of_number_back_run :
    ∀ (rev : CStr) (n : Nat),
      find_start_of_number_back rev n = 0 ∨
        ∃ m, find_start_of_number_back rev n = n + m ∧ m ≤ rev.length ∧
          ∀ c ∈ rev.take m, is_digit_char c = true := by
  intro rev
  induction rev with
  | nil =>
    intro n
    exact Or.inr ⟨0, rfl, Nat.le_refl _, fun c hc => by cases hc⟩
  | cons a rev ih =>
    intro n
    rw [find_start_of_number_back]
    split
    · exact Or.inr ⟨0, rfl, Nat.zero_le _, fun c hc => by cases hc⟩
    · split
      · exact Or.inl rfl
      · rename_i hd
        have ha : is_digit_char a = true := by simpa using hd
        rcases ih (n + 1) with h0 | ⟨m, hm, hle, hall⟩
        · exact Or.inl h0
        · refine Or.inr ⟨m + 1, by rw [hm]; omega, by simp only [List.length_cons]; omega, ?_⟩
          intro c hc
          rw [List.take_succ_cons] at hc
          rcases List.mem_cons.mp hc with e | hc1
          · rw [e]; exact ha
          · exact hall c hc1

theorem find_start_of_number_run (pre t : CStr) :
    ∃ ds, find_start_of_number (pre ++ t) t = ds ++ t ∧ is_digit_run ds ∧
      ds ++ t <:+ pre ++ t := by
  have hbefore : (pre ++ t).take ((pre ++ t).length - t.length) = pre := by
    have hl : (pre ++ t).length - t.length = pre.length := by
      simp only [List.length_append]; omega
    rw [hl, List.take_left]
  unfold find_start_of_number
  simp only [hbefore]
  rcases find_start_of_number_back_run pre.reverse 0 with h0 | ⟨m, hm, hle, hall⟩
  · rw [h0, Nat.sub_zero, List.drop_left]
    refine ⟨[], rfl, ?_, List.suffix_append _ _⟩
    intro c hc
    cases hc
  · rw [hm, Nat.zero_add]
    rw [List.length_reverse] at hle
    refine ⟨pre.drop (pre.length - m), ?_, ?_, ?_⟩
    · rw [List.drop_append_of_le_length (by omega)]
    · intro c hc
      apply hall c
      rw [List.take_reverse]
      exact List.mem_reverse.mpr hc
    · rw [← List.drop_append_of_le_length (by omega)]
      exact List.drop_suffix _ _

theorem reach_of_ne {α : Type} (Q : α → Prop) (r : PRes α)
    (h1 : r ≠ PRes.assert_failed "parse_scmd") (h2 : ∀ a, r = PRes.ok a → Q a) :
    PRes.reach Q r := by
  cases r with
  | ok a => exact h2 a rfl
  | err m => exact trivial
  | assert_failed g =>
    intro e
    exact h1 (by rw [e])
  | undefined => exact trivial
  | timeout => exact trivial

theorem parse_redir_fd_reach (s : CStr) :
    PRes.reach (fun r => r.2 <:+ s) (parse_redir_fd s) := by
  apply reach_of_ne
  · intro h
    unfold parse_redir_fd at h
    repeat' first | split at h | dsimp only at h
    all_goals first | cases h | (injection h with h; revert h; decide)
  · intro a h
    unfold parse_redir_fd at h
    repeat' first | split at h | dsimp only at h
    all_goals cases h
    all_goals first
      | exact List.suffix_refl _
      | exact List.drop_suffix _ _

theorem parse_redir_op_reach (fd : Int) (s : CStr) :
    PRes.reach (fun r => r.2.2.2.2 <:+ s) (parse_redir_op fd s) := by
  apply reach_of_ne
  · intro h
    unfold parse_redir_op at h
    repeat' first | split at h | dsimp only at h
    all_goals cases h
  · intro a h
    unfold parse_redir_op at h
    repeat' first | split at h | dsimp only at h
    all_goals cases h
    all_goals first
      | exact List.suffix_cons _ _
      | exact (List.drop_suffix _ _).trans (List.suffix_cons _ _)
      | exact (List.drop_suffix _ _).trans
          ((List.drop_suffix _ _).trans (List.suffix_cons _ _))

theorem parse_redir_fdcopy_ne (file : CStr) :
    parse_redir_fdcopy file ≠ PRes.assert_failed "parse_scmd" := by
  intro h
  unfold parse_redir_fdcopy at h
  repeat' first | split at h | dsimp only at h
  all_goals cases h

theorem get_token_ne (s : CStr) : get_token s ≠ PRes.assert_failed "parse_scmd" := by
  intro h
  unfold get_token at h
  repeat' first | split at h | dsimp only at h
  all_goals first | cases h | (injection h with h; revert h; decide)

theorem parse_redir_tail_reach (env : ParserEnv) (fd1 : Int) (flags : Nat)
    (isfdcopy closes : Bool) (s2 : CStr) :
    PRes.reach (fun r => r.2 <:+ s2)
      (if closes then
        (PRes.ok ({ rd_flags := 0, rd_fd := fd1, rd_file := none }, s2) : PRes (REDIR × CStr))
      else
        match get_token (s2.dropWhile (fun c => c = Char.ofNat 32)) with
        | PRes.err m => PRes.err (m ++ ["invalid redirection (no file specified)"])
        | PRes.assert_failed g => PRes.assert_failed g
        | PRes.undefined => PRes.undefined
        | PRes.timeout => PRes.timeout
        | PRes.ok file0 =>
          if (file0.head? = some (Char.ofNat 34) ∨ file0.head? = some (Char.ofNat 39)) ∧
              ¬ (file0.getLast? = some (Char.ofNat 34) ∨
                file0.getLast? = some (Char.ofNat 39)) then PRes.assert_failed "parse_redir"
          else
            (if isfdcopy then
              parse_redir_fdcopy
                (if file0.head? = some (Char.ofNat 34) ∨ file0.head? = some (Char.ofNat 39)
                  then (file0.drop 1).take (file0.length - 2) else file0)
              else PRes.ok
                (if file0.head? = some (Char.ofNat 34) ∨ file0.head? = some (Char.ofNat 39)
                  then (file0.drop 1).take (file0.length - 2) else file0)).bind fun file2 =>
              PRes.ok ({ rd_flags := if isfdcopy then flags - (flags &&& O_CREAT) else flags,
                         rd_fd := fd1,
                         rd_file := some (if file2.head? = some (Char.ofNat 126) then
                            (match env.expand_tilde file2 with
                             | some f => f
                             | none => file2)
                          else file2) },
                (s2.dropWhile (fun c => c = Char.ofNat 32)).drop file0.length)) := by
  split
  · exact List.suffix_refl _
  · have hg := get_token_ne (s2.dropWhile (fun c => decide (c = Char.ofNat 32)))
    split
    · exact trivial
    · rename_i g hgt
      rw [hgt] at hg
      intro e
      exact hg (by rw [e])
    · exact trivial
    · exact trivial
    · split
      · simp only [PRes.reach]; decide
      · apply reach_bind (fun _ => True)
        · split
          · apply reach_of_ne
            · exact parse_redir_fdcopy_ne _
            · intro _ _; trivial
          · exact trivial
        · intro _ _
          exact (List.drop_suffix _ _).trans (List.dropWhile_suffix _)

theorem parse_redir_reach (env : ParserEnv) (s : CStr) :
    PRes.reach (fun r => r.2 <:+ s) (parse_redir env s) := by
  unfold parse_redir
  apply reach_bind _ _ _ _ (parse_redir_fd_reach s)
  intro a ha
  apply reach_bind _ _ _ _ (parse_redir_op_reach _ _)
  intro b hb
  exact reach_mono _ _ _ (parse_redir_tail_reach env b.1 b.2.1 b.2.2.1 b.2.2.2.1 b.2.2.2.2)
    (fun r hr => hr.trans (hb.trans ha))

theorem strcspn_drop_head (reject : CStr) :
    ∀ (s0 : CStr) (c : Char) (s1 : CStr), s0.drop (strcspn s0 reject) = c :: s1 → c ∈ reject := by
  intro s0
  induction s0 with
  | nil => intro c s1 h; simp [strcspn] at h
  | cons a s0 ih =>
    intro c s1 h
    rw [strcspn] at h
    split at h
    · rename_i ha
      rw [List.drop_zero] at h
      injection h with h1 h2
      rw [← h1]; exact ha
    · rw [List.drop_succ_cons] at h
      exact ih c s1 h

theorem body_end_handled (s : CStr) (h : body_end s)
    (h1 : ¬ (s = [] ∨ s.head?.any (fun c => decide (c ∈ SCMD_END)) = true)) :
    s.head?.any (fun c => c = Char.ofNat 60 || c = Char.ofNat 62 || is_digit_char c) = true := by
  rcases h with h | ⟨c, t, h, hc⟩ | ⟨ds, c, t, h, hds, hc⟩
  · exact absurd (Or.inl h) h1
  · exfalso
    apply h1
    right
    rw [h]
    simp only [List.head?_cons, Option.any_some, decide_eq_true_eq]
    simp only [BODY_END_CHARS, List.mem_cons, List.mem_singleton, List.not_mem_nil,
      or_false] at hc
    rcases hc with e | e | e | e | e | e <;> rw [e] <;> decide
  · rw [h]
    cases ds with
    | nil =>
      simp only [List.nil_append, List.head?_cons, Option.any_some]
      rcases hc with e | e <;> rw [e] <;> decide
    | cons d ds =>
      simp only [List.cons_append, List.head?_cons, Option.any_some]
      rw [hds d (List.mem_cons_self _ _)]
      simp

theorem body_stop_default (c : Char) (h : c ∈ BODY_STOP)
    (h1 : ¬ c = Char.ofNat 36) (h2 : ¬ c = Char.ofNat 34) (h3 : ¬ c = Char.ofNat 39)
    (h4 : ¬ c = Char.ofNat 92) (h5 : ¬ c = Char.ofNat 10)
    (h6 : ¬ (c = Char.ofNat 60 ∨ c = Char.ofNat 62)) : c ∈ BODY_END_CHARS := by
  simp only [BODY_STOP, List.mem_cons, List.mem_singleton, List.not_mem_nil, or_false] at h
  rcases h with e | e | e | e | e | e | e | e | e | e | e | e | e
  · exact absurd e h1
  · exact absurd e h2
  · exact absurd e h3
  · exact absurd e h4
  · rw [e]; decide
  · rw [e]; decide
  · rw [e]; decide
  · rw [e]; decide
  · rw [e]; decide
  · exact absurd (Or.inl e) h6
  · exact absurd (Or.inr e) h6
  · exact absurd e h5
  · rw [e]; decide

theorem parser_reach_zero (env : ParserEnv) : parser_reach_at env 0 := by
  unfold parser_reach_at
  refine ⟨?_, ?_, ?_, ?_, ?_, ?_, ?_, ?_, ?_⟩
  · intro s; rw [parse_commands]; exact trivial
  · intro a b; rw [parse_commands_loop]; exact trivial
  · intro s; rw [parse_scmd]; exact trivial
  · intro a b c d _; rw [parse_scmd_loop]; exact trivial
  · intro a b c; rw [try_wordexp]; exact trivial
  · intro a b _; rw [find_end_of_command_body]; exact trivial
  · intro s; rw [find_end_of_dquote]; exact trivial
  · intro s; rw [parse_subexp]; exact trivial
  · intro a b c d; rw [parse_subexp_loop]; exact trivial

theorem parser_reach_succ (env : ParserEnv) (halias : ∀ s, env.expand_alias s = s)
    (fuel : Nat) (ih : parser_reach_at env fuel) : parser_reach_at env (fuel + 1) := by
  obtain ⟨ih1, ih2, ih3, ih4, ih5, ih6, ih7, ih8, ih9⟩ := ih
  refine ⟨?_, ?_, ?_, ?_, ?_, ?_, ?_, ?_, ?_⟩
  · intro s
    rw [parse_commands_succ]
    apply reach_bind _ _ _ _ (ih3 s)
    intro r hr
    exact reach_mono _ _ _ (ih2 _ _) (fun a ha => ha.trans hr)
  · intro scmds ss
    rw [parse_commands_loop_succ]
    split
    · exact check_to_PRes_reach _ _ _ (List.suffix_refl _)
    · split
      · exact check_to_PRes_reach _ _ _ List.nil_suffix
      · split
        · exact check_to_PRes_reach _ _ _ (List.suffix_refl _)
        · split
          · rename_i c ss1 _ _ _
            have hss2 : (if (c = Char.ofNat 38 ∨ c = Char.ofNat 124) ∧ ss1.head? = some c
                then ss1.drop 1 else ss1) <:+ c :: ss1 := by
              split
              · exact (List.drop_suffix _ _).trans (List.suffix_cons _ _)
              · exact List.suffix_cons _ _
            apply reach_bind _ _ _ _ (ih3 _)
            intro r hr
            exact reach_mono _ _ _ (ih2 _ _) (fun a ha => ha.trans (hr.trans hss2))
          · exact trivial
  · intro s
    rw [parse_scmd_succ]
    simp only
    have hs1 : s.drop (env.skipwhites s) <:+ s := List.drop_suffix _ _
    split
    · exact reach_mono _ _ _ (ih8 _) (fun a ha => ha.trans hs1)
    · rw [halias]
      apply reach_bind _ _ _ _ (ih5 _ _ _)
      intro r hr
      exact reach_mono _ _ _ (ih4 _ _ _ _ hr.2) (fun a ha => ha.trans (hr.1.trans hs1))
  · intro olds s we redirs hbody
    rw [parse_scmd_loop_succ]
    split
    · exact List.suffix_refl _
    · rename_i h1
      rw [if_pos (body_end_handled s hbody h1)]
      apply reach_bind _ _ _ _ (parse_redir_reach env s)
      intro r hr
      apply reach_bind _ _ _ _ (ih5 _ _ _)
      intro r1 hr1
      exact reach_mono _ _ _ (ih4 _ _ _ _ hr1.2) (fun a ha => ha.trans (hr1.1.trans hr))
  · intro s p flags
    rw [try_wordexp_succ]
    apply reach_bind _ _ _ _ (ih6 s s (List.suffix_refl _))
    intro eoc heoc
    apply reach_of_ne
    · intro h
      repeat' first | split at h | dsimp only at h
      all_goals first | cases h | (injection h with h; revert h; decide)
    · intro a h
      repeat' first | split at h | dsimp only at h
      all_goals cases h
      all_goals exact heoc
  · intro olds s0 hs0
    rw [find_end_of_command_body_succ]
    simp only
    have hdrop : s0.drop (strcspn s0 BODY_STOP) <:+ olds := (List.drop_suffix _ _).trans hs0
    split
    · rename_i heq
      exact ⟨hdrop, Or.inl heq⟩
    · rename_i c s1 heq
      rw [heq] at hdrop
      have hs1 : s1 <:+ olds := (List.suffix_cons _ _).trans hdrop
      have hmem : c ∈ BODY_STOP := strcspn_drop_head BODY_STOP s0 c s1 heq
      split
      · split
        · apply reach_bind _ _ _ _ (ih1 _)
          intro r hr
          split
          · exact trivial
          · exact ih6 _ _ ((List.drop_suffix _ _).trans
              (hr.trans ((List.drop_suffix _ _).trans hs1)))
        · exact ih6 _ _ hs1
      · split
        · apply reach_bind _ _ _ _ (ih7 _)
          intro r hr
          exact ih6 _ _ (hr.trans hs1)
        · split
          · split
            · exact trivial
            · exact ih6 _ _ ((List.drop_suffix _ _).trans hs1)
          · split
            · split
              · exact trivial
              · rename_i x s2
                exact ih6 _ _ ((List.suffix_cons _ _).trans ((List.suffix_cons _ _).trans hdrop))
            · split
              · exact trivial
              · split
                · rename_i hc
                  obtain ⟨pre, hpre⟩ := hdrop
                  obtain ⟨ds, hds, hrun, hsuf⟩ := find_start_of_number_run pre (c :: s1)
                  rw [hpre] at hds hsuf
                  rw [heq]
                  show find_start_of_number olds (c :: s1) <:+ olds ∧
                    body_end (find_start_of_number olds (c :: s1))
                  rw [hds]
                  exact ⟨hsuf, Or.inr (Or.inr ⟨ds, c, s1, rfl, hrun, hc⟩)⟩
                · rename_i h1 h2 h3 h4 h5 h6
                  rw [heq]
                  exact ⟨hdrop, Or.inr (Or.inl ⟨c, s1, rfl,
                    body_stop_default c hmem h1 h2 h3 h4 h5 h6⟩)⟩
  · intro s0
    rw [find_end_of_dquote_succ]
    simp only
    have hdrop : s0.drop (strcspn s0 DQUOTE_STOP) <:+ s0 := List.drop_suffix _ _
    split
    · exact trivial
    · rename_i c s1 heq
      rw [heq] at hdrop
      have hs1 : s1 <:+ s0 := (List.suffix_cons _ _).trans hdrop
      split
      · split
        · apply reach_bind _ _ _ _ (ih1 _)
          intro r hr
          split
          · exact trivial
          · exact reach_mono _ _ _ (ih7 _) (fun a ha => ha.trans ((List.drop_suffix _ _).trans
              (hr.trans ((List.drop_suffix _ _).trans hs1))))
        · exact reach_mono _ _ _ (ih7 _) (fun a ha => ha.trans hs1)
      · split
        · split
          · exact trivial
          · exact reach_mono _ _ _ (ih7 _) (fun a ha => ha.trans
              ((List.suffix_cons _ _).trans ((List.suffix_cons _ _).trans hdrop)))
        · split
          · exact hs1
          · simp only [PRes.reach]; decide
  · intro s
    rw [parse_subexp_succ]
    split
    · simp only [PRes.reach]; decide
    · split
      · simp only [PRes.reach]; decide
      · apply reach_bind _ _ _ _ (ih1 _)
        intro r hr
        split
        · exact trivial
        · exact reach_mono _ _ _ (ih9 _ _ _ _) (fun a ha => ha.trans
            ((List.drop_suffix _ _).trans (hr.trans (List.suffix_cons _ _))))
  · intro olds s0 inner redirs
    rw [parse_subexp_loop_succ]
    simp only
    have hs : s0.drop (env.skipwhites s0) <:+ s0 := List.drop_suffix _ _
    split
    · apply reach_bind _ _ _ _ (parse_redir_reach env _)
      intro r hr
      exact reach_mono _ _ _ (ih9 _ _ _ _) (fun a ha => ha.trans (hr.trans hs))
    · exact hs

theorem parser_reach (env : ParserEnv) (halias : ∀ s, env.expand_alias s = s) :
    ∀ fuel, parser_reach_at env fuel
  | 0 => parser_reach_zero env
  | fuel + 1 => parser_reach_succ env halias fuel (parser_reach env halias fuel)

/-- C38. The `default` branch `assert(0)` of the token loop of `parse_scmd` is never reached
when no alias is defined: whenever `find_end_of_command_body` succeeds, the text at the
position that it returns is a tail of its argument and is empty (the NUL), or starts with one
of `|`, `&`, `;`, `(`, `)`, `#`, or is a run of decimal digits (which may be empty) followed by
`<` or `>`; every such text takes the first or the second case of the switch; so `parse_scmd`
and `parse_line` never fail the assertion of `parse_scmd`, for every text, every bound on the
recursion and every `skipwhites`, `wordexp` and tilde expansion. -/
theorem parse_scmd_default_unreachable (env : ParserEnv)
    (halias : ∀ s, env.expand_alias s = s) :
    (∀ fuel s r, find_end_of_command_body env fuel s s = PRes.ok r → r <:+ s ∧ body_end r) ∧
    (∀ s, body_end s →
      (s = [] ∨ s.head?.any (fun c => decide (c ∈ SCMD_END)) = true) ∨
        s.head?.any (fun c => c = Char.ofNat 60 || c = Char.ofNat 62 || is_digit_char c) =
          true) ∧
    (∀ fuel s, parse_scmd env fuel s ≠ PRes.assert_failed "parse_scmd") ∧
    (∀ fuel line, parse_line env fuel line ≠ PRes.assert_failed "parse_scmd") := by
  refine ⟨?_, ?_, ?_, ?_⟩
  · intro fuel s r h
    have h6 := (parser_reach env halias fuel).2.2.2.2.2.1 s s (List.suffix_refl _)
    rw [h] at h6
    exact h6
  · intro s hs
    by_cases h1 : s = [] ∨ s.head?.any (fun c => decide (c ∈ SCMD_END)) = true
    · exact Or.inl h1
    · exact Or.inr (body_end_handled s hs h1)
  · intro fuel s h
    have h3 := (parser_reach env halias fuel).2.2.1 s
    rw [h] at h3
    exact h3 rfl
  · intro fuel line h
    have h1 := (parser_reach env halias fuel).1 line
    unfold parse_line at h
    cases hp : parse_commands env fuel line with
    | ok a =>
      rw [hp] at h
      simp only [PRes.bind] at h
      split at h <;> cases h
    | err m => rw [hp] at h; cases h
    | assert_failed g =>
      rw [hp] at h h1
      simp only [PRes.bind] at h
      injection h with h
      exact h1 h
    | undefined => rw [hp] at h; cases h
    | timeout => rw [hp] at h; cases h

theorem parse_scmd_default_unreachable_witness :
    (∀ s, plain_env.expand_alias s = s) ∧
      find_end_of_command_body plain_env 3 "a 12>f".toList "a 12>f".toList =
        PRes.ok "12>f".toList ∧
      body_end "12>f".toList ∧
      parse_line plain_env 9 "a 12>f".toList ≠ PRes.assert_failed "parse_scmd" :=
  ⟨fun _ => rfl, by rfl,
    ((parse_scmd_default_unreachable plain_env (fun _ => rfl)).1 3 "a 12>f".toList
      "12>f".toList (by rfl)).2,
    (parse_scmd_default_unreachable plain_env (fun _ => rfl)).2.2.2 9 "a 12>f".toList⟩

end ParserBodyEndProps

/-! ## expand.c: termination and fixed points of brace expansion (C40) -/

section BraceTermination

theorem brace_elems_loop_agree
    (rec rec1 : WStr → List Nat → List WStr → List (List Nat) →
      Option (List WStr × List (List Nat)))
    (word : WStr) (split : List Nat) (elemlist : List Nat)
    (hsorted : elemlist.Pairwise (fun a b => a ≤ b))
    (h0 : 1 ≤ elemlist.getD 0 0) (h1 : elemlist.getD 0 0 ≤ word.length)
    (hag : ∀ w s v l, w.length < word.length → s.length = w.length →
      rec w s v l = rec1 w s v l) :
    ∀ (k i : Nat) (vl : List WStr) (sl : List (List Nat)), i + k ≤ elemlist.length - 1 →
      brace_elems_loop rec word split elemlist k i vl sl =
        brace_elems_loop rec1 word split elemlist k i vl sl := by
  intro k
  induction k with
  | zero => intro i vl sl _; rw [brace_elems_loop, brace_elems_loop]
  | succ k ih =>
    intro i vl sl hik
    rw [brace_elems_loop_succ, brace_elems_loop_succ]
    have g1 := getD_le_of_pairwise elemlist hsorted 0 i (Nat.zero_le _) (by omega)
    have g2 := getD_le_of_pairwise elemlist hsorted i (i + 1) (by omega) (by omega)
    have g3 := getD_le_of_pairwise elemlist hsorted (i + 1) (elemlist.length - 1) (by omega)
      (by omega)
    split
    · rfl
    · rename_i hl
      have hl1 := Classical.not_not.mp hl
      have hshort : (word.take (elemlist.getD 0 0 - 1) ++
            (word.drop (elemlist.getD i 0)).take
              (elemlist.getD (i + 1) 0 - elemlist.getD i 0 - 1) ++
            (word.drop (elemlist.getD (elemlist.length - 1) 0)).take
              (word.length - elemlist.getD (elemlist.length - 1) 0)).length < word.length := by
        simp only [List.length_append, List.length_take, List.length_drop]
        omega
      rw [hag _ _ vl sl hshort hl1.symm]
      split
      · rfl
      · exact ih _ _ _ (by omega)

theorem brace_sequence_loop_agree
    (rec rec1 : WStr → List Nat → List WStr → List (List Nat) →
      Option (List WStr × List (List Nat)))
    (word : WStr) (split : List Nat) (startc braceexpect : Nat) (sign : Bool) (len : Nat)
    (start e : Int)
    (hshort : ∀ value, in_seq_range start e value →
      (word.take (startc - 1) ++ wprintf_ld sign len value ++
        word.drop (braceexpect + 1)).length < word.length)
    (hag : ∀ w s v l, w.length < word.length → s.length = w.length →
      rec w s v l = rec1 w s v l) :
    ∀ (k : Nat) (value : Int) (vl : List WStr) (sl : List (List Nat)),
      in_seq_range start e value →
      brace_sequence_loop rec word split startc braceexpect sign len start e k value vl sl =
        brace_sequence_loop rec1 word split startc braceexpect sign len start e k value vl sl := by
  intro k
  induction k with
  | zero => intro value vl sl _; rw [brace_sequence_loop, brace_sequence_loop]
  | succ k ih =>
    intro value vl sl hv
    rw [brace_sequence_loop, brace_sequence_loop]
    split
    · rfl
    · rename_i hl
      have hl1 := Classical.not_not.mp hl
      rw [hag _ _ vl sl (hshort value hv) hl1.symm]
      split
      · rfl
      · split
        · rfl
        · rename_i hne
          apply ih
          unfold in_seq_range at hv ⊢
          split <;> omega

theorem tryexpand_brace_sequence_cases (word : WStr) (split : List Nat) (startc : Nat) :
    (∃ x : Option (Option (List WStr × List (List Nat))), (x = none ∨ x = some none) ∧
      ∀ (rec : WStr → List Nat → List WStr → List (List Nat) →
          Option (List WStr × List (List Nat))) (vl : List WStr) (sl : List (List Nat)),
        tryexpand_brace_sequence rec word split startc vl sl = x) ∨
    (∃ (dotoff braceoff len : Nat) (sign : Bool),
      wcschr (word.drop startc) DOT = some dotoff ∧ dotoff ≠ 0 ∧
      (wcstol (word.drop startc)).2.2 = false ∧ (wcstol (word.drop startc)).2.1 = dotoff ∧
      wcschr (word.drop (startc + dotoff + 2)) RBRACE = some braceoff ∧ braceoff ≠ 0 ∧
      (wcstol (word.drop (startc + dotoff + 2))).2.2 = false ∧
      (wcstol (word.drop (startc + dotoff + 2))).2.1 = braceoff ∧
      len ≤ max dotoff braceoff ∧
      ∀ (rec : WStr → List Nat → List WStr → List (List Nat) →
          Option (List WStr × List (List Nat))) (vl : List WStr) (sl : List (List Nat)),
        tryexpand_brace_sequence rec word split startc vl sl =
          (brace_sequence_loop rec word split startc (startc + dotoff + 2 + braceoff) sign len
            (wcstol (word.drop startc)).1 (wcstol (word.drop (startc + dotoff + 2))).1
            (((wcstol (word.drop (startc + dotoff + 2))).1 -
              (wcstol (word.drop startc)).1).natAbs + 1)
            (wcstol (word.drop startc)).1 vl sl).map some) := by
  by_cases hb : word[startc - 1]? ≠ some LBRACE
  · left
    refine ⟨none, Or.inl rfl, ?_⟩
    intro rec vl sl
    unfold tryexpand_brace_sequence
    rw [if_pos hb]
  cases hd : wcschr (word.drop startc) DOT with
  | none =>
    left
    refine ⟨some none, Or.inr rfl, ?_⟩
    intro rec vl sl
    unfold tryexpand_brace_sequence
    rw [if_neg hb]
    simp only [hd]
  | some dotoff =>
    by_cases hd0 : dotoff = 0
    · left
      refine ⟨some none, Or.inr rfl, ?_⟩
      intro rec vl sl
      unfold tryexpand_brace_sequence
      rw [if_neg hb]
      simp only [hd]
      rw [if_pos hd0]
    by_cases h1 : (wcstol (word.drop startc)).2.2 = true ∨
        (wcstol (word.drop startc)).2.1 ≠ dotoff ∨ word[startc + dotoff + 1]? ≠ some DOT
    · left
      refine ⟨some none, Or.inr rfl, ?_⟩
      intro rec vl sl
      unfold tryexpand_brace_sequence
      rw [if_neg hb]
      simp only [hd]
      rw [if_neg hd0, if_pos h1]
    cases hr : wcschr (word.drop (startc + dotoff + 2)) RBRACE with
    | none =>
      left
      refine ⟨some none, Or.inr rfl, ?_⟩
      intro rec vl sl
      unfold tryexpand_brace_sequence
      rw [if_neg hb]
      simp only [hd]
      rw [if_neg hd0, if_neg h1]
      simp only [hr]
    | some braceoff =>
      by_cases hr0 : braceoff = 0
      · left
        refine ⟨some none, Or.inr rfl, ?_⟩
        intro rec vl sl
        unfold tryexpand_brace_sequence
        rw [if_neg hb]
        simp only [hd]
        rw [if_neg hd0, if_neg h1]
        simp only [hr]
        rw [if_pos hr0]
      by_cases h2 : (wcstol (word.drop (startc + dotoff + 2))).2.2 = true ∨
          (wcstol (word.drop (startc + dotoff + 2))).2.1 ≠ braceoff
      · left
        refine ⟨some none, Or.inr rfl, ?_⟩
        intro rec vl sl
        unfold tryexpand_brace_sequence
        rw [if_neg hb]
        simp only [hd]
        rw [if_neg hd0, if_neg h1]
        simp only [hr]
        rw [if_neg hr0, if_pos h2]
      right
      refine ⟨dotoff, braceoff,
        (if (if (has_leading_zero (word.drop startc) false).1 = true then dotoff else 0) >
            (if (has_leading_zero (word.drop (startc + dotoff + 2))
              (has_leading_zero (word.drop startc) false).2).1 = true then braceoff else 0)
          then (if (has_leading_zero (word.drop startc) false).1 = true then dotoff else 0)
          else (if (has_leading_zero (word.drop (startc + dotoff + 2))
              (has_leading_zero (word.drop startc) false).2).1 = true then braceoff else 0)),
        (has_leading_zero (word.drop (startc + dotoff + 2))
          (has_leading_zero (word.drop startc) false).2).2,
        rfl, hd0, ?_, ?_, hr, hr0, ?_, ?_, ?_, ?_⟩
      · simpa using fun h => h1 (Or.inl h)
      · exact Classical.not_not.mp (fun h => h1 (Or.inr (Or.inl h)))
      · simpa using fun h => h2 (Or.inl h)
      · exact Classical.not_not.mp (fun h => h2 (Or.inr h))
      rotate_left
      · intro rec vl sl
        unfold tryexpand_brace_sequence
        rw [if_neg hb]
        simp only [hd]
        rw [if_neg hd0, if_neg h1]
        simp only [hr]
        rw [if_neg hr0, if_neg h2]
      · split <;> split <;> split <;> omega

theorem wcstol_digits_bound (base : Nat) :
    ∀ (s : WStr) (acc n : Nat),
      (wcstol_digits base s acc n).1 + 1 ≤
          (acc + 1) * base ^ ((wcstol_digits base s acc n).2 - n) ∧
        n ≤ (wcstol_digits base s acc n).2 := by
  intro s
  induction s with
  | nil => intro acc n; simp [wcstol_digits]
  | cons c s ih =>
    intro acc n
    rw [wcstol_digits]
    split
    · simp
    · rename_i d _
      split
      · rename_i hd
        obtain ⟨h1, h2⟩ := ih (acc * base + d) (n + 1)
        refine ⟨?_, by omega⟩
        have he : (wcstol_digits base s (acc * base + d) (n + 1)).2 - n =
            ((wcstol_digits base s (acc * base + d) (n + 1)).2 - (n + 1)) + 1 := by omega
        rw [he, pow_succ]
        calc (wcstol_digits base s (acc * base + d) (n + 1)).1 + 1
            ≤ (acc * base + d + 1) *
                base ^ ((wcstol_digits base s (acc * base + d) (n + 1)).2 - (n + 1)) := h1
          _ ≤ ((acc + 1) * base) *
                base ^ ((wcstol_digits base s (acc * base + d) (n + 1)).2 - (n + 1)) := by
              apply Nat.mul_le_mul_right
              rw [Nat.add_mul]
              omega
          _ = (acc + 1) * (base ^ ((wcstol_digits base s (acc * base + d) (n + 1)).2 - (n + 1))
                * base) := by ring
      · simp

theorem wcstol_digits_lt (base : Nat) (s : WStr) :
    (wcstol_digits base s 0 0).1 < base ^ (wcstol_digits base s 0 0).2 := by
  have h := (wcstol_digits_bound base s 0 0).1
  simp only [Nat.zero_add, Nat.one_mul, Nat.sub_zero] at h
  omega

theorem pow16_le (m : Nat) (hm : m ≤ 19) : 16 ^ m ≤ 10 ^ (m + 4) := by
  interval_cases m <;> norm_num

theorem wcstol_finish_natAbs (neg : Bool) (n : Nat) (r : Nat × Nat) (k : Nat) (h0 : k ≠ 0)
    (hk : (wcstol_finish neg n r).2.1 = k) (herr : (wcstol_finish neg n r).2.2 = false) :
    (wcstol_finish neg n r).1.natAbs = r.1 ∧ r.1 ≤ 9223372036854775808 ∧ k = n + r.2 := by
  unfold wcstol_finish at hk herr ⊢
  by_cases hz : r.2 = 0
  · rw [if_pos hz] at hk
    exact absurd hk.symm h0
  · rw [if_neg hz] at hk herr ⊢
    simp only at hk herr ⊢
    by_cases h1 : (if neg = true then -(r.1 : Int) else (r.1 : Int)) > LONG_MAX
    · rw [if_pos h1] at herr
      cases herr
    · rw [if_neg h1] at hk herr ⊢
      by_cases h2 : (if neg = true then -(r.1 : Int) else (r.1 : Int)) < LONG_MIN
      · rw [if_pos h2] at herr
        cases herr
      · rw [if_neg h2] at hk ⊢
        unfold LONG_MAX at h1
        unfold LONG_MIN at h2
        refine ⟨?_, ?_, hk.symm⟩
        · show (if neg = true then -(r.1 : Int) else (r.1 : Int)).natAbs = r.1
          split <;> simp
        · split at h1 <;> split at h2 <;> omega

theorem wcstol_natAbs_lt (s : WStr) (k : Nat) (h0 : k ≠ 0) (hk : (wcstol s).2.1 = k)
    (herr : (wcstol s).2.2 = false) : (wcstol s).1.natAbs < 10 ^ (k + 2) := by
  unfold wcstol at hk herr ⊢
  simp only at hk herr ⊢
  generalize hs1 : (s.drop (skip_wspace s)).drop (wcstol_sign (s.drop (skip_wspace s))) = s1
    at hk herr ⊢
  generalize hneg : decide ((s.drop (skip_wspace s)).head? = some (Char.ofNat 45)) = neg
    at hk herr ⊢
  generalize hn : skip_wspace s + wcstol_sign (s.drop (skip_wspace s)) = n at hk herr ⊢
  by_cases hx : wcstol_hex s1 = true
  · simp only [hx, if_true] at hk herr ⊢
    have hlt := wcstol_digits_lt 16 (s1.drop 2)
    generalize wcstol_digits 16 (s1.drop 2) 0 0 = r at hk herr hlt ⊢
    obtain ⟨e1, e2, e3⟩ := wcstol_finish_natAbs neg (n + 2) r k h0 hk herr
    rw [e1]
    by_cases hm : r.2 ≤ 19
    · calc r.1 < 16 ^ r.2 := hlt
        _ ≤ 10 ^ (r.2 + 4) := pow16_le r.2 hm
        _ ≤ 10 ^ (k + 2) := Nat.pow_le_pow_right (by norm_num) (by omega)
    · calc r.1 < 10 ^ 19 := by omega
        _ ≤ 10 ^ (k + 2) := Nat.pow_le_pow_right (by norm_num) (by omega)
  · have hx1 : wcstol_hex s1 = false := by simpa using hx
    simp only [hx1, Bool.false_eq_true, if_false] at hk herr ⊢
    have hbase : ∀ base : Nat, base ≤ 10 →
        (wcstol_finish neg (n + 0) (wcstol_digits base (s1.drop 0) 0 0)).2.1 = k →
        (wcstol_finish neg (n + 0) (wcstol_digits base (s1.drop 0) 0 0)).2.2 = false →
        (wcstol_finish neg (n + 0) (wcstol_digits base (s1.drop 0) 0 0)).1.natAbs <
          10 ^ (k + 2) := by
      intro base hb hk herr
      have hlt := wcstol_digits_lt base (s1.drop 0)
      generalize wcstol_digits base (s1.drop 0) 0 0 = r at hk herr hlt ⊢
      obtain ⟨e1, e2, e3⟩ := wcstol_finish_natAbs neg (n + 0) r k h0 hk herr
      rw [e1]
      calc r.1 < base ^ r.2 := hlt
        _ ≤ 10 ^ r.2 := Nat.pow_le_pow_left hb _
        _ ≤ 10 ^ (k + 2) := Nat.pow_le_pow_right (by norm_num) (by omega)
    split at hk
    · rename_i h8
      rw [if_pos h8] at herr ⊢
      exact hbase 8 (by norm_num) hk herr
    · rename_i h8
      rw [if_neg h8] at herr ⊢
      exact hbase 10 (by norm_num) hk herr

theorem toDigits_length_le (n e : Nat) (he : 0 < e) (h : n < 10 ^ e) :
    (Nat.toDigits 10 n).length ≤ e :=
  Nat.toDigitsCore_length 10 (by norm_num) (n + 1) n e h he

theorem wprintf_ld_length_le (sign : Bool) (len : Nat) (value : Int) (e : Nat) (he : 0 < e)
    (hv : value.natAbs < 10 ^ e) : (wprintf_ld sign len value).length ≤ max len (e + 1) := by
  have hd := toDigits_length_le value.natAbs e he hv
  unfold wprintf_ld
  simp only [List.length_append, List.length_replicate]
  have hsg : (if value < 0 then [Char.ofNat 45] else if sign = true then [Char.ofNat 43]
      else ([] : WStr)).length ≤ 1 := by
    split
    · simp
    · split <;> simp
  omega

theorem seq_buffer_short (word : WStr) (startc dotoff braceoff len : Nat) (sign : Bool)
    (start e : Int) (hd0 : dotoff ≠ 0) (hb0 : braceoff ≠ 0)
    (hs : start.natAbs < 10 ^ (dotoff + 2)) (he : e.natAbs < 10 ^ (braceoff + 2))
    (hlen : len ≤ max dotoff braceoff) (hw : startc + dotoff + 2 + braceoff < word.length) :
    ∀ value, in_seq_range start e value →
      (word.take (startc - 1) ++ wprintf_ld sign len value ++
        word.drop (startc + dotoff + 2 + braceoff + 1)).length < word.length := by
  intro value hv
  have h1 : start.natAbs < 10 ^ (max dotoff braceoff + 2) :=
    lt_of_lt_of_le hs (Nat.pow_le_pow_right (by norm_num) (by omega))
  have h2 : e.natAbs < 10 ^ (max dotoff braceoff + 2) :=
    lt_of_lt_of_le he (Nat.pow_le_pow_right (by norm_num) (by omega))
  have h3 : value.natAbs < 10 ^ (max dotoff braceoff + 2) := by
    have : value.natAbs ≤ start.natAbs ∨ value.natAbs ≤ e.natAbs := by
      unfold in_seq_range at hv
      omega
    rcases this with h | h
    · exact lt_of_le_of_lt h h1
    · exact lt_of_le_of_lt h h2
  have h4 := wprintf_ld_length_le sign len value (max dotoff braceoff + 2) (by omega) h3
  simp only [List.length_append, List.length_take, List.length_drop]
  omega

theorem wcschr_lt (s : WStr) (c : Char) (k : Nat) (h : wcschr s c = some k) : k < s.length := by
  obtain ⟨post, h1, h2⟩ := wcschr_some s c k h
  have := congrArg List.length h1
  simp only [List.length_append, List.length_cons] at this
  omega

theorem tryexpand_brace_sequence_agree
    (rec rec1 : WStr → List Nat → List WStr → List (List Nat) →
      Option (List WStr × List (List Nat)))
    (word : WStr) (split : List Nat) (startc : Nat) (vl : List WStr) (sl : List (List Nat))
    (hag : ∀ w s v l, w.length < word.length → s.length = w.length →
      rec w s v l = rec1 w s v l) :
    tryexpand_brace_sequence rec word split startc vl sl =
      tryexpand_brace_sequence rec1 word split startc vl sl := by
  rcases tryexpand_brace_sequence_cases word split startc with
    ⟨x, _, hx⟩ | ⟨dotoff, braceoff, len, sign, hd, hd0, e1, k1, hr, hr0, e2, k2, hlen, hx⟩
  · rw [hx, hx]
  · rw [hx, hx]
    congr 1
    have hw : startc + dotoff + 2 + braceoff < word.length := by
      have := wcschr_lt _ _ _ hr
      rw [List.length_drop] at this
      omega
    apply brace_sequence_loop_agree rec rec1 word split startc _ sign len _ _
      (seq_buffer_short word startc dotoff braceoff len sign _ _ hd0 hr0
        (wcstol_natAbs_lt _ dotoff hd0 k1 e1) (wcstol_natAbs_lt _ braceoff hr0 k2 e2) hlen hw)
      hag
    unfold in_seq_range
    omega

theorem brace_scan_head (word : WStr) :
    ∀ (fuel c nest : Nat) (el el1 : List Nat),
      brace_scan word fuel c nest el = some el1 → el ≠ [] → el1.getD 0 0 = el.getD 0 0 := by
  intro fuel
  induction fuel with
  | zero => intro c nest el el1 h; rw [brace_scan] at h; cases h
  | succ fuel ih =>
    intro c nest el el1 h hne
    rw [brace_scan_succ] at h
    have happ : ∀ x, (el ++ [x]).getD 0 0 = el.getD 0 0 := by
      intro x
      cases el with
      | nil => exact absurd rfl hne
      | cons a t => rfl
    split at h
    · cases h
    · rename_i off _
      split at h
      · exact ih _ _ _ _ h hne
      · split at h
        · split at h
          · rw [ih _ _ _ _ h (by simp), happ]
          · exact ih _ _ _ _ h hne
        · split at h
          · exact ih _ _ _ _ h hne
          · split at h
            · cases h
            · rw [← Option.some.inj h]
              exact happ _

theorem brace_fuel_gt : ∀ n, n < brace_fuel n
  | 0 => by rw [brace_fuel]; omega
  | n + 1 => by
    have := brace_fuel_gt n
    rw [brace_fuel]; omega

theorem brace_fuel_mono (a b : Nat) (h : a ≤ b) : brace_fuel a ≤ brace_fuel b := by
  induction b with
  | zero =>
    have : a = 0 := by omega
    rw [this]
  | succ b ih =>
    rcases Nat.eq_or_lt_of_le h with e | hlt
    · rw [e]
    · have := ih (by omega)
      rw [brace_fuel]; omega

theorem brace_fuel_step (m n : Nat) (h : m < n) : brace_fuel m + n + 1 ≤ brace_fuel n := by
  obtain ⟨k, rfl⟩ : ∃ k, n = k + 1 := ⟨n - 1, by omega⟩
  have := brace_fuel_mono m k (by omega)
  rw [brace_fuel]; omega

theorem expand_brace_from_returns :
    ∀ (n : Nat) (word : WStr), word.length = n →
      ∀ (fuel : Nat) (split : List Nat) (c : Nat) (vl : List WStr) (sl : List (List Nat)),
        split.length = word.length → c ≤ word.length → brace_fuel n ≤ fuel + c →
        expand_brace_from fuel word split c vl sl ≠ none := by
  intro n
  induction n using Nat.strong_induction_on with
  | _ n IH =>
    intro word hn fuel
    induction fuel with
    | zero =>
      intro split c vl sl _ hc hf
      have := brace_fuel_gt n
      omega
    | succ fuel ih =>
      intro split c vl sl hlen hc hf
      rw [expand_brace_from_succ]
      split
      · simp
      · rename_i off hoff
        split
        · simp
        · rename_i x hx
          have hc1 : c + off + 1 < word.length := by
            by_contra hge
            rw [List.getElem?_eq_none (by omega)] at hx
            cases hx
          have hb : word[c + off + 1 - 1]? = some LBRACE := by
            obtain ⟨y, hy1, hy2⟩ := escaped_wcspbrk_found [LBRACE] _ _ (Nat.le_refl _) off hoff
            simp only [List.mem_singleton] at hy1
            rw [getElem?_drop_add, hy1] at hy2
            exact hy2
          have hrec1 : ∀ w s v l, s.length = w.length →
              (fun (w : WStr) (s : List Nat) (v : List WStr) (l : List (List Nat)) =>
                if w.length < word.length ∧ s.length = w.length then
                  expand_brace_from fuel w s 0 v l
                else some (v, l)) w s v l ≠ none := by
            intro w s v l hs
            simp only
            split
            · rename_i hw
              apply IH w.length (by omega) w rfl fuel s 0 v l hs (Nat.zero_le _)
              have := brace_fuel_step w.length n (by omega)
              omega
            · simp
          have hag : ∀ w s v l, w.length < word.length → s.length = w.length →
              (fun (w : WStr) (s : List Nat) (v : List WStr) (l : List (List Nat)) =>
                expand_brace_from fuel w s 0 v l) w s v l =
              (fun (w : WStr) (s : List Nat) (v : List WStr) (l : List (List Nat)) =>
                if w.length < word.length ∧ s.length = w.length then
                  expand_brace_from fuel w s 0 v l
                else some (v, l)) w s v l := by
            intro w s v l hw hs
            simp only
            rw [if_pos ⟨hw, hs⟩]
          have ht := tryexpand_brace_sequence_returns _ word split (c + off + 1) vl sl hlen
            hrec1 hb
          rw [← tryexpand_brace_sequence_agree _ _ word split (c + off + 1) vl sl hag] at ht
          split
          · rename_i hnone
            exact absurd hnone ht
          · simp
          · split
            · exact ih split _ vl sl hlen (by omega) (by omega)
            · rename_i elemlist hscan
              have hsorted := brace_scan_sorted word _ _ _ _ _ hscan (by simp) (by simp)
              have hhead := brace_scan_head word _ _ _ _ _ hscan (by simp)
              have h0 : elemlist.getD 0 0 = c + off + 1 := by rw [hhead]; rfl
              rw [brace_elems_loop_agree _ _ word split elemlist hsorted (by omega) (by omega)
                hag _ 0 vl sl (by omega)]
              exact brace_elems_loop_returns _ word split elemlist hlen hrec1 _ _ _ _

theorem brace_outputs_refl (P : WStr → List Nat → Prop) (vl : List WStr)
    (sl : List (List Nat)) : brace_outputs P vl sl (vl, sl) :=
  ⟨[], [], by simp, List.Forall₂.nil⟩

theorem brace_outputs_trans (P : WStr → List Nat → Prop) (vl : List WStr)
    (sl : List (List Nat)) (r1 r : List WStr × List (List Nat))
    (h1 : brace_outputs P vl sl r1) (h2 : brace_outputs P r1.1 r1.2 r) :
    brace_outputs P vl sl r := by
  obtain ⟨vs1, ss1, e1, f1⟩ := h1
  obtain ⟨vs2, ss2, e2, f2⟩ := h2
  subst e1
  exact ⟨vs1 ++ vs2, ss1 ++ ss2, by rw [e2]; simp, List.rel_append f1 f2⟩

theorem brace_elems_loop_outputs (P : WStr → List Nat → Prop)
    (rec : WStr → List Nat → List WStr → List (List Nat) → Option (List WStr × List (List Nat)))
    (word : WStr) (split : List Nat) (elemlist : List Nat)
    (hrec : ∀ w s v l r, rec w s v l = some r → brace_outputs P v l r) :
    ∀ (k i : Nat) (vl : List WStr) (sl : List (List Nat)) (r : List WStr × List (List Nat)),
      brace_elems_loop rec word split elemlist k i vl sl = some r →
      brace_outputs P vl sl r := by
  intro k
  induction k with
  | zero =>
    intro i vl sl r h
    rw [brace_elems_loop] at h
    cases h
    exact brace_outputs_refl P vl sl
  | succ k ih =>
    intro i vl sl r h
    rw [brace_elems_loop_succ] at h
    split at h
    · cases h
    · split at h
      · cases h
      · rename_i r1 hr1
        exact brace_outputs_trans P vl sl r1 r (hrec _ _ _ _ _ hr1) (ih _ _ _ _ h)

theorem brace_sequence_loop_outputs (P : WStr → List Nat → Prop)
    (rec : WStr → List Nat → List WStr → List (List Nat) → Option (List WStr × List (List Nat)))
    (word : WStr) (split : List Nat) (startc braceexpect : Nat) (sign : Bool) (len : Nat)
    (start e : Int)
    (hrec : ∀ w s v l r, rec w s v l = some r → brace_outputs P v l r) :
    ∀ (k : Nat) (value : Int) (vl : List WStr) (sl : List (List Nat))
      (r : List WStr × List (List Nat)),
      brace_sequence_loop rec word split startc braceexpect sign len start e k value vl sl =
        some r →
      brace_outputs P vl sl r := by
  intro k
  induction k with
  | zero =>
    intro value vl sl r h
    rw [brace_sequence_loop] at h
    cases h
  | succ k ih =>
    intro value vl sl r h
    rw [brace_sequence_loop] at h
    split at h
    · cases h
    · split at h
      · cases h
      · rename_i r1 hr1
        split at h
        · rw [← Option.some.inj h]
          exact hrec _ _ _ _ _ hr1
        · exact brace_outputs_trans P vl sl r1 r (hrec _ _ _ _ _ hr1) (ih _ _ _ _ h)

theorem tryexpand_brace_sequence_outputs (P : WStr → List Nat → Prop)
    (rec : WStr → List Nat → List WStr → List (List Nat) → Option (List WStr × List (List Nat)))
    (word : WStr) (split : List Nat) (startc : Nat) (vl : List WStr) (sl : List (List Nat))
    (r : List WStr × List (List Nat))
    (hrec : ∀ w s v l r, rec w s v l = some r → brace_outputs P v l r)
    (h : tryexpand_brace_sequence rec word split startc vl sl = some (some r)) :
    brace_outputs P vl sl r := by
  rcases tryexpand_brace_sequence_cases word split startc with
    ⟨x, hx0, hx⟩ | ⟨dotoff, braceoff, len, sign, _, _, _, _, _, _, _, _, _, hx⟩
  · rw [hx] at h
    rcases hx0 with e | e <;> rw [e] at h <;> cases h
  · rw [hx] at h
    cases hl : brace_sequence_loop rec word split startc (startc + dotoff + 2 + braceoff) sign
        len (wcstol (word.drop startc)).1 (wcstol (word.drop (startc + dotoff + 2))).1
        (((wcstol (word.drop (startc + dotoff + 2))).1 -
          (wcstol (word.drop startc)).1).natAbs + 1)
        (wcstol (word.drop startc)).1 vl sl with
    | none => rw [hl] at h; cases h
    | some r1 =>
      rw [hl] at h
      simp only [Option.map_some', Option.some.injEq] at h
      subst h
      exact brace_sequence_loop_outputs P rec word split startc _ sign len _ _ hrec _ _ vl sl
        r1 hl

theorem tryexpand_brace_sequence_false_all
    (rec : WStr → List Nat → List WStr → List (List Nat) → Option (List WStr × List (List Nat)))
    (word : WStr) (split : List Nat) (startc : Nat) (vl : List WStr) (sl : List (List Nat))
    (h : tryexpand_brace_sequence rec word split startc vl sl = some none) :
    ∀ (rec1 : WStr → List Nat → List WStr → List (List Nat) →
        Option (List WStr × List (List Nat))) (v : List WStr) (l : List (List Nat)),
      tryexpand_brace_sequence rec1 word split startc v l = some none := by
  rcases tryexpand_brace_sequence_cases word split startc with
    ⟨x, _, hx⟩ | ⟨dotoff, braceoff, len, sign, _, _, _, _, _, _, _, _, _, hx⟩
  · intro rec1 v l
    rw [hx] at h
    rw [hx, h]
  · rw [hx] at h
    cases hl : brace_sequence_loop rec word split startc (startc + dotoff + 2 + braceoff) sign
        len (wcstol (word.drop startc)).1 (wcstol (word.drop (startc + dotoff + 2))).1
        (((wcstol (word.drop (startc + dotoff + 2))).1 -
          (wcstol (word.drop startc)).1).natAbs + 1)
        (wcstol (word.drop startc)).1 vl sl with
    | none => rw [hl] at h; cases h
    | some r1 => rw [hl] at h; cases h

theorem expand_brace_from_fixed :
    ∀ (fuel : Nat) (word : WStr) (split : List Nat) (c k : Nat) (vl : List WStr)
      (sl : List (List Nat)) (r : List WStr × List (List Nat)),
      brace_resumes word split c k → k ≤ c → c ≤ word.length →
      expand_brace_from fuel word split c vl sl = some r →
      brace_outputs brace_fixed vl sl r := by
  intro fuel
  induction fuel with
  | zero => intro word split c k vl sl r _ _ _ h; rw [expand_brace_from] at h; cases h
  | succ fuel ih =>
    intro word split c k vl sl r hres hk hc h
    have hrec : ∀ w s v l r,
        (fun (w : WStr) (s : List Nat) (v : List WStr) (l : List (List Nat)) =>
          expand_brace_from fuel w s 0 v l) w s v l = some r →
        brace_outputs brace_fixed v l r :=
      fun w s v l r hr => ih w s 0 0 v l r (fun _ _ _ => rfl) (Nat.le_refl _) (Nat.zero_le _) hr
    have hself : (∀ (f : Nat) (v : List WStr) (l : List (List Nat)),
        expand_brace_from (f + 1) word split c v l = some (v ++ [word], l ++ [split])) →
        brace_outputs brace_fixed vl sl (vl ++ [word], sl ++ [split]) := by
      intro hall
      refine ⟨[word], [split], rfl, List.Forall₂.cons ?_ List.Forall₂.nil⟩
      intro F v l hF
      obtain ⟨f, rfl⟩ : ∃ f, F = f + 1 + k := ⟨F - 1 - k, by omega⟩
      unfold expand_brace
      rw [hres (f + 1) v l]
      exact hall f v l
    rw [expand_brace_from_succ] at h
    split at h
    · rename_i hoff
      rw [← Option.some.inj h]
      apply hself
      intro f v l
      rw [expand_brace_from_succ]
      simp only [hoff]
    · rename_i off hoff
      split at h
      · rename_i hx
        rw [← Option.some.inj h]
        apply hself
        intro f v l
        rw [expand_brace_from_succ]
        simp only [hoff, hx]
      · rename_i x hx
        have hc1 : c + off + 1 < word.length := by
          by_contra hge
          rw [List.getElem?_eq_none (by omega)] at hx
          cases hx
        split at h
        · cases h
        · rename_i r1 ht
          rw [← Option.some.inj h]
          exact tryexpand_brace_sequence_outputs brace_fixed _ word split _ vl sl r1 hrec ht
        · rename_i ht
          split at h
          · rename_i hscan
            refine ih word split (c + off + 1) (k + 1) vl sl r ?_ (by omega) (by omega) h
            intro f v l
            have e1 : f + (k + 1) = f + 1 + k := by omega
            rw [e1, hres (f + 1) v l, expand_brace_from_succ]
            simp only [hoff, hx, hscan,
              tryexpand_brace_sequence_false_all _ word split _ vl sl ht]
          · exact brace_elems_loop_outputs brace_fixed _ word split _ hrec _ _ vl sl r h

theorem brace_sequence_loop_needs
    (rec : WStr → List Nat → List WStr → List (List Nat) → Option (List WStr × List (List Nat)))
    (word : WStr) (split : List Nat) (startc braceexpect : Nat) (sign : Bool) (len : Nat)
    (start e : Int) :
    ∀ (m j : Nat) (vl : List WStr) (sl : List (List Nat)), j + m ≤ (e - start).natAbs →
      brace_sequence_loop rec word split startc braceexpect sign len start e m
        (seq_value start e j) vl sl = none := by
  intro m
  induction m with
  | zero => intro j vl sl _; rw [brace_sequence_loop]
  | succ m ih =>
    intro j vl sl hj
    rw [brace_sequence_loop]
    split
    · rfl
    · split
      · rfl
      · rw [if_neg (seq_value_ne start e j (by omega)), seq_value_succ]
        exact ih (j + 1) _ _ (by omega)

/-- C40. For every word and splittability string of equal length: (1) `expand_brace` returns
for every bound on the recursion that is at least `brace_fuel` of the length of the word;
(2), (3) `tryexpand_brace_sequence` and the loop of the alternation branch call `expand_brace`
only on words strictly shorter than the word: their results are the same for any two functions
in the place of the recursive call that agree on all shorter words; (4) the retry after a
failed brace continues the same expansion with the scan right after that brace; (5) the numeric
loop returns after `|e - start| + 1` passes when each recursive call returns, and not before;
(6) every word that `expand_brace` adds is a fixed point: `expand_brace` on that word adds the
word alone, for every bound above the length of the word. -/
theorem expand_brace_terminates (word : WStr) (split : List Nat)
    (hlen : split.length = word.length) :
    (∀ (fuel : Nat) (vl : List WStr) (sl : List (List Nat)), brace_fuel word.length ≤ fuel →
      expand_brace fuel word split vl sl ≠ none) ∧
    (∀ (rec rec1 : WStr → List Nat → List WStr → List (List Nat) →
          Option (List WStr × List (List Nat)))
        (startc : Nat) (vl : List WStr) (sl : List (List Nat)),
      (∀ w s v l, w.length < word.length → s.length = w.length → rec w s v l = rec1 w s v l) →
      tryexpand_brace_sequence rec word split startc vl sl =
        tryexpand_brace_sequence rec1 word split startc vl sl) ∧
    (∀ (rec rec1 : WStr → List Nat → List WStr → List (List Nat) →
          Option (List WStr × List (List Nat)))
        (c : Nat) (elemlist : List Nat) (vl : List WStr) (sl : List (List Nat)),
      0 < c → c ≤ word.length →
      brace_scan word (word.length + 1) c 0 [c] = some elemlist →
      (∀ w s v l, w.length < word.length → s.length = w.length → rec w s v l = rec1 w s v l) →
      brace_elems_loop rec word split elemlist (elemlist.length - 1) 0 vl sl =
        brace_elems_loop rec1 word split elemlist (elemlist.length - 1) 0 vl sl) ∧
    (∀ (fuel c off : Nat) (vl : List WStr) (sl : List (List Nat)),
      escaped_wcspbrk (word.drop c) [LBRACE] = some off → c + off + 1 < word.length →
      tryexpand_brace_sequence (fun w s v l => expand_brace_from fuel w s 0 v l) word split
        (c + off + 1) vl sl = some none →
      brace_scan word (word.length + 1) (c + off + 1) 0 [c + off + 1] = none →
      word[c + off]? = some LBRACE ∧
        expand_brace_from (fuel + 1) word split c vl sl =
          expand_brace_from fuel word split (c + off + 1) vl sl) ∧
    (∀ (rec : WStr → List Nat → List WStr → List (List Nat) →
          Option (List WStr × List (List Nat)))
        (startc braceexpect : Nat) (sign : Bool) (len : Nat) (start e : Int)
        (vl : List WStr) (sl : List (List Nat)),
      (∀ w s v l, s.length = w.length → rec w s v l ≠ none) →
      brace_sequence_loop rec word split startc braceexpect sign len start e
          ((e - start).natAbs + 1) start vl sl ≠ none ∧
        ∀ k, k ≤ (e - start).natAbs →
          brace_sequence_loop rec word split startc braceexpect sign len start e k start vl sl =
            none) ∧
    (∀ (fuel : Nat) (vl : List WStr) (sl : List (List Nat)) (r : List WStr × List (List Nat)),
      expand_brace fuel word split vl sl = some r →
      ∃ vs ss, r = (vl ++ vs, sl ++ ss) ∧
        List.Forall₂ (fun (w : WStr) (s : List Nat) =>
          ∀ (F : Nat) (v : List WStr) (l : List (List Nat)), w.length < F →
            expand_brace F w s v l = some (v ++ [w], l ++ [s])) vs ss) := by
  refine ⟨?_, ?_, ?_, ?_, ?_, ?_⟩
  · intro fuel vl sl hf
    exact expand_brace_from_returns word.length word rfl fuel split 0 vl sl hlen (Nat.zero_le _)
      hf
  · intro rec rec1 startc vl sl hag
    exact tryexpand_brace_sequence_agree rec rec1 word split startc vl sl hag
  · intro rec rec1 c elemlist vl sl hc0 hc hscan hag
    have hsorted := brace_scan_sorted word _ _ _ _ _ hscan (by simp) (by simp)
    have hhead := brace_scan_head word _ _ _ _ _ hscan (by simp)
    have h0 : elemlist.getD 0 0 = c := by rw [hhead]; rfl
    exact brace_elems_loop_agree rec rec1 word split elemlist hsorted (by omega) (by omega)
      hag _ 0 vl sl (by omega)
  · intro fuel c off vl sl hoff hc1 ht hscan
    obtain ⟨y, hy1, hy2⟩ := escaped_wcspbrk_found [LBRACE] _ _ (Nat.le_refl _) off hoff
    simp only [List.mem_singleton] at hy1
    rw [getElem?_drop_add, hy1] at hy2
    refine ⟨hy2, ?_⟩
    rw [expand_brace_from_succ]
    have hx : word[c + off + 1]? = some (word.get ⟨c + off + 1, hc1⟩) :=
      List.getElem?_eq_getElem hc1
    simp only [hoff, hx, ht, hscan]
  · intro rec startc braceexpect sign len start e vl sl hrec
    constructor
    · have := brace_sequence_loop_returns rec word split startc braceexpect sign len start e
        hlen hrec (e - start).natAbs 0 vl sl (by omega)
      rw [seq_value_zero] at this
      exact this
    · intro k hk
      have := brace_sequence_loop_needs rec word split startc braceexpect sign len start e
        k 0 vl sl (by omega)
      rw [seq_value_zero] at this
      exact this
  · intro fuel vl sl r h
    exact expand_brace_from_fixed fuel word split 0 0 vl sl r (fun _ _ _ => rfl)
      (Nat.le_refl _) (Nat.zero_le _) h

theorem expand_brace_terminates_witness :
    expand_brace (brace_fuel 9) "a\x7bb,c\x7dd\x7be".toList (List.replicate 9 1) [] [] ≠ none ∧
      expand_brace 3 "a\x7bb,c\x7dd\x7be".toList (List.replicate 9 1) [] [] =
        some (["abd\x7be".toList, "acd\x7be".toList], [[1, 1, 1, 1, 1], [1, 1, 1, 1, 1]]) ∧
      expand_brace 6 "abd\x7be".toList [1, 1, 1, 1, 1] [] [] =
        some (["abd\x7be".toList], [[1, 1, 1, 1, 1]]) :=
  ⟨(expand_brace_terminates "a\x7bb,c\x7dd\x7be".toList (List.replicate 9 1) (by decide)).1
      (brace_fuel 9) [] [] (Nat.le_refl _),
    by decide, by decide⟩

end BraceTermination

/-! ## parser.c: lines of commands joined by connector tokens (C15, C17) -/

section ParserLines

open c_type_T check_T

theorem gives_bind {α β : Type} (T A U : Prop) (Q : α → Prop) (Q1 : β → Prop) (r : PRes α)
    (f : α → PRes β) (h : PRes.gives T A U Q r) (hf : ∀ a, Q a → PRes.gives T A U Q1 (f a)) :
    PRes.gives T A U Q1 (r.bind f) := by
  cases r with
  | ok a => exact hf a h
  | err m => exact trivial
  | assert_failed g => exact h
  | undefined => exact h
  | timeout => exact h

theorem gives_mono {α : Type} (T T1 A A1 U U1 : Prop) (Q Q1 : α → Prop) (r : PRes α)
    (h : PRes.gives T A U Q r) (hT : T → T1) (hA : A → A1) (hU : U → U1)
    (hQ : ∀ a, Q a → Q1 a) : PRes.gives T1 A1 U1 Q1 r := by
  cases r with
  | ok a => exact hQ a h
  | err m => exact trivial
  | assert_failed g => exact hA h
  | undefined => exact hU h
  | timeout => exact hT h

theorem gives_time {α : Type} (T T1 A U : Prop) (Q : α → Prop) (r : PRes α)
    (h : PRes.gives T A U Q r) (hT : T → T1) : PRes.gives T1 A U Q r :=
  gives_mono T T1 A A U U Q Q r h hT id id (fun _ h => h)

theorem gives_ok {α : Type} (T A U : Prop) (Q : α → Prop) (r : PRes α) (a : α)
    (h : PRes.gives T A U Q r) (hr : r = PRes.ok a) : Q a := by
  rw [hr] at h
  exact h

theorem fd_ok_suffix (A : Prop) (a b : CStr) (h : fd_ok A (a ++ b)) : fd_ok A b := by
  intro pre ds c t e hds hc
  exact h (a ++ pre) ds c t (by rw [e, List.append_assoc]) hds hc

theorem fd_ok_tail (A : Prop) (a : Char) (b : CStr) (h : fd_ok A (a :: b)) : fd_ok A b :=
  fd_ok_suffix A [a] b h

/-! ### Steps of `find_end_of_dquote` -/

theorem find_end_of_dquote_esc (env : ParserEnv) (fuel : Nat) (x : Char) (q : CStr) :
    find_end_of_dquote env (fuel + 1) (BSL :: x :: q) = find_end_of_dquote env fuel q := by
  rw [find_end_of_dquote_succ]
  have : strcspn (BSL :: x :: q) DQUOTE_STOP = 0 := by simp [strcspn, DQUOTE_STOP, BSL]
  simp only [this, List.drop_zero]
  rw [if_neg (by decide), if_pos (by decide)]

theorem find_end_of_dquote_dollar (env : ParserEnv) (fuel : Nat) (q : CStr)
    (hq : q.head? ≠ some LPAREN) :
    find_end_of_dquote env (fuel + 1) (DOLLAR :: q) = find_end_of_dquote env fuel q := by
  rw [find_end_of_dquote_succ]
  have : strcspn (DOLLAR :: q) DQUOTE_STOP = 0 := by simp [strcspn, DQUOTE_STOP, DOLLAR]
  simp only [this, List.drop_zero]
  have hq1 : ¬ (q.head? = some (Char.ofNat 40)) := hq
  rw [if_pos (by decide), if_neg hq1]

theorem find_end_of_dquote_subst (env : ParserEnv) (fuel : Nat) (r : CStr) :
    find_end_of_dquote env (fuel + 1) (DOLLAR :: LPAREN :: r) =
      (parse_commands env fuel r).bind fun p =>
        if p.2.head? ≠ some (Char.ofNat 41) then PRes.err ["invalid syntax: missing ')'"]
        else find_end_of_dquote env fuel (p.2.drop 1) := by
  rw [find_end_of_dquote_succ]
  have : strcspn (DOLLAR :: LPAREN :: r) DQUOTE_STOP = 0 := by
    simp [strcspn, DQUOTE_STOP, DOLLAR]
  simp only [this, List.drop_zero]
  have h1 : (LPAREN :: r).head? = some (Char.ofNat 40) := rfl
  rw [if_pos (by decide), if_pos h1]
  rfl

theorem find_end_of_dquote_close (env : ParserEnv) (fuel : Nat) (rest : CStr) :
    find_end_of_dquote env (fuel + 1) (DQUOTE :: rest) = PRes.ok rest := by
  rw [find_end_of_dquote_succ]
  rfl

theorem dq_head_append (q rest : CStr) (h : q.head? ≠ some LPAREN) :
    (q ++ DQUOTE :: rest).head? ≠ some LPAREN := by
  cases q with
  | nil => simp only [List.nil_append, List.head?_cons, ne_eq, Option.some.injEq]; decide
  | cons a q => simpa using h

theorem find_end_of_dquote_text (env : ParserEnv) (N : CStr → Prop) (A U : Prop)
    (hN : nested_reads env N A U) (rest : CStr) (q : CStr) (hq : dq_text N q) :
    ∀ fuel, fd_ok A (q ++ DQUOTE :: rest) →
      PRes.gives (fuel < 4 * q.length + 1) A U (fun r => r = rest)
        (find_end_of_dquote env fuel (q ++ DQUOTE :: rest)) := by
  induction hq with
  | nil =>
    intro fuel _
    cases fuel with
    | zero => rw [find_end_of_dquote]; show 0 < 4 * ([] : CStr).length + 1; simp
    | succ f => rw [List.nil_append, find_end_of_dquote_close]; exact rfl
  | plain c q hc _ ih =>
    intro fuel hfd
    cases fuel with
    | zero =>
      rw [find_end_of_dquote]
      show 0 < 4 * (c :: q).length + 1
      omega
    | succ f =>
      rw [List.cons_append, find_end_of_dquote_skip env f c _ hc]
      exact gives_time _ _ _ _ _ _ (ih (f + 1) (fd_ok_tail A _ _ hfd))
        (by simp only [List.length_cons]; omega)
  | esc x q _ ih =>
    intro fuel hfd
    cases fuel with
    | zero =>
      rw [find_end_of_dquote]
      show 0 < 4 * (BSL :: x :: q).length + 1
      omega
    | succ f =>
      rw [List.cons_append, List.cons_append, find_end_of_dquote_esc]
      exact gives_time _ _ _ _ _ _ (ih f (fd_ok_suffix A [BSL, x] _ hfd))
        (by simp only [List.length_cons]; omega)
  | dollar q hd _ ih =>
    intro fuel hfd
    cases fuel with
    | zero =>
      rw [find_end_of_dquote]
      show 0 < 4 * (DOLLAR :: q).length + 1
      omega
    | succ f =>
      rw [List.cons_append, find_end_of_dquote_dollar env f _ (dq_head_append q rest hd)]
      exact gives_time _ _ _ _ _ _ (ih f (fd_ok_tail A _ _ hfd))
        (by simp only [List.length_cons]; omega)
  | subst inner q hi _ ih =>
    intro fuel hfd
    cases fuel with
    | zero =>
      rw [find_end_of_dquote]
      show 0 < 4 * (DOLLAR :: LPAREN :: (inner ++ RPAREN :: q)).length + 1
      omega
    | succ f =>
      have e : DOLLAR :: LPAREN :: (inner ++ RPAREN :: q) ++ DQUOTE :: rest =
          DOLLAR :: LPAREN :: (inner ++ RPAREN :: (q ++ DQUOTE :: rest)) := by simp
      rw [e] at hfd ⊢
      rw [find_end_of_dquote_subst]
      have hfd1 : fd_ok A (inner ++ RPAREN :: (q ++ DQUOTE :: rest)) :=
        fd_ok_suffix A [DOLLAR, LPAREN] _ hfd
      apply gives_bind _ _ _ _ _ _ _
        (gives_time _ _ _ _ _ _ (hN inner hi (q ++ DQUOTE :: rest) f hfd1) (by
          simp only [List.length_cons, List.length_append]; omega))
      intro p hp
      rw [hp]
      rw [if_neg (by simp [RPAREN])]
      have hfd2 : fd_ok A (q ++ DQUOTE :: rest) := by
        have := fd_ok_suffix A inner _ hfd1
        exact fd_ok_tail A _ _ this
      exact gives_time _ _ _ _ _ _ (ih f hfd2)
        (by simp only [List.length_cons, List.length_append]; omega)

theorem find_end_esc (env : ParserEnv) (fuel : Nat) (olds : CStr) (x : Char) (r : CStr) :
    find_end_of_command_body env (fuel + 1) olds (BSL :: x :: r) =
      find_end_of_command_body env fuel olds r := by
  rw [find_end_of_command_body_succ]
  have : strcspn (BSL :: x :: r) BODY_STOP = 0 := by simp [strcspn, BODY_STOP, BSL]
  simp only [this, List.drop_zero]
  rw [if_neg (by decide), if_neg (by decide), if_neg (by decide), if_pos (by decide)]

theorem find_end_squote (env : ParserEnv) (fuel : Nat) (olds q r : CStr) (hq : SQUOTE ∉ q) :
    find_end_of_command_body env (fuel + 1) olds (SQUOTE :: (q ++ SQUOTE :: r)) =
      find_end_of_command_body env fuel olds r := by
  rw [find_end_of_command_body_succ]
  have : strcspn (SQUOTE :: (q ++ SQUOTE :: r)) BODY_STOP = 0 := by
    simp [strcspn, BODY_STOP, SQUOTE]
  simp only [this, List.drop_zero]
  have hq1 : Char.ofNat 39 ∉ q := hq
  have hs : strchr (q ++ SQUOTE :: r) (Char.ofNat 39) = some q.length :=
    strchr_append (Char.ofNat 39) r q hq1
  rw [if_neg (by decide), if_neg (by decide), if_pos (by decide), hs]
  simp only
  have hd : (q ++ SQUOTE :: r).drop (q.length + 1) = r := by
    rw [← List.drop_drop, List.drop_left]
    rfl
  rw [hd]

theorem find_end_squote_open (env : ParserEnv) (fuel : Nat) (olds r : CStr) (hr : SQUOTE ∉ r) :
    find_end_of_command_body env (fuel + 1) olds (SQUOTE :: r) = PRes.err ["unclosed string"] := by
  rw [find_end_of_command_body_succ]
  have : strcspn (SQUOTE :: r) BODY_STOP = 0 := by simp [strcspn, BODY_STOP, SQUOTE]
  simp only [this, List.drop_zero]
  have hr1 : Char.ofNat 39 ∉ r := hr
  rw [if_neg (by decide), if_neg (by decide), if_pos (by decide),
    strchr_none (Char.ofNat 39) r hr1]

theorem find_end_dquote (env : ParserEnv) (fuel : Nat) (olds r : CStr) :
    find_end_of_command_body env (fuel + 1) olds (DQUOTE :: r) =
      (find_end_of_dquote env fuel r).bind fun s2 =>
        find_end_of_command_body env fuel olds s2 := by
  rw [find_end_of_command_body_succ]
  have : strcspn (DQUOTE :: r) BODY_STOP = 0 := by simp [strcspn, BODY_STOP, DQUOTE]
  simp only [this, List.drop_zero]
  rw [if_neg (by decide), if_pos (by decide)]

theorem find_end_dollar (env : ParserEnv) (fuel : Nat) (olds r : CStr)
    (hr : r.head? ≠ some LPAREN) :
    find_end_of_command_body env (fuel + 1) olds (DOLLAR :: r) =
      find_end_of_command_body env fuel olds r := by
  rw [find_end_of_command_body_succ]
  have : strcspn (DOLLAR :: r) BODY_STOP = 0 := by simp [strcspn, BODY_STOP, DOLLAR]
  simp only [this, List.drop_zero]
  have hr1 : ¬ (r.head? = some (Char.ofNat 40)) := hr
  rw [if_pos (by decide), if_neg hr1]

theorem find_end_subst (env : ParserEnv) (fuel : Nat) (olds r : CStr) :
    find_end_of_command_body env (fuel + 1) olds (DOLLAR :: LPAREN :: r) =
      (parse_commands env fuel r).bind fun p =>
        if p.2.head? ≠ some (Char.ofNat 41) then PRes.err ["invalid syntax: missing ')'"]
        else find_end_of_command_body env fuel olds (p.2.drop 1) := by
  rw [find_end_of_command_body_succ]
  have : strcspn (DOLLAR :: LPAREN :: r) BODY_STOP = 0 := by
    simp [strcspn, BODY_STOP, DOLLAR]
  simp only [this, List.drop_zero]
  have h1 : (LPAREN :: r).head? = some (Char.ofNat 40) := rfl
  rw [if_pos (by decide), if_pos h1]
  rfl

theorem head_append_ne (t x : CStr) (c : Char) (ht : t.head? ≠ some c) (hx : x.head? ≠ some c) :
    (t ++ x).head? ≠ some c := by
  cases t with
  | nil => exact hx
  | cons a t => simpa using ht

theorem find_end_word (env : ParserEnv) (N : CStr → Prop) (A U : Prop)
    (hN : nested_reads env N A U) (olds x : CStr) (E : CStr → Prop) (bx : Nat)
    (hx0 : x.head? ≠ some LPAREN)
    (hx : ∀ f, PRes.gives (f < bx) A U E (find_end_of_command_body env f olds x))
    (w : CStr) (hw : word_text N w) :
    ∀ fuel, fd_ok A (w ++ x) →
      PRes.gives (fuel < 4 * w.length + bx) A U E
        (find_end_of_command_body env fuel olds (w ++ x)) := by
  induction hw with
  | nil =>
    intro fuel _
    exact gives_time _ _ _ _ _ _ (hx fuel) (by simp)
  | plain c t hc _ ih =>
    intro fuel hfd
    cases fuel with
    | zero =>
      rw [find_end_of_command_body]
      show 0 < 4 * (c :: t).length + bx
      simp only [List.length_cons]; omega
    | succ f =>
      rw [List.cons_append, find_end_of_command_body_skip env f olds c _ hc]
      exact gives_time _ _ _ _ _ _ (ih (f + 1) (fd_ok_tail A _ _ hfd))
        (by simp only [List.length_cons]; omega)
  | esc y t _ ih =>
    intro fuel hfd
    cases fuel with
    | zero =>
      rw [find_end_of_command_body]
      show 0 < 4 * (BSL :: y :: t).length + bx
      simp only [List.length_cons]; omega
    | succ f =>
      rw [List.cons_append, List.cons_append, find_end_esc]
      exact gives_time _ _ _ _ _ _ (ih f (fd_ok_suffix A [BSL, y] _ hfd))
        (by simp only [List.length_cons]; omega)
  | squote q t hq _ ih =>
    intro fuel hfd
    cases fuel with
    | zero =>
      rw [find_end_of_command_body]
      show 0 < 4 * (SQUOTE :: (q ++ SQUOTE :: t)).length + bx
      simp only [List.length_cons]; omega
    | succ f =>
      have e : SQUOTE :: (q ++ SQUOTE :: t) ++ x = SQUOTE :: (q ++ SQUOTE :: (t ++ x)) := by simp
      rw [e] at hfd ⊢
      rw [find_end_squote env f olds q _ hq]
      have hfd1 : fd_ok A (t ++ x) :=
        fd_ok_tail A _ _ (fd_ok_suffix A q _ (fd_ok_tail A _ _ hfd))
      exact gives_time _ _ _ _ _ _ (ih f hfd1)
        (by simp only [List.length_cons, List.length_append]; omega)
  | dquote q t hq _ ih =>
    intro fuel hfd
    cases fuel with
    | zero =>
      rw [find_end_of_command_body]
      show 0 < 4 * (DQUOTE :: (q ++ DQUOTE :: t)).length + bx
      simp only [List.length_cons]; omega
    | succ f =>
      have e : DQUOTE :: (q ++ DQUOTE :: t) ++ x = DQUOTE :: (q ++ DQUOTE :: (t ++ x)) := by simp
      rw [e] at hfd ⊢
      rw [find_end_dquote]
      have hfd0 : fd_ok A (q ++ DQUOTE :: (t ++ x)) := fd_ok_tail A _ _ hfd
      apply gives_bind _ _ _ _ _ _ _
        (gives_time _ _ _ _ _ _ (find_end_of_dquote_text env N A U hN (t ++ x) q hq f hfd0) (by
          simp only [List.length_cons, List.length_append]; omega))
      intro s2 hs2
      rw [hs2]
      have hfd1 : fd_ok A (t ++ x) := fd_ok_tail A _ _ (fd_ok_suffix A q _ hfd0)
      exact gives_time _ _ _ _ _ _ (ih f hfd1)
        (by simp only [List.length_cons, List.length_append]; omega)
  | dollar t hd _ ih =>
    intro fuel hfd
    cases fuel with
    | zero =>
      rw [find_end_of_command_body]
      show 0 < 4 * (DOLLAR :: t).length + bx
      simp only [List.length_cons]; omega
    | succ f =>
      rw [List.cons_append, find_end_dollar env f olds _ (head_append_ne t x _ hd hx0)]
      exact gives_time _ _ _ _ _ _ (ih f (fd_ok_tail A _ _ hfd))
        (by simp only [List.length_cons]; omega)
  | subst inner t hi _ ih =>
    intro fuel hfd
    cases fuel with
    | zero =>
      rw [find_end_of_command_body]
      show 0 < 4 * (DOLLAR :: LPAREN :: (inner ++ RPAREN :: t)).length + bx
      simp only [List.length_cons]; omega
    | succ f =>
      have e : DOLLAR :: LPAREN :: (inner ++ RPAREN :: t) ++ x =
          DOLLAR :: LPAREN :: (inner ++ RPAREN :: (t ++ x)) := by simp
      rw [e] at hfd ⊢
      rw [find_end_subst]
      have hfd1 : fd_ok A (inner ++ RPAREN :: (t ++ x)) :=
        fd_ok_suffix A [DOLLAR, LPAREN] _ hfd
      apply gives_bind _ _ _ _ _ _ _
        (gives_time _ _ _ _ _ _ (hN inner hi (t ++ x) f hfd1) (by
          simp only [List.length_cons, List.length_append]; omega))
      intro p hp
      rw [hp]
      rw [if_neg (by simp [RPAREN])]
      have hfd2 : fd_ok A (t ++ x) := fd_ok_tail A _ _ (fd_ok_suffix A inner _ hfd1)
      exact gives_time _ _ _ _ _ _ (ih f hfd2)
        (by simp only [List.length_cons, List.length_append]; omega)

theorem find_end_at_stop (env : ParserEnv) (fuel : Nat) (olds x : CStr)
    (hx : x = [] ∨ ∃ c t, x = c :: t ∧ c ∈ BODY_END_CHARS) :
    find_end_of_command_body env (fuel + 1) olds x = PRes.ok x := by
  rw [find_end_of_command_body_succ]
  rcases hx with e | ⟨c, t, e, hc⟩
  · subst e; rfl
  · subst e
    simp only [BODY_END_CHARS, List.mem_cons, List.mem_singleton, List.not_mem_nil,
      or_false] at hc
    rcases hc with e | e | e | e | e | e <;> subst e
    all_goals
      simp only [strcspn]
      rw [if_pos (by decide)]
      simp only [List.drop_zero]
      rw [if_neg (by decide), if_neg (by decide), if_neg (by decide), if_neg (by decide),
        if_neg (by decide), if_neg (by decide)]

theorem gives_at_stop (env : ParserEnv) (A U : Prop) (olds x : CStr)
    (hx : x = [] ∨ ∃ c t, x = c :: t ∧ c ∈ BODY_END_CHARS) :
    ∀ f, PRes.gives (f < 1) A U (fun r => r = x) (find_end_of_command_body env f olds x) := by
  intro f
  cases f with
  | zero => rw [find_end_of_command_body]; show 0 < 1; omega
  | succ f => rw [find_end_at_stop env f olds x hx]; exact rfl

theorem find_end_at_redir (env : ParserEnv) (fuel : Nat) (olds : CStr) (c : Char) (t : CStr)
    (hc : c = Char.ofNat 60 ∨ c = Char.ofNat 62) :
    find_end_of_command_body env (fuel + 1) olds (c :: t) =
      PRes.ok (find_start_of_number olds (c :: t)) := by
  rw [find_end_of_command_body_succ]
  rcases hc with e | e <;> subst e
  all_goals
    simp only [strcspn]
    rw [if_pos (by decide)]
    simp only [List.drop_zero]
    rw [if_neg (by decide), if_neg (by decide), if_neg (by decide), if_neg (by decide),
      if_neg (by decide), if_pos (by decide)]

theorem gives_at_redir (env : ParserEnv) (A U : Prop) (olds : CStr) (c : Char) (t : CStr)
    (hc : c = Char.ofNat 60 ∨ c = Char.ofNat 62) :
    ∀ f, PRes.gives (f < 1) A U (fun r => r = find_start_of_number olds (c :: t))
      (find_end_of_command_body env f olds (c :: t)) := by
  intro f
  cases f with
  | zero => rw [find_end_of_command_body]; show 0 < 1; omega
  | succ f => rw [find_end_at_redir env f olds c t hc]; exact rfl

theorem try_wordexp_gives (env : ParserEnv) (T A U : Prop) (E : CStr → Prop) (s : CStr)
    (p : List CStr) (flags fuel : Nat)
    (hcodes : (∀ s p f, (env.wordexp s p f).1 ≤ 5) ∨ A)
    (h : PRes.gives T A U E (find_end_of_command_body env fuel s s)) :
    PRes.gives T A U (fun r => E r.1) (try_wordexp env (fuel + 1) s p flags) := by
  rw [try_wordexp_succ]
  apply gives_bind _ _ _ _ _ _ _ h
  intro eoc he
  simp only
  generalize (if flags &&& (WRDE_APPEND ||| WRDE_REUSE) = 0 then [] else p) = p0
  by_cases hz : (env.wordexp (s.take (s.length - eoc.length)) p0 flags).1 = 0
  · rw [if_pos hz]; exact he
  · rw [if_neg hz]
    rcases hcodes with hc | ha
    · obtain ⟨m, hm1⟩ := wordexp_message_some _ (hc _ _ _) hz
      rw [hm1]
      exact trivial
    · cases wordexp_message (env.wordexp (s.take (s.length - eoc.length)) p0 flags).1 with
      | some m => exact trivial
      | none => exact ha

theorem cmd_stop_body_end (rest : CStr) (h : cmd_stop rest) :
    rest = [] ∨ ∃ c t, rest = c :: t ∧ c ∈ BODY_END_CHARS := by
  rcases h with e | ⟨c, t, e, hc⟩
  · exact Or.inl e
  · right
    refine ⟨c, t, e, ?_⟩
    simp only [CMD_STOP, List.mem_cons, List.mem_singleton, List.not_mem_nil, or_false] at hc
    rcases hc with e | e | e | e | e <;> subst e <;> decide

theorem cmd_stop_scmd_end (rest : CStr) (h : cmd_stop rest) :
    rest = [] ∨ rest.head?.any (fun c => decide (c ∈ SCMD_END)) = true := by
  rcases h with e | ⟨c, t, e, hc⟩
  · exact Or.inl e
  · right
    subst e
    simp only [CMD_STOP, List.mem_cons, List.mem_singleton, List.not_mem_nil, or_false] at hc
    rcases hc with e | e | e | e | e <;> subst e <;> rfl

theorem cmd_stop_token_end (rest : CStr) (h : cmd_stop rest) : token_end rest := by
  rcases h with e | ⟨c, t, e, hc⟩
  · exact Or.inl e
  · right
    refine ⟨c, t, e, ?_⟩
    simp only [CMD_STOP, List.mem_cons, List.mem_singleton, List.not_mem_nil, or_false] at hc
    rcases hc with e | e | e | e | e <;> subst e <;> decide

theorem cmd_stop_head (rest : CStr) (h : cmd_stop rest) (c : Char) (hc : c ∉ CMD_STOP) :
    rest.head? ≠ some c := by
  rcases h with e | ⟨a, t, e, ha⟩
  · subst e; simp
  · subst e
    simp only [List.head?_cons, ne_eq, Option.some.injEq]
    intro e
    exact hc (e ▸ ha)

theorem parse_redir_fd_run (ds : CStr) (c : Char) (t : CStr) (hds : is_digit_run ds)
    (hc : is_digit_char c = false) :
    (∃ fd, parse_redir_fd (ds ++ c :: t) = PRes.ok (fd, c :: t)) ∨
      (∃ m, parse_redir_fd (ds ++ c :: t) = PRes.err m) ∨
      (parse_redir_fd (ds ++ c :: t) = PRes.assert_failed "parse_redir" ∧
        ¬ (digits_value ds : Int) ≤ INT_MAX) := by
  by_cases hv : (digits_value ds : Int) ≤ INT_MAX
  · exact Or.inl ⟨_, parse_redir_fd_digits ds c t hds hc hv⟩
  · cases ds with
    | nil => exact absurd (by decide) hv
    | cons a ds =>
      have ha : is_digit_char a = true := hds a (List.mem_cons_self _ _)
      have htw := takeWhile_digit_run (a :: ds) c t hds hc
      rw [List.cons_append] at htw
      unfold parse_redir_fd
      simp only [List.cons_append, List.head?_cons, ha, if_true, htw]
      by_cases h1 : (digits_value (a :: ds) : Int) > LONG_MAX
      · rw [if_pos h1]
        exact Or.inr (Or.inl ⟨_, rfl⟩)
      · rw [if_neg h1]
        by_cases h2 : long_to_int (digits_value (a :: ds)) < 0
        · rw [if_pos h2]
          exact Or.inr (Or.inr ⟨rfl, hv⟩)
        · rw [if_neg h2]
          left
          refine ⟨long_to_int (digits_value (a :: ds)), ?_⟩
          have : (a :: (ds ++ c :: t)) = (a :: ds) ++ c :: t := rfl
          rw [this, List.drop_left]

theorem parse_redir_op_item (fd : Int) (op x : CStr) (hop : op ∈ REDIR_TARGET_OPS)
    (h1 : x.head? ≠ some (Char.ofNat 60)) (h2 : x.head? ≠ some (Char.ofNat 62))
    (h3 : x.head? ≠ some (Char.ofNat 38)) :
    ∃ fd1 flags cp, parse_redir_op fd (op ++ x) = PRes.ok (fd1, flags, cp, false, x) ∧
      (cp = true → op ∈ REDIR_COPY_OPS) := by
  simp only [REDIR_TARGET_OPS, REDIR_OPS, List.cons_append, List.nil_append, List.mem_cons,
    List.mem_singleton, List.not_mem_nil, or_false] at hop
  rcases hop with e | e | e | e | e | e | e <;> subst e <;>
    simp [parse_redir_op, REDIR_COPY_OPS, h1, h2, h3]

theorem redir_op_first (op : CStr) (hop : op ∈ REDIR_TARGET_OPS) :
    ∃ c op1, op = c :: op1 ∧ (c = Char.ofNat 60 ∨ c = Char.ofNat 62) := by
  simp only [REDIR_TARGET_OPS, REDIR_OPS, List.cons_append, List.nil_append, List.mem_cons,
    List.mem_singleton, List.not_mem_nil, or_false] at hop
  rcases hop with e | e | e | e | e | e | e <;> subst e
  · exact ⟨_, _, rfl, Or.inl rfl⟩
  · exact ⟨_, _, rfl, Or.inr rfl⟩
  · exact ⟨_, _, rfl, Or.inr rfl⟩
  · exact ⟨_, _, rfl, Or.inl rfl⟩
  · exact ⟨_, _, rfl, Or.inl rfl⟩
  · exact ⟨_, _, rfl, Or.inr rfl⟩
  · exact ⟨_, _, rfl, Or.inl rfl⟩

theorem head_blanks_quote (sp : CStr) (qc : Char) (r : CStr)
    (hsp : ∀ c ∈ sp, c = Char.ofNat 32) (hqc : qc = DQUOTE ∨ qc = SQUOTE) (c : Char)
    (h1 : c ≠ Char.ofNat 32) (h2 : c ≠ DQUOTE) (h3 : c ≠ SQUOTE) :
    (sp ++ qc :: r).head? ≠ some c := by
  cases sp with
  | nil =>
    simp only [List.nil_append, List.head?_cons, ne_eq, Option.some.injEq]
    rcases hqc with e | e <;> subst e <;> intro e
    · exact h2 e.symm
    · exact h3 e.symm
  | cons b bs =>
    simp only [List.cons_append, List.head?_cons, ne_eq, Option.some.injEq]
    intro e
    exact h1 (e ▸ hsp b (List.mem_cons_self _ _))

theorem dropWhile_blanks_quote (sp : CStr) (qc : Char) (r : CStr)
    (hsp : ∀ c ∈ sp, c = Char.ofNat 32) (hqc : qc = DQUOTE ∨ qc = SQUOTE) :
    (sp ++ qc :: r).dropWhile (fun c => decide (c = Char.ofNat 32)) = qc :: r := by
  induction sp with
  | nil =>
    have hq : qc ≠ Char.ofNat 32 := by
      rcases hqc with e | e <;> subst e <;> decide
    simp [List.dropWhile, hq]
  | cons b bs ih =>
    have hb1 : b = Char.ofNat 32 := hsp b (List.mem_cons_self _ _)
    rw [List.cons_append, List.dropWhile_cons, if_pos (by simp [hb1])]
    exact ih (fun c hc => hsp c (List.mem_cons_of_mem _ hc))

theorem get_token_quoted (qc : Char) (q rest : CStr) (hqc : qc = DQUOTE ∨ qc = SQUOTE)
    (hq : qc ∉ q) :
    get_token (qc :: (q ++ qc :: rest)) = PRes.ok (qc :: (q ++ [qc])) := by
  have hs := strchr_append qc rest q hq
  have h1 : qc ≠ Char.ofNat 32 := by
    rcases hqc with e | e <;> subst e <;> decide
  have h2 : qc = Char.ofNat 34 ∨ qc = Char.ofNat 39 := hqc
  unfold get_token
  simp only [if_neg h1, if_pos h2, hs]
  congr 1
  have : qc :: (q ++ qc :: rest) = (qc :: (q ++ [qc])) ++ rest := by simp
  rw [this]
  exact List.take_left' (by simp)

theorem redir_item_head (R : CStr) (closed : Bool) (hR : redir_item R closed) :
    ∃ c R1, R = c :: R1 ∧ (c = Char.ofNat 60 ∨ c = Char.ofNat 62) := by
  rcases hR with ⟨op, sp, tgt, e, hop, -, -⟩ | ⟨-, e⟩
  · subst e
    obtain ⟨c, op1, eop, hc⟩ := redir_op_first op hop
    subst eop
    exact ⟨c, _, rfl, hc⟩
  · subst e
    exact ⟨_, _, rfl, Or.inr rfl⟩

theorem parse_redir_from_op (env : ParserEnv) (s : CStr) (fd : Int) (R rest : CStr)
    (closed : Bool) (hR : redir_item R closed) (hrest : closed = false → token_end rest)
    (hfd : parse_redir_fd s = PRes.ok (fd, R ++ rest)) :
    ∃ r, parse_redir env s = PRes.ok (r, rest) := by
  rcases hR with ⟨op, sp, tgt, e, hop, hsp, ⟨hcl, hw⟩ | ⟨hcl, qc, q, hqc, hq, hne, etgt⟩⟩ |
    ⟨-, e⟩
  · subst e
    have hrest1 := hrest hcl
    have e1 : op ++ (sp ++ tgt) ++ rest = op ++ (sp ++ (tgt ++ rest)) := by
      simp only [List.append_assoc]
    rw [e1] at hfd
    obtain ⟨fd1, flags, cp, hopr, hcp⟩ := parse_redir_op_item fd op (sp ++ (tgt ++ rest)) hop
      (head_blanks_word sp tgt rest hsp hw _ (by decide) (by decide))
      (head_blanks_word sp tgt rest hsp hw _ (by decide) (by decide))
      (head_blanks_word sp tgt rest hsp hw _ (by decide) (by decide))
    have hdw := dropWhile_blanks_word sp tgt rest hsp hw
    have htok := get_token_word tgt rest hw hrest1
    obtain ⟨hne, hall⟩ := hw
    have hq1 : tgt.head? ≠ some (Char.ofNat 34) := by
      intro e
      exact hall _ (List.mem_of_mem_head? e) (by decide)
    have hq2 : tgt.head? ≠ some (Char.ofNat 39) := by
      intro e
      exact hall _ (List.mem_of_mem_head? e) (by decide)
    unfold parse_redir
    rw [hfd]
    simp only [PRes.bind, hopr]
    simp only [hdw, htok, hq1, hq2, or_self, false_and, if_false, Bool.false_eq_true]
    cases cp with
    | false =>
      simp only [Bool.false_eq_true, if_false, PRes.bind]
      rw [List.drop_left]
      exact ⟨_, rfl⟩
    | true =>
      obtain ⟨f, hf⟩ := parse_redir_fdcopy_word tgt hne
      simp only [if_true, hf, PRes.bind]
      rw [List.drop_left]
      exact ⟨_, rfl⟩
  · subst e
    subst etgt
    have e1 : op ++ (sp ++ qc :: (q ++ [qc])) ++ rest =
        op ++ (sp ++ qc :: (q ++ qc :: rest)) := by
      simp only [List.append_assoc, List.cons_append, List.nil_append]
    rw [e1] at hfd
    have hn1 : ∀ c : Char, c ≠ Char.ofNat 32 → c ≠ DQUOTE → c ≠ SQUOTE →
        (sp ++ qc :: (q ++ qc :: rest)).head? ≠ some c :=
      fun c a b d => head_blanks_quote sp qc _ hsp hqc c a b d
    obtain ⟨fd1, flags, cp, hopr, hcp⟩ := parse_redir_op_item fd op
      (sp ++ qc :: (q ++ qc :: rest)) hop
      (hn1 _ (by decide) (by decide) (by decide))
      (hn1 _ (by decide) (by decide) (by decide))
      (hn1 _ (by decide) (by decide) (by decide))
    have hdw := dropWhile_blanks_quote sp qc (q ++ qc :: rest) hsp hqc
    have htok := get_token_quoted qc q rest hqc hq
    have hhead : (qc :: (q ++ [qc])).head? = some (Char.ofNat 34) ∨
        (qc :: (q ++ [qc])).head? = some (Char.ofNat 39) := by
      rcases hqc with e | e <;> subst e
      · exact Or.inl rfl
      · exact Or.inr rfl
    have hlast : (qc :: (q ++ [qc])).getLast? = some (Char.ofNat 34) ∨
        (qc :: (q ++ [qc])).getLast? = some (Char.ofNat 39) := by
      have : (qc :: (q ++ [qc])).getLast? = some qc := by
        rw [← List.cons_append, List.getLast?_append]
        rfl
      rw [this]
      rcases hqc with e | e <;> subst e
      · exact Or.inl rfl
      · exact Or.inr rfl
    have hfile : ((qc :: (q ++ [qc])).drop 1).take ((qc :: (q ++ [qc])).length - 2) = q := by
      simp
    have hdrop : (qc :: (q ++ qc :: rest)).drop (qc :: (q ++ [qc])).length = rest := by
      have : qc :: (q ++ qc :: rest) = (qc :: (q ++ [qc])) ++ rest := by simp
      rw [this, List.drop_left]
    unfold parse_redir
    rw [hfd]
    simp only [PRes.bind, hopr]
    simp only [hdw, htok, Bool.false_eq_true, if_false]
    rw [if_neg (by
      intro h
      exact h.2 hlast)]
    simp only [if_pos hhead, hfile, hdrop]
    cases cp with
    | false =>
      simp only [Bool.false_eq_true, if_false, PRes.bind]
      exact ⟨_, rfl⟩
    | true =>
      obtain ⟨f, hf⟩ := parse_redir_fdcopy_word q (hne (hcp rfl))
      simp only [if_true, hf, PRes.bind]
      exact ⟨_, rfl⟩
  · subst e
    unfold parse_redir
    rw [hfd]
    exact ⟨_, rfl⟩

theorem parse_redir_item (env : ParserEnv) (A : Prop) (ds R rest : CStr) (closed : Bool)
    (hds : is_digit_run ds) (hR : redir_item R closed)
    (hrest : closed = false → token_end rest)
    (hv : (digits_value ds : Int) ≤ INT_MAX ∨ A) :
    PRes.gives False A False (fun r => r.2 = rest) (parse_redir env (ds ++ (R ++ rest))) := by
  obtain ⟨c, R1, eR, hc⟩ := redir_item_head R closed hR
  have hcd : is_digit_char c = false := by
    rcases hc with e | e <;> subst e <;> decide
  have hrun := parse_redir_fd_run ds c (R1 ++ rest) hds hcd
  rw [← List.cons_append, ← eR] at hrun
  rcases hrun with ⟨fd, h⟩ | ⟨m, h⟩ | ⟨h, hn⟩
  · obtain ⟨r, hr⟩ := parse_redir_from_op env _ fd R rest closed hR hrest h
    rw [hr]
    exact rfl
  · unfold parse_redir
    rw [h]
    exact trivial
  · unfold parse_redir
    rw [h]
    exact hv.resolve_left hn

theorem digit_not_scmd_end (a : Char) (ha : is_digit_char a = true) : a ∉ SCMD_END := by
  intro hmem
  simp only [SCMD_END, List.mem_cons, List.mem_singleton, List.not_mem_nil, or_false] at hmem
  rcases hmem with e | e | e | e | e | e | e | e | e <;> subst e <;> revert ha <;> decide

theorem redir_start (ds : CStr) (c : Char) (t : CStr) (hds : is_digit_run ds)
    (hc : c = Char.ofNat 60 ∨ c = Char.ofNat 62) :
    ¬ (ds ++ c :: t = [] ∨
        (ds ++ c :: t).head?.any (fun c => decide (c ∈ SCMD_END)) = true) ∧
      (ds ++ c :: t).head?.any
        (fun c => c = Char.ofNat 60 || c = Char.ofNat 62 || is_digit_char c) = true := by
  cases ds with
  | nil =>
    rcases hc with e | e <;> subst e
    · constructor
      · simp only [List.nil_append, List.head?_cons, Option.any_some]
        rintro (h | h)
        · cases h
        · revert h; decide
      · rfl
    · constructor
      · simp only [List.nil_append, List.head?_cons, Option.any_some]
        rintro (h | h)
        · cases h
        · revert h; decide
      · rfl
  | cons a ds =>
    have ha : is_digit_char a = true := hds a (List.mem_cons_self _ _)
    have hn := digit_not_scmd_end a ha
    constructor
    · simp only [List.cons_append, List.head?_cons, Option.any_some, decide_eq_true_eq]
      rintro (h | h)
      · cases h
      · exact hn h
    · simp only [List.cons_append, List.head?_cons, Option.any_some, ha, Bool.or_true]

theorem scmd_simple (env : ParserEnv) (N : CStr → Prop) (A U : Prop)
    (hN : nested_reads env N A U) (hcodes : (∀ s p f, (env.wordexp s p f).1 ≤ 5) ∨ A)
    (rest : CStr) (hrest : cmd_stop rest) (t : CStr) (ht : simple_text N t) :
    ∀ (fuel : Nat) (olds : CStr) (we : List CStr) (flags : Nat) (redirs : List REDIR),
      fd_ok A (t ++ rest) →
      PRes.gives (fuel < 4 * t.length + 4) A U (fun r => r.2 = rest ∧ r.1.c_type = CT_END)
        ((try_wordexp env fuel (t ++ rest) we flags).bind fun r1 =>
          parse_scmd_loop env fuel olds r1.1 r1.2 redirs) := by
  induction ht with
  | word w hw =>
    intro fuel olds we flags redirs hfd
    cases fuel with
    | zero =>
      rw [try_wordexp]
      show 0 < 4 * w.length + 4
      omega
    | succ f =>
      have h1 := find_end_word env N A U hN (w ++ rest) rest (fun r => r = rest) 1
        (cmd_stop_head rest hrest LPAREN (by decide))
        (gives_at_stop env A U _ rest (cmd_stop_body_end rest hrest)) w hw f hfd
      have h2 := try_wordexp_gives env _ A U _ (w ++ rest) we flags f hcodes h1
      apply gives_bind _ _ _ _ _ _ _ (gives_time _ (f + 1 < 4 * w.length + 4) _ _ _ _ h2
        (by omega))
      intro r1 hr1
      rw [hr1, parse_scmd_loop_succ, if_pos (cmd_stop_scmd_end rest hrest)]
      exact ⟨rfl, rfl⟩
  | redir w R t closed hw hR htok ht ih =>
    intro fuel olds we flags redirs hfd
    have e : (w ++ (R ++ t)) ++ rest = w ++ (R ++ (t ++ rest)) := by
      simp only [List.append_assoc]
    rw [e] at hfd ⊢
    cases fuel with
    | zero =>
      rw [try_wordexp]
      show 0 < 4 * (w ++ (R ++ t)).length + 4
      omega
    | succ f =>
      obtain ⟨c, R1, eR, hc⟩ := redir_item_head R closed hR
      obtain ⟨ds, hds_eq, hds, p, hp⟩ := find_start_of_number_run w (R ++ (t ++ rest))
      have hx0 : (R ++ (t ++ rest)).head? ≠ some LPAREN := by
        rw [eR]
        simp only [List.cons_append, List.head?_cons, ne_eq, Option.some.injEq]
        rcases hc with e | e <;> subst e <;> decide
      have hx : ∀ g, PRes.gives (g < 1) A U (fun r => r = ds ++ (R ++ (t ++ rest)))
          (find_end_of_command_body env g (w ++ (R ++ (t ++ rest))) (R ++ (t ++ rest))) := by
        intro g
        have := gives_at_redir env A U (w ++ (R ++ (t ++ rest))) c (R1 ++ (t ++ rest)) hc g
        rw [← List.cons_append, ← eR, hds_eq] at this
        exact this
      have h1 := find_end_word env N A U hN (w ++ (R ++ (t ++ rest))) (R ++ (t ++ rest))
        (fun r => r = ds ++ (R ++ (t ++ rest))) 1 hx0 hx w hw f hfd
      have h2 := try_wordexp_gives env _ A U _ (w ++ (R ++ (t ++ rest))) we flags f hcodes h1
      have hlen : f < 4 * w.length + 1 → f + 1 < 4 * (w ++ (R ++ t)).length + 4 := by
        simp only [List.length_append]
        omega
      apply gives_bind _ _ _ _ _ _ _ (gives_time _ _ _ _ _ _ h2 hlen)
      intro r1 hr1
      have hfd2 : fd_ok A (ds ++ (R ++ (t ++ rest))) := by
        rw [← hp] at hfd
        exact fd_ok_suffix A p _ hfd
      have hv : (digits_value ds : Int) ≤ INT_MAX ∨ A := by
        rw [eR] at hfd2
        exact hfd2 [] ds c (R1 ++ (t ++ rest)) rfl hds hc
      have hst := redir_start ds c (R1 ++ (t ++ rest)) hds hc
      rw [← List.cons_append, ← eR] at hst
      rw [hr1, parse_scmd_loop_succ, if_neg hst.1, if_pos hst.2]
      have htok1 : closed = false → token_end (t ++ rest) := by
        intro hcl
        rcases htok hcl with e | ⟨a, u, e, ha⟩
        · subst e
          exact cmd_stop_token_end rest hrest
        · subst e
          exact Or.inr ⟨a, u ++ rest, rfl, ha⟩
      have h3 := parse_redir_item env A ds R (t ++ rest) closed hds hR htok1 hv
      apply gives_bind _ _ _ _ _ _ _
        (gives_mono _ (f + 1 < 4 * (w ++ (R ++ t)).length + 4) _ A _ U _ _ _ h3
          False.elim id False.elim (fun _ h => h))
      intro r hr
      rw [hr]
      have hfd3 : fd_ok A (t ++ rest) := by
        have : ds ++ (R ++ (t ++ rest)) = (ds ++ R) ++ (t ++ rest) := by
          simp only [List.append_assoc]
        rw [this] at hfd2
        exact fd_ok_suffix A _ _ hfd2
      have hlen2 : f < 4 * t.length + 4 → f + 1 < 4 * (w ++ (R ++ t)).length + 4 := by
        rw [eR]
        simp only [List.length_append, List.length_cons]
        omega
      exact gives_time _ _ _ _ _ _ (ih f olds _ _ _ hfd3) hlen2

theorem drop_blanks_append (b x : CStr)
    (hx : x = [] ∨ ∃ c t, x = c :: t ∧ ¬ is_blank c) :
    ∀ k : Nat, (∀ c ∈ (b ++ x).take k, is_blank c) →
      (b ++ x).drop k = b.drop k ++ x ∧ ∀ c ∈ b.take k, is_blank c := by
  induction b with
  | nil =>
    intro k h
    cases k with
    | zero => exact ⟨rfl, fun c hc => absurd hc (List.not_mem_nil _)⟩
    | succ k =>
      rcases hx with e | ⟨c, t, e, hc⟩
      · subst e
        exact ⟨rfl, fun c hc => absurd hc (List.not_mem_nil _)⟩
      · subst e
        exact absurd (h c (List.mem_cons_self _ _)) hc
  | cons a b ih =>
    intro k h
    cases k with
    | zero => exact ⟨rfl, fun c hc => absurd hc (List.not_mem_nil _)⟩
    | succ k =>
      have h1 := ih k (fun c hc => h c (List.mem_cons_of_mem _ hc))
      refine ⟨h1.1, ?_⟩
      intro c hc
      rw [List.take_succ_cons] at hc
      rcases List.mem_cons.mp hc with e | hc1
      · rw [e]
        exact h a (List.mem_cons_self _ _)
      · exact h1.2 c hc1

theorem cmd_stop_not_blank (x : CStr) (hx : cmd_stop x) :
    x = [] ∨ ∃ c t, x = c :: t ∧ ¬ is_blank c := by
  rcases hx with e | ⟨c, t, e, hc⟩
  · exact Or.inl e
  · right
    refine ⟨c, t, e, ?_⟩
    simp only [CMD_STOP, List.mem_cons, List.mem_singleton, List.not_mem_nil, or_false] at hc
    unfold is_blank
    rcases hc with e | e | e | e | e <;> subst e <;> decide

theorem word_text_head (N : CStr → Prop) (w : CStr) (hw : word_text N w) :
    w.head? ≠ some LPAREN := by
  cases hw with
  | nil => simp
  | plain c t hc _ =>
    simp only [List.head?_cons, ne_eq, Option.some.injEq]
    intro e
    exact hc (e ▸ by decide)
  | esc x t _ => simp only [List.head?_cons, ne_eq, Option.some.injEq]; decide
  | squote q t _ _ => simp only [List.head?_cons, ne_eq, Option.some.injEq]; decide
  | dquote q t _ _ => simp only [List.head?_cons, ne_eq, Option.some.injEq]; decide
  | dollar t _ _ => simp only [List.head?_cons, ne_eq, Option.some.injEq]; decide
  | subst inner t _ _ => simp only [List.head?_cons, ne_eq, Option.some.injEq]; decide

theorem word_text_tail_blank (N : CStr → Prop) (c : Char) (b : CStr)
    (h : word_text N (c :: b)) (hc : is_blank c) : word_text N b := by
  have hb : ∀ x : Char, x ∈ BODY_STOP → ¬ is_blank x := by
    intro x hx
    simp only [BODY_STOP, List.mem_cons, List.mem_singleton, List.not_mem_nil,
      or_false] at hx
    unfold is_blank
    rcases hx with e | e | e | e | e | e | e | e | e | e | e | e | e <;> subst e <;> decide
  cases h with
  | plain _ _ _ ht => exact ht
  | esc x t _ => exact absurd hc (hb _ (by decide))
  | squote q t _ _ => exact absurd hc (hb _ (by decide))
  | dquote q t _ _ => exact absurd hc (hb _ (by decide))
  | dollar t _ _ => exact absurd hc (hb _ (by decide))
  | subst inner t _ _ => exact absurd hc (hb _ (by decide))

theorem redir_chars_not_blank (c : Char) (hc : c = Char.ofNat 60 ∨ c = Char.ofNat 62) :
    ¬ is_blank c := by
  unfold is_blank
  rcases hc with e | e <;> subst e <;> decide

theorem simple_text_tail_blank (N : CStr → Prop) (s : CStr) (h : simple_text N s) :
    ∀ (c : Char) (b : CStr), s = c :: b → is_blank c → simple_text N b := by
  intro c b e hc
  cases h with
  | word w hw =>
    subst e
    exact simple_text.word _ (word_text_tail_blank N c b hw hc)
  | redir w R t closed hw hR htok ht =>
    cases w with
    | nil =>
      obtain ⟨c1, R1, eR, hc1⟩ := redir_item_head R closed hR
      rw [eR] at e
      simp only [List.nil_append, List.cons_append, List.cons.injEq] at e
      rw [e.1] at hc1
      exact absurd hc (redir_chars_not_blank c hc1)
    | cons a w1 =>
      simp only [List.cons_append, List.cons.injEq] at e
      obtain ⟨e1, e2⟩ := e
      subst e1
      subst e2
      exact simple_text.redir w1 R t closed (word_text_tail_blank N a w1 hw hc) hR htok ht

theorem simple_text_drop (N : CStr → Prop) :
    ∀ (k : Nat) (b : CStr), simple_text N b → (∀ c ∈ b.take k, is_blank c) →
      simple_text N (b.drop k) := by
  intro k
  induction k with
  | zero => intro b hb _; exact hb
  | succ k ih =>
    intro b hb h
    cases b with
    | nil => exact hb
    | cons a b =>
      rw [List.drop_succ_cons]
      apply ih b (simple_text_tail_blank N _ hb a b rfl (h a (List.mem_cons_self _ _)))
      intro c hc
      exact h c (List.mem_cons_of_mem _ hc)

theorem redir_item_lparen (R : CStr) (closed : Bool) (hR : redir_item R closed) (t : CStr) :
    (R ++ t).head? ≠ some LPAREN := by
  obtain ⟨c, R1, eR, hc⟩ := redir_item_head R closed hR
  rw [eR]
  simp only [List.cons_append, List.head?_cons, ne_eq, Option.some.injEq]
  rcases hc with e | e <;> subst e <;> decide

theorem simple_text_head (N : CStr → Prop) (b x : CStr) (hb : simple_text N b)
    (hx : x.head? ≠ some LPAREN) : (b ++ x).head? ≠ some LPAREN := by
  cases hb with
  | word _ hw => exact head_append_ne b x LPAREN (word_text_head N b hw) hx
  | redir w R t closed hw hR htok ht =>
    have e : w ++ (R ++ t) ++ x = w ++ (R ++ (t ++ x)) := by
      simp only [List.append_assoc]
    rw [e]
    exact head_append_ne w _ LPAREN (word_text_head N w hw) (redir_item_lparen R closed hR _)

theorem parse_scmd_simple (env : ParserEnv) (hp : env.plain) (N : CStr → Prop) (A U : Prop)
    (hN : nested_reads env N A U) (hcodes : (∀ s p f, (env.wordexp s p f).1 ≤ 5) ∨ A)
    (x : CStr) (hx : cmd_stop x) (b : CStr) (hb : simple_text N b) (fuel : Nat)
    (hfd : fd_ok A (b ++ x)) :
    PRes.gives (fuel < 4 * b.length + 5) A U (fun r => r.2 = x ∧ r.1.c_type = CT_END)
      (parse_scmd env fuel (b ++ x)) := by
  cases fuel with
  | zero =>
    rw [parse_scmd]
    show 0 < 4 * b.length + 5
    omega
  | succ f =>
    obtain ⟨hdrop, hbl⟩ := drop_blanks_append b x (cmd_stop_not_blank x hx)
      (env.skipwhites (b ++ x)) (hp.1 (b ++ x))
    have hb1 := simple_text_drop N _ b hb hbl
    have hhead := simple_text_head N _ x hb1 (cmd_stop_head x hx LPAREN (by decide))
    have hfd1 : fd_ok A (b.drop (env.skipwhites (b ++ x)) ++ x) := by
      rw [← hdrop]
      have := List.take_append_drop (env.skipwhites (b ++ x)) (b ++ x)
      rw [← this] at hfd
      exact fd_ok_suffix A _ _ hfd
    rw [parse_scmd_succ]
    simp only [hdrop, hp.2]
    have hhead1 : ¬ ((b.drop (env.skipwhites (b ++ x)) ++ x).head? = some (Char.ofNat 40)) :=
      hhead
    rw [if_neg hhead1]
    have hlen : (b.drop (env.skipwhites (b ++ x))).length ≤ b.length := by
      rw [List.length_drop]; omega
    exact gives_time _ _ _ _ _ _
      (scmd_simple env N A U hN hcodes x hx _ hb1 f _ [] 0 [] hfd1) (by omega)

theorem group_tail_cases (g : CStr) (h : group_tail g) :
    g = [] ∨ (∃ c t, g = c :: t ∧ is_blank c) ∨
      (∃ ds R t closed, g = ds ++ (R ++ t) ∧ is_digit_run ds ∧ redir_item R closed ∧
        (closed = false → token_end t) ∧ group_tail t) := by
  cases h with
  | nil => exact Or.inl rfl
  | blank c t hc _ => exact Or.inr (Or.inl ⟨c, t, rfl, hc⟩)
  | redir ds R t closed hds hR htok ht =>
    exact Or.inr (Or.inr ⟨ds, R, t, closed, rfl, hds, hR, htok, ht⟩)

theorem digit_not_blank (a : Char) (ha : is_digit_char a = true) : ¬ is_blank a := by
  unfold is_blank
  rintro (e | e) <;> subst e <;> revert ha <;> decide

theorem group_tail_tail_blank (s : CStr) (h : group_tail s) :
    ∀ (c : Char) (b : CStr), s = c :: b → is_blank c → group_tail b := by
  intro c b e hc
  cases h with
  | nil => cases e
  | blank c1 t _ ht =>
    simp only [List.cons.injEq] at e
    rw [← e.2]
    exact ht
  | redir ds R t closed hds hR htok ht =>
    exfalso
    cases ds with
    | nil =>
      obtain ⟨c1, R1, eR, hc1⟩ := redir_item_head R closed hR
      rw [eR] at e
      simp only [List.nil_append, List.cons_append, List.cons.injEq] at e
      rw [e.1] at hc1
      exact redir_chars_not_blank c hc1 hc
    | cons a ds1 =>
      simp only [List.cons_append, List.cons.injEq] at e
      have ha := hds a (List.mem_cons_self _ _)
      rw [e.1] at ha
      exact digit_not_blank c ha hc

theorem group_tail_drop :
    ∀ (k : Nat) (b : CStr), group_tail b → (∀ c ∈ b.take k, is_blank c) →
      group_tail (b.drop k) := by
  intro k
  induction k with
  | zero => intro b hb _; exact hb
  | succ k ih =>
    intro b hb h
    cases b with
    | nil => exact hb
    | cons a b =>
      rw [List.drop_succ_cons]
      apply ih b (group_tail_tail_blank _ hb a b rfl (h a (List.mem_cons_self _ _)))
      intro c hc
      exact h c (List.mem_cons_of_mem _ hc)

theorem cmd_stop_not_redir (x : CStr) (hx : cmd_stop x) :
    ¬ (x.head?.any
      (fun c => c = Char.ofNat 60 || c = Char.ofNat 62 || is_digit_char c) = true) := by
  rcases hx with e | ⟨c, t, e, hc⟩
  · subst e
    simp
  · subst e
    simp only [CMD_STOP, List.mem_cons, List.mem_singleton, List.not_mem_nil, or_false] at hc
    rcases hc with e | e | e | e | e <;> subst e <;>
      simp only [List.head?_cons, Option.any_some] <;> decide

theorem blank_not_redir (c : Char) (hc : is_blank c) (t : CStr) :
    ¬ ((c :: t).head?.any
      (fun c => c = Char.ofNat 60 || c = Char.ofNat 62 || is_digit_char c) = true) := by
  simp only [List.head?_cons, Option.any_some]
  rcases hc with e | e <;> subst e <;> decide

theorem blank_bad_head (c : Char) (hc : is_blank c) (t : CStr) : bad_head (c :: t) := by
  refine ⟨c, t, rfl, ?_⟩
  rcases hc with e | e <;> subst e <;> decide

theorem subexp_loop_tail (env : ParserEnv) (hp : env.plain) (A : Prop) (x : CStr)
    (hx : cmd_stop x) :
    ∀ (fuel : Nat) (gt : CStr), group_tail gt → ∀ (olds : CStr) (inner : List SCMD)
      (redirs : List REDIR), fd_ok A (gt ++ x) →
      PRes.gives (fuel < gt.length + 2) A False
        (fun r => (r.2 = x ∨ bad_head r.2) ∧ r.1.c_type = CT_END)
        (parse_subexp_loop env fuel olds (gt ++ x) inner redirs) := by
  intro fuel
  induction fuel with
  | zero =>
    intro gt _ olds inner redirs _
    rw [parse_subexp_loop]
    show 0 < gt.length + 2
    omega
  | succ f ih =>
    intro gt hgt olds inner redirs hfd
    obtain ⟨hdrop, hbl⟩ := drop_blanks_append gt x (cmd_stop_not_blank x hx)
      (env.skipwhites (gt ++ x)) (hp.1 (gt ++ x))
    have hg1 := group_tail_drop _ gt hgt hbl
    have hfd1 : fd_ok A (gt.drop (env.skipwhites (gt ++ x)) ++ x) := by
      rw [← hdrop]
      have := List.take_append_drop (env.skipwhites (gt ++ x)) (gt ++ x)
      rw [← this] at hfd
      exact fd_ok_suffix A _ _ hfd
    have hlen : (gt.drop (env.skipwhites (gt ++ x))).length ≤ gt.length := by
      rw [List.length_drop]; omega
    rw [parse_subexp_loop_succ]
    simp only [hdrop]
    generalize gt.drop (env.skipwhites (gt ++ x)) = g at hg1 hfd1 hlen
    rcases group_tail_cases g hg1 with e | ⟨c, t, e, hc⟩ |
      ⟨ds, R, t, closed, e, hds, hR, htok, ht⟩
    · subst e
      rw [List.nil_append, if_neg (cmd_stop_not_redir x hx)]
      exact ⟨Or.inl rfl, rfl⟩
    · subst e
      rw [List.cons_append, if_neg (blank_not_redir c hc _)]
      exact ⟨Or.inr (blank_bad_head c hc _), rfl⟩
    · subst e
      have e1 : ds ++ (R ++ t) ++ x = ds ++ (R ++ (t ++ x)) := by
        simp only [List.append_assoc]
      rw [e1] at hfd1 ⊢
      obtain ⟨c, R1, eR, hc⟩ := redir_item_head R closed hR
      have hst := redir_start ds c (R1 ++ (t ++ x)) hds hc
      rw [← List.cons_append, ← eR] at hst
      rw [if_pos hst.2]
      have hv : (digits_value ds : Int) ≤ INT_MAX ∨ A := by
        rw [eR] at hfd1
        exact hfd1 [] ds c (R1 ++ (t ++ x)) rfl hds hc
      have htok1 : closed = false → token_end (t ++ x) := by
        intro hcl
        rcases htok hcl with e | ⟨a, u, e, ha⟩
        · subst e
          exact cmd_stop_token_end x hx
        · subst e
          exact Or.inr ⟨a, u ++ x, rfl, ha⟩
      have h3 := parse_redir_item env A ds R (t ++ x) closed hds hR htok1 hv
      apply gives_bind _ _ _ _ _ _ _
        (gives_mono _ (f + 1 < gt.length + 2) _ A _ False _ _ _ h3
          False.elim id False.elim (fun _ h => h))
      intro r hr
      rw [hr]
      have hfd3 : fd_ok A (t ++ x) := by
        have : ds ++ (R ++ (t ++ x)) = (ds ++ R) ++ (t ++ x) := by
          simp only [List.append_assoc]
        rw [this] at hfd1
        exact fd_ok_suffix A _ _ hfd1
      have hlen2 : f < t.length + 2 → f + 1 < gt.length + 2 := by
        rw [eR] at hlen
        simp only [List.length_append, List.length_cons] at hlen
        omega
      exact gives_time _ _ _ _ _ _ (ih t ht olds inner _ hfd3) hlen2

theorem parse_subexp_group (env : ParserEnv) (hp : env.plain) (N : CStr → Prop) (A U : Prop)
    (hN : nested_reads env N A U) (x : CStr) (hx : cmd_stop x) (inner gt : CStr)
    (hin : N inner) (hgt : group_tail gt) (fuel : Nat)
    (hfd : fd_ok A (LPAREN :: (inner ++ RPAREN :: (gt ++ x)))) :
    PRes.gives (fuel < 4 * inner.length + gt.length + 10) A U
      (fun r => (r.2 = x ∨ bad_head r.2) ∧ r.1.c_type = CT_END)
      (parse_subexp env fuel (LPAREN :: (inner ++ RPAREN :: (gt ++ x)))) := by
  cases fuel with
  | zero =>
    rw [parse_subexp]
    show 0 < 4 * inner.length + gt.length + 10
    omega
  | succ f =>
    rw [parse_subexp_succ]
    simp only
    have hl : ¬ (LPAREN ≠ Char.ofNat 40) := fun h => h rfl
    rw [if_neg hl]
    have hfd1 := fd_ok_tail A _ _ hfd
    have h1 := hN inner hin (gt ++ x) f hfd1
    apply gives_bind _ _ _ _ _ _ _
      (gives_time _ (f + 1 < 4 * inner.length + gt.length + 10) _ _ _ _ h1 (by omega))
    intro r hr
    rw [hr]
    have h2 : ¬ ((RPAREN :: (gt ++ x)).head? ≠ some (Char.ofNat 41)) := fun h => h rfl
    rw [if_neg h2]
    have hfd2 : fd_ok A (gt ++ x) := by
      have : inner ++ RPAREN :: (gt ++ x) = (inner ++ [RPAREN]) ++ (gt ++ x) := by simp
      rw [this] at hfd1
      exact fd_ok_suffix A _ _ hfd1
    have h3 := subexp_loop_tail env hp A x hx f gt hgt
      (LPAREN :: (inner ++ RPAREN :: (gt ++ x))) r.1 [] hfd2
    exact gives_mono _ _ _ _ _ _ _ _ _ h3 (by omega) id False.elim (fun _ h => h)

theorem find_end_blanks (env : ParserEnv) (olds y : CStr) (f : Nat) :
    ∀ bl : CStr, (∀ c ∈ bl, is_blank c) →
      find_end_of_command_body env (f + 1) olds (bl ++ LPAREN :: y) =
        PRes.ok (LPAREN :: y) := by
  intro bl
  induction bl with
  | nil =>
    intro _
    exact find_end_at_stop env f olds _ (Or.inr ⟨LPAREN, y, rfl, by decide⟩)
  | cons a bl ih =>
    intro h
    have ha : a ∉ BODY_STOP := by
      rcases h a (List.mem_cons_self _ _) with e | e <;> subst e <;> decide
    rw [List.cons_append, find_end_of_command_body_skip env f olds a _ ha]
    exact ih (fun c hc => h c (List.mem_cons_of_mem _ hc))

theorem scmd_blanks_paren (env : ParserEnv) (A U : Prop)
    (hcodes : (∀ s p f, (env.wordexp s p f).1 ≤ 5) ∨ A) (bl y : CStr)
    (hbl : ∀ c ∈ bl, is_blank c) (fuel : Nat) (olds : CStr) (we : List CStr) (flags : Nat)
    (redirs : List REDIR) :
    PRes.gives (fuel < 2) A U (fun r => bad_head r.2 ∧ r.1.c_type = CT_END)
      ((try_wordexp env fuel (bl ++ LPAREN :: y) we flags).bind fun r1 =>
        parse_scmd_loop env fuel olds r1.1 r1.2 redirs) := by
  cases fuel with
  | zero =>
    rw [try_wordexp]
    show 0 < 2
    omega
  | succ f =>
    cases f with
    | zero =>
      rw [try_wordexp_succ, find_end_of_command_body]
      show 0 + 1 < 2
      omega
    | succ g =>
      have h1 : PRes.gives (g + 1 + 1 < 2) A U (fun r => r = LPAREN :: y)
          (find_end_of_command_body env (g + 1) (bl ++ LPAREN :: y) (bl ++ LPAREN :: y)) := by
        rw [find_end_blanks env _ y g bl hbl]
        exact rfl
      have h2 := try_wordexp_gives env _ A U _ (bl ++ LPAREN :: y) we flags (g + 1) hcodes h1
      apply gives_bind _ _ _ _ _ _ _ h2
      intro r1 hr1
      have hend : LPAREN :: y = [] ∨
          (LPAREN :: y).head?.any (fun c => decide (c ∈ SCMD_END)) = true := Or.inr rfl
      rw [hr1, parse_scmd_loop_succ, if_pos hend]
      exact ⟨⟨LPAREN, y, rfl, by decide⟩, rfl⟩

theorem parse_scmd_group (env : ParserEnv) (hp : env.plain) (N : CStr → Prop) (A U : Prop)
    (hN : nested_reads env N A U) (hcodes : (∀ s p f, (env.wordexp s p f).1 ≤ 5) ∨ A)
    (x : CStr) (hx : cmd_stop x) (b : CStr) (hb : group_text N b) (fuel : Nat)
    (hfd : fd_ok A (b ++ x)) :
    PRes.gives (fuel < 4 * b.length + 5) A U
      (fun r => (r.2 = x ∨ bad_head r.2) ∧ r.1.c_type = CT_END)
      (parse_scmd env fuel (b ++ x)) := by
  obtain ⟨bl, inner, gt, eb, hbl, hin, hgt⟩ := hb
  subst eb
  have e1 : bl ++ LPAREN :: (inner ++ RPAREN :: gt) ++ x =
      bl ++ LPAREN :: (inner ++ RPAREN :: (gt ++ x)) := by simp
  rw [e1] at hfd ⊢
  cases fuel with
  | zero =>
    rw [parse_scmd]
    show 0 < 4 * (bl ++ LPAREN :: (inner ++ RPAREN :: gt)).length + 5
    omega
  | succ f =>
    have hnb : LPAREN :: (inner ++ RPAREN :: (gt ++ x)) = [] ∨
        ∃ c t, LPAREN :: (inner ++ RPAREN :: (gt ++ x)) = c :: t ∧ ¬ is_blank c := by
      right
      refine ⟨_, _, rfl, ?_⟩
      unfold is_blank
      decide
    obtain ⟨hdrop, hbl1⟩ := drop_blanks_append bl _ hnb
      (env.skipwhites (bl ++ LPAREN :: (inner ++ RPAREN :: (gt ++ x)))) (hp.1 _)
    have hfd1 : fd_ok A (LPAREN :: (inner ++ RPAREN :: (gt ++ x))) := fd_ok_suffix A _ _ hfd
    have hfd2 : fd_ok A (bl.drop (env.skipwhites
        (bl ++ LPAREN :: (inner ++ RPAREN :: (gt ++ x)))) ++
        LPAREN :: (inner ++ RPAREN :: (gt ++ x))) := by
      rw [← hdrop]
      have := List.take_append_drop
        (env.skipwhites (bl ++ LPAREN :: (inner ++ RPAREN :: (gt ++ x))))
        (bl ++ LPAREN :: (inner ++ RPAREN :: (gt ++ x)))
      rw [← this] at hfd
      exact fd_ok_suffix A _ _ hfd
    have hbl2 : ∀ c ∈ bl.drop (env.skipwhites
        (bl ++ LPAREN :: (inner ++ RPAREN :: (gt ++ x)))), is_blank c :=
      fun c hc => hbl c (List.mem_of_mem_drop hc)
    rw [parse_scmd_succ]
    simp only [hdrop, hp.2]
    generalize bl.drop (env.skipwhites (bl ++ LPAREN :: (inner ++ RPAREN :: (gt ++ x)))) = bl1
      at hfd2 hbl2
    cases bl1 with
    | nil =>
      have hh : ([] ++ LPAREN :: (inner ++ RPAREN :: (gt ++ x))).head? =
          some (Char.ofNat 40) := rfl
      rw [if_pos hh, List.nil_append]
      have h1 := parse_subexp_group env hp N A U hN x hx inner gt hin hgt f hfd1
      exact gives_time _ _ _ _ _ _ h1 (by
        simp only [List.length_append, List.length_cons]
        omega)
    | cons a bl2 =>
      have ha : a ≠ Char.ofNat 40 := by
        rcases hbl2 a (List.mem_cons_self _ _) with e | e <;> subst e <;> decide
      have hh : ¬ ((a :: bl2 ++ LPAREN :: (inner ++ RPAREN :: (gt ++ x))).head? =
          some (Char.ofNat 40)) := by
        simp only [List.cons_append, List.head?_cons, Option.some.injEq]
        exact ha
      rw [if_neg hh]
      have h1 := scmd_blanks_paren env A U hcodes (a :: bl2) (inner ++ RPAREN :: (gt ++ x))
        hbl2 f (a :: bl2 ++ LPAREN :: (inner ++ RPAREN :: (gt ++ x))) [] 0 []
      exact gives_mono _ _ _ _ _ _ _ _ _ h1 (by omega) id id (fun _ h => ⟨Or.inr h.1, h.2⟩)

theorem parse_scmd_cmd (env : ParserEnv) (hp : env.plain) (N : CStr → Prop) (A U : Prop)
    (hN : nested_reads env N A U) (hcodes : (∀ s p f, (env.wordexp s p f).1 ≤ 5) ∨ A)
    (x : CStr) (hx : cmd_stop x) (b : CStr) (hb : cmd_text N b) (fuel : Nat)
    (hfd : fd_ok A (b ++ x)) :
    PRes.gives (fuel < 4 * b.length + 5) A U
      (fun r => (r.2 = x ∨ bad_head r.2) ∧ r.1.c_type = CT_END)
      (parse_scmd env fuel (b ++ x)) := by
  rcases hb with hs | hg
  · exact gives_mono _ _ _ _ _ _ _ _ _
      (parse_scmd_simple env hp N A U hN hcodes x hx b hs fuel hfd) id id id
      (fun _ h => ⟨Or.inl h.1, h.2⟩)
  · exact parse_scmd_group env hp N A U hN hcodes x hx b hg fuel hfd

/-! ### Groups with a quote that is never closed -/

theorem line_end_stop (fin out : CStr) (h : line_end fin out) : cmd_stop fin := by
  rcases h with ⟨e, -⟩ | ⟨more, e, -⟩ | ⟨cm, e, -⟩
  · exact Or.inl e
  · exact Or.inr ⟨_, _, e, by decide⟩
  · exact Or.inr ⟨_, _, e, by decide⟩

theorem line_end_head (fin out : CStr) (h : line_end fin out) (c : Char)
    (hc : c = Char.ofNat 38 ∨ c = Char.ofNat 124) : fin.head? ≠ some c := by
  rcases h with ⟨e, -⟩ | ⟨more, e, -⟩ | ⟨cm, e, -⟩ <;> subst e
  · simp
  · simp only [List.head?_cons, ne_eq, Option.some.injEq]
    rcases hc with e | e <;> subst e <;> decide
  · simp only [List.head?_cons, ne_eq, Option.some.injEq]
    rcases hc with e | e <;> subst e <;> decide

theorem parse_commands_loop_end (env : ParserEnv) (fuel : Nat) (scmds : List SCMD)
    (fin out : CStr) (h : line_end fin out) :
    parse_commands_loop env (fuel + 1) scmds fin =
      check_to_PRes (check_parse_result scmds) (scmds, out) := by
  rw [parse_commands_loop_succ]
  rcases h with ⟨e, e1⟩ | ⟨more, e, e1⟩ | ⟨cm, e, e1⟩ <;> subst e <;> subst e1
  · rfl
  · simp only
    have h1 : ¬ (RPAREN = Char.ofNat 35) := by decide
    have h2 : RPAREN = Char.ofNat 41 := rfl
    rw [if_neg h1, if_pos h2]
  · simp only
    have h1 : HASH = Char.ofNat 35 := rfl
    rw [if_pos h1]

theorem parse_commands_loop_bad (env : ParserEnv) (fuel : Nat) (scmds : List SCMD)
    (x : CStr) (h : bad_head x) :
    parse_commands_loop env (fuel + 1) scmds x = PRes.err ["unsupported syntax"] := by
  obtain ⟨c, t, e, hc⟩ := h
  subst e
  have h1 : c ≠ Char.ofNat 35 := fun e => hc (e ▸ by decide)
  have h2 : c ≠ Char.ofNat 41 := fun e => hc (e ▸ by decide)
  have h3 : c ≠ Char.ofNat 59 := fun e => hc (e ▸ by decide)
  have h4 : c ≠ Char.ofNat 38 := fun e => hc (e ▸ by decide)
  have h5 : c ≠ Char.ofNat 124 := fun e => hc (e ▸ by decide)
  rw [parse_commands_loop_succ]
  simp only [if_neg h1, if_neg h2, h3, h4, h5, or_self, if_false]

theorem parse_commands_loop_conn_token (env : ParserEnv) (fuel : Nat) (scmds : List SCMD)
    (last : SCMD) (tok : conn_token) (rest : CStr)
    (h1 : tok = conn_token.amp → rest.head? ≠ some (Char.ofNat 38))
    (h2 : tok = conn_token.pipe → rest.head? ≠ some (Char.ofNat 124)) :
    parse_commands_loop env (fuel + 1) (scmds ++ [last]) (tok.text ++ rest) =
      (parse_scmd env fuel rest).bind fun r =>
        parse_commands_loop env fuel (scmds ++ [last.set_c_type tok.c_type] ++ [r.1]) r.2 := by
  have n1 : (Char.ofNat 59 : Char) ≠ Char.ofNat 38 := by decide
  have n2 : (Char.ofNat 59 : Char) ≠ Char.ofNat 124 := by decide
  have n3 : (Char.ofNat 38 : Char) ≠ Char.ofNat 59 := by decide
  have n4 : (Char.ofNat 38 : Char) ≠ Char.ofNat 124 := by decide
  have n5 : (Char.ofNat 124 : Char) ≠ Char.ofNat 59 := by decide
  have n6 : (Char.ofNat 124 : Char) ≠ Char.ofNat 38 := by decide
  have n7 : (Char.ofNat 59 : Char) ≠ Char.ofNat 35 := by decide
  have n8 : (Char.ofNat 59 : Char) ≠ Char.ofNat 41 := by decide
  have n9 : (Char.ofNat 38 : Char) ≠ Char.ofNat 35 := by decide
  have n10 : (Char.ofNat 38 : Char) ≠ Char.ofNat 41 := by decide
  have n11 : (Char.ofNat 124 : Char) ≠ Char.ofNat 35 := by decide
  have n12 : (Char.ofNat 124 : Char) ≠ Char.ofNat 41 := by decide
  rw [parse_commands_loop_succ]
  cases tok
  · simp [conn_token.text, conn_token.c_type, set_last_c_type_append, n1, n2, n7, n8]
  · have := h1 rfl
    simp [conn_token.text, conn_token.c_type, set_last_c_type_append, this, n3, n4, n9, n10]
  · have := h2 rfl
    simp [conn_token.text, conn_token.c_type, set_last_c_type_append, this, n5, n6, n11, n12]
  · simp [conn_token.text, conn_token.c_type, set_last_c_type_append, n3, n4, n9, n10]
  · simp [conn_token.text, conn_token.c_type, set_last_c_type_append, n5, n6, n11, n12]

theorem conn_token_stop (tok : conn_token) (rest : CStr) : cmd_stop (tok.text ++ rest) := by
  right
  cases tok
  · exact ⟨_, _, rfl, by decide⟩
  · exact ⟨_, _, rfl, by decide⟩
  · exact ⟨_, _, rfl, by decide⟩
  · exact ⟨_, _, rfl, by decide⟩
  · exact ⟨_, _, rfl, by decide⟩

theorem conn_token_length (tok : conn_token) : 1 ≤ tok.text.length := by
  cases tok <;> decide

theorem gives_and_sound {α : Type} (T A U : Prop) (Q Q1 : α → Prop) (r : PRes α)
    (h : PRes.gives T A U Q r) (h1 : PRes.sound Q1 r) :
    PRes.gives T A U (fun a => Q a ∧ Q1 a) r := by
  cases r with
  | ok a => exact ⟨h, h1⟩
  | err m => exact trivial
  | assert_failed g => exact h
  | undefined => exact h
  | timeout => exact h

theorem gives_check (T A U : Prop) (hU : U) (scmds : List SCMD) (out : CStr)
    (Q : List SCMD × CStr → Prop) (h : ∀ c ∈ scmds, c.one_of_deep) (hne : scmds ≠ [])
    (hQ : Q (scmds, out)) :
    PRes.gives T A U Q (check_to_PRes (check_parse_result scmds) (scmds, out)) := by
  have hc := check_no_assert scmds (fun c hc => one_of_of_deep c (h c hc)) hne
  unfold check_to_PRes
  split
  · exact hQ
  · exact trivial
  · rename_i e; exact absurd e hc
  · exact hU

theorem commands_text (env : ParserEnv) (hp : env.plain) (N : CStr → Prop) (A U : Prop)
    (hN : nested_reads env N A U) (hcodes : (∀ s p f, (env.wordexp s p f).1 ≤ 5) ∨ A)
    (hU : U) (fin out : CStr) (hfin : line_end fin out) :
    ∀ (toks : List conn_token) (text : CStr), cmds_text N toks text →
      ∀ (fuel : Nat) (pre : List SCMD), (∀ c ∈ pre, c.one_of_deep) →
        fd_ok A (text ++ fin) →
        PRes.gives (fuel < 4 * text.length + 7) A U
          (fun r => r.2 = out ∧ r.1.map SCMD.c_type =
            pre.map SCMD.c_type ++ (toks.map conn_token.c_type ++ [CT_END]))
          ((parse_scmd env fuel (text ++ fin)).bind fun r =>
            parse_commands_loop env fuel (pre ++ [r.1]) r.2) := by
  intro toks text h
  induction h with
  | one b hb =>
    intro fuel pre hpre hfd
    have hs := gives_and_sound _ _ _ _ _ _
      (parse_scmd_cmd env hp N A U hN hcodes fin (line_end_stop fin out hfin) b hb fuel hfd)
      ((parser_sound env fuel).2.2.1 (b ++ fin))
    apply gives_bind _ _ _ _ _ _ _
      (gives_time _ (fuel < 4 * b.length + 7) _ _ _ _ hs (by omega))
    intro r hr
    obtain ⟨⟨hr2, hct⟩, hdeep⟩ := hr
    cases fuel with
    | zero =>
      rw [parse_commands_loop]
      show 0 < 4 * b.length + 7
      omega
    | succ f =>
      rcases hr2 with e | hbad
      · rw [e, parse_commands_loop_end env f _ fin out hfin]
        apply gives_check _ _ _ hU
        · intro c hc
          rcases List.mem_append.mp hc with h1 | h1
          · exact hpre c h1
          · rw [List.mem_singleton.mp h1]; exact hdeep
        · simp
        · exact ⟨rfl, by simp [hct]⟩
      · rw [parse_commands_loop_bad env f _ _ hbad]
        exact trivial
  | cons b tok toks rest hb h1 h2 hrest ih =>
    intro fuel pre hpre hfd
    have e1 : b ++ (tok.text ++ rest) ++ fin = b ++ (tok.text ++ (rest ++ fin)) := by
      simp only [List.append_assoc]
    rw [e1] at hfd ⊢
    have hs := gives_and_sound _ _ _ _ _ _
      (parse_scmd_cmd env hp N A U hN hcodes _ (conn_token_stop tok (rest ++ fin)) b hb fuel
        hfd)
      ((parser_sound env fuel).2.2.1 (b ++ (tok.text ++ (rest ++ fin))))
    have hlen := conn_token_length tok
    apply gives_bind _ _ _ _ _ _ _
      (gives_time _ (fuel < 4 * (b ++ (tok.text ++ rest)).length + 7) _ _ _ _ hs (by
        simp only [List.length_append]
        omega))
    intro r hr
    obtain ⟨⟨hr2, hct⟩, hdeep⟩ := hr
    cases fuel with
    | zero =>
      rw [parse_commands_loop]
      show 0 < 4 * (b ++ (tok.text ++ rest)).length + 7
      omega
    | succ f =>
      rcases hr2 with e | hbad
      · have ha : tok = conn_token.amp → (rest ++ fin).head? ≠ some (Char.ofNat 38) :=
          fun ht => head_append_ne rest fin _ (h1 ht)
            (line_end_head fin out hfin _ (Or.inl rfl))
        have hb2 : tok = conn_token.pipe → (rest ++ fin).head? ≠ some (Char.ofNat 124) :=
          fun ht => head_append_ne rest fin _ (h2 ht)
            (line_end_head fin out hfin _ (Or.inr rfl))
        rw [e, parse_commands_loop_conn_token env f pre r.1 tok (rest ++ fin) ha hb2]
        have hfd1 : fd_ok A (rest ++ fin) := by
          have : b ++ (tok.text ++ (rest ++ fin)) = (b ++ tok.text) ++ (rest ++ fin) := by
            simp only [List.append_assoc]
          rw [this] at hfd
          exact fd_ok_suffix A _ _ hfd
        have hpre1 : ∀ c ∈ pre ++ [r.1.set_c_type tok.c_type], c.one_of_deep := by
          intro c hc
          rcases List.mem_append.mp hc with h3 | h3
          · exact hpre c h3
          · rw [List.mem_singleton.mp h3]
            exact set_c_type_one_of_deep _ _ hdeep
        have h4 := ih f (pre ++ [r.1.set_c_type tok.c_type]) hpre1 hfd1
        refine gives_mono _ _ _ _ _ _ _ _ _ h4 ?_ id id ?_
        · simp only [List.length_append]
          omega
        · intro a ha2
          refine ⟨ha2.1, ?_⟩
          rw [ha2.2]
          simp [set_c_type_c_type]
      · rw [parse_commands_loop_bad env f _ _ hbad]
        exact trivial

theorem nested_reads_nested (env : ParserEnv) (hp : env.plain) (A U : Prop)
    (hcodes : (∀ s p f, (env.wordexp s p f).1 ≤ 5) ∨ A) (hU : U) :
    ∀ d : Nat, nested_reads env (nested d) A U := by
  intro d
  induction d with
  | zero =>
    intro inner h
    exact h.elim
  | succ d ih =>
    intro inner h more fuel hfd
    obtain ⟨toks, htoks⟩ := h
    cases fuel with
    | zero =>
      rw [parse_commands]
      show 0 < 4 * inner.length + 8
      omega
    | succ f =>
      rw [parse_commands_succ]
      have h1 := commands_text env hp (nested d) A U ih hcodes hU (RPAREN :: more)
        (RPAREN :: more) (Or.inr (Or.inl ⟨more, rfl, rfl⟩)) toks inner htoks f []
        (fun c hc => absurd hc (List.not_mem_nil _)) hfd
      exact gives_mono _ _ _ _ _ _ _ _ _ h1 (by omega) id id (fun _ h => h.1)

/-! ### Building the texts of the grammar -/

theorem word_text_plain (N : CStr → Prop) :
    ∀ w : CStr, (∀ c ∈ w, c ∉ BODY_STOP) → word_text N w := by
  intro w
  induction w with
  | nil => intro _; exact word_text.nil
  | cons a w ih =>
    intro h
    exact word_text.plain a w (h a (List.mem_cons_self _ _))
      (ih (fun c hc => h c (List.mem_cons_of_mem _ hc)))

theorem word_text_append (N : CStr → Prop) (a b : CStr) (ha : word_text N a)
    (hb : word_text N b) : word_text N (a ++ b) := by
  induction ha with
  | nil => exact hb
  | plain c t hc _ ih => exact word_text.plain c _ hc ih
  | esc x t _ ih => exact word_text.esc x _ ih
  | squote q t hq _ ih =>
    have := word_text.squote q (t ++ b) hq ih
    simpa using this
  | dquote q t hq _ ih =>
    have := word_text.dquote q (t ++ b) hq ih
    simpa using this
  | dollar t ht _ ih =>
    exact word_text.dollar _ (head_append_ne t b LPAREN ht (word_text_head N b hb)) ih
  | subst inner t hi _ ih =>
    have := word_text.subst inner (t ++ b) hi ih
    simpa using this

theorem dq_text_plain (N : CStr → Prop) :
    ∀ q : CStr, (∀ c ∈ q, c ∉ DQUOTE_STOP) → dq_text N q := by
  intro q
  induction q with
  | nil => intro _; exact dq_text.nil
  | cons a q ih =>
    intro h
    exact dq_text.plain a q (h a (List.mem_cons_self _ _))
      (ih (fun c hc => h c (List.mem_cons_of_mem _ hc)))

theorem dq_text_mono (N N1 : CStr → Prop) (h : ∀ s, N s → N1 s) (q : CStr)
    (hq : dq_text N q) : dq_text N1 q := by
  induction hq with
  | nil => exact dq_text.nil
  | plain c q hc _ ih => exact dq_text.plain c q hc ih
  | esc x q _ ih => exact dq_text.esc x q ih
  | dollar q hd _ ih => exact dq_text.dollar q hd ih
  | subst inner q hi _ ih => exact dq_text.subst inner q (h inner hi) ih

theorem word_text_mono (N N1 : CStr → Prop) (h : ∀ s, N s → N1 s) (w : CStr)
    (hw : word_text N w) : word_text N1 w := by
  induction hw with
  | nil => exact word_text.nil
  | plain c t hc _ ih => exact word_text.plain c t hc ih
  | esc x t _ ih => exact word_text.esc x t ih
  | squote q t hq _ ih => exact word_text.squote q t hq ih
  | dquote q t hq _ ih => exact word_text.dquote q t (dq_text_mono N N1 h q hq) ih
  | dollar t hd _ ih => exact word_text.dollar t hd ih
  | subst inner t hi _ ih => exact word_text.subst inner t (h inner hi) ih

theorem simple_text_mono (N N1 : CStr → Prop) (h : ∀ s, N s → N1 s) (t : CStr)
    (ht : simple_text N t) : simple_text N1 t := by
  induction ht with
  | word w hw => exact simple_text.word w (word_text_mono N N1 h w hw)
  | redir w R t closed hw hR htok _ ih =>
    exact simple_text.redir w R t closed (word_text_mono N N1 h w hw) hR htok ih

theorem cmd_text_mono (N N1 : CStr → Prop) (h : ∀ s, N s → N1 s) (b : CStr)
    (hb : cmd_text N b) : cmd_text N1 b := by
  rcases hb with hs | ⟨bl, inner, gt, e, hbl, hi, hgt⟩
  · exact Or.inl (simple_text_mono N N1 h b hs)
  · exact Or.inr ⟨bl, inner, gt, e, hbl, h inner hi, hgt⟩

theorem cmds_text_mono (N N1 : CStr → Prop) (h : ∀ s, N s → N1 s) (toks : List conn_token)
    (s : CStr) (hs : cmds_text N toks s) : cmds_text N1 toks s := by
  induction hs with
  | one b hb => exact cmds_text.one b (cmd_text_mono N N1 h b hb)
  | cons b tok toks rest hb h1 h2 _ ih =>
    exact cmds_text.cons b tok toks rest (cmd_text_mono N N1 h b hb) h1 h2 ih

theorem nested_succ : ∀ (d : Nat) (s : CStr), nested d s → nested (d + 1) s := by
  intro d
  induction d with
  | zero => intro s h; exact h.elim
  | succ d ih =>
    intro s h
    obtain ⟨toks, ht⟩ := h
    exact ⟨toks, cmds_text_mono _ _ ih toks s ht⟩

/-! ### What the scans of libc pass over -/

theorem strcspn_take (reject : CStr) :
    ∀ s : CStr, ∀ c ∈ s.take (strcspn s reject), c ∉ reject := by
  intro s
  induction s with
  | nil => intro c hc; simp [strcspn] at hc
  | cons a s ih =>
    intro c hc
    rw [strcspn] at hc
    split at hc
    · simp at hc
    · rename_i ha
      rw [List.take_succ_cons] at hc
      rcases List.mem_cons.mp hc with e | e
      · rw [e]; exact ha
      · exact ih c e

theorem strcspn_drop_end (reject : CStr) (s : CStr) :
    s.drop (strcspn s reject) = [] ∨
      ∃ c t, s.drop (strcspn s reject) = c :: t ∧ c ∈ reject := by
  cases h : s.drop (strcspn s reject) with
  | nil => exact Or.inl rfl
  | cons c t => exact Or.inr ⟨c, t, rfl, strcspn_drop_head reject s c t h⟩

theorem strchr_some_split (c : Char) :
    ∀ (t : CStr) (k : Nat), strchr t c = some k →
      ∃ q rest, t = q ++ c :: rest ∧ c ∉ q ∧ q.length = k := by
  intro t
  induction t with
  | nil => intro k h; simp [strchr] at h
  | cons a t ih =>
    intro k h
    rw [strchr] at h
    split at h
    · rename_i ha
      injection h with h
      exact ⟨[], t, by rw [ha]; rfl, by simp, h⟩
    · rename_i ha
      cases hs : strchr t c with
      | none => rw [hs] at h; cases h
      | some k1 =>
        rw [hs] at h
        simp only [Option.map_some'] at h
        injection h with h
        obtain ⟨q, rest, e, hq, hl⟩ := ih k1 hs
        refine ⟨a :: q, rest, by rw [e]; rfl, ?_, by simp [hl, h]⟩
        intro hm
        rcases List.mem_cons.mp hm with e1 | e1
        · exact ha e1.symm
        · exact hq e1

/-! ### What `parse_redir` has read when it succeeds -/

theorem parse_redir_fd_ok (s : CStr) (fd : Int) (s1 : CStr)
    (h : parse_redir_fd s = PRes.ok (fd, s1)) :
    ∃ ds, s = ds ++ s1 ∧ is_digit_run ds := by
  unfold parse_redir_fd at h
  cases hh : s.head? with
  | none =>
    rw [hh] at h
    simp only at h
    injection h with h
    injection h with h1 h2
    exact ⟨[], by rw [← h2]; rfl, fun _ hc => absurd hc (List.not_mem_nil _)⟩
  | some c =>
    rw [hh] at h
    simp only at h
    by_cases hd : is_digit_char c = true
    · rw [if_pos hd] at h
      split at h
      · cases h
      · split at h
        · cases h
        · injection h with h
          injection h with h1 h2
          refine ⟨s.takeWhile is_digit_char, ?_, ?_⟩
          · rw [← h2]
            have hp : s.takeWhile is_digit_char = s.take (s.takeWhile is_digit_char).length :=
              List.prefix_iff_eq_take.mp (List.takeWhile_prefix _)
            conv_lhs => rw [← List.take_append_drop (s.takeWhile is_digit_char).length s]
            rw [← hp]
          · intro x hx
            exact List.mem_takeWhile_imp hx
    · rw [if_neg hd] at h
      injection h with h
      injection h with h1 h2
      exact ⟨[], by rw [← h2]; rfl, fun _ hc => absurd hc (List.not_mem_nil _)⟩

theorem parse_redir_op_ok (fd : Int) (s1 : CStr) (fd1 : Int) (flags : Nat) (cp closes : Bool)
    (s2 : CStr) (h : parse_redir_op fd s1 = PRes.ok (fd1, flags, cp, closes, s2)) :
    ∃ op, s1 = op ++ s2 ∧
      ((closes = true ∧ op = [Char.ofNat 62, Char.ofNat 60]) ∨
        (closes = false ∧ op ∈ REDIR_TARGET_OPS ∧ (op ∈ REDIR_COPY_OPS → cp = true))) := by
  unfold parse_redir_op at h
  cases s1 with
  | nil => cases h
  | cons c s1 =>
    simp only at h
    by_cases hc : c = Char.ofNat 60
    · subst hc
      rw [if_pos rfl] at h
      by_cases h1 : s1.head? = some (Char.ofNat 62)
      · simp only [h1, if_true] at h
        obtain ⟨d, s3, e3⟩ : ∃ d s3, s1 = d :: s3 := by
          cases s1 with
          | nil => cases h1
          | cons d s3 => exact ⟨d, s3, rfl⟩
        subst e3
        simp only [List.head?_cons, Option.some.injEq] at h1
        subst h1
        simp only [List.drop_succ_cons, List.drop_zero] at h
        by_cases h2 : s3.head? = some (Char.ofNat 38)
        · rw [if_pos h2] at h
          injection h with h
          simp only [Prod.mk.injEq] at h
          obtain ⟨-, -, e1, e2, e3⟩ := h
          obtain ⟨d, s4, e4⟩ : ∃ d s4, s3 = d :: s4 := by
            cases s3 with
            | nil => cases h2
            | cons d s4 => exact ⟨d, s4, rfl⟩
          subst e4
          simp only [List.head?_cons, Option.some.injEq] at h2
          subst h2
          simp only [List.drop_succ_cons, List.drop_zero] at e3
          subst e3
          refine ⟨"<>&".toList, rfl, Or.inr ⟨e2.symm, by decide, fun _ => e1.symm⟩⟩
        · rw [if_neg h2] at h
          injection h with h
          simp only [Prod.mk.injEq] at h
          obtain ⟨-, -, e1, e2, e3⟩ := h
          subst e3
          refine ⟨"<>".toList, rfl, Or.inr ⟨e2.symm, by decide, ?_⟩⟩
          intro hcp
          exact absurd hcp (by decide)
      · simp only [h1, if_false] at h
        by_cases h2 : s1.head? = some (Char.ofNat 38)
        · rw [if_pos h2] at h
          injection h with h
          simp only [Prod.mk.injEq] at h
          obtain ⟨-, -, e1, e2, e3⟩ := h
          obtain ⟨d, s4, e4⟩ : ∃ d s4, s1 = d :: s4 := by
            cases s1 with
            | nil => cases h2
            | cons d s4 => exact ⟨d, s4, rfl⟩
          subst e4
          simp only [List.head?_cons, Option.some.injEq] at h2
          subst h2
          simp only [List.drop_succ_cons, List.drop_zero] at e3
          subst e3
          refine ⟨"<&".toList, rfl, Or.inr ⟨e2.symm, by decide, fun _ => e1.symm⟩⟩
        · rw [if_neg h2] at h
          injection h with h
          simp only [Prod.mk.injEq] at h
          obtain ⟨-, -, e1, e2, e3⟩ := h
          subst e3
          refine ⟨"<".toList, rfl, Or.inr ⟨e2.symm, by decide, ?_⟩⟩
          intro hcp
          exact absurd hcp (by decide)
    · rw [if_neg hc] at h
      by_cases hc2 : c = Char.ofNat 62
      · subst hc2
        rw [if_pos rfl] at h
        cases s1 with
        | nil =>
          simp only [List.head?_nil] at h
          rw [if_neg (by simp), if_neg (by simp), if_neg (by simp)] at h
          injection h with h
          simp only [Prod.mk.injEq] at h
          obtain ⟨-, -, e1, e2, e3⟩ := h
          subst e3
          refine ⟨">".toList, rfl, Or.inr ⟨e2.symm, by decide, ?_⟩⟩
          intro hcp
          exact absurd hcp (by decide)
        | cons d s3 =>
          simp only [List.head?_cons, Option.some.injEq, List.drop_succ_cons,
            List.drop_zero] at h
          by_cases h1 : d = Char.ofNat 62
          · subst h1
            rw [if_pos rfl] at h
            injection h with h
            simp only [Prod.mk.injEq] at h
            obtain ⟨-, -, e1, e2, e3⟩ := h
            subst e3
            refine ⟨">>".toList, rfl, Or.inr ⟨e2.symm, by decide, ?_⟩⟩
            intro hcp
            exact absurd hcp (by decide)
          · rw [if_neg h1] at h
            by_cases h2 : d = Char.ofNat 60
            · subst h2
              rw [if_pos rfl] at h
              injection h with h
              simp only [Prod.mk.injEq] at h
              obtain ⟨-, -, e1, e2, e3⟩ := h
              subst e3
              exact ⟨_, rfl, Or.inl ⟨e2.symm, rfl⟩⟩
            · rw [if_neg h2] at h
              by_cases h3 : d = Char.ofNat 38
              · subst h3
                rw [if_pos rfl] at h
                injection h with h
                simp only [Prod.mk.injEq] at h
                obtain ⟨-, -, e1, e2, e3⟩ := h
                subst e3
                refine ⟨">&".toList, rfl, Or.inr ⟨e2.symm, by decide, fun _ => e1.symm⟩⟩
              · rw [if_neg h3] at h
                injection h with h
                simp only [Prod.mk.injEq] at h
                obtain ⟨-, -, e1, e2, e3⟩ := h
                subst e3
                refine ⟨">".toList, rfl, Or.inr ⟨e2.symm, by decide, ?_⟩⟩
                intro hcp
                exact absurd hcp (by decide)
      · rw [if_neg hc2] at h
        cases h

theorem get_token_ok (s3 file0 : CStr) (h : get_token s3 = PRes.ok file0) :
    (∃ qc q rest, (qc = DQUOTE ∨ qc = SQUOTE) ∧ qc ∉ q ∧ s3 = qc :: (q ++ qc :: rest) ∧
        file0 = qc :: (q ++ [qc])) ∨
      (target_word file0 ∧ ∃ rest, s3 = file0 ++ rest ∧ token_end rest) := by
  unfold get_token at h
  cases s3 with
  | nil => cases h
  | cons c t =>
    simp only at h
    by_cases h1 : c = Char.ofNat 32
    · rw [if_pos h1] at h; cases h
    · rw [if_neg h1] at h
      by_cases h2 : c = Char.ofNat 34 ∨ c = Char.ofNat 39
      · rw [if_pos h2] at h
        cases hs : strchr t c with
        | none => rw [hs] at h; cases h
        | some k =>
          rw [hs] at h
          simp only at h
          injection h with h
          obtain ⟨q, rest, e, hq, hl⟩ := strchr_some_split c t k hs
          left
          refine ⟨c, q, rest, h2, hq, by rw [e], ?_⟩
          rw [← h, e, ← hl]
          have : c :: (q ++ c :: rest) = (c :: (q ++ [c])) ++ rest := by simp
          rw [this]
          have hlen : (c :: (q ++ [c])).length = q.length + 2 := by simp
          rw [← hlen, List.take_left]
      · rw [if_neg h2] at h
        by_cases h3 : strcspn (c :: t) TOKEN_END = 0
        · rw [if_pos h3] at h; cases h
        · rw [if_neg h3] at h
          injection h with h
          right
          have htake := strcspn_take TOKEN_END (c :: t)
          have hdrop := strcspn_drop_end TOKEN_END (c :: t)
          rw [h] at htake
          refine ⟨⟨?_, htake⟩, (c :: t).drop (strcspn (c :: t) TOKEN_END), ?_, hdrop⟩
          · intro e
            rw [← h] at e
            have := congrArg List.length e
            rw [List.length_take] at this
            simp only [List.length_cons, List.length_nil] at this
            omega
          · rw [← h]
            exact (List.take_append_drop _ _).symm

theorem parse_redir_fdcopy_nil : parse_redir_fdcopy [] = PRes.undefined := by
  rfl

theorem parse_redir_ok (env : ParserEnv) (s : CStr) (rd : REDIR) (s4 : CStr)
    (h : parse_redir env s = PRes.ok (rd, s4)) :
    ∃ ds R closed, s = ds ++ (R ++ s4) ∧ is_digit_run ds ∧ redir_item R closed ∧
      (closed = false → token_end s4) := by
  unfold parse_redir at h
  cases hfd : parse_redir_fd s with
  | err m => rw [hfd] at h; cases h
  | assert_failed g => rw [hfd] at h; cases h
  | undefined => rw [hfd] at h; cases h
  | timeout => rw [hfd] at h; cases h
  | ok a =>
    obtain ⟨fd, s1⟩ := a
    obtain ⟨ds, eds, hds⟩ := parse_redir_fd_ok s fd s1 hfd
    rw [hfd] at h
    simp only [PRes.bind] at h
    cases hop : parse_redir_op fd s1 with
    | err m => rw [hop] at h; cases h
    | assert_failed g => rw [hop] at h; cases h
    | undefined => rw [hop] at h; cases h
    | timeout => rw [hop] at h; cases h
    | ok b =>
      obtain ⟨fd1, flags, cp, closes, s2⟩ := b
      obtain ⟨op, eop, hcl⟩ := parse_redir_op_ok fd s1 fd1 flags cp closes s2 hop
      rw [hop] at h
      simp only at h
      rcases hcl with ⟨hc, eo⟩ | ⟨hc, hmem, hcopy⟩
      · subst hc
        simp only [if_true] at h
        injection h with h
        injection h with h1 h2
        subst h2
        refine ⟨ds, op, true, by rw [eds, eop], hds, Or.inr ⟨rfl, eo⟩, fun e => nomatch e⟩
      · subst hc
        simp only [Bool.false_eq_true, if_false] at h
        have hsp : s2 = s2.takeWhile (fun c => decide (c = Char.ofNat 32)) ++
            s2.dropWhile (fun c => decide (c = Char.ofNat 32)) :=
          (List.takeWhile_append_dropWhile _ _).symm
        have hspaces : ∀ c ∈ s2.takeWhile (fun c => decide (c = Char.ofNat 32)),
            c = Char.ofNat 32 := by
          intro c hc
          have := List.mem_takeWhile_imp hc
          simpa using this
        generalize s2.takeWhile (fun c => decide (c = Char.ofNat 32)) = sp at hsp hspaces
        generalize s2.dropWhile (fun c => decide (c = Char.ofNat 32)) = s3 at hsp h
        cases htok : get_token s3 with
        | err m => rw [htok] at h; cases h
        | assert_failed g => rw [htok] at h; cases h
        | undefined => rw [htok] at h; cases h
        | timeout => rw [htok] at h; cases h
        | ok file0 =>
          rw [htok] at h
          simp only at h
          split at h
          · cases h
          · rename_i hq
            rcases get_token_ok s3 file0 htok with ⟨qc, q, rest, hqc, hqn, e3, ef⟩ |
              ⟨hw, rest, e3, hrest⟩
            · subst ef
              have hhead : (qc :: (q ++ [qc])).head? = some (Char.ofNat 34) ∨
                  (qc :: (q ++ [qc])).head? = some (Char.ofNat 39) := by
                rcases hqc with e | e <;> subst e
                · exact Or.inl rfl
                · exact Or.inr rfl
              have hfile : ((qc :: (q ++ [qc])).drop 1).take ((qc :: (q ++ [qc])).length - 2) =
                  q := by simp
              have hdrop : s3.drop (qc :: (q ++ [qc])).length = rest := by
                rw [e3]
                have : qc :: (q ++ qc :: rest) = (qc :: (q ++ [qc])) ++ rest := by simp
                rw [this, List.drop_left]
              simp only [if_pos hhead, hfile, hdrop] at h
              have hne : op ∈ REDIR_COPY_OPS → q ≠ [] := by
                intro hm e
                have hcp := hcopy hm
                subst hcp
                subst e
                simp only [if_true, parse_redir_fdcopy_nil, PRes.bind] at h
                cases h
              cases hb : (if cp = true then parse_redir_fdcopy q else PRes.ok q) with
              | err m => rw [hb] at h; cases h
              | assert_failed g => rw [hb] at h; cases h
              | undefined => rw [hb] at h; cases h
              | timeout => rw [hb] at h; cases h
              | ok file2 =>
                rw [hb] at h
                simp only [PRes.bind] at h
                injection h with h
                injection h with h1 h2
                subst h2
                refine ⟨ds, op ++ (sp ++ qc :: (q ++ [qc])), true, ?_, hds,
                  Or.inl ⟨op, sp, _, rfl, hmem, hspaces,
                    Or.inr ⟨rfl, qc, q, hqc, hqn, hne, rfl⟩⟩, fun e => nomatch e⟩
                rw [eds, eop, hsp, e3]
                simp only [List.append_assoc, List.cons_append, List.nil_append]
            · have hdrop : s3.drop file0.length = rest := by
                rw [e3, List.drop_left]
              simp only [hdrop] at h
              generalize (if (file0.head? = some (Char.ofNat 34) ∨
                  file0.head? = some (Char.ofNat 39)) then
                  (file0.drop 1).take (file0.length - 2) else file0) = file1 at h
              cases hb : (if cp = true then parse_redir_fdcopy file1 else PRes.ok file1) with
              | err m => rw [hb] at h; cases h
              | assert_failed g => rw [hb] at h; cases h
              | undefined => rw [hb] at h; cases h
              | timeout => rw [hb] at h; cases h
              | ok file2 =>
                rw [hb] at h
                simp only [PRes.bind] at h
                injection h with h
                injection h with h1 h2
                subst h2
                refine ⟨ds, op ++ (sp ++ file0), false, ?_, hds,
                  Or.inl ⟨op, sp, _, rfl, hmem, hspaces, Or.inl ⟨rfl, hw⟩⟩, fun _ => hrest⟩
                rw [eds, eop, hsp, e3]
                simp only [List.append_assoc]

/-! ### What the parser has read when it succeeds -/

theorem head_of_append (a b : CStr) (c : Char) (h : (a ++ b).head? ≠ some c) :
    a.head? ≠ some c := by
  cases a with
  | nil => simp
  | cons x a => simpa using h

theorem line_end_rparen (fin out : CStr) (h : line_end fin out)
    (ho : out.head? = some (Char.ofNat 41)) : ∃ more, fin = RPAREN :: more ∧ out = RPAREN :: more := by
  rcases h with ⟨-, e⟩ | ⟨more, e, e1⟩ | ⟨cm, -, e⟩
  · rw [e] at ho; cases ho
  · exact ⟨more, e, by rw [e1, e]⟩
  · rw [e] at ho; cases ho

theorem line_end_nil (fin out : CStr) (h : line_end fin out) (ho : out = []) :
    fin = [] ∨ ∃ cm, fin = HASH :: cm := by
  rcases h with ⟨e, -⟩ | ⟨more, e, e1⟩ | ⟨cm, e, -⟩
  · exact Or.inl e
  · rw [e1, e] at ho; cases ho
  · exact Or.inr ⟨cm, e⟩

theorem digit_not_body_stop (a : Char) (ha : is_digit_char a = true) : a ∉ BODY_STOP := by
  intro hmem
  simp only [BODY_STOP, List.mem_cons, List.mem_singleton, List.not_mem_nil, or_false] at hmem
  rcases hmem with e | e | e | e | e | e | e | e | e | e | e | e | e <;> subst e <;>
    revert ha <;> decide

theorem digit_run_unique (ds ds1 : CStr) (c c1 : Char) (x x1 : CStr) (hds : is_digit_run ds)
    (hds1 : is_digit_run ds1) (hc : is_digit_char c = false) (hc1 : is_digit_char c1 = false)
    (e : ds ++ c :: x = ds1 ++ c1 :: x1) : ds = ds1 ∧ c :: x = c1 :: x1 := by
  induction ds generalizing ds1 with
  | nil =>
    cases ds1 with
    | nil => exact ⟨rfl, e⟩
    | cons a ds1 =>
      exfalso
      simp only [List.nil_append, List.cons_append, List.cons.injEq] at e
      have := hds1 a (List.mem_cons_self _ _)
      rw [← e.1, hc] at this
      cases this
  | cons a ds ih =>
    cases ds1 with
    | nil =>
      exfalso
      simp only [List.nil_append, List.cons_append, List.cons.injEq] at e
      have := hds a (List.mem_cons_self _ _)
      rw [e.1, hc1] at this
      cases this
    | cons a1 ds1 =>
      simp only [List.cons_append, List.cons.injEq] at e
      obtain ⟨h1, h2⟩ := ih ds1 (fun y hy => hds y (List.mem_cons_of_mem _ hy))
        (fun y hy => hds1 y (List.mem_cons_of_mem _ hy)) e.2
      exact ⟨by rw [e.1, h1], h2⟩

theorem simple_text_blanks (N : CStr → Prop) (bl t : CStr) (hbl : ∀ c ∈ bl, is_blank c)
    (ht : simple_text N t) : simple_text N (bl ++ t) := by
  have hpl : word_text N bl := by
    apply word_text_plain
    intro c hc
    rcases hbl c hc with e | e <;> subst e <;> decide
  cases ht with
  | word _ hw => exact simple_text.word _ (word_text_append N _ _ hpl hw)
  | redir w R t1 closed hw hR htok ht1 =>
    have := simple_text.redir (bl ++ w) R t1 closed (word_text_append N _ _ hpl hw) hR htok ht1
    simpa using this

theorem group_tail_blanks (bl gt : CStr) (hbl : ∀ c ∈ bl, is_blank c) (hgt : group_tail gt) :
    group_tail (bl ++ gt) := by
  induction bl with
  | nil => exact hgt
  | cons a bl ih =>
    exact group_tail.blank a _ (hbl a (List.mem_cons_self _ _))
      (ih (fun c hc => hbl c (List.mem_cons_of_mem _ hc)))

theorem token_end_of_append (t x : CStr) (h : token_end (t ++ x)) : token_end t := by
  cases t with
  | nil => exact Or.inl rfl
  | cons a t =>
    rcases h with e | ⟨c, u, e, hc⟩
    · cases e
    · simp only [List.cons_append, List.cons.injEq] at e
      exact Or.inr ⟨a, t, rfl, e.1 ▸ hc⟩

theorem dq_text_append_plain (N : CStr → Prop) (r : CStr) (hr : dq_text N r) :
    ∀ q : CStr, (∀ c ∈ q, c ∉ DQUOTE_STOP) → dq_text N (q ++ r) := by
  intro q
  induction q with
  | nil => intro _; exact hr
  | cons a q ih =>
    intro h
    exact dq_text.plain a _ (h a (List.mem_cons_self _ _))
      (ih (fun c hc => h c (List.mem_cons_of_mem _ hc)))

theorem find_end_skip_plain (env : ParserEnv) (fuel : Nat) (olds x : CStr) :
    ∀ pl : CStr, (∀ c ∈ pl, c ∉ BODY_STOP) →
      find_end_of_command_body env (fuel + 1) olds (pl ++ x) =
        find_end_of_command_body env (fuel + 1) olds x := by
  intro pl
  induction pl with
  | nil => intro _; rfl
  | cons a pl ih =>
    intro h
    rw [List.cons_append, find_end_of_command_body_skip env fuel olds a _
      (h a (List.mem_cons_self _ _))]
    exact ih (fun c hc => h c (List.mem_cons_of_mem _ hc))

theorem find_end_of_dquote_skip_plain (env : ParserEnv) (fuel : Nat) (x : CStr) :
    ∀ pl : CStr, (∀ c ∈ pl, c ∉ DQUOTE_STOP) →
      find_end_of_dquote env (fuel + 1) (pl ++ x) = find_end_of_dquote env (fuel + 1) x := by
  intro pl
  induction pl with
  | nil => intro _; rfl
  | cons a pl ih =>
    intro h
    rw [List.cons_append, find_end_of_dquote_skip env fuel a _ (h a (List.mem_cons_self _ _))]
    exact ih (fun c hc => h c (List.mem_cons_of_mem _ hc))

theorem strchr_none_not_mem (c : Char) : ∀ t : CStr, strchr t c = none → c ∉ t := by
  intro t
  induction t with
  | nil => intro _ h; cases h
  | cons a t ih =>
    intro h hm
    rw [strchr] at h
    split at h
    · cases h
    · rename_i ha
      cases hs : strchr t c with
      | none =>
        rcases List.mem_cons.mp hm with e | e
        · exact ha e.symm
        · exact ih hs e
      | some k => rw [hs] at h; cases h

theorem head_cons_of_eq (s1 : CStr) (c : Char) (h : s1.head? = some c) :
    ∃ r, s1 = c :: r := by
  cases s1 with
  | nil => cases h
  | cons a r =>
    simp only [List.head?_cons, Option.some.injEq] at h
    exact ⟨r, by rw [h]⟩

theorem back_zero (env : ParserEnv) : parser_back_at env 0 := by
  unfold parser_back_at
  refine ⟨?_, ?_, ?_, ?_, ?_, ?_, ?_, ?_, ?_⟩
  · intro s r h; rw [parse_commands] at h; cases h
  · intro a b r h; rw [parse_commands_loop] at h; cases h
  · intro s r h; rw [parse_scmd] at h; cases h
  · intro a b c d r h; rw [parse_scmd_loop] at h; cases h
  · intro a b c r h; rw [try_wordexp] at h; cases h
  · intro a b e h; rw [find_end_of_command_body] at h; cases h
  · intro s e h; rw [find_end_of_dquote] at h; cases h
  · intro s r h; rw [parse_subexp] at h; cases h
  · intro a b c d r h; rw [parse_subexp_loop] at h; cases h

theorem body_stop_split (s0 : CStr) :
    ∃ pl x, s0 = pl ++ x ∧ (∀ c ∈ pl, c ∉ BODY_STOP) ∧
      (x = [] ∨ ∃ c t, x = c :: t ∧ c ∈ BODY_STOP) :=
  ⟨s0.take (strcspn s0 BODY_STOP), s0.drop (strcspn s0 BODY_STOP),
    (List.take_append_drop _ _).symm, strcspn_take BODY_STOP s0, strcspn_drop_end BODY_STOP s0⟩

theorem dquote_stop_split (s0 : CStr) :
    ∃ pl x, s0 = pl ++ x ∧ (∀ c ∈ pl, c ∉ DQUOTE_STOP) ∧
      (x = [] ∨ ∃ c t, x = c :: t ∧ c ∈ DQUOTE_STOP) :=
  ⟨s0.take (strcspn s0 DQUOTE_STOP), s0.drop (strcspn s0 DQUOTE_STOP),
    (List.take_append_drop _ _).symm, strcspn_take DQUOTE_STOP s0,
    strcspn_drop_end DQUOTE_STOP s0⟩

theorem find_end_lone_backslash (env : ParserEnv) (fuel : Nat) (olds : CStr) :
    find_end_of_command_body env (fuel + 1) olds [BSL] = PRes.err ["invalid use of '\\'"] := by
  rfl

theorem find_end_newline (env : ParserEnv) (fuel : Nat) (olds t : CStr) :
    find_end_of_command_body env (fuel + 1) olds (Char.ofNat 10 :: t) =
      PRes.err ["invalid newline in command"] := by
  rw [find_end_of_command_body_succ]
  simp only [strcspn]
  rw [if_pos (by decide)]
  simp only [List.drop_zero]
  rw [if_neg (by decide), if_neg (by decide), if_neg (by decide), if_neg (by decide),
    if_pos trivial]

theorem find_end_of_dquote_nil (env : ParserEnv) (fuel : Nat) :
    find_end_of_dquote env (fuel + 1) [] = PRes.err ["unclosed string"] := by
  rfl

theorem find_end_of_dquote_lone (env : ParserEnv) (fuel : Nat) :
    find_end_of_dquote env (fuel + 1) [BSL] = PRes.err ["invalid use of '\\'"] := by
  rfl

theorem word_head_of_split (w e1 s1 : CStr) (c : Char) (e : s1 = w ++ e1)
    (h : s1.head? ≠ some c) : w.head? ≠ some c := by
  rw [e] at h
  exact head_of_append w e1 c h

/-- The substitution step shared by the two scans: what `parse_commands` has read inside
`$(`, when the closing parenthesis follows. -/
theorem back_subst (env : ParserEnv) (f : Nat) (ih : parser_back_at env f) (x : CStr)
    (r : List SCMD × CStr) (h : parse_commands env f x = PRes.ok r)
    (hr : ¬ (r.2.head? ≠ some (Char.ofNat 41))) :
    ∃ inner more, x = inner ++ RPAREN :: more ∧ r.2.drop 1 = more ∧
      nested (f + 1) inner := by
  obtain ⟨toks, text, fin, e, hfin, htext⟩ := ih.1 x r h
  have hr1 : r.2.head? = some (Char.ofNat 41) := by
    by_contra hc
    exact hr hc
  obtain ⟨more, e1, e2⟩ := line_end_rparen fin r.2 hfin hr1
  refine ⟨text, more, by rw [e, e1], by rw [e2]; rfl, ⟨toks, htext⟩⟩

theorem back_find_end (env : ParserEnv) (f : Nat) (ih : parser_back_at env f) :
    ∀ olds s e, find_end_of_command_body env (f + 1) olds s = PRes.ok e →
      ∃ w e1, s = w ++ e1 ∧ word_text (nested (f + 1)) w ∧
        (e = e1 ∨ ∃ c t, e1 = c :: t ∧ (c = Char.ofNat 60 ∨ c = Char.ofNat 62) ∧
          e = find_start_of_number olds e1) := by
  intro olds s e h
  have ihfe := ih.2.2.2.2.2.1
  have ihdq := ih.2.2.2.2.2.2.1
  have mono : ∀ w, word_text (nested f) w → word_text (nested (f + 1)) w :=
    fun w hw => word_text_mono _ _ (nested_succ f) w hw
  obtain ⟨pl, x, es, hpl, hx⟩ := body_stop_split s
  have hplw : word_text (nested (f + 1)) pl := word_text_plain _ pl hpl
  subst es
  rw [find_end_skip_plain env f olds x pl hpl] at h
  rcases hx with ex | ⟨c, t, ex, hc⟩
  · subst ex
    rw [find_end_at_stop env f olds [] (Or.inl rfl)] at h
    injection h with h
    exact ⟨pl, [], rfl, hplw, Or.inl h.symm⟩
  · subst ex
    simp only [BODY_STOP, List.mem_cons, List.mem_singleton, List.not_mem_nil,
      or_false] at hc
    rcases hc with e0 | e0 | e0 | e0 | e0 | e0 | e0 | e0 | e0 | e0 | e0 | e0 | e0
    · -- dollar
      subst e0
      by_cases hp : t.head? = some LPAREN
      · obtain ⟨t1, et⟩ := head_cons_of_eq t LPAREN hp
        subst et
        have hs := find_end_subst env f olds t1
        have hs1 : find_end_of_command_body env (f + 1) olds
            (Char.ofNat 36 :: LPAREN :: t1) = _ := hs
        rw [hs1] at h
        obtain ⟨r, hr, h2⟩ := bind_ok _ _ _ h
        by_cases hh : r.2.head? ≠ some (Char.ofNat 41)
        · rw [if_pos hh] at h2; cases h2
        · rw [if_neg hh] at h2
          obtain ⟨inner, more, e1, e2, hin⟩ := back_subst env f ih t1 r hr hh
          rw [e2] at h2
          obtain ⟨w2, e3, e4, hw2, hres⟩ := ihfe olds more e h2
          refine ⟨pl ++ (DOLLAR :: LPAREN :: (inner ++ RPAREN :: w2)), e3, ?_,
            word_text_append _ _ _ hplw (word_text.subst inner w2 hin (mono w2 hw2)), hres⟩
          rw [e1, e4]
          simp [DOLLAR]
      · have hs := find_end_dollar env f olds t hp
        have hs1 : find_end_of_command_body env (f + 1) olds (Char.ofNat 36 :: t) = _ := hs
        rw [hs1] at h
        obtain ⟨w2, e3, e4, hw2, hres⟩ := ihfe olds t e h
        refine ⟨pl ++ (DOLLAR :: w2), e3, ?_,
          word_text_append _ _ _ hplw
            (word_text.dollar w2 (word_head_of_split w2 e3 t LPAREN e4 hp) (mono w2 hw2)),
          hres⟩
        rw [e4]
        simp [DOLLAR]
    · -- double quote
      subst e0
      have hs := find_end_dquote env f olds t
      have hs1 : find_end_of_command_body env (f + 1) olds (Char.ofNat 34 :: t) = _ := hs
      rw [hs1] at h
      obtain ⟨s2, hr, h2⟩ := bind_ok _ _ _ h
      obtain ⟨q, eq1, hq⟩ := ihdq t s2 hr
      obtain ⟨w2, e3, e4, hw2, hres⟩ := ihfe olds s2 e h2
      refine ⟨pl ++ (DQUOTE :: (q ++ DQUOTE :: w2)), e3, ?_,
        word_text_append _ _ _ hplw
          (word_text.dquote q w2 (dq_text_mono _ _ (nested_succ f) q hq) (mono w2 hw2)),
        hres⟩
      rw [eq1, e4]
      simp [DQUOTE]
    · -- single quote
      subst e0
      cases hs : strchr t (Char.ofNat 39) with
      | none =>
        have := find_end_squote_open env f olds t (strchr_none_not_mem _ t hs)
        have h1 : find_end_of_command_body env (f + 1) olds (Char.ofNat 39 :: t) = _ := this
        rw [h1] at h
        cases h
      | some k =>
        obtain ⟨q, rest, et, hq, -⟩ := strchr_some_split _ t k hs
        subst et
        have := find_end_squote env f olds q rest hq
        have h1 : find_end_of_command_body env (f + 1) olds
            (Char.ofNat 39 :: (q ++ Char.ofNat 39 :: rest)) = _ := this
        rw [h1] at h
        obtain ⟨w2, e3, e4, hw2, hres⟩ := ihfe olds rest e h
        refine ⟨pl ++ (SQUOTE :: (q ++ SQUOTE :: w2)), e3, ?_,
          word_text_append _ _ _ hplw (word_text.squote q w2 hq (mono w2 hw2)), hres⟩
        rw [e4]
        simp [SQUOTE]
    · -- backslash
      subst e0
      cases t with
      | nil =>
        have := find_end_lone_backslash env f olds
        have h1 : find_end_of_command_body env (f + 1) olds [Char.ofNat 92] = _ := this
        rw [h1] at h
        cases h
      | cons y t1 =>
        have := find_end_esc env f olds y t1
        have h1 : find_end_of_command_body env (f + 1) olds (Char.ofNat 92 :: y :: t1) = _ :=
          this
        rw [h1] at h
        obtain ⟨w2, e3, e4, hw2, hres⟩ := ihfe olds t1 e h
        refine ⟨pl ++ (BSL :: y :: w2), e3, ?_,
          word_text_append _ _ _ hplw (word_text.esc y w2 (mono w2 hw2)), hres⟩
        rw [e4]
        simp [BSL]
    · subst e0
      rw [find_end_at_stop env f olds _ (Or.inr ⟨_, t, rfl, by decide⟩)] at h
      injection h with h
      exact ⟨pl, _, rfl, hplw, Or.inl h.symm⟩
    · subst e0
      rw [find_end_at_stop env f olds _ (Or.inr ⟨_, t, rfl, by decide⟩)] at h
      injection h with h
      exact ⟨pl, _, rfl, hplw, Or.inl h.symm⟩
    · subst e0
      rw [find_end_at_stop env f olds _ (Or.inr ⟨_, t, rfl, by decide⟩)] at h
      injection h with h
      exact ⟨pl, _, rfl, hplw, Or.inl h.symm⟩
    · subst e0
      rw [find_end_at_stop env f olds _ (Or.inr ⟨_, t, rfl, by decide⟩)] at h
      injection h with h
      exact ⟨pl, _, rfl, hplw, Or.inl h.symm⟩
    · subst e0
      rw [find_end_at_stop env f olds _ (Or.inr ⟨_, t, rfl, by decide⟩)] at h
      injection h with h
      exact ⟨pl, _, rfl, hplw, Or.inl h.symm⟩
    · subst e0
      rw [find_end_at_redir env f olds _ t (Or.inl rfl)] at h
      injection h with h
      exact ⟨pl, _, rfl, hplw, Or.inr ⟨_, t, rfl, Or.inl rfl, h.symm⟩⟩
    · subst e0
      rw [find_end_at_redir env f olds _ t (Or.inr rfl)] at h
      injection h with h
      exact ⟨pl, _, rfl, hplw, Or.inr ⟨_, t, rfl, Or.inr rfl, h.symm⟩⟩
    · subst e0
      rw [find_end_newline] at h
      cases h
    · subst e0
      rw [find_end_at_stop env f olds _ (Or.inr ⟨_, t, rfl, by decide⟩)] at h
      injection h with h
      exact ⟨pl, _, rfl, hplw, Or.inl h.symm⟩

theorem back_dquote (env : ParserEnv) (f : Nat) (ih : parser_back_at env f) :
    ∀ s e, find_end_of_dquote env (f + 1) s = PRes.ok e →
      ∃ q, s = q ++ DQUOTE :: e ∧ dq_text (nested (f + 1)) q := by
  intro s e h
  have ihdq := ih.2.2.2.2.2.2.1
  have mono : ∀ q, dq_text (nested f) q → dq_text (nested (f + 1)) q :=
    fun q hq => dq_text_mono _ _ (nested_succ f) q hq
  obtain ⟨pl, x, es, hpl, hx⟩ := dquote_stop_split s
  subst es
  rw [find_end_of_dquote_skip_plain env f x pl hpl] at h
  rcases hx with ex | ⟨c, t, ex, hc⟩
  · subst ex
    rw [find_end_of_dquote_nil] at h
    cases h
  · subst ex
    simp only [DQUOTE_STOP, List.mem_cons, List.mem_singleton, List.not_mem_nil,
      or_false] at hc
    rcases hc with e0 | e0 | e0
    · subst e0
      by_cases hp : t.head? = some LPAREN
      · obtain ⟨t1, et⟩ := head_cons_of_eq t LPAREN hp
        subst et
        have hs := find_end_of_dquote_subst env f t1
        have hs1 : find_end_of_dquote env (f + 1) (Char.ofNat 36 :: LPAREN :: t1) = _ := hs
        rw [hs1] at h
        obtain ⟨r, hr, h2⟩ := bind_ok _ _ _ h
        by_cases hh : r.2.head? ≠ some (Char.ofNat 41)
        · rw [if_pos hh] at h2; cases h2
        · rw [if_neg hh] at h2
          obtain ⟨inner, more, e1, e2, hin⟩ := back_subst env f ih t1 r hr hh
          rw [e2] at h2
          obtain ⟨q2, e4, hq2⟩ := ihdq more e h2
          refine ⟨pl ++ (DOLLAR :: LPAREN :: (inner ++ RPAREN :: q2)), ?_,
            dq_text_append_plain _ _ (dq_text.subst inner q2 hin (mono q2 hq2)) pl hpl⟩
          rw [e1, e4]
          simp [DOLLAR]
      · have hs := find_end_of_dquote_dollar env f t hp
        have hs1 : find_end_of_dquote env (f + 1) (Char.ofNat 36 :: t) = _ := hs
        rw [hs1] at h
        obtain ⟨q2, e4, hq2⟩ := ihdq t e h
        refine ⟨pl ++ (DOLLAR :: q2), ?_,
          dq_text_append_plain _ _
            (dq_text.dollar q2 (word_head_of_split q2 (DQUOTE :: e) t LPAREN e4 hp)
              (mono q2 hq2)) pl hpl⟩
        rw [e4]
        simp [DOLLAR]
    · subst e0
      cases t with
      | nil =>
        have := find_end_of_dquote_lone env f
        have h1 : find_end_of_dquote env (f + 1) [Char.ofNat 92] = _ := this
        rw [h1] at h
        cases h
      | cons y t1 =>
        have := find_end_of_dquote_esc env f y t1
        have h1 : find_end_of_dquote env (f + 1) (Char.ofNat 92 :: y :: t1) = _ := this
        rw [h1] at h
        obtain ⟨q2, e4, hq2⟩ := ihdq t1 e h
        refine ⟨pl ++ (BSL :: y :: q2), ?_,
          dq_text_append_plain _ _ (dq_text.esc y q2 (mono q2 hq2)) pl hpl⟩
        rw [e4]
        simp [BSL]
    · subst e0
      have := find_end_of_dquote_close env f t
      have h1 : find_end_of_dquote env (f + 1) (Char.ofNat 34 :: t) = _ := this
      rw [h1] at h
      injection h with h
      subst h
      exact ⟨pl, rfl, dq_text_plain _ pl hpl⟩

theorem back_try_wordexp (env : ParserEnv) (f : Nat) (ih : parser_back_at env f) :
    ∀ s p flags r, try_wordexp env (f + 1) s p flags = PRes.ok r →
      ∃ w e1, s = w ++ e1 ∧ word_text (nested (f + 1)) w ∧
        (r.1 = e1 ∨ ∃ c t, e1 = c :: t ∧ (c = Char.ofNat 60 ∨ c = Char.ofNat 62) ∧
          r.1 = find_start_of_number s e1) := by
  intro s p flags r h
  rw [try_wordexp_succ] at h
  obtain ⟨eoc, he, h2⟩ := bind_ok _ _ _ h
  obtain ⟨w, e1, e, hw, hres⟩ := ih.2.2.2.2.2.1 s s eoc he
  have hr : r.1 = eoc := by
    simp only at h2
    generalize (if flags &&& (WRDE_APPEND ||| WRDE_REUSE) = 0 then [] else p) = p0 at h2
    by_cases hz : (env.wordexp (s.take (s.length - eoc.length)) p0 flags).1 = 0
    · rw [if_pos hz] at h2
      injection h2 with h2
      rw [← h2]
    · rw [if_neg hz] at h2
      cases hm : wordexp_message (env.wordexp (s.take (s.length - eoc.length)) p0 flags).1 with
      | some m => rw [hm] at h2; cases h2
      | none => rw [hm] at h2; cases h2
  rw [hr]
  exact ⟨w, e1, e, word_text_mono _ _ (nested_succ f) w hw, hres⟩

theorem back_simple (env : ParserEnv) (f : Nat) (ih : parser_back_at env f)
    (olds s : CStr) (we : List CStr) (flags : Nat) (redirs : List REDIR) (r : SCMD × CStr)
    (h : ((try_wordexp env f s we flags).bind fun r1 =>
      parse_scmd_loop env f olds r1.1 r1.2 redirs) = PRes.ok r) :
    ∃ t, s = t ++ r.2 ∧ simple_text (nested f) t := by
  obtain ⟨r1, h1, h2⟩ := bind_ok _ _ _ h
  obtain ⟨w, e1, e, hw, hres⟩ := ih.2.2.2.2.1 s we flags r1 h1
  have hloop := ih.2.2.2.1 olds r1.1 r1.2 redirs r h2
  rcases hres with hr1 | ⟨c, t0, ee, hc, hr1⟩
  · rcases hloop with ⟨e2, -⟩ | ⟨ds, R, closed, t, e2, hds, hR, htok, ht⟩
    · refine ⟨w, ?_, simple_text.word w hw⟩
      rw [e, ← hr1, e2]
    · have hdw : word_text (nested f) ds :=
        word_text_plain _ ds (fun a ha => digit_not_body_stop a (hds a ha))
      refine ⟨(w ++ ds) ++ (R ++ t), ?_,
        simple_text.redir (w ++ ds) R t closed (word_text_append _ _ _ hw hdw) hR htok ht⟩
      rw [e, ← hr1, e2]
      simp only [List.append_assoc]
  · subst ee
    obtain ⟨ds0, hds_eq, hds0, -⟩ := find_start_of_number_run w (c :: t0)
    rw [← e] at hds_eq
    rw [hds_eq] at hr1
    have hcd : is_digit_char c = false := by
      rcases hc with e0 | e0 <;> subst e0 <;> decide
    rcases hloop with ⟨-, hstop⟩ | ⟨ds, R, closed, t, e2, hds, hR, htok, ht⟩
    · exfalso
      rw [hr1] at hstop
      exact (redir_start ds0 c t0 hds0 hc).1 hstop
    · obtain ⟨c1, R1, eR, hc1⟩ := redir_item_head R closed hR
      have hc1d : is_digit_char c1 = false := by
        rcases hc1 with e0 | e0 <;> subst e0 <;> decide
      rw [hr1, eR] at e2
      have e3 : ds0 ++ c :: t0 = ds ++ c1 :: (R1 ++ (t ++ r.2)) := e2
      obtain ⟨-, e4⟩ := digit_run_unique ds0 ds c c1 t0 _ hds0 hds hcd hc1d e3
      refine ⟨w ++ (R ++ t), ?_, simple_text.redir w R t closed hw hR htok ht⟩
      rw [e, e4, eR]
      simp only [List.append_assoc, List.cons_append]

theorem back_scmd_loop (env : ParserEnv) (f : Nat) (ih : parser_back_at env f) :
    ∀ olds s we redirs r, parse_scmd_loop env (f + 1) olds s we redirs = PRes.ok r →
      (s = r.2 ∧ (s = [] ∨ s.head?.any (fun c => decide (c ∈ SCMD_END)) = true)) ∨
        ∃ ds R closed t, s = ds ++ (R ++ (t ++ r.2)) ∧ is_digit_run ds ∧
          redir_item R closed ∧ (closed = false → token_end t) ∧
          simple_text (nested (f + 1)) t := by
  intro olds s we redirs r h
  rw [parse_scmd_loop_succ] at h
  by_cases h1 : s = [] ∨ s.head?.any (fun c => decide (c ∈ SCMD_END)) = true
  · rw [if_pos h1] at h
    injection h with h
    left
    exact ⟨by rw [← h], h1⟩
  · rw [if_neg h1] at h
    by_cases h2 : s.head?.any
        (fun c => c = Char.ofNat 60 || c = Char.ofNat 62 || is_digit_char c) = true
    · rw [if_pos h2] at h
      obtain ⟨rd, hrd, h3⟩ := bind_ok _ _ _ h
      obtain ⟨ds, R, closed, e, hds, hR, htok⟩ := parse_redir_ok env s rd.1 rd.2 hrd
      obtain ⟨t, et, ht⟩ := back_simple env f ih olds rd.2 we WRDE_APPEND _ r h3
      right
      refine ⟨ds, R, closed, t, by rw [e, et], hds, hR, ?_,
        simple_text_mono _ _ (nested_succ f) t ht⟩
      intro hcl
      have := htok hcl
      rw [et] at this
      exact token_end_of_append t r.2 this
    · rw [if_neg h2] at h
      cases h

theorem back_subexp_loop (env : ParserEnv) (hp : env.plain) (f : Nat)
    (ih : parser_back_at env f) :
    ∀ olds s inner redirs r, parse_subexp_loop env (f + 1) olds s inner redirs = PRes.ok r →
      ∃ gt, s = gt ++ r.2 ∧ group_tail gt := by
  intro olds s inner redirs r h
  rw [parse_subexp_loop_succ] at h
  simp only at h
  have hsplit : s = s.take (env.skipwhites s) ++ s.drop (env.skipwhites s) :=
    (List.take_append_drop _ _).symm
  have hbl : ∀ c ∈ s.take (env.skipwhites s), is_blank c := hp.1 s
  generalize s.take (env.skipwhites s) = bl at hsplit hbl
  generalize s.drop (env.skipwhites s) = s1 at hsplit h
  by_cases h2 : s1.head?.any
      (fun c => c = Char.ofNat 60 || c = Char.ofNat 62 || is_digit_char c) = true
  · rw [if_pos h2] at h
    obtain ⟨rd, hrd, h3⟩ := bind_ok _ _ _ h
    obtain ⟨ds, R, closed, e, hds, hR, htok⟩ := parse_redir_ok env s1 rd.1 rd.2 hrd
    obtain ⟨gt, egt, hgt⟩ := ih.2.2.2.2.2.2.2.2 olds rd.2 inner _ r h3
    refine ⟨bl ++ (ds ++ (R ++ gt)), ?_,
      group_tail_blanks bl _ hbl (group_tail.redir ds R gt closed hds hR ?_ hgt)⟩
    · rw [hsplit, e, egt]
      simp only [List.append_assoc]
    · intro hcl
      have := htok hcl
      rw [egt] at this
      exact token_end_of_append gt r.2 this
  · rw [if_neg h2] at h
    injection h with h
    refine ⟨bl, ?_, ?_⟩
    · rw [hsplit, ← h]
    · have := group_tail_blanks bl [] hbl group_tail.nil
      rwa [List.append_nil] at this

theorem back_subexp (env : ParserEnv) (f : Nat) (ih : parser_back_at env f) :
    ∀ s r, parse_subexp env (f + 1) s = PRes.ok r →
      ∃ inner gt, s = LPAREN :: (inner ++ RPAREN :: (gt ++ r.2)) ∧ nested (f + 1) inner ∧
        group_tail gt := by
  intro s r h
  rw [parse_subexp_succ] at h
  cases s with
  | nil => cases h
  | cons c s1 =>
    simp only at h
    by_cases hc : c ≠ Char.ofNat 40
    · rw [if_pos hc] at h; cases h
    · rw [if_neg hc] at h
      have hc1 : c = LPAREN := by
        by_contra hh
        exact hc hh
      subst hc1
      obtain ⟨r0, hr0, h2⟩ := bind_ok _ _ _ h
      by_cases hh : r0.2.head? ≠ some (Char.ofNat 41)
      · rw [if_pos hh] at h2; cases h2
      · rw [if_neg hh] at h2
        obtain ⟨inner, more, e1, e2, hin⟩ := back_subst env f ih s1 r0 hr0 hh
        rw [e2] at h2
        obtain ⟨gt, egt, hgt⟩ := ih.2.2.2.2.2.2.2.2 _ more r0.1 [] r h2
        exact ⟨inner, gt, by rw [e1, egt], hin, hgt⟩

theorem back_scmd (env : ParserEnv) (hp : env.plain) (f : Nat) (ih : parser_back_at env f) :
    ∀ s r, parse_scmd env (f + 1) s = PRes.ok r →
      ∃ b, s = b ++ r.2 ∧ cmd_text (nested (f + 1)) b := by
  intro s r h
  rw [parse_scmd_succ] at h
  simp only [hp.2] at h
  have hsplit : s = s.take (env.skipwhites s) ++ s.drop (env.skipwhites s) :=
    (List.take_append_drop _ _).symm
  have hbl : ∀ c ∈ s.take (env.skipwhites s), is_blank c := hp.1 s
  generalize s.take (env.skipwhites s) = bl at hsplit hbl
  generalize s.drop (env.skipwhites s) = s1 at hsplit h
  by_cases h1 : s1.head? = some (Char.ofNat 40)
  · rw [if_pos h1] at h
    obtain ⟨inner, gt, e, hin, hgt⟩ := ih.2.2.2.2.2.2.2.1 s1 r h
    refine ⟨bl ++ LPAREN :: (inner ++ RPAREN :: gt), ?_,
      Or.inr ⟨bl, inner, gt, rfl, hbl, nested_succ f inner hin, hgt⟩⟩
    rw [hsplit, e]
    simp only [List.append_assoc, List.cons_append]
  · rw [if_neg h1] at h
    obtain ⟨t, et, ht⟩ := back_simple env f ih s1 s1 [] 0 [] r h
    refine ⟨bl ++ t, ?_,
      Or.inl (simple_text_blanks _ bl t hbl (simple_text_mono _ _ (nested_succ f) t ht))⟩
    rw [hsplit, et]
    simp only [List.append_assoc]

theorem loop_conn_step (env : ParserEnv) (f : Nat) (scmds : List SCMD) (c : Char)
    (ss1 : CStr) (hc : c = Char.ofNat 59 ∨ c = Char.ofNat 38 ∨ c = Char.ofNat 124) :
    ∃ tok ss2 t, c :: ss1 = tok.text ++ ss2 ∧
      (tok = conn_token.amp → ss2.head? ≠ some (Char.ofNat 38)) ∧
      (tok = conn_token.pipe → ss2.head? ≠ some (Char.ofNat 124)) ∧
      parse_commands_loop env (f + 1) scmds (c :: ss1) =
        (parse_scmd env f ss2).bind fun r =>
          parse_commands_loop env f (set_last_c_type scmds t ++ [r.1]) r.2 := by
  have n1 : (Char.ofNat 59 : Char) ≠ Char.ofNat 38 := by decide
  have n2 : (Char.ofNat 59 : Char) ≠ Char.ofNat 124 := by decide
  have n3 : (Char.ofNat 38 : Char) ≠ Char.ofNat 59 := by decide
  have n4 : (Char.ofNat 38 : Char) ≠ Char.ofNat 124 := by decide
  have n5 : (Char.ofNat 124 : Char) ≠ Char.ofNat 59 := by decide
  have n6 : (Char.ofNat 124 : Char) ≠ Char.ofNat 38 := by decide
  have n7 : (Char.ofNat 59 : Char) ≠ Char.ofNat 35 := by decide
  have n8 : (Char.ofNat 59 : Char) ≠ Char.ofNat 41 := by decide
  have n9 : (Char.ofNat 38 : Char) ≠ Char.ofNat 35 := by decide
  have n10 : (Char.ofNat 38 : Char) ≠ Char.ofNat 41 := by decide
  have n11 : (Char.ofNat 124 : Char) ≠ Char.ofNat 35 := by decide
  have n12 : (Char.ofNat 124 : Char) ≠ Char.ofNat 41 := by decide
  rcases hc with e | e | e <;> subst e
  · refine ⟨conn_token.semi, ss1, CT_END, rfl, (fun h => nomatch h), (fun h => nomatch h), ?_⟩
    rw [parse_commands_loop_succ]
    simp [n1, n2, n7, n8]
  · by_cases hd : ss1.head? = some (Char.ofNat 38)
    · obtain ⟨ss2, e2⟩ := head_cons_of_eq ss1 _ hd
      subst e2
      refine ⟨conn_token.and_and, ss2, CT_AND, rfl, (fun h => nomatch h), (fun h => nomatch h),
        ?_⟩
      rw [parse_commands_loop_succ]
      simp [n3, n4, n9, n10]
    · refine ⟨conn_token.amp, ss1, CT_BG, rfl, (fun _ => hd), (fun h => nomatch h), ?_⟩
      rw [parse_commands_loop_succ]
      simp [n3, n4, n9, n10, hd]
  · by_cases hd : ss1.head? = some (Char.ofNat 124)
    · obtain ⟨ss2, e2⟩ := head_cons_of_eq ss1 _ hd
      subst e2
      refine ⟨conn_token.or_or, ss2, CT_OR, rfl, (fun h => nomatch h), (fun h => nomatch h), ?_⟩
      rw [parse_commands_loop_succ]
      simp [n5, n6, n11, n12]
    · refine ⟨conn_token.pipe, ss1, CT_PIPED, rfl, (fun h => nomatch h), (fun _ => hd), ?_⟩
      rw [parse_commands_loop_succ]
      simp [n5, n6, n11, n12, hd]

theorem cmds_assemble (N : CStr → Prop) (b tail fin : CStr) (hb : cmd_text N b)
    (htail : tail = fin ∨ ∃ tok toks rest, tail = tok.text ++ (rest ++ fin) ∧
      cmds_text N toks rest ∧
      (tok = conn_token.amp → rest.head? ≠ some (Char.ofNat 38)) ∧
      (tok = conn_token.pipe → rest.head? ≠ some (Char.ofNat 124))) :
    ∃ toks text, b ++ tail = text ++ fin ∧ cmds_text N toks text := by
  rcases htail with e | ⟨tok, toks, rest, e, hrest, h1, h2⟩
  · exact ⟨[], b, by rw [e], cmds_text.one b hb⟩
  · refine ⟨tok :: toks, b ++ (tok.text ++ rest), ?_, cmds_text.cons b tok toks rest hb h1 h2
      hrest⟩
    rw [e]
    simp only [List.append_assoc]

theorem check_to_PRes_eq {α : Type} (r : check_T) (a b : α)
    (h : check_to_PRes r a = PRes.ok b) : b = a := by
  cases r <;> simp only [check_to_PRes] at h
  · injection h with h
    exact h.symm
  all_goals cases h

theorem back_commands_loop (env : ParserEnv) (f : Nat) (ih : parser_back_at env f) :
    ∀ scmds ss r, parse_commands_loop env (f + 1) scmds ss = PRes.ok r →
      ∃ fin, line_end fin r.2 ∧
        (ss = fin ∨ ∃ tok toks rest, ss = tok.text ++ (rest ++ fin) ∧
          cmds_text (nested (f + 1)) toks rest ∧
          (tok = conn_token.amp → rest.head? ≠ some (Char.ofNat 38)) ∧
          (tok = conn_token.pipe → rest.head? ≠ some (Char.ofNat 124))) := by
  intro scmds ss r h
  cases ss with
  | nil =>
    rw [parse_commands_loop_end env f scmds [] [] (Or.inl ⟨rfl, rfl⟩)] at h
    have := check_to_PRes_eq _ _ _ h
    rw [this]
    exact ⟨[], Or.inl ⟨rfl, rfl⟩, Or.inl rfl⟩
  | cons c ss1 =>
    by_cases hmem : c ∈ CMD_STOP
    · simp only [CMD_STOP, List.mem_cons, List.mem_singleton, List.not_mem_nil,
        or_false] at hmem
      have hconn : c = Char.ofNat 59 ∨ c = Char.ofNat 38 ∨ c = Char.ofNat 124 →
          ∃ fin, line_end fin r.2 ∧
            (c :: ss1 = fin ∨ ∃ tok toks rest, c :: ss1 = tok.text ++ (rest ++ fin) ∧
              cmds_text (nested (f + 1)) toks rest ∧
              (tok = conn_token.amp → rest.head? ≠ some (Char.ofNat 38)) ∧
              (tok = conn_token.pipe → rest.head? ≠ some (Char.ofNat 124))) := by
        intro hc
        obtain ⟨tok, ss2, t, e, h1, h2, hstep⟩ := loop_conn_step env f scmds c ss1 hc
        rw [hstep] at h
        obtain ⟨r1, hr1, h3⟩ := bind_ok _ _ _ h
        obtain ⟨b, eb, hb⟩ := ih.2.2.1 ss2 r1 hr1
        obtain ⟨fin, hfin, htail⟩ := ih.2.1 _ r1.2 r h3
        have mono := cmds_text_mono _ _ (nested_succ f)
        have htail1 : r1.2 = fin ∨ ∃ tok toks rest, r1.2 = tok.text ++ (rest ++ fin) ∧
            cmds_text (nested (f + 1)) toks rest ∧
            (tok = conn_token.amp → rest.head? ≠ some (Char.ofNat 38)) ∧
            (tok = conn_token.pipe → rest.head? ≠ some (Char.ofNat 124)) := by
          rcases htail with e1 | ⟨tok1, toks1, rest1, e1, hr, c1, c2⟩
          · exact Or.inl e1
          · exact Or.inr ⟨tok1, toks1, rest1, e1, mono _ _ hr, c1, c2⟩
        obtain ⟨toks, text, et, htext⟩ := cmds_assemble (nested (f + 1)) b r1.2 fin
          (cmd_text_mono _ _ (nested_succ f) b hb) htail1
        refine ⟨fin, hfin, Or.inr ⟨tok, toks, text, ?_, htext, ?_, ?_⟩⟩
        · rw [e, eb, et]
        · intro ht
          have := h1 ht
          rw [eb, et] at this
          exact head_of_append _ _ _ this
        · intro ht
          have := h2 ht
          rw [eb, et] at this
          exact head_of_append _ _ _ this
      rcases hmem with e | e | e | e | e
      · exact hconn (Or.inl e)
      · exact hconn (Or.inr (Or.inl e))
      · exact hconn (Or.inr (Or.inr e))
      · subst e
        have heq := parse_commands_loop_end env f scmds (RPAREN :: ss1) (RPAREN :: ss1)
          (Or.inr (Or.inl ⟨ss1, rfl, rfl⟩))
        have h0 : parse_commands_loop env (f + 1) scmds (RPAREN :: ss1) = PRes.ok r := h
        rw [heq] at h0
        have := check_to_PRes_eq _ _ _ h0
        rw [this]
        exact ⟨_, Or.inr (Or.inl ⟨ss1, rfl, rfl⟩), Or.inl rfl⟩
      · subst e
        have heq := parse_commands_loop_end env f scmds (HASH :: ss1) []
          (Or.inr (Or.inr ⟨ss1, rfl, rfl⟩))
        have h0 : parse_commands_loop env (f + 1) scmds (HASH :: ss1) = PRes.ok r := h
        rw [heq] at h0
        have := check_to_PRes_eq _ _ _ h0
        rw [this]
        exact ⟨_, Or.inr (Or.inr ⟨ss1, rfl, rfl⟩), Or.inl rfl⟩
    · rw [parse_commands_loop_bad env f scmds _ ⟨c, ss1, rfl, hmem⟩] at h
      cases h

theorem back_commands (env : ParserEnv) (f : Nat) (ih : parser_back_at env f) :
    ∀ s r, parse_commands env (f + 1) s = PRes.ok r →
      ∃ toks text fin, s = text ++ fin ∧ line_end fin r.2 ∧
        cmds_text (nested (f + 1)) toks text := by
  intro s r h
  rw [parse_commands_succ] at h
  obtain ⟨r1, hr1, h3⟩ := bind_ok _ _ _ h
  obtain ⟨b, eb, hb⟩ := ih.2.2.1 s r1 hr1
  obtain ⟨fin, hfin, htail⟩ := ih.2.1 _ r1.2 r h3
  obtain ⟨toks, text, et, htext⟩ := cmds_assemble (nested f) b r1.2 fin hb htail
  exact ⟨toks, text, fin, by rw [eb, et], hfin,
    cmds_text_mono _ _ (nested_succ f) toks text htext⟩

theorem parser_back (env : ParserEnv) (hp : env.plain) : ∀ fuel, parser_back_at env fuel := by
  intro fuel
  induction fuel with
  | zero => exact back_zero env
  | succ f ih =>
    exact ⟨back_commands env f ih, back_commands_loop env f ih, back_scmd env hp f ih,
      back_scmd_loop env f ih, back_try_wordexp env f ih, back_find_end env f ih,
      back_dquote env f ih, back_subexp env f ih, back_subexp_loop env hp f ih⟩

/-- C15. Whenever `parse_line` succeeds on a line, the line is a text of the grammar of
`cmds_text`: commands joined by connector tokens (`;`, `&`, `|`, `&&`, `||`) at the top level,
followed or not by a comment, where each command is a simple command (words with backslash
pairs, single- and double-quoted strings, `$`, command substitutions `$(...)`, and
redirections with plain or quoted targets) or a group `(...)` with its redirections, so that
connector characters inside quotes, backslash pairs, substitutions, groups and the comment are
not tokens. And for every way to read the line as such a text, with the tokens `toks`, the
connector stored on command `i` is the one of the token that follows it (`;` sequential, `&`
background, `|` pipe, `&&` and, `||` or), the last command carries `CT_END`, and the number of
commands is one more than the number of tokens. `skipwhites` is taken to skip only spaces and
tabs and no alias to be defined; `wordexp` and the bound on the recursion are arbitrary. -/
theorem parse_line_connectors (env : ParserEnv) (hp : env.plain) (fuel : Nat) (line : CStr)
    (scmds : List SCMD) (h : parse_line env fuel line = PRes.ok scmds) :
    (∃ toks text comment, line = text ++ comment ∧ cmds_text (nested fuel) toks text ∧
      (comment = [] ∨ ∃ cm, comment = HASH :: cm)) ∧
    (∀ (d : Nat) (toks : List conn_token) (text comment : CStr), line = text ++ comment →
      cmds_text (nested d) toks text → (comment = [] ∨ ∃ cm, comment = HASH :: cm) →
      scmds.map SCMD.c_type = toks.map conn_token.c_type ++ [CT_END] ∧
        scmds.length = toks.length + 1) := by
  unfold parse_line at h
  obtain ⟨r, hr, h2⟩ := bind_ok _ _ _ h
  have hr2 : r.2 = [] := by
    by_contra hne
    rw [if_pos hne] at h2
    cases h2
  rw [if_neg (fun hne => hne hr2)] at h2
  injection h2 with h2
  constructor
  · obtain ⟨toks, text, fin, e, hfin, htext⟩ := (parser_back env hp fuel).1 line r hr
    exact ⟨toks, text, fin, e, htext, line_end_nil fin r.2 hfin hr2⟩
  · intro d toks text comment e htext hcomment
    subst e
    have hN := nested_reads_nested env hp True True (Or.inr trivial) trivial d
    have hfin : line_end comment [] := by
      rcases hcomment with e | ⟨cm, e⟩
      · exact Or.inl ⟨e, rfl⟩
      · exact Or.inr (Or.inr ⟨cm, e, rfl⟩)
    cases fuel with
    | zero => rw [parse_commands] at hr; cases hr
    | succ f =>
      rw [parse_commands_succ] at hr
      have h1 := commands_text env hp (nested d) True True hN (Or.inr trivial) trivial
        comment [] hfin toks text htext f [] (fun c hc => absurd hc (List.not_mem_nil _))
        (fun _ _ _ _ _ _ _ => Or.inr trivial)
      have h3 := gives_ok _ _ _ _ _ r h1 hr
      rw [← h2]
      have h4 : r.1.map SCMD.c_type = toks.map conn_token.c_type ++ [CT_END] := by
        simpa using h3.2
      refine ⟨h4, ?_⟩
      have := congrArg List.length h4
      simpa using this

theorem exists_of_is_ok {α : Type} (r : PRes α) (P : α → Prop) (hr : r.is_ok = true)
    (h : ∀ a, r = PRes.ok a → P a) : ∃ a, r = PRes.ok a ∧ P a := by
  cases r with
  | ok a => exact ⟨a, rfl, h a rfl⟩
  | err m => cases hr
  | assert_failed g => cases hr
  | undefined => cases hr
  | timeout => cases hr

/-- Witness of C15 on the line `a';'b 2>"x|y"|"c&d"&&(e;f)>o;g $(h|i)&#x;y`: the connector
characters inside the quotes, the group, the substitution and the comment are not tokens, and
the five commands carry the connectors pipe, and, sequential, background and, for the empty
last command, sequential. -/
theorem parse_line_connectors_witness :
    ∃ scmds, parse_line plain_env 40
        ((("a".toList ++ (SQUOTE :: (";".toList ++ SQUOTE :: "b 2".toList))) ++
            ((">".toList ++ ([] ++ DQUOTE :: ("x|y".toList ++ [DQUOTE]))) ++ [])) ++
          (conn_token.pipe.text ++ ((DQUOTE :: ("c&d".toList ++ DQUOTE :: [])) ++
          (conn_token.and_and.text ++ (([] ++ LPAREN :: (("e".toList ++
              (conn_token.semi.text ++ "f".toList)) ++
              RPAREN :: ([] ++ ((">".toList ++ ([] ++ "o".toList)) ++ [])))) ++
          (conn_token.semi.text ++ (("g ".toList ++ (DOLLAR :: LPAREN :: (("h".toList ++
              (conn_token.pipe.text ++ "i".toList)) ++ RPAREN :: []))) ++
          (conn_token.amp.text ++ []))))))) ++ HASH :: "x;y".toList) = PRes.ok scmds ∧
      (scmds.map SCMD.c_type = [CT_PIPED, CT_AND, CT_END, CT_BG, CT_END] ∧
        scmds.length = 5) :=
  exists_of_is_ok _ _ rfl (fun scmds h => (parse_line_connectors plain_env plain_env_plain 40
    _ scmds h).2 1
    [conn_token.pipe, conn_token.and_and, conn_token.semi, conn_token.amp]
    ((("a".toList ++ (SQUOTE :: (";".toList ++ SQUOTE :: "b 2".toList))) ++
        ((">".toList ++ ([] ++ DQUOTE :: ("x|y".toList ++ [DQUOTE]))) ++ [])) ++
      (conn_token.pipe.text ++ ((DQUOTE :: ("c&d".toList ++ DQUOTE :: [])) ++
      (conn_token.and_and.text ++ (([] ++ LPAREN :: (("e".toList ++
          (conn_token.semi.text ++ "f".toList)) ++
          RPAREN :: ([] ++ ((">".toList ++ ([] ++ "o".toList)) ++ [])))) ++
      (conn_token.semi.text ++ (("g ".toList ++ (DOLLAR :: LPAREN :: (("h".toList ++
          (conn_token.pipe.text ++ "i".toList)) ++ RPAREN :: []))) ++
      (conn_token.amp.text ++ []))))))))
    (HASH :: "x;y".toList) rfl
    (cmds_text.cons _ _ _ _
      (Or.inl (simple_text.redir _ _ _ true
        (word_text_append _ _ _ (word_text_plain _ "a".toList (by decide))
          (word_text.squote ";".toList _ (by decide)
            (word_text_plain _ "b 2".toList (by decide))))
        (Or.inl ⟨">".toList, [], _, rfl, by decide, by decide,
          Or.inr ⟨rfl, DQUOTE, "x|y".toList, Or.inl rfl, by decide, by decide, rfl⟩⟩)
        (fun h => nomatch h) (simple_text.word _ word_text.nil)))
      (fun h => nomatch h) (fun _ => by decide)
      (cmds_text.cons _ _ _ _
        (Or.inl (simple_text.word _
          (word_text.dquote _ _ (dq_text_plain _ "c&d".toList (by decide)) word_text.nil)))
        (fun h => nomatch h) (fun h => nomatch h)
        (cmds_text.cons _ _ _ _
          (Or.inr ⟨[], _, _, rfl, fun _ h => absurd h (List.not_mem_nil _),
            ⟨[conn_token.semi], cmds_text.cons _ _ _ _
              (Or.inl (simple_text.word _ (word_text_plain _ "e".toList (by decide))))
              (fun h => nomatch h) (fun h => nomatch h)
              (cmds_text.one _
                (Or.inl (simple_text.word _ (word_text_plain _ "f".toList (by decide)))))⟩,
            group_tail.redir [] _ [] false (fun _ h => absurd h (List.not_mem_nil _))
              (Or.inl ⟨">".toList, [], "o".toList, rfl, by decide, by decide,
                Or.inl ⟨rfl, by decide, by decide⟩⟩)
              (fun _ => Or.inl rfl) group_tail.nil⟩)
          (fun h => nomatch h) (fun h => nomatch h)
          (cmds_text.cons _ _ _ _
            (Or.inl (simple_text.word _
              (word_text_append _ _ _ (word_text_plain _ "g ".toList (by decide))
                (word_text.subst _ _
                  ⟨[conn_token.pipe], cmds_text.cons _ _ _ _
                    (Or.inl (simple_text.word _ (word_text_plain _ "h".toList (by decide))))
                    (fun h => nomatch h) (fun _ => by decide)
                    (cmds_text.one _
                      (Or.inl (simple_text.word _
                        (word_text_plain _ "i".toList (by decide)))))⟩
                  word_text.nil))))
            (fun _ => by decide) (fun h => nomatch h)
            (cmds_text.one _ (Or.inl (simple_text.word _ word_text.nil)))))))
    (Or.inr ⟨_, rfl⟩))

/-- On the line `echo $() "unterm` the substitution is empty: `parse_commands` reads a single
empty command in it and `check_parse_result` reads the element before the array, so that the
outcome is not defined before the open quote is reached. -/
theorem empty_substitution_before_open_quote :
    parse_line plain_env 70 ("echo ".toList ++ (DOLLAR :: LPAREN :: RPAREN ::
      (" ".toList ++ (DQUOTE :: "unterm".toList)))) = PRes.undefined := by
  rfl

end ParserLines

end Yash
